import Mathlib

/-!
# Buffer manager and B+-tree of `moderndbs`

A shallow embedding of `buffer-manager/src/buffer_manager.cc`,
`buffer-manager/include/moderndbs/buffer_manager.h` and
`btree/include/moderndbs/btree.h`, followed by theorems about the embedded
functions.

Conventions.  Machine integers are natural numbers; where the width of the
C++ type can be observed the arithmetic is reduced modulo `2 ^ w`.  Memory
that the source addresses through pointers (the byte pool, the arrays of a
node) is a function from index to content.  The model is sequential: one
thread calls the functions one after the other.
-/

namespace moderndbs

/-! ## Page identifiers -/

/-- Models `BufferManager::get_segment_id`: `page_id >> 48`, returned as `uint16_t`. -/
def get_segment_id (page_id : Nat) : Nat :=
  (page_id >>> 48) % 2 ^ 16

/-- Models `BufferManager::get_segment_page_id`: `page_id & ((1ull << 48) - 1)`. -/
def get_segment_page_id (page_id : Nat) : Nat :=
  page_id &&& ((1 <<< 48) - 1)

/-- The 64-bit expression `(segment_id << 48) | page_in_segment` that composes
a page id (`(uint64_t)segment_id << 48` in the `BTree` constructor). -/
def make_page_id (segment_id page_in_segment : Nat) : Nat :=
  (((segment_id <<< 48) % 2 ^ 64) ||| page_in_segment) % 2 ^ 64

/-! ## Buffer manager -/

/-- Models `BufferFrame::State`. -/
inductive State where
  | CLEAN
  | DIRTY
  | NEW
  deriving DecidableEq, Repr

/-- Models `BufferFrame::Position`. -/
inductive Position where
  | NONE
  | FIFO
  | LRU
  deriving DecidableEq, Repr

/-- The `std::shared_timed_mutex` of a frame, as seen by a single thread:
whether it is held exclusively and how many shared holds there are. -/
structure Latch where
  exclusive : Bool
  shared : Nat
  deriving DecidableEq, Repr

/-- Models `BufferFrame`.  `data` is the offset into the pool that the `char*`
points to; a default-constructed frame leaves it uninitialised (0 here). -/
structure BufferFrame where
  page_id : Nat
  thread_cnt : Nat
  start_pos : Nat
  frame_latch : Latch
  state : State
  position : Position
  data : Nat
  deriving DecidableEq, Repr

/-- The frame that `bufferframes[page_id]` creates when the key is absent
(`BufferFrame::BufferFrame()` with the default member initialisers). -/
def BufferFrame.fresh : BufferFrame :=
  { page_id := 0, thread_cnt := 0, start_pos := 0,
    frame_latch := { exclusive := false, shared := 0 },
    state := State.NEW, position := Position.NONE, data := 0 }

/-- Modelled from the spec: `read_block(offset, len, dst)` of the file
abstraction (`moderndbs/file.h` is not among the sources): byte `i` that a
positional read at `offset` of the file of `segment_id` delivers.  `disk seg
off` is byte `off` of the file of segment `seg`; bytes that were never
written read as zero. -/
def read_block (disk : Nat → Nat → Nat) (segment_id offset : Nat) : Nat → Nat :=
  fun i => disk segment_id (offset + i)

/-- Modelled from the spec: `write_block(src, offset, len)` of the file
abstraction: the files after `len` bytes of `src` were written at `offset` of
the file of `segment_id`; the file grows as needed. -/
def write_block (disk : Nat → Nat → Nat) (segment_id : Nat) (src : Nat → Nat)
    (offset len : Nat) : Nat → Nat → Nat :=
  fun s o =>
    if s = segment_id ∧ offset ≤ o ∧ o < offset + len then src (o - offset) else disk s o

/-- Models `BufferManager`.  `buffer` is the byte pool.  `disk` holds the
segment files and `file_error seg` tells whether `File::open_file` fails for
the file of segment `seg`; both belong to the file layer below the buffer
manager. -/
structure BufferManager where
  page_size : Nat
  page_count : Nat
  bufferframes : List (Nat × BufferFrame)
  buffer : Nat → Nat
  free_pos : Nat
  fifo : List Nat
  lru : List Nat
  disk : Nat → Nat → Nat
  file_error : Nat → Bool

/-- Models `BufferManager::BufferManager(page_size, page_count)` on top of a given
set of segment files. -/
def BufferManager.init (page_size page_count : Nat) (disk : Nat → Nat → Nat)
    (file_error : Nat → Bool) : BufferManager :=
  { page_size := page_size, page_count := page_count, bufferframes := [],
    buffer := fun _ => 0, free_pos := 0, fifo := [], lru := [],
    disk := disk, file_error := file_error }

/-- What a call of `fix_page` does: it returns a reference to the frame of
`page_id`, throws `buffer_full_error`, lets an error of the file layer
through, or never returns because it waits for a latch that is held. -/
inductive FixResult where
  | ok (page_id : Nat)
  | buffer_full_error
  | io_error
  | blocked
  deriving DecidableEq, Repr

/-- The key set of the frame table. -/
def frame_ids (m : List (Nat × BufferFrame)) : List Nat :=
  m.map Prod.fst

/-- The frame stored under `page_id`, if any (`bufferframes.find`). -/
def frame_find (m : List (Nat × BufferFrame)) (page_id : Nat) : Option BufferFrame :=
  m.lookup page_id

/-- The table after evaluating `bufferframes[page_id]`: `operator[]` inserts a
default-constructed frame when the key is absent. -/
def frame_touch (m : List (Nat × BufferFrame)) (page_id : Nat) : List (Nat × BufferFrame) :=
  match m.lookup page_id with
  | some _ => m
  | none => m ++ [(page_id, BufferFrame.fresh)]

/-- The frame that `bufferframes[page_id]` refers to. -/
def frame_get (m : List (Nat × BufferFrame)) (page_id : Nat) : BufferFrame :=
  (m.lookup page_id).getD BufferFrame.fresh

/-- Assignment through the reference `bufferframes[page_id]`. -/
def frame_modify (m : List (Nat × BufferFrame)) (page_id : Nat)
    (g : BufferFrame → BufferFrame) : List (Nat × BufferFrame) :=
  (frame_touch m page_id).map (fun e => (e.1, if e.1 = page_id then g e.2 else e.2))

/-- Models `bufferframes.erase(page_id)`. -/
def frame_erase (m : List (Nat × BufferFrame)) (page_id : Nat) : List (Nat × BufferFrame) :=
  m.filter (fun e => !(e.1 == page_id))

/-- Models `++` on a `size_t`. -/
def size_incr (n : Nat) : Nat := (n + 1) % 2 ^ 64

/-- Models `--` on a `size_t`. -/
def size_decr (n : Nat) : Nat := (n + 2 ^ 64 - 1) % 2 ^ 64

/-- The pin count of a page (`thread_cnt` of its frame). -/
def pin_count (bm : BufferManager) (page_id : Nat) : Nat :=
  (frame_get bm.bufferframes page_id).thread_cnt

/-- The bytes a caller sees through `get_data()` of the frame of `page_id`. -/
def frame_bytes (bm : BufferManager) (page_id : Nat) : List Nat :=
  (List.range bm.page_size).map
    (fun i => bm.buffer ((frame_get bm.bufferframes page_id).data + i))

/-- A caller that holds the frame of `page_id` copies `bytes` to the start of
`get_data()`. -/
def write_bytes (bm : BufferManager) (page_id : Nat) (bytes : List Nat) : BufferManager :=
  let d := (frame_get bm.bufferframes page_id).data
  { bm with buffer := fun i =>
      if d ≤ i ∧ i < d + min bytes.length bm.page_size then bytes.getD (i - d) 0
      else bm.buffer i }

/-- Models `unlock()` of the latch: the exclusive hold is given up when there is one,
otherwise one shared hold (the call the source makes for both modes). -/
def Latch.unlock (l : Latch) : Latch :=
  if l.exclusive then { l with exclusive := false } else { l with shared := l.shared - 1 }

/-- Models `BufferManager::lock_frame`: acquire the latch of `bufferframes[page_id]`
in the requested mode and increment `thread_cnt`.  `none`: the latch is held
and the call waits. -/
def lock_frame (bm : BufferManager) (page_id : Nat) (exclusive : Bool) : Option BufferManager :=
  let m := frame_touch bm.bufferframes page_id
  let l := (frame_get m page_id).frame_latch
  if !exclusive then
    if l.exclusive then none
    else some { bm with bufferframes := frame_modify m page_id (fun f =>
      { f with frame_latch := { f.frame_latch with shared := f.frame_latch.shared + 1 },
               thread_cnt := size_incr f.thread_cnt }) }
  else
    if l.exclusive || decide (l.shared ≠ 0) then none
    else some { bm with bufferframes := frame_modify m page_id (fun f =>
      { f with frame_latch := { f.frame_latch with exclusive := true },
               thread_cnt := size_incr f.thread_cnt }) }

/-- Models `BufferManager::unlock_frame`: `frame_latch.unlock()` and `thread_cnt--`. -/
def unlock_frame (bm : BufferManager) (page_id : Nat) : BufferManager :=
  { bm with bufferframes := frame_modify bm.bufferframes page_id (fun f =>
      { f with frame_latch := f.frame_latch.unlock,
               thread_cnt := size_decr f.thread_cnt }) }

/-- Models `BufferManager::read_frame`.  The flag is false when opening the segment
file fails; the frame then keeps the `page_id` that was already assigned. -/
def read_frame (bm : BufferManager) (page_id : Nat) : Bool × BufferManager :=
  let m := frame_modify bm.bufferframes page_id (fun f => { f with page_id := page_id })
  let segment_id := get_segment_id page_id
  let segment_page_id := get_segment_page_id page_id
  if bm.file_error segment_id then (false, { bm with bufferframes := m })
  else
    let start := (segment_page_id * bm.page_size) % 2 ^ 64
    let fp := bm.free_pos
    (true, { bm with
      bufferframes := frame_modify m page_id (fun f => { f with data := fp, start_pos := fp }),
      buffer := fun i =>
        if fp ≤ i ∧ i < fp + bm.page_size then read_block bm.disk segment_id start (i - fp)
        else bm.buffer i,
      free_pos := (fp + bm.page_size) % (bm.page_count * bm.page_size) })

/-- Models `BufferManager::write_back_to_disk` for the frame of `page_id`.  The flag
is false when opening the segment file fails. -/
def write_back_to_disk (bm : BufferManager) (page_id : Nat) : Bool × BufferManager :=
  let f := frame_get bm.bufferframes page_id
  if f.state = State.DIRTY then
    let segment_id := get_segment_id f.page_id
    let segment_page_id := get_segment_page_id f.page_id
    if bm.file_error segment_id then (false, bm)
    else
      let off := (segment_page_id * bm.page_size) % 2 ^ 64
      (true, { bm with
        disk := write_block bm.disk segment_id (fun i => bm.buffer (f.data + i)) off
          bm.page_size,
        free_pos := f.start_pos })
  else (true, bm)

/-- The loop of `BufferManager::evict_check` over one queue: the first page
whose frame has `thread_cnt == 0`.  Every `bufferframes[page_id]` it evaluates
is recorded in the table. -/
def evict_scan (m : List (Nat × BufferFrame)) : List Nat → Option Nat × List (Nat × BufferFrame)
  | [] => (none, m)
  | page_id :: rest =>
    if (frame_get (frame_touch m page_id) page_id).thread_cnt = 0 then
      (some page_id, frame_touch m page_id)
    else evict_scan (frame_touch m page_id) rest

/-- Models `BufferManager::evict_check`: first the FIFO queue, then the LRU queue;
`none` is the `nullptr`. -/
def evict_check (bm : BufferManager) : Option Nat × BufferManager :=
  match evict_scan bm.bufferframes bm.fifo with
  | (some v, m) => (some v, { bm with bufferframes := m })
  | (none, m) =>
    match evict_scan m bm.lru with
    | (r, m2) => (r, { bm with bufferframes := m2 })

/-- Models `BufferManager::evict` of the frame stored under `victim`.  The flag is
false when the write-back fails; nothing has been removed then. -/
def evict (bm : BufferManager) (victim : Nat) : Bool × BufferManager :=
  let f := frame_get bm.bufferframes victim
  let evict_id := f.page_id
  let wb := if f.state = State.DIRTY then write_back_to_disk bm victim else (true, bm)
  if wb.1 then
    let bm1 := wb.2
    let bm2 :=
      if f.position = Position.FIFO then { bm1 with fifo := bm1.fifo.erase f.page_id }
      else { bm1 with lru := bm1.lru.erase f.page_id }
    (true, { bm2 with bufferframes := frame_erase bm2.bufferframes evict_id })
  else (false, wb.2)

/-- The tail shared by the two loading branches of `fix_page`: lock the new
frame exclusively, read the page, append it to the queue `pos`, unlock, and
lock in the mode the caller asked for. -/
def load_page (bm : BufferManager) (page_id : Nat) (exclusive : Bool) (pos : Position) :
    FixResult × BufferManager :=
  match lock_frame bm page_id true with
  | none => (FixResult.blocked, bm)
  | some bm1 =>
    match read_frame bm1 page_id with
    | (false, bm2) => (FixResult.io_error, bm2)
    | (true, bm2) =>
      let bm3 :=
        if pos = Position.FIFO then
          { bm2 with
            bufferframes := frame_modify bm2.bufferframes page_id
              (fun f => { f with position := Position.FIFO }),
            fifo := bm2.fifo ++ [page_id] }
        else
          { bm2 with
            bufferframes := frame_modify bm2.bufferframes page_id
              (fun f => { f with position := Position.LRU }),
            lru := bm2.lru ++ [page_id] }
      let bm4 := unlock_frame bm3 page_id
      match lock_frame bm4 page_id exclusive with
      | none => (FixResult.blocked, bm4)
      | some bm5 => (FixResult.ok page_id, bm5)

/-- Models `BufferManager::fix_page`. -/
def fix_page (bm : BufferManager) (page_id : Nat) (exclusive : Bool) :
    FixResult × BufferManager :=
  if page_id ∈ bm.lru then
    (FixResult.ok page_id,
      { bm with
        bufferframes := frame_modify bm.bufferframes page_id
          (fun f => { f with thread_cnt := size_incr f.thread_cnt }),
        lru := bm.lru.erase page_id ++ [page_id] })
  else if page_id ∈ bm.fifo then
    (FixResult.ok page_id,
      { bm with
        bufferframes := frame_modify
          (frame_modify bm.bufferframes page_id
            (fun f => { f with thread_cnt := size_incr f.thread_cnt }))
          page_id (fun f => { f with position := Position.LRU }),
        lru := bm.lru ++ [page_id],
        fifo := bm.fifo.erase page_id })
  else if bm.bufferframes.length < bm.page_count then
    load_page bm page_id exclusive Position.FIFO
  else
    match evict_check bm with
    | (none, bm1) => (FixResult.buffer_full_error, bm1)
    | (some victim, bm1) =>
      let free_frame_pos := (frame_get bm1.bufferframes victim).position
      match evict bm1 victim with
      | (false, bm2) => (FixResult.io_error, bm2)
      | (true, bm2) =>
        load_page bm2 page_id exclusive
          (if free_frame_pos = Position.FIFO then Position.FIFO else Position.LRU)

/-- Models `BufferManager::unfix_page` applied to the frame of `page_id` that an
earlier `fix_page` returned.  A reference to a frame that is no longer in the
table is outside the model: the call then changes nothing. -/
def unfix_page (bm : BufferManager) (page_id : Nat) (is_dirty : Bool) : BufferManager :=
  match frame_find bm.bufferframes page_id with
  | none => bm
  | some _ =>
    { bm with bufferframes := frame_modify bm.bufferframes page_id (fun f =>
        { f with frame_latch := f.frame_latch.unlock,
                 state := if is_dirty then State.DIRTY else f.state,
                 thread_cnt := size_decr f.thread_cnt }) }

/-- The data-model invariants of the frame table and the two queues: every
key of the table occurs once, the keys are exactly the pages queued in FIFO or
LRU, no page is queued twice, each frame records the queue it is in and the
page it holds, and the table holds at most `page_count` frames. -/
def WF (bm : BufferManager) : Prop :=
  (frame_ids bm.bufferframes).Nodup ∧
  (bm.fifo ++ bm.lru).Nodup ∧
  (∀ id ∈ frame_ids bm.bufferframes, id ∈ bm.fifo ++ bm.lru) ∧
  (∀ id ∈ bm.fifo ++ bm.lru, id ∈ frame_ids bm.bufferframes) ∧
  (∀ id ∈ bm.fifo, (frame_get bm.bufferframes id).position = Position.FIFO) ∧
  (∀ id ∈ bm.lru, (frame_get bm.bufferframes id).position = Position.LRU) ∧
  (∀ id ∈ frame_ids bm.bufferframes, (frame_get bm.bufferframes id).page_id = id) ∧
  bm.bufferframes.length ≤ bm.page_count

instance (bm : BufferManager) : Decidable (WF bm) := by
  unfold WF; infer_instance

/-- The victim the eviction policy names: the first page in FIFO order whose
pin count is 0 or, when every page in FIFO is pinned, the first such page in
LRU order. -/
def first_unpinned (bm : BufferManager) : Option Nat :=
  match bm.fifo.find? (fun id => decide (pin_count bm id = 0)) with
  | some v => some v
  | none => bm.lru.find? (fun id => decide (pin_count bm id = 0))

/-! ## B+-tree -/

/-- The template parameters of `BTree<KeyT, ValueT, ComparatorT, PageSize>`
that its code reads as numbers: the page size and the sizes of a key and of a
value in bytes.  The comparator is the `<` of the key type `K`. -/
structure TreeParams where
  PageSize : Nat
  sizeofKey : Nat
  sizeofValue : Nat
  deriving DecidableEq, Repr

/-- Models `InnerNode::kCapacity`:
`(PageSize - sizeof(uint64_t)) / (sizeof(KeyT) + sizeof(uint64_t))`, computed
in `size_t` and stored in a `uint32_t`. -/
def InnerNode.kCapacity (P : TreeParams) : Nat :=
  (((P.PageSize + 2 ^ 64 - 8) % 2 ^ 64) / ((P.sizeofKey + 8) % 2 ^ 64)) % 2 ^ 32

/-- Models `LeafNode::kCapacity`:
`(PageSize - 2 * sizeof(uint64_t)) / (sizeof(KeyT) + sizeof(uint64_t))`,
computed in `size_t` and stored in a `uint32_t`. -/
def LeafNode.kCapacity (P : TreeParams) : Nat :=
  (((P.PageSize + 2 ^ 64 - 16) % 2 ^ 64) / ((P.sizeofKey + 8) % 2 ^ 64)) % 2 ^ 32

/-- A page seen through `Node`, `InnerNode` or `LeafNode`: the header fields
`level` and `count`, the key array (both node types declare it first), the
child array of an inner node and the value array of a leaf.  The arrays are
indexed by slot.  A page is only ever read as the kind of node it was written
as, so the overlap of `children` and `values` in the page is not modelled.
Both header fields are `uint16_t`: `count` is reduced modulo `2 ^ 16` wherever
the source assigns it; `level` is not, it grows by one per root split and
would wrap only in a tree 65536 levels high.  The arrays are not cut at the
capacity of the node or at the end of the page: a write behind the capacity
is a write to a further slot here, and in the source a write into the next
member or behind the page.  `ConfigOK` names the instantiations whose node
structs fit their page, and the statements about trees built by inserts are
made for those. -/
structure Node (K V : Type) where
  level : Nat
  count : Nat
  keys : Nat → K
  children : Nat → Nat
  values : Nat → V

/-- A page of zero bytes, as the buffer manager delivers a page that was
never written; `default` stands for the key and the value of zero bytes. -/
def Node.zero (K V : Type) [Inhabited K] [Inhabited V] : Node K V :=
  { level := 0, count := 0, keys := fun _ => default, children := fun _ => 0,
    values := fun _ => default }

/-- Models `Node::is_leaf`. -/
def Node.is_leaf {K V : Type} (n : Node K V) : Bool := decide (n.level = 0)

/-- Models `++` on a `uint16_t`. -/
def u16_incr (n : Nat) : Nat := (n + 1) % 2 ^ 16

/-- Models `--` on a `uint16_t`. -/
def u16_decr (n : Nat) : Nat := (n + 2 ^ 16 - 1) % 2 ^ 16

/-- Models `std::memmove` of `n` array elements from `src[s..]` to `dst[d..]`
inside arrays of the element type; `src` is the content before the call, so
overlapping ranges behave as if copied through a buffer. -/
def memmove_elems {α : Type} (dst : Nat → α) (d : Nat) (src : Nat → α) (s : Nat) (n : Nat) :
    Nat → α :=
  fun j => if d ≤ j ∧ j < d + n then src (s + (j - d)) else dst j

/-- Models `std::memmove` of `nbytes` bytes from `src[s..]` to `dst[d..]` inside
arrays of `uint64_t`: `nbytes / 8` whole words are copied, and of the next
word the `nbytes % 8` bytes at the lowest addresses, which on a little-endian
host are its low-order bytes. -/
def memmove_words (dst : Nat → Nat) (d : Nat) (src : Nat → Nat) (s : Nat) (nbytes : Nat) :
    Nat → Nat :=
  fun j =>
    if d ≤ j ∧ j < d + nbytes / 8 then src (s + (j - d))
    else if j = d + nbytes / 8 ∧ nbytes % 8 ≠ 0 then
      dst j / 256 ^ (nbytes % 8) * 256 ^ (nbytes % 8) + src (s + nbytes / 8) % 256 ^ (nbytes % 8)
    else dst j

/-- The `while (count > 0)` loop shared by both `lower_bound` functions.
Every pass at least halves `count`, so `fuel` passes are enough whenever
`count ≤ fuel`; the callers pass the initial `count` as `fuel`. -/
def lower_bound_loop {K : Type} [LinearOrder K] (keys : Nat → K) (key : K) :
    Nat → Nat → Nat → Nat
  | 0, first, _ => first
  | fuel + 1, first, count =>
    if 0 < count then
      let step := count / 2
      let index := first + step
      if keys index < key then
        lower_bound_loop keys key fuel (index + 1) (count - (step + 1))
      else
        lower_bound_loop keys key fuel first step
    else first

/-- Models `InnerNode::lower_bound`: binary search over the first `count - 1` keys. -/
def InnerNode.lower_bound {K V : Type} [LinearOrder K] (n : Node K V) (key : K) : Nat × Bool :=
  if n.count = 0 then (0, false)
  else
    let first := lower_bound_loop n.keys key (n.count - 1) 0 (n.count - 1)
    (first, decide (first < n.count) && decide (n.keys first = key))

/-- Models `InnerNode::lookup`. -/
def InnerNode.lookup {K V : Type} [LinearOrder K] (n : Node K V) (key : K) : Nat :=
  let first := (InnerNode.lower_bound n key).1
  if first = n.count then n.children ((first + 2 ^ 32 - 1) % 2 ^ 32) else n.children first

/-- Models `InnerNode::first_insert`. -/
def InnerNode.first_insert {K V : Type} (n : Node K V) (key : K) (left right : Nat) : Node K V :=
  { n with
    children := fun j => if j = 1 then right else if j = 0 then left else n.children j,
    keys := fun j => if j = 1 then key else if j = 0 then key else n.keys j,
    count := 2 }

/-- Models `InnerNode::insert_split`.  The keys are moved with `sizeof(KeyT)` per
element; the children, which are `uint64_t`, with `sizeof(ValueT)` per
element. -/
def InnerNode.insert_split {K V : Type} [LinearOrder K] (P : TreeParams) (n : Node K V)
    (key : K) (split_page : Nat) : Node K V :=
  let first := (InnerNode.lower_bound n key).1
  let num_after := (n.count + 2 ^ 32 - first - 1) % 2 ^ 32
  let keys1 := memmove_elems n.keys (first + 1) n.keys first num_after
  let children1 := memmove_words n.children (first + 2) n.children (first + 1)
    ((num_after * P.sizeofValue) % 2 ^ 64)
  { n with
    keys := fun j => if j = first then key else keys1 j,
    children := fun j => if j = first + 1 then split_page else children1 j,
    count := u16_incr n.count }

/-- Models `InnerNode::split`: the separator, the node itself after the call, and
the node in `buffer` after the call (`buffer` is the page content before). -/
def InnerNode.split {K V : Type} (P : TreeParams) (n : Node K V) (buffer : Node K V) :
    K × Node K V × Node K V :=
  let separator := n.keys ((n.count - 1) / 2)
  let another_count := (n.count + 2 ^ 16 - ((n.count - 1) / 2 + 1)) % 2 ^ 16
  let this_count := ((n.count - 1) / 2 + 1) % 2 ^ 16
  (separator,
   { n with count := this_count },
   { buffer with
     count := another_count,
     keys := memmove_elems buffer.keys 0 n.keys this_count another_count,
     children := memmove_words buffer.children 0 n.children this_count
       ((another_count * P.sizeofValue) % 2 ^ 64) })

/-- Models `LeafNode::lower_bound`: binary search over the `count` keys. -/
def LeafNode.lower_bound {K V : Type} [LinearOrder K] (n : Node K V) (key : K) : Nat × Bool :=
  if n.count = 0 then (0, false)
  else
    let first := lower_bound_loop n.keys key n.count 0 n.count
    (first, decide (n.keys first = key) && decide (first < n.count))

/-- Models `LeafNode::lookup`. -/
def LeafNode.lookup {K V : Type} [LinearOrder K] (n : Node K V) (key : K) : Option V :=
  if (LeafNode.lower_bound n key).2 then some (n.values (LeafNode.lower_bound n key).1)
  else none

/-- Models `LeafNode::insert`. -/
def LeafNode.insert {K V : Type} [LinearOrder K] (n : Node K V) (key : K) (value : V) :
    Node K V :=
  if n.count = 0 then
    { n with
      keys := fun j => if j = 0 then key else n.keys j,
      values := fun j => if j = 0 then value else n.values j,
      count := u16_incr n.count }
  else
    let first := (LeafNode.lower_bound n key).1
    if (LeafNode.lower_bound n key).2 then
      { n with values := fun j => if j = first then value else n.values j }
    else
      let num_after := (n.count + 2 ^ 32 - first) % 2 ^ 32
      let keys1 := memmove_elems n.keys (first + 1) n.keys first num_after
      let values1 := memmove_elems n.values (first + 1) n.values first num_after
      { n with
        keys := fun j => if j = first then key else keys1 j,
        values := fun j => if j = first then value else values1 j,
        count := u16_incr n.count }

/-- Models `LeafNode::erase`. -/
def LeafNode.erase {K V : Type} [LinearOrder K] (n : Node K V) (key : K) : Node K V :=
  if n.count = 0 then n
  else
    let first := (LeafNode.lower_bound n key).1
    if (LeafNode.lower_bound n key).2 then
      let num_after := (n.count + 2 ^ 32 - first - 1) % 2 ^ 32
      { n with
        keys := memmove_elems n.keys first n.keys (first + 1) num_after,
        values := memmove_elems n.values first n.values (first + 1) num_after,
        count := u16_decr n.count }
    else n

/-- Models `LeafNode::split`: the separator, the leaf itself after the call, and the
leaf in `buffer` after the call. -/
def LeafNode.split {K V : Type} (n : Node K V) (buffer : Node K V) : K × Node K V × Node K V :=
  let separator := n.keys (n.count / 2)
  let another_count := (n.count + 2 ^ 16 - (n.count / 2 + 1)) % 2 ^ 16
  let this_count := (n.count / 2 + 1) % 2 ^ 16
  (separator,
   { n with count := this_count },
   { buffer with
     count := another_count,
     keys := memmove_elems buffer.keys 0 n.keys this_count another_count,
     values := memmove_elems buffer.values 0 n.values this_count another_count })

/-- Models `LeafNode::get_key_vector`. -/
def LeafNode.get_key_vector {K V : Type} (n : Node K V) : List K :=
  (List.range n.count).map n.keys

/-- Modelled from the spec: the buffer manager the tree runs on (of
`btree/include/moderndbs/buffer_manager.h` only the declarations are among
the sources), with a pool large enough that no fix fails.  `fix_page(id, _)`
returns the current content of page `id`, a page that was never written
reads as zero bytes, and what the tree writes into a fixed page is what the
next fix of that page sees. -/
abbrev PageStore (K V : Type) := Nat → Node K V

/-- The fields of a `BTree` together with the pages it reaches through the
buffer manager; `pages id` is the content of page `id`.  The allocator
`next_page` is kept as a natural number: the `uint64_t` of the source would
wrap only after `2 ^ 64` allocations. -/
structure BTree (K V : Type) where
  pages : PageStore K V
  root : Nat
  next_page : Nat
  leaf_page_id : Nat
  is_empty : Bool

/-- Models `BTree::BTree(segment_id, buffer_manager)` over a segment without written
pages.  The constructor does not initialise `root` and `leaf_page_id`;
`root0` and `leaf0` are the values these fields happen to hold. -/
def BTree.init (K V : Type) [Inhabited K] [Inhabited V] (segment_id root0 leaf0 : Nat) :
    BTree K V :=
  { pages := fun _ => Node.zero K V, root := root0,
    next_page := ((segment_id % 2 ^ 16) <<< 48) % 2 ^ 64,
    leaf_page_id := leaf0, is_empty := true }

/-- The pages after the content of page `id` was replaced by `n`. -/
def set_page {K V : Type} (pages : Nat → Node K V) (id : Nat) (n : Node K V) :
    Nat → Node K V :=
  fun i => if i = id then n else pages i

/-- The part of `lookup_leaf_page` that splits a full inner node on the way
down (the same statements for the root and for a child, up to where the
separator goes).  `node_id` is the full node; the result is the tree with the
node split into itself and the page `next_page`, the separator, and the id of
the new page. -/
def split_inner {K V : Type} (P : TreeParams) (t : BTree K V) (node_id : Nat) :
    BTree K V × K × Nat :=
  let new_inner_page_id := t.next_page
  let node := t.pages node_id
  let fresh := { t.pages new_inner_page_id with level := node.level }
  let r := InnerNode.split P node fresh
  ({ t with
     next_page := t.next_page + 1,
     pages := set_page (set_page t.pages node_id r.2.1) new_inner_page_id r.2.2 },
   r.1, new_inner_page_id)

/-- The statements of the descent loop for a full child: the child is split
into itself and a new page, and the separator and the new page are inserted
into the parent, which is still fixed.  The result is the tree, the separator
and the id of the new page. -/
def split_child {K V : Type} [LinearOrder K] (P : TreeParams) (t : BTree K V)
    (parent_id child_id : Nat) : BTree K V × K × Nat :=
  let r := split_inner P t child_id
  let t1 := r.1
  let separator_key := r.2.1
  let new_inner_page_id := r.2.2
  let parent_node :=
    InnerNode.insert_split P (t1.pages parent_id) separator_key new_inner_page_id
  ({ t1 with pages := set_page t1.pages parent_id parent_node },
   separator_key, new_inner_page_id)

/-- The statements of `lookup_leaf_page` for a full root: the root is split
into itself and a new page, and a new root one level higher is allocated over
the two.  The result is the tree, the separator and the id of the new inner
page. -/
def split_root {K V : Type} (P : TreeParams) (t : BTree K V) : BTree K V × K × Nat :=
  let parent_id := t.root
  let r := split_inner P t parent_id
  let t1 := r.1
  let separator_key := r.2.1
  let new_inner_page_id := r.2.2
  let new_root_id := t1.next_page
  let new_root_node := InnerNode.first_insert
    { t1.pages new_root_id with level := (t1.pages parent_id).level + 1 }
    separator_key parent_id new_inner_page_id
  ({ t1 with
     root := new_root_id,
     next_page := t1.next_page + 1,
     pages := set_page t1.pages new_root_id new_root_node },
   separator_key, new_inner_page_id)

/-- The `while (!child_node->is_leaf())` loop of `lookup_leaf_page`, one
unit of `fuel` per test of the loop condition.  The result is the tree, the
parent page id and the leaf page id; `none` means the fuel ran out. -/
def descend {K V : Type} [LinearOrder K] (P : TreeParams) (key : K) (insert_mode : Bool) :
    Nat → BTree K V → Nat → Nat → Option (BTree K V × Nat × Nat)
  | 0, _, _, _ => none
  | fuel + 1, t, parent_id, child_id =>
    if (t.pages child_id).is_leaf then
      some ({ t with leaf_page_id := child_id }, parent_id, child_id)
    else
      if insert_mode && decide ((t.pages child_id).count ≥ InnerNode.kCapacity P + 1) then
        let r := split_child P t parent_id child_id
        let child_id1 := if r.2.1 < key then r.2.2 else child_id
        descend P key insert_mode fuel r.1 child_id1
          (InnerNode.lookup (r.1.pages child_id1) key)
      else
        descend P key insert_mode fuel t child_id (InnerNode.lookup (t.pages child_id) key)

/-- Models `BTree::lookup_leaf_page`: the tree after the call, the id of the parent
page and the id of the leaf page (the two frames the source returns are the
same frame exactly when the two ids are equal).  `none`: the descent did not
end within `fuel` passes. -/
def lookup_leaf_page {K V : Type} [LinearOrder K] (P : TreeParams) (fuel : Nat)
    (t : BTree K V) (key : K) (insert_mode : Bool) : Option (BTree K V × Nat × Nat) :=
  let parent_id := t.root
  if (t.pages parent_id).is_leaf then
    some ({ t with leaf_page_id := parent_id }, parent_id, parent_id)
  else
    if insert_mode && decide ((t.pages parent_id).count ≥ InnerNode.kCapacity P + 1) then
      let r := split_root P t
      let parent_id1 := if r.2.1 < key then r.2.2 else parent_id
      descend P key insert_mode fuel r.1 parent_id1
        (InnerNode.lookup (r.1.pages parent_id1) key)
    else
      descend P key insert_mode fuel t parent_id (InnerNode.lookup (t.pages parent_id) key)

/-- Models `BTree::lookup`: the result (`none` inside is `std::nullopt`) and the
tree after the call. -/
def lookup {K V : Type} [LinearOrder K] (P : TreeParams) (fuel : Nat) (t : BTree K V)
    (key : K) : Option (Option V × BTree K V) :=
  match lookup_leaf_page P fuel t key false with
  | none => none
  | some (t1, _, leaf_id) => some (LeafNode.lookup (t1.pages leaf_id) key, t1)

/-- Models `BTree::erase`. -/
def erase {K V : Type} [LinearOrder K] (P : TreeParams) (fuel : Nat) (t : BTree K V)
    (key : K) : Option (BTree K V) :=
  match lookup_leaf_page P fuel t key false with
  | none => none
  | some (t1, _, leaf_id) =>
    some { t1 with pages := set_page t1.pages leaf_id (LeafNode.erase (t1.pages leaf_id) key) }

/-- The statements of `insert` for a full leaf up to the insertion of the
entry: a new leaf is allocated, the leaf is split into itself and the new
leaf, and the separator goes into a new root (when the leaf was the root,
which the source detects by the two frames being the same) or into the
parent.  The result is the tree, the separator and the id of the new leaf. -/
def split_leaf {K V : Type} [LinearOrder K] (P : TreeParams) (t : BTree K V)
    (parent_id leaf_id : Nat) : BTree K V × K × Nat :=
  let new_leaf_page_id := t.next_page
  let fresh := { t.pages new_leaf_page_id with level := 0 }
  let r := LeafNode.split (t.pages leaf_id) fresh
  let separator_key := r.1
  let t2 := { t with
    next_page := t.next_page + 1,
    pages := set_page (set_page t.pages leaf_id r.2.1) new_leaf_page_id r.2.2 }
  if parent_id = leaf_id then
    let new_root_id := t2.next_page
    let new_root_node := InnerNode.first_insert
      { t2.pages new_root_id with level := 1 } separator_key t2.root new_leaf_page_id
    ({ t2 with
       pages := set_page t2.pages new_root_id new_root_node,
       root := new_root_id, next_page := t2.next_page + 1 },
     separator_key, new_leaf_page_id)
  else
    let parent_node :=
      InnerNode.insert_split P (t2.pages parent_id) separator_key new_leaf_page_id
    ({ t2 with pages := set_page t2.pages parent_id parent_node },
     separator_key, new_leaf_page_id)

/-- Models `BTree::insert`. -/
def insert {K V : Type} [LinearOrder K] (P : TreeParams) (fuel : Nat) (t : BTree K V)
    (key : K) (value : V) : Option (BTree K V) :=
  if t.is_empty then
    let root := t.next_page
    let root_node := LeafNode.insert { t.pages root with level := 0 } key value
    some { t with
      root := root, next_page := t.next_page + 1,
      pages := set_page t.pages root root_node, is_empty := false }
  else
    match lookup_leaf_page P fuel t key true with
    | none => none
    | some (t1, parent_id, leaf_id) =>
      if (t1.pages leaf_id).count = LeafNode.kCapacity P then
        let r := split_leaf P t1 parent_id leaf_id
        let target := if r.2.1 < key then r.2.2 else leaf_id
        let target_node := LeafNode.insert (r.1.pages target) key value
        some { r.1 with pages := set_page r.1.pages target target_node }
      else
        let leaf_node1 := LeafNode.insert (t1.pages leaf_id) key value
        some { t1 with pages := set_page t1.pages leaf_id leaf_node1 }

/-- A sequence of `insert` calls, each with the same bound on the length of
its descent. -/
def insert_all {K V : Type} [LinearOrder K] (P : TreeParams) (fuel : Nat) :
    BTree K V → List (K × V) → Option (BTree K V)
  | t, [] => some t
  | t, (k, v) :: rest =>
    match insert P fuel t k v with
    | none => none
    | some t1 => insert_all P fuel t1 rest

/-- The keys of the leaves below page `id` from left to right: the keys of a
leaf, and for an inner node the keys below its children in slot order.
`fuel` bounds the depth: a subtree whose root has level `l` is read
completely with `fuel = l + 1`. -/
def leaf_keys_in_order {K V : Type} (pages : Nat → Node K V) : Nat → Nat → List K
  | 0, _ => []
  | fuel + 1, id =>
    if (pages id).is_leaf then LeafNode.get_key_vector (pages id)
    else (List.range (pages id).count).flatMap
      (fun i => leaf_keys_in_order pages fuel ((pages id).children i))

/-- The page ids a descent for `key` visits from page `id` on, the leaf it
ends in included; `fuel` bounds the length. -/
def descent_path {K V : Type} [LinearOrder K] (pages : Nat → Node K V) (key : K) :
    Nat → Nat → List Nat
  | 0, _ => []
  | fuel + 1, id =>
    if (pages id).is_leaf then [id]
    else id :: descent_path pages key fuel (InnerNode.lookup (pages id) key)

/-- Models `BTree<uint32_t, uint32_t, std::less<uint32_t>, 52>`: keys and values of
4 bytes on pages of 52 bytes; both capacities are 3. -/
def params_narrow_values : TreeParams :=
  { PageSize := 52, sizeofKey := 4, sizeofValue := 4 }

/-- Models `BTree<uint32_t, uint64_t, std::less<uint32_t>, 52>`: as before with
values of 8 bytes, the size of a child pointer. -/
def params_wide_values : TreeParams :=
  { PageSize := 52, sizeofKey := 4, sizeofValue := 8 }

/-- Eight inserts of distinct keys; the last one splits the leftmost of three
leaves. -/
def eight_inserts : List (Nat × Nat) :=
  [(10, 100), (20, 200), (30, 300), (40, 400), (50, 500), (60, 600), (5, 50), (7, 70)]

/-- A fresh tree in segment 0 after three inserts: its root is a full leaf. -/
def tree_full_root_leaf : Option (BTree Nat Nat) :=
  insert_all params_wide_values 3 (BTree.init Nat Nat 0 0 0) [(10, 100), (20, 200), (30, 300)]

/-- A fresh tree in segment 0 after four inserts: an inner root over the
leaves `10, 20` and `30, 40`. -/
def tree_two_leaves : BTree Nat Nat :=
  (insert_all params_wide_values 3 (BTree.init Nat Nat 0 0 0)
    [(10, 100), (20, 200), (30, 300), (40, 400)]).getD (BTree.init Nat Nat 0 0 0)

/-- A leaf within its capacity whose first `count` keys are strictly
increasing. -/
def LeafOK {K V : Type} [LinearOrder K] (P : TreeParams) (n : Node K V) : Prop :=
  n.count ≤ LeafNode.kCapacity P ∧ ∀ i j, i < j → j < n.count → n.keys i < n.keys j

/-- A buffer manager over empty segment files whose file layer never fails. -/
def BufferManager.blank (page_size page_count : Nat) : BufferManager :=
  BufferManager.init page_size page_count (fun _ _ => 0) (fun _ => false)

/-- One frame, and page 0 fixed exclusively in it. -/
def scene_single_pinned : BufferManager :=
  (fix_page (BufferManager.blank 1 1) 0 true).2

/-- Two frames; pages 0 and 1 were fixed and unfixed once each, so both wait
unpinned in FIFO. -/
def scene_two_unpinned : BufferManager :=
  let s1 := (fix_page (BufferManager.blank 1 2) 0 true).2
  let s2 := unfix_page s1 0 false
  let s3 := (fix_page s2 1 true).2
  unfix_page s3 1 false

/-- Two frames; page 0 was fixed twice (so it is in LRU), page 1 once (FIFO);
both are unpinned again. -/
def scene_promoted : BufferManager :=
  let s1 := (fix_page (BufferManager.blank 1 2) 0 true).2
  let s2 := unfix_page s1 0 false
  let s3 := (fix_page s2 0 true).2
  let s4 := unfix_page s3 0 false
  let s5 := (fix_page s4 1 true).2
  unfix_page s5 1 false

/-- The state of the durability scenario after page 0 was written and
unfixed dirty: a pool of three one-byte frames; page 1 is fixed and stays
fixed, page 2 is fixed and unfixed with `is_dirty = true`, then page 0 is
fixed exclusively, the byte 7 is written into its frame, and it is unfixed
with `is_dirty = true`.  Every fix is exclusive and loads the page, so every
unfix releases a latch that is held. -/
def scene_written : BufferManager :=
  let s1 := (fix_page (BufferManager.blank 1 3) 1 true).2
  let s2 := (fix_page s1 2 true).2
  let s3 := unfix_page s2 2 true
  let s4 := (fix_page s3 0 true).2
  let s5 := write_bytes s4 0 [7]
  unfix_page s5 0 true

/-- The durability scenario continued with fixes and unfixes of other pages
only: page 3 is fixed (which evicts the dirty page 2) and unfixed clean, page 1
is unfixed clean, then page 4 is fixed (which evicts the clean page 1) and
unfixed clean. -/
def scene_after_others : BufferManager :=
  let s6 := (fix_page scene_written 3 true).2
  let s7 := unfix_page s6 3 false
  let s8 := unfix_page s7 1 false
  let s9 := (fix_page s8 4 true).2
  unfix_page s9 4 false

/-! ## Sequences of calls on the buffer manager -/

/-- A call of the public interface of the buffer manager.  The frame that
`unfix_page` takes by reference is named by the id of the page it holds. -/
inductive Call where
  | fix_page (page_id : Nat) (exclusive : Bool)
  | unfix_page (page_id : Nat) (is_dirty : Bool)
  deriving DecidableEq, Repr

/-- The buffer manager after one call.  After a `fix_page` that throws it is
the state the call had reached when the exception left it. -/
def BufferManager.call (bm : BufferManager) : Call → BufferManager
  | Call.fix_page page_id exclusive => (fix_page bm page_id exclusive).2
  | Call.unfix_page page_id is_dirty => unfix_page bm page_id is_dirty

/-- The buffer manager after a sequence of calls. -/
def BufferManager.run (bm : BufferManager) : List Call → BufferManager
  | [] => bm
  | c :: rest => BufferManager.run (bm.call c) rest

/-- Whether `fix_page(page_id, _)` gets as far as `read_frame` and the read
fails: the page is in neither queue, a frame is free or a victim was evicted,
the new frame was locked, and the segment file cannot be read. -/
def read_fails (bm : BufferManager) (page_id : Nat) : Bool :=
  if page_id ∈ bm.lru then false
  else if page_id ∈ bm.fifo then false
  else if bm.bufferframes.length < bm.page_count then
    match lock_frame bm page_id true with
    | none => false
    | some bm1 => !(read_frame bm1 page_id).1
  else
    match evict_check bm with
    | (none, _) => false
    | (some victim, bm1) =>
      match evict bm1 victim with
      | (false, _) => false
      | (true, bm2) =>
        match lock_frame bm2 page_id true with
        | none => false
        | some bm3 => !(read_frame bm3 page_id).1

/-- No read fails in the sequence of calls made on `bm`. -/
def reads_succeed (bm : BufferManager) : List Call → Bool
  | [] => true
  | Call.fix_page page_id exclusive :: rest =>
    !(read_fails bm page_id) && reads_succeed (fix_page bm page_id exclusive).2 rest
  | Call.unfix_page page_id is_dirty :: rest =>
    reads_succeed (unfix_page bm page_id is_dirty) rest

/-- The part of the invariants `WF` that also survives a failed read: every key
of the table occurs once, no page is queued twice, every queued page has a
frame that records its queue and its page, and the table holds at most
`page_count` frames.  A frame may be in the table without being queued. -/
def Coherent (bm : BufferManager) : Prop :=
  (frame_ids bm.bufferframes).Nodup ∧
  (bm.fifo ++ bm.lru).Nodup ∧
  (∀ id ∈ bm.fifo ++ bm.lru, id ∈ frame_ids bm.bufferframes) ∧
  (∀ id ∈ bm.fifo, (frame_get bm.bufferframes id).position = Position.FIFO) ∧
  (∀ id ∈ bm.lru, (frame_get bm.bufferframes id).position = Position.LRU) ∧
  (∀ id ∈ bm.fifo ++ bm.lru, (frame_get bm.bufferframes id).page_id = id) ∧
  bm.bufferframes.length ≤ bm.page_count

/-- The number of fixes of `page_id` that are not yet matched by an unfix,
counted along a sequence of calls made on `bm`, starting from `n`: a
`fix_page(page_id, _)` that returns a frame adds one, an `unfix_page` of that frame
takes one away.  `none`: the sequence unfixes the frame without a fix to
match it (a double unfix). -/
def unmatched_fixes (page_id : Nat) : BufferManager → Nat → List Call → Option Nat
  | _, n, [] => some n
  | bm, n, Call.fix_page id exclusive :: rest =>
    unmatched_fixes page_id (fix_page bm id exclusive).2
      (if id = page_id ∧ (fix_page bm id exclusive).1 = FixResult.ok id then n + 1 else n) rest
  | bm, n, Call.unfix_page id is_dirty :: rest =>
    if id = page_id then
      if n = 0 then none
      else unmatched_fixes page_id (unfix_page bm id is_dirty) (n - 1) rest
    else unmatched_fixes page_id (unfix_page bm id is_dirty) n rest

/-- Models `BufferManager::get_fifo_list`. -/
def get_fifo_list (bm : BufferManager) : List Nat := bm.fifo

/-- Models `BufferManager::get_lru_list`. -/
def get_lru_list (bm : BufferManager) : List Nat := bm.lru

/-- A buffer manager with two one-byte frames over segment files that cannot
be opened. -/
def scene_unreadable : BufferManager :=
  BufferManager.init 1 2 (fun _ _ => 0) (fun _ => true)

/-- Calls on a pool of two frames: pages 0 and 1 are loaded and unfixed, page
0 is fixed again (it moves to LRU and stays fixed), and page 2 is fixed, which
evicts page 1. -/
def calls_promote_evict : List Call :=
  [Call.fix_page 0 true, Call.unfix_page 0 false, Call.fix_page 1 true,
   Call.unfix_page 1 false, Call.fix_page 0 false, Call.fix_page 2 false]

/-- The tree of `tree_full_root_leaf`: its root, page 0, is a leaf that holds
the keys 10, 20 and 30. -/
def tree_three_keys : BTree Nat Nat :=
  tree_full_root_leaf.getD (BTree.init Nat Nat 0 0 0)

/-! ## Expressions -/

/-- Models `Expression::ValueType`. -/
inductive ValueType where
  | INT64
  | DOUBLE
  deriving DecidableEq, Repr

/-- Models `Expression` as its subclasses are used through a reference: the
type of the expression and its virtual `evaluate`.  A `data64_t` is a natural
number below `2 ^ 64`, `args` is the argument array, and `none` stands for an
evaluation whose behaviour the language leaves undefined. -/
structure Expression where
  type : ValueType
  evaluate : (Nat → Nat) → Option Nat

/-- Models `Constant::Constant(long long value)` with `Constant::evaluate`: the
value is stored as the 64 bits of its two's complement representation. -/
def Constant.int64 (value : Int) : Expression :=
  { type := ValueType.INT64, evaluate := fun _ => some (value % 2 ^ 64).toNat }

/-- Models `Constant::Constant(double value)` with `Constant::evaluate`: the value is
stored as the 64 bits of the double, and `bits` is that bit pattern. -/
def Constant.double (bits : Nat) : Expression :=
  { type := ValueType.DOUBLE, evaluate := fun _ => some (bits % 2 ^ 64) }

/-- Models `Argument` with `Argument::evaluate`. -/
def Argument (index : Nat) (type : ValueType) : Expression :=
  { type := type, evaluate := fun args => some (args index) }

/-- The value of `(double)x` for a `uint64_t x`, as a natural number: `x`
rounded to 53 significant bits, to nearest and to even on a tie. -/
def uint64_to_double (x : Nat) : Nat :=
  if x < 2 ^ 53 then x
  else
    let e := Nat.log2 x - 52
    let q := x / 2 ^ e
    let r := x % 2 ^ e
    if 2 * r < 2 ^ e then q * 2 ^ e
    else if 2 ^ e < 2 * r then (q + 1) * 2 ^ e
    else if q % 2 = 0 then q * 2 ^ e
    else (q + 1) * 2 ^ e

/-- Models `Cast`: the target type, the child and the type of the child. -/
structure Cast where
  type : ValueType
  child : Expression
  childType : ValueType

/-- Models `Cast::Cast(child, type)`. -/
def Cast.new (child : Expression) (type : ValueType) : Cast :=
  { type := type, child := child, childType := child.type }

/-- Models `Cast::evaluate`.  `child_eval` is a `data64_t`.  For a cast to `INT64` it
is converted to `int64_t` and back, which keeps all 64 bits.  For a cast to
`DOUBLE` it is converted to `double` as the unsigned integer it is and the
double is converted back to `data64_t`; that conversion is undefined when the
double is `2 ^ 64`. -/
def Cast.evaluate (c : Cast) (args : Nat → Nat) : Option Nat :=
  match c.child.evaluate args with
  | none => none
  | some child_eval =>
    if c.childType = c.type then some child_eval
    else if c.type = ValueType.INT64 then
      let child_value : Int := ((child_eval : Int) + 2 ^ 63) % 2 ^ 64 - 2 ^ 63
      some (child_value % 2 ^ 64).toNat
    else
      let child_value := uint64_to_double child_eval
      if child_value < 2 ^ 64 then some child_value else none

/-! ## The tree on a bounded pool -/

/-- The calls of `fix_page` in `insert` and `lookup_leaf_page`, each named by the
variable that receives the frame: `root_page` (the first leaf of an empty
tree), `parent_page` (the root at the start of a descent), `new_inner_page`
(the second half of a full inner node), `new_root_page` (the root above a
split root), `child_page` (the next node of the descent) and `new_leaf_page`
(the second half of a full leaf). -/
inductive FixSite where
  | root_page
  | parent_page
  | new_inner_page
  | new_root_page
  | child_page
  | new_leaf_page
  deriving DecidableEq, Repr

/-- How a call of a tree operation ends: it returns, a `fix_page` inside it
throws `buffer_full_error`, a `fix_page` inside it waits for a latch the caller
itself holds, or the bound on the length of the descent ran out. -/
inductive Outcome (α : Type) where
  | done (a : α)
  | buffer_full_error (site : FixSite)
  | blocked (site : FixSite)
  | out_of_fuel
  deriving DecidableEq, Repr

/-- Modelled from the spec: the buffer manager the tree runs on (of
`btree/include/moderndbs/buffer_manager.h` only the declarations are among
the sources), with a pool of `page_count` frames.  `fixed` lists the pages that
are fixed, one entry per fix that is not yet unfixed. -/
structure Pool where
  page_count : Nat
  fixed : List Nat
  deriving Repr

/-- Modelled from the spec: `fix_page(page_id, true)` on the pool.  A page that is
already fixed is latched exclusively, so the call waits.  Otherwise the page
is delivered unless each of the `page_count` frames holds a fixed page; then
no frame can be evicted and the call fails with buffer-full. -/
def Pool.fix_page (p : Pool) (page_id : Nat) : FixResult × Pool :=
  if page_id ∈ p.fixed then (FixResult.blocked, p)
  else if p.fixed.length < p.page_count then
    (FixResult.ok page_id, { p with fixed := page_id :: p.fixed })
  else (FixResult.buffer_full_error, p)

/-- Modelled from the spec: `unfix_page` on the pool. -/
def Pool.unfix_page (p : Pool) (page_id : Nat) : Pool :=
  { p with fixed := p.fixed.erase page_id }

/-- What a tree operation does to the buffer manager and to the pages, in the
order of the source: a call of `fix_page`, a call of `unfix_page`, and a write
into the page `page_id` through a node pointer. -/
inductive Event where
  | fix_page (page_id : Nat) (exclusive : Bool)
  | unfix_page (page_id : Nat) (is_dirty : Bool)
  | write (page_id : Nat)
  deriving DecidableEq, Repr

/-- A tree together with the pool it runs on and the events of the calls made
so far. -/
structure Session (K V : Type) where
  tree : BTree K V
  pool : Pool
  trace : List Event

/-- A call `buffer_manager.fix_page(page_id, true)` of the tree. -/
def Session.fix {K V : Type} (s : Session K V) (page_id : Nat) : FixResult × Session K V :=
  match s.pool.fix_page page_id with
  | (FixResult.ok k, p) =>
    (FixResult.ok k, { s with pool := p, trace := s.trace ++ [Event.fix_page page_id true] })
  | (r, _) => (r, s)

/-- A call `buffer_manager.unfix_page(page, true)` of the tree. -/
def Session.unfix {K V : Type} (s : Session K V) (page_id : Nat) : Session K V :=
  { s with pool := s.pool.unfix_page page_id,
           trace := s.trace ++ [Event.unfix_page page_id true] }

/-- The outcome of an operation in which the `fix_page` at `site` did not return
a frame. -/
def Outcome.of_failure {α : Type} (r : FixResult) (site : FixSite) : Outcome α :=
  match r with
  | FixResult.buffer_full_error => Outcome.buffer_full_error site
  | _ => Outcome.blocked site

/-- The `while (!child_node->is_leaf())` loop of `lookup_leaf_page` with its calls
of the buffer manager; `parent_id` and `child_id` are fixed when a pass
begins.  The session in the result is the state when the operation ended,
also when it ended in a `fix_page` that threw. -/
def descend_fx {K V : Type} [LinearOrder K] (P : TreeParams) (key : K) (insert_mode : Bool) :
    Nat → Session K V → Nat → Nat → Session K V × Outcome (Nat × Nat)
  | 0, s, _, _ => (s, Outcome.out_of_fuel)
  | fuel + 1, s, parent_id, child_id =>
    if (s.tree.pages child_id).is_leaf then
      (Session.unfix { s with tree := { s.tree with leaf_page_id := child_id } } parent_id,
        Outcome.done (parent_id, child_id))
    else
      if insert_mode &&
          decide ((s.tree.pages child_id).count ≥ InnerNode.kCapacity P + 1) then
        let new_inner_page_id := s.tree.next_page
        let s1 := { s with tree := { s.tree with next_page := s.tree.next_page + 1 } }
        match s1.fix new_inner_page_id with
        | (FixResult.ok _, s2) =>
          let r := split_child P s.tree parent_id child_id
          let s3 := { s2 with
            tree := r.1,
            trace := s2.trace ++ [Event.write new_inner_page_id, Event.write child_id,
              Event.write parent_id] }
          let child_id1 := if r.2.1 < key then new_inner_page_id else child_id
          let s4 := if r.2.1 < key then s3.unfix child_id else s3.unfix new_inner_page_id
          let s5 := s4.unfix parent_id
          let next_id := InnerNode.lookup (s5.tree.pages child_id1) key
          match s5.fix next_id with
          | (FixResult.ok _, s6) => descend_fx P key insert_mode fuel s6 child_id1 next_id
          | (res, s6) => (s6, Outcome.of_failure res FixSite.child_page)
        | (res, s2) => (s2, Outcome.of_failure res FixSite.new_inner_page)
      else
        let s5 := s.unfix parent_id
        let next_id := InnerNode.lookup (s5.tree.pages child_id) key
        match s5.fix next_id with
        | (FixResult.ok _, s6) => descend_fx P key insert_mode fuel s6 child_id next_id
        | (res, s6) => (s6, Outcome.of_failure res FixSite.child_page)

/-- Models `BTree::lookup_leaf_page` with its calls of the buffer manager: the result
is the parent page id and the leaf page id. -/
def lookup_leaf_page_fx {K V : Type} [LinearOrder K] (P : TreeParams) (fuel : Nat)
    (s : Session K V) (key : K) (insert_mode : Bool) : Session K V × Outcome (Nat × Nat) :=
  let parent_id := s.tree.root
  match s.fix parent_id with
  | (FixResult.ok _, s1) =>
    if (s1.tree.pages parent_id).is_leaf then
      ({ s1 with tree := { s1.tree with leaf_page_id := parent_id } },
        Outcome.done (parent_id, parent_id))
    else
      if insert_mode &&
          decide ((s1.tree.pages parent_id).count ≥ InnerNode.kCapacity P + 1) then
        let new_inner_page_id := s1.tree.next_page
        let s2 := { s1 with tree := { s1.tree with next_page := s1.tree.next_page + 1 } }
        match s2.fix new_inner_page_id with
        | (FixResult.ok _, s3) =>
          let s4 := { s3 with
            tree := (split_inner P s1.tree parent_id).1,
            trace := s3.trace ++ [Event.write new_inner_page_id, Event.write parent_id] }
          let new_root_id := s4.tree.next_page
          match s4.fix new_root_id with
          | (FixResult.ok _, s5) =>
            let r := split_root P s1.tree
            let s6 := Session.unfix { s5 with
              tree := r.1, trace := s5.trace ++ [Event.write new_root_id] } new_root_id
            let parent_id1 := if r.2.1 < key then new_inner_page_id else parent_id
            let s7 := if r.2.1 < key then s6.unfix parent_id else s6.unfix new_inner_page_id
            let child_id := InnerNode.lookup (s7.tree.pages parent_id1) key
            match s7.fix child_id with
            | (FixResult.ok _, s8) => descend_fx P key insert_mode fuel s8 parent_id1 child_id
            | (res, s8) => (s8, Outcome.of_failure res FixSite.child_page)
          | (res, s5) => (s5, Outcome.of_failure res FixSite.new_root_page)
        | (res, s3) => (s3, Outcome.of_failure res FixSite.new_inner_page)
      else
        let child_id := InnerNode.lookup (s1.tree.pages parent_id) key
        match s1.fix child_id with
        | (FixResult.ok _, s8) => descend_fx P key insert_mode fuel s8 parent_id child_id
        | (res, s8) => (s8, Outcome.of_failure res FixSite.child_page)
  | (res, s1) => (s1, Outcome.of_failure res FixSite.parent_page)

/-- Models `BTree::insert` with its calls of the buffer manager. -/
def insert_fx {K V : Type} [LinearOrder K] (P : TreeParams) (fuel : Nat) (s : Session K V)
    (key : K) (value : V) : Session K V × Outcome Unit :=
  if s.tree.is_empty then
    let root := s.tree.next_page
    let s1 := { s with tree := { s.tree with root := root, next_page := s.tree.next_page + 1 } }
    match s1.fix root with
    | (FixResult.ok _, s2) =>
      let root_node := LeafNode.insert { s2.tree.pages root with level := 0 } key value
      let s3 := { s2 with
        tree := { s2.tree with pages := set_page s2.tree.pages root root_node,
                               is_empty := false },
        trace := s2.trace ++ [Event.write root] }
      (s3.unfix root, Outcome.done ())
    | (res, s2) => (s2, Outcome.of_failure res FixSite.root_page)
  else
    match lookup_leaf_page_fx P fuel s key true with
    | (s1, Outcome.done (parent_id, leaf_id)) =>
      if (s1.tree.pages leaf_id).count = LeafNode.kCapacity P then
        let new_leaf_page_id := s1.tree.next_page
        let s2 := { s1 with tree := { s1.tree with next_page := s1.tree.next_page + 1 } }
        match s2.fix new_leaf_page_id with
        | (FixResult.ok _, s3) =>
          let fresh := { s1.tree.pages new_leaf_page_id with level := 0 }
          let halves := LeafNode.split (s1.tree.pages leaf_id) fresh
          let s4 := { s3 with
            tree := { s1.tree with
              next_page := s1.tree.next_page + 1,
              pages := set_page (set_page s1.tree.pages leaf_id halves.2.1)
                new_leaf_page_id halves.2.2 },
            trace := s3.trace ++ [Event.write new_leaf_page_id, Event.write leaf_id] }
          let r := split_leaf P s1.tree parent_id leaf_id
          let target := if r.2.1 < key then r.2.2 else leaf_id
          let target_node := LeafNode.insert (r.1.pages target) key value
          if parent_id = leaf_id then
            let new_root_id := s4.tree.next_page
            match s4.fix new_root_id with
            | (FixResult.ok _, s5) =>
              let s6 := Session.unfix { s5 with
                tree := r.1, trace := s5.trace ++ [Event.write new_root_id] } new_root_id
              let s7 := { s6 with
                tree := { r.1 with pages := set_page r.1.pages target target_node },
                trace := s6.trace ++ [Event.write target] }
              ((s7.unfix new_leaf_page_id).unfix leaf_id, Outcome.done ())
            | (res, s5) => (s5, Outcome.of_failure res FixSite.new_root_page)
          else
            let s7 := { s4 with
              tree := { r.1 with pages := set_page r.1.pages target target_node },
              trace := s4.trace ++ [Event.write parent_id, Event.write target] }
            ((s7.unfix new_leaf_page_id).unfix leaf_id, Outcome.done ())
        | (res, s3) => (s3, Outcome.of_failure res FixSite.new_leaf_page)
      else
        let leaf_node1 := LeafNode.insert (s1.tree.pages leaf_id) key value
        let s2 := { s1 with
          tree := { s1.tree with pages := set_page s1.tree.pages leaf_id leaf_node1 },
          trace := s1.trace ++ [Event.write leaf_id] }
        (s2.unfix leaf_id, Outcome.done ())
    | (s1, Outcome.buffer_full_error site) => (s1, Outcome.buffer_full_error site)
    | (s1, Outcome.blocked site) => (s1, Outcome.blocked site)
    | (s1, Outcome.out_of_fuel) => (s1, Outcome.out_of_fuel)

/-- A session on `t` with a pool of `page_count` frames, none of them fixed. -/
def Session.start {K V : Type} (t : BTree K V) (page_count : Nat) : Session K V :=
  { tree := t, pool := { page_count := page_count, fixed := [] }, trace := [] }

/-- The entries of a leaf in slot order. -/
def LeafNode.get_entries {K V : Type} (n : Node K V) : List (K × V) :=
  (List.range n.count).map (fun i => (n.keys i, n.values i))

/-- The entries of the leaves below page `id`, from left to right; `fuel`
bounds the depth as in `leaf_keys_in_order`. -/
def entries_below {K V : Type} (pages : Nat → Node K V) : Nat → Nat → List (K × V)
  | 0, _ => []
  | fuel + 1, id =>
    if (pages id).is_leaf then LeafNode.get_entries (pages id)
    else (List.range (pages id).count).flatMap
      (fun i => entries_below pages fuel ((pages id).children i))

/-- The entries of the leaves below page `id`, read to the depth that the
level of the page gives. -/
def entries_of {K V : Type} (pages : Nat → Node K V) (id : Nat) : List (K × V) :=
  entries_below pages ((pages id).level + 1) id

/-- The key/value entries reachable from the root of a tree: none when the
tree is empty, otherwise those of the leaves below the root. -/
def BTree.entries {K V : Type} (t : BTree K V) : List (K × V) :=
  if t.is_empty then [] else entries_of t.pages t.root

/-- The tree `t1` has the same set of reachable entries as the tree `t`. -/
def SameEntries {K V : Type} (t t1 : BTree K V) : Prop :=
  ∀ e, e ∈ t1.entries ↔ e ∈ t.entries

/-! ## Nodes and pools for the statements about single calls -/

/-- The number of keys among the first `m` key slots of a node that compare
less than `q`. -/
def keys_less {K V : Type} [LinearOrder K] (n : Node K V) (m : Nat) (q : K) : Nat :=
  ((List.range m).filter (fun j => decide (n.keys j < q))).length

/-- A leaf with the entries (10, 100), (20, 200), (30, 300); the slots behind
them hold what this numbering continues with. -/
def leaf_three_entries : Node Nat Nat :=
  { level := 0, count := 3, keys := fun i => 10 * (i + 1), children := fun _ => 0,
    values := fun i => 100 * (i + 1) }

/-- A leaf with the entries (10, 100), (20, 200). -/
def leaf_two_entries : Node Nat Nat :=
  { leaf_three_entries with count := 2 }

/-- An inner node of level 1 with the children 11, 12, 13 and the separators
10, 20; slot 2 of the keys holds 20 again and slot 3 of the children holds
0. -/
def inner_three_children : Node Nat Nat :=
  { level := 1, count := 3,
    keys := fun i => if i = 0 then 10 else 20,
    children := fun i => if i < 3 then 11 + i else 0,
    values := fun _ => 0 }

/-- An inner node of level 1 with the children 11, 12, 13, 14 and the
separators 10, 20, 30: a full node when `K_inner` is 3. -/
def inner_four_children : Node Nat Nat :=
  { level := 1, count := 4,
    keys := fun i => 10 * (i + 1),
    children := fun i => if i < 4 then 11 + i else 0,
    values := fun _ => 0 }

/-- Two one-byte frames: page 0 is fixed and stays fixed (pool slot 0), page
1 is fixed and unfixed with `is_dirty` as given (pool slot 1).  The table is
full and the only page that can be evicted is page 1. -/
def scene_victim (is_dirty : Bool) : BufferManager :=
  (BufferManager.blank 1 2).run
    [Call.fix_page 0 true, Call.fix_page 1 true, Call.unfix_page 1 is_dirty]

/-! ## Trees and calls for the statements about whole operations -/

/-- The inserts of the keys `1, 2, ..., n` in increasing order, key `k` with the
value `10 * k`. -/
def increasing_inserts (n : Nat) : List (Nat × Nat) :=
  (List.range n).map (fun i => (i + 1, 10 * (i + 1)))

/-- A fresh tree in segment 0 after the inserts of the keys 1 to `n` in
increasing order; the bound on the descents is 4. -/
def tree_increasing (P : TreeParams) (n : Nat) : BTree Nat Nat :=
  (insert_all P 4 (BTree.init Nat Nat 0 0 0) (increasing_inserts n)).getD
    (BTree.init Nat Nat 0 0 0)

/-- A call of `insert` or of `erase`. -/
inductive Op (K V : Type) where
  | insert (key : K) (value : V)
  | erase (key : K)

/-- Whether a call is a call of `insert`. -/
def Op.is_insert {K V : Type} : Op K V → Bool
  | Op.insert _ _ => true
  | Op.erase _ => false

/-- A sequence of `insert` and `erase` calls, each with the same bound on the
length of its descent. -/
def apply_all {K V : Type} [LinearOrder K] (P : TreeParams) (fuel : Nat) :
    BTree K V → List (Op K V) → Option (BTree K V)
  | t, [] => some t
  | t, Op.insert k v :: rest =>
    match insert P fuel t k v with
    | none => none
    | some t1 => apply_all P fuel t1 rest
  | t, Op.erase k :: rest =>
    match erase P fuel t k with
    | none => none
    | some t1 => apply_all P fuel t1 rest

/-- The first page id of a segment: `(uint64_t)segment_id << 48`, the value the
constructor gives `next_page`. -/
def first_page (segment_id : Nat) : Nat :=
  ((segment_id % 2 ^ 16) <<< 48) % 2 ^ 64

/-- The counts of the inner nodes that the descent loop of `lookup_leaf_page`
applies `insert_split` to in insert mode, each read when the call is made, in
the order of the calls. -/
def descend_insert_split_counts {K V : Type} [LinearOrder K] (P : TreeParams) (key : K) :
    Nat → BTree K V → Nat → Nat → List Nat
  | 0, _, _, _ => []
  | fuel + 1, t, parent_id, child_id =>
    if (t.pages child_id).is_leaf then []
    else
      if (t.pages child_id).count ≥ InnerNode.kCapacity P + 1 then
        let r := split_child P t parent_id child_id
        let child_id1 := if r.2.1 < key then r.2.2 else child_id
        ((split_inner P t child_id).1.pages parent_id).count ::
          descend_insert_split_counts P key fuel r.1 child_id1
            (InnerNode.lookup (r.1.pages child_id1) key)
      else
        descend_insert_split_counts P key fuel t child_id
          (InnerNode.lookup (t.pages child_id) key)

/-- The counts of the inner nodes that `insert(key, _)` applies `insert_split` to,
each read when the call is made: those of the descent, and at the end the
parent of a full leaf that is not the root. -/
def insert_split_counts {K V : Type} [LinearOrder K] (P : TreeParams) (fuel : Nat)
    (t : BTree K V) (key : K) : List Nat :=
  if t.is_empty then []
  else
    (if (t.pages t.root).is_leaf then []
     else
      if (t.pages t.root).count ≥ InnerNode.kCapacity P + 1 then
        let r := split_root P t
        let parent_id1 := if r.2.1 < key then r.2.2 else t.root
        descend_insert_split_counts P key fuel r.1 parent_id1
          (InnerNode.lookup (r.1.pages parent_id1) key)
      else
        descend_insert_split_counts P key fuel t t.root
          (InnerNode.lookup (t.pages t.root) key)) ++
    (match lookup_leaf_page P fuel t key true with
     | none => []
     | some (t1, parent_id, leaf_id) =>
       if (t1.pages leaf_id).count = LeafNode.kCapacity P ∧ parent_id ≠ leaf_id then
         let fresh := { t1.pages t1.next_page with level := 0 }
         let r := LeafNode.split (t1.pages leaf_id) fresh
         [(set_page (set_page t1.pages leaf_id r.2.1) t1.next_page r.2.2 parent_id).count]
       else [])

/-- A fresh tree in segment 0 after the inserts of 10, 20, 30, 40, 50: an inner
root (page 2) over the leaf with 10, 20 (page 0) and the leaf with 30, 40, 50
(page 1), which is full. -/
def tree_full_right_leaf : BTree Nat Nat :=
  (insert_all params_wide_values 3 (BTree.init Nat Nat 0 0 0)
    [(10, 100), (20, 200), (30, 300), (40, 400), (50, 500)]).getD (BTree.init Nat Nat 0 0 0)

/-- The pages that a trace writes to while they are not fixed, in the order of
the writes; `fixed` lists the pages that are fixed when the trace begins. -/
def unfixed_writes : List Nat → List Event → List Nat
  | _, [] => []
  | fixed, Event.fix_page page_id _ :: rest => unfixed_writes (page_id :: fixed) rest
  | fixed, Event.unfix_page page_id _ :: rest => unfixed_writes (fixed.erase page_id) rest
  | fixed, Event.write page_id :: rest =>
    if page_id ∈ fixed then unfixed_writes fixed rest
    else page_id :: unfixed_writes fixed rest

/-- The call of the buffer manager that an event of a trace is; a write into a
page is none. -/
def Event.to_call : Event → Option Call
  | Event.fix_page page_id exclusive => some (Call.fix_page page_id exclusive)
  | Event.unfix_page page_id is_dirty => some (Call.unfix_page page_id is_dirty)
  | Event.write _ => none

/-- The calls of the buffer manager in a trace, in order. -/
def trace_calls (trace : List Event) : List Call :=
  trace.filterMap Event.to_call

/-- The calls of `fix_page` in a trace, in order: the page and the value of
`exclusive`. -/
def fix_events : List Event → List (Nat × Bool)
  | [] => []
  | Event.fix_page page_id exclusive :: rest => (page_id, exclusive) :: fix_events rest
  | Event.unfix_page _ _ :: rest => fix_events rest
  | Event.write _ :: rest => fix_events rest

/-- Models `BTree::lookup` with its calls of the buffer manager. -/
def lookup_fx {K V : Type} [LinearOrder K] (P : TreeParams) (fuel : Nat) (s : Session K V)
    (key : K) : Session K V × Outcome (Option V) :=
  match lookup_leaf_page_fx P fuel s key false with
  | (s1, Outcome.done (parent_id, leaf_id)) =>
    let result := LeafNode.lookup (s1.tree.pages leaf_id) key
    if parent_id = leaf_id then (s1.unfix parent_id, Outcome.done result)
    else (s1.unfix leaf_id, Outcome.done result)
  | (s1, Outcome.buffer_full_error site) => (s1, Outcome.buffer_full_error site)
  | (s1, Outcome.blocked site) => (s1, Outcome.blocked site)
  | (s1, Outcome.out_of_fuel) => (s1, Outcome.out_of_fuel)

/-- Models `BTree::erase` with its calls of the buffer manager. -/
def erase_fx {K V : Type} [LinearOrder K] (P : TreeParams) (fuel : Nat) (s : Session K V)
    (key : K) : Session K V × Outcome Unit :=
  match lookup_leaf_page_fx P fuel s key false with
  | (s1, Outcome.done (parent_id, leaf_id)) =>
    let s2 := { s1 with
      tree := { s1.tree with
        pages := set_page s1.tree.pages leaf_id (LeafNode.erase (s1.tree.pages leaf_id) key) },
      trace := s1.trace ++ [Event.write leaf_id] }
    if parent_id = leaf_id then (s2.unfix parent_id, Outcome.done ())
    else (s2.unfix leaf_id, Outcome.done ())
  | (s1, Outcome.buffer_full_error site) => (s1, Outcome.buffer_full_error site)
  | (s1, Outcome.blocked site) => (s1, Outcome.blocked site)
  | (s1, Outcome.out_of_fuel) => (s1, Outcome.out_of_fuel)

/-- The pool of `scene_victim false` after the holder of page 0 wrote the byte 7
into its frame. -/
def scene_victim_written : BufferManager :=
  write_bytes (scene_victim false) 0 [7]

/-- Models `BTree::BTree(segment_id, buffer_manager)` on a buffer manager whose pages
hold `pages`, for instance the pages of the trees of other segments.  The
constructor does not initialise `root` and `leaf_page_id`; `root0` and `leaf0`
are the values these fields happen to hold. -/
def BTree.init_on {K V : Type} (pages : PageStore K V) (segment_id root0 leaf0 : Nat) :
    BTree K V :=
  { pages := pages, root := root0, next_page := first_page segment_id,
    leaf_page_id := leaf0, is_empty := true }

/-- A tree in segment 1 after the insert of (5, 50): its root, page
`1 << 48`, is a leaf with that entry. -/
def tree_other_segment : BTree Nat Nat :=
  (insert params_wide_values 1 (BTree.init Nat Nat 1 0 0) 5 50).getD (BTree.init Nat Nat 1 0 0)

/-- The leaves among the allocated pages `first, ..., next_page - 1` of `t` hold
at least one entry each. -/
def LeavesNonEmpty {K V : Type} (first : Nat) (t : BTree K V) : Prop :=
  ∀ id, first ≤ id → id < t.next_page → (t.pages id).level = 0 → 0 < (t.pages id).count

/-- Four inserts that build a root over two leaves, then the erase of both
entries of the right leaf. -/
def ops_empty_right_leaf : List (Op Nat Nat) :=
  [Op.insert 10 100, Op.insert 20 200, Op.insert 30 300, Op.insert 40 400,
   Op.erase 30, Op.erase 40]

/-! ## Operators -/

/-- The loop of `Projection::get_output`: `remaining` passes are left, `i` is the loop
variable and `output` the vector built so far; `none` is a read of `src[i]`
behind the end of the vector. -/
def Projection.get_output_loop {R : Type} (src : List R) : Nat → Nat → List R → Option (List R)
  | 0, _, output => some output
  | remaining + 1, i, output =>
    match src.get? i with
    | none => none
    | some r => Projection.get_output_loop src remaining (i + 1) (output ++ [r])

/-- Models `Projection::get_output`.  `src` is the vector `input->get_output()` returns
and `attr_indexes` the member of the operator: the loop runs
`attr_indexes.size()` times and pushes `src[i]`. -/
def Projection.get_output {R : Type} (src : List R) (attr_indexes : List Nat) :
    Option (List R) :=
  Projection.get_output_loop src attr_indexes.length 0 []

/-! ## Configurations, failed reads and the shape of a tree of any value width -/

/-- A buffer manager with one one-byte frame over segment files that cannot
be opened, after a `fix_page(0, false)`: the read failed, and the frame that
`lock_frame` created for page 0 before the read is still in the frame table. -/
def scene_failed_read : BufferManager :=
  (BufferManager.init 1 1 (fun _ _ => 0) (fun _ => true)).run [Call.fix_page 0 false]

/-- The number `x` rounded up to a multiple of `a`. -/
def align_up (x a : Nat) : Nat := (x + a - 1) / a * a

/-- Models `sizeof(InnerNode)` for a key type whose alignment is its size: the
two `uint16_t` fields of `Node`, the keys at the next multiple of the key
size, and the `kCapacity + 1` children at the next multiple of 8. -/
def InnerNode.size_bytes (P : TreeParams) : Nat :=
  align_up (align_up 4 P.sizeofKey + InnerNode.kCapacity P * P.sizeofKey) 8 +
    (InnerNode.kCapacity P + 1) * 8

/-- Models `sizeof(LeafNode)` for key and value types whose alignment is their
size: the two `uint16_t` fields of `Node`, the keys, the values, and the
padding up to the alignment of the struct. -/
def LeafNode.size_bytes (P : TreeParams) : Nat :=
  align_up
    (align_up (align_up 4 P.sizeofKey + LeafNode.kCapacity P * P.sizeofKey) P.sizeofValue +
      LeafNode.kCapacity P * P.sizeofValue)
    (max 2 (max P.sizeofKey P.sizeofValue))

/-- The configurations on which the node functions stay inside their page
and their `count` field: keys and values of an integer type of 1, 2, 4 or 8
bytes, at least three entries per leaf and two keys per inner node, counts
that fit the 16-bit `count` field, and both node structs no larger than the
page.  (The source reads a page as `InnerNode` or `LeafNode` without comparing
their sizes with `PageSize`; with 4-byte keys on pages of 56 bytes `InnerNode`
has 64 bytes.) -/
def ConfigOK (P : TreeParams) : Prop :=
  (P.sizeofKey = 1 ∨ P.sizeofKey = 2 ∨ P.sizeofKey = 4 ∨ P.sizeofKey = 8) ∧
  (P.sizeofValue = 1 ∨ P.sizeofValue = 2 ∨ P.sizeofValue = 4 ∨ P.sizeofValue = 8) ∧
  3 ≤ LeafNode.kCapacity P ∧ LeafNode.kCapacity P < 2 ^ 16 ∧
  2 ≤ InnerNode.kCapacity P ∧ InnerNode.kCapacity P + 1 < 2 ^ 16 ∧
  InnerNode.size_bytes P ≤ P.PageSize ∧ LeafNode.size_bytes P ≤ P.PageSize

instance (P : TreeParams) : Decidable (ConfigOK P) := by
  unfold ConfigOK; infer_instance

/-- `InnerNode` moves its child pointers, which are `uint64_t`, with
`sizeof(ValueT)` bytes per pointer, so a move can end inside a pointer and
replace only its low-order bytes.  `ids_fit P bound` says that such a move
still copies every page id below `bound` whole: the values are as wide as a
pointer, or every page id below `bound` fits into the bytes of one value. -/
def ids_fit (P : TreeParams) (bound : Nat) : Prop :=
  P.sizeofValue = 8 ∨ bound ≤ 256 ^ P.sizeofValue

instance (P : TreeParams) (bound : Nat) : Decidable (ids_fit P bound) := by
  unfold ids_fit; infer_instance

/-- What a memmove of child pointers needs in order to copy page ids below
`bound` whole, whatever the number of pointers it is asked to move: it ends
between two pointers, or the bytes of the pointer it ends in hold every page
id below `bound`. -/
def PtrFit (P : TreeParams) (bound : Nat) : Prop :=
  ∀ num, ((num * P.sizeofValue) % 2 ^ 64) % 8 = 0 ∨
    bound ≤ 256 ^ (((num * P.sizeofValue) % 2 ^ 64) % 8)

/-- The shape invariant that inserts keep whatever the width of a value: a
page of level 0 is a sorted leaf within its capacity; an inner page is
allocated and has between one and `K_inner + 1` children; every child slot of
an inner page, used or not, names a page of a lower level; every child slot
names an allocated page or holds 0; the child slots of the pages that are not
allocated hold 0; page 0 is not an inner page; the root of a non-empty tree is
allocated; and an empty tree has only pages that read as empty leaves. -/
structure TreeInvW {K V : Type} [LinearOrder K] (P : TreeParams) (t : BTree K V) : Prop where
  leaf : ∀ id, (t.pages id).level = 0 → LeafOK P (t.pages id)
  inner : ∀ id, (t.pages id).level ≠ 0 →
    id < t.next_page ∧ 1 ≤ (t.pages id).count ∧ (t.pages id).count ≤ InnerNode.kCapacity P + 1
  down : ∀ id j, (t.pages id).level ≠ 0 →
    (t.pages ((t.pages id).children j)).level < (t.pages id).level
  slot : ∀ id j, (t.pages id).children j < t.next_page ∨ (t.pages id).children j = 0
  fresh : ∀ id, t.next_page ≤ id → ∀ j, (t.pages id).children j = 0
  zero : (t.pages 0).level = 0
  root : t.is_empty = false → t.root < t.next_page
  empty : t.is_empty = true → ∀ id, (t.pages id).level = 0 ∧ (t.pages id).count = 0

/-- Models `BTree<uint64_t, uint64_t, std::less<uint64_t>, 48>`: `LeafNode::kCapacity`
is `(48 - 16) / (8 + 8) = 2` and `InnerNode::kCapacity` is `(48 - 8) / (8 + 8) = 2`;
`InnerNode` has 48 bytes and `LeafNode` 40. -/
def params_two_per_leaf : TreeParams :=
  { PageSize := 48, sizeofKey := 8, sizeofValue := 8 }

/-- Models `BTree<uint32_t, uint32_t, std::less<uint32_t>, 1024>`: keys and
values of 4 bytes on pages of 1024 bytes, 84 entries per leaf and 84 keys per
inner node. -/
def params_page_1024 : TreeParams :=
  { PageSize := 1024, sizeofKey := 4, sizeofValue := 4 }

/-! ## Theorems -/

/-- C9: a 64-bit page id is recomposed from its segment id and its index in
the segment, and both parts are read back from a composed id. -/
theorem page_id_roundtrip (id s p : Nat) (hid : id < 2 ^ 64) (hs : s < 2 ^ 16)
    (hp : p < 2 ^ 48) :
    make_page_id (get_segment_id id) (get_segment_page_id id) = id ∧
    get_segment_id (make_page_id s p) = s ∧
    get_segment_page_id (make_page_id s p) = p := by
  have key : ∀ a b : Nat, b < 2 ^ 48 → (a <<< 48) ||| b = a * 2 ^ 48 + b := by
    intro a b hb
    rw [Nat.shiftLeft_eq, Nat.mul_comm, Nat.mul_add_lt_is_or hb]
  have hmask : ∀ a : Nat, a &&& ((1 <<< 48) - 1) = a % 2 ^ 48 := by
    intro a
    have : (1 <<< 48) - 1 = 2 ^ 48 - 1 := by norm_num [Nat.shiftLeft_eq]
    rw [this, Nat.and_pow_two_sub_one_eq_mod]
  unfold make_page_id get_segment_id get_segment_page_id
  simp only [hmask, Nat.shiftRight_eq_div_pow]
  have h1 : id / 2 ^ 48 < 2 ^ 16 := by
    apply Nat.div_lt_of_lt_mul; omega
  refine ⟨?_, ?_, ?_⟩
  · rw [Nat.mod_eq_of_lt h1]
    have h2 : (id / 2 ^ 48) <<< 48 = id / 2 ^ 48 * 2 ^ 48 := Nat.shiftLeft_eq _ _
    have h3 : id / 2 ^ 48 * 2 ^ 48 < 2 ^ 64 := by omega
    rw [h2, Nat.mod_eq_of_lt h3, ← h2, key _ _ (Nat.mod_lt _ (by norm_num))]
    omega
  · have h2 : s <<< 48 = s * 2 ^ 48 := Nat.shiftLeft_eq _ _
    have h3 : s * 2 ^ 48 < 2 ^ 64 := by omega
    rw [h2, Nat.mod_eq_of_lt h3, ← h2, key _ _ hp]
    have h4 : s * 2 ^ 48 + p < 2 ^ 64 := by omega
    rw [Nat.mod_eq_of_lt h4]
    have h5 : (s * 2 ^ 48 + p) / 2 ^ 48 = s := by omega
    rw [h5, Nat.mod_eq_of_lt hs]
  · have h2 : s <<< 48 = s * 2 ^ 48 := Nat.shiftLeft_eq _ _
    have h3 : s * 2 ^ 48 < 2 ^ 64 := by omega
    rw [h2, Nat.mod_eq_of_lt h3, ← h2, key _ _ hp]
    have h4 : s * 2 ^ 48 + p < 2 ^ 64 := by omega
    rw [Nat.mod_eq_of_lt h4]
    omega

/-! ### The frame table -/

theorem lookup_eq_none_iff_not_mem (m : List (Nat × BufferFrame)) (id : Nat) :
    m.lookup id = none ↔ id ∉ frame_ids m := by
  induction m with
  | nil => simp [frame_ids]
  | cons e m ih =>
    obtain ⟨k, f⟩ := e
    by_cases h : id = k
    · subst h; simp [List.lookup, frame_ids]
    · have h2 : (id == k) = false := by simpa using h
      simp only [List.lookup, h2, ih]
      simp [frame_ids, h]

theorem frame_touch_of_mem (m : List (Nat × BufferFrame)) (id : Nat)
    (h : id ∈ frame_ids m) : frame_touch m id = m := by
  unfold frame_touch
  cases hl : m.lookup id with
  | some f => rfl
  | none => exact absurd h ((lookup_eq_none_iff_not_mem m id).1 hl)

theorem frame_touch_of_not_mem (m : List (Nat × BufferFrame)) (id : Nat)
    (h : id ∉ frame_ids m) : frame_touch m id = m ++ [(id, BufferFrame.fresh)] := by
  unfold frame_touch
  rw [(lookup_eq_none_iff_not_mem m id).2 h]

theorem frame_get_of_not_mem (m : List (Nat × BufferFrame)) (id : Nat)
    (h : id ∉ frame_ids m) : frame_get m id = BufferFrame.fresh := by
  unfold frame_get
  rw [(lookup_eq_none_iff_not_mem m id).2 h]; rfl

theorem frame_get_touch (m : List (Nat × BufferFrame)) (id id2 : Nat) :
    frame_get (frame_touch m id) id2 = frame_get m id2 := by
  unfold frame_touch
  cases hl : m.lookup id with
  | some f => rfl
  | none =>
    simp only [frame_get, List.lookup_append]
    cases hl2 : m.lookup id2 with
    | some f => simp
    | none =>
      by_cases h : id2 = id
      · subst h; simp [List.lookup]
      · have h2 : (id2 == id) = false := by simpa using h
        simp [List.lookup, h2]

theorem frame_ids_touch_mem (m : List (Nat × BufferFrame)) (id : Nat) :
    id ∈ frame_ids (frame_touch m id) := by
  by_cases h : id ∈ frame_ids m
  · rw [frame_touch_of_mem m id h]; exact h
  · rw [frame_touch_of_not_mem m id h]; simp [frame_ids]

theorem frame_ids_map_modify (m : List (Nat × BufferFrame)) (id : Nat)
    (g : BufferFrame → BufferFrame) :
    frame_ids (m.map (fun e => (e.1, if e.1 = id then g e.2 else e.2))) = frame_ids m := by
  simp [frame_ids, Function.comp_def]

theorem frame_ids_modify (m : List (Nat × BufferFrame)) (id : Nat)
    (g : BufferFrame → BufferFrame) :
    frame_ids (frame_modify m id g) = frame_ids (frame_touch m id) := by
  unfold frame_modify
  exact frame_ids_map_modify _ _ _

theorem lookup_map_modify (m : List (Nat × BufferFrame)) (id id2 : Nat)
    (g : BufferFrame → BufferFrame) :
    (m.map (fun e => (e.1, if e.1 = id then g e.2 else e.2))).lookup id2 =
      (m.lookup id2).map (fun f => if id2 = id then g f else f) := by
  induction m with
  | nil => rfl
  | cons e m ih =>
    obtain ⟨k, f⟩ := e
    simp only [List.map_cons, List.lookup_cons]
    by_cases hk : id2 = k
    · subst hk; simp
    · have h2 : (id2 == k) = false := by simpa using hk
      simp only [h2, ih]

theorem frame_get_map_modify (m : List (Nat × BufferFrame)) (id id2 : Nat)
    (g : BufferFrame → BufferFrame) :
    frame_get (m.map (fun e => (e.1, if e.1 = id then g e.2 else e.2))) id2 =
      if id2 = id ∧ id2 ∈ frame_ids m then g (frame_get m id2) else frame_get m id2 := by
  unfold frame_get
  rw [lookup_map_modify]
  cases hl : m.lookup id2 with
  | none =>
    have := (lookup_eq_none_iff_not_mem m id2).1 hl
    simp [this]
  | some f =>
    have hm : id2 ∈ frame_ids m := by
      by_contra hc
      rw [(lookup_eq_none_iff_not_mem m id2).2 hc] at hl
      cases hl
    by_cases h : id2 = id
    · subst h; simp [hm]
    · simp [h]

theorem frame_get_modify_same (m : List (Nat × BufferFrame)) (id : Nat)
    (g : BufferFrame → BufferFrame) :
    frame_get (frame_modify m id g) id = g (frame_get m id) := by
  unfold frame_modify
  rw [frame_get_map_modify, frame_get_touch]
  simp [frame_ids_touch_mem]

theorem frame_get_modify_other (m : List (Nat × BufferFrame)) (id id2 : Nat)
    (g : BufferFrame → BufferFrame) (h : id2 ≠ id) :
    frame_get (frame_modify m id g) id2 = frame_get m id2 := by
  unfold frame_modify
  rw [frame_get_map_modify, frame_get_touch]
  simp [h]

theorem frame_ids_erase (m : List (Nat × BufferFrame)) (id : Nat) :
    frame_ids (frame_erase m id) = (frame_ids m).filter (fun k => !(k == id)) := by
  induction m with
  | nil => rfl
  | cons e m ih =>
    obtain ⟨k, f⟩ := e
    simp only [frame_ids, frame_erase] at ih ⊢
    by_cases h : k = id
    · subst h; simp [List.filter_cons, ih]
    · have h2 : (k == id) = false := by simpa using h
      simp [List.filter_cons, h2, ih]

theorem frame_get_erase_other (m : List (Nat × BufferFrame)) (id id2 : Nat) (h : id2 ≠ id) :
    frame_get (frame_erase m id) id2 = frame_get m id2 := by
  induction m with
  | nil => rfl
  | cons e m ih =>
    obtain ⟨k, f⟩ := e
    simp only [frame_get, frame_erase] at ih ⊢
    by_cases hk : k = id
    · subst hk
      have h2 : (id2 == k) = false := by simpa using h
      simp [List.filter_cons, List.lookup, h2, ih]
    · have h3 : (k == id) = false := by simpa using hk
      simp only [List.filter_cons, h3, Bool.not_false, if_true]
      by_cases hk2 : id2 = k
      · subst hk2; simp [List.lookup]
      · have h2 : (id2 == k) = false := by simpa using hk2
        simp [List.lookup, h2, ih]

/-! ### Victim selection -/

theorem evict_scan_none (l : List Nat) :
    ∀ (m m2 : List (Nat × BufferFrame)), evict_scan m l = (none, m2) →
      m2 = m ∧ ∀ id ∈ l, id ∈ frame_ids m ∧ (frame_get m id).thread_cnt ≠ 0 := by
  induction l with
  | nil =>
    intro m m2 h
    simp only [evict_scan, Prod.mk.injEq, true_and] at h
    exact ⟨h.symm, by simp⟩
  | cons a l ih =>
    intro m m2 h
    unfold evict_scan at h
    rw [frame_get_touch] at h
    by_cases hc : (frame_get m a).thread_cnt = 0
    · simp [hc] at h
    · rw [if_neg hc] at h
      have ha : a ∈ frame_ids m := by
        by_contra hn
        rw [frame_get_of_not_mem m a hn] at hc
        exact hc rfl
      rw [frame_touch_of_mem m a ha] at h
      obtain ⟨h1, h2⟩ := ih m m2 h
      refine ⟨h1, ?_⟩
      intro id hid
      rcases List.mem_cons.1 hid with rfl | hid
      · exact ⟨ha, hc⟩
      · exact h2 id hid

theorem evict_scan_of_mem (l : List Nat) (m : List (Nat × BufferFrame))
    (h : ∀ id ∈ l, id ∈ frame_ids m) :
    evict_scan m l = (l.find? (fun id => decide ((frame_get m id).thread_cnt = 0)), m) := by
  induction l with
  | nil => rfl
  | cons a l ih =>
    have ha : a ∈ frame_ids m := h a (List.mem_cons_self _ _)
    unfold evict_scan
    rw [frame_touch_of_mem m a ha]
    by_cases hc : (frame_get m a).thread_cnt = 0
    · simp [hc]
    · rw [if_neg hc, ih (fun id hid => h id (List.mem_cons_of_mem _ hid))]
      simp [List.find?_cons, hc]

theorem evict_check_none (bm bm1 : BufferManager) (h : evict_check bm = (none, bm1)) :
    bm1 = bm ∧ (∀ id ∈ bm.fifo ++ bm.lru,
      id ∈ frame_ids bm.bufferframes ∧ pin_count bm id ≠ 0) := by
  unfold evict_check at h
  cases h1 : evict_scan bm.bufferframes bm.fifo with
  | mk r m =>
    rw [h1] at h
    cases r with
    | some v => simp at h
    | none =>
      obtain ⟨hm, hf⟩ := evict_scan_none _ _ _ h1
      subst hm
      simp only at h
      cases h2 : evict_scan bm.bufferframes bm.lru with
      | mk r2 m2 =>
        rw [h2] at h
        simp only [Prod.mk.injEq] at h
        obtain ⟨hr, hb⟩ := h
        subst hr
        obtain ⟨hm2, hl⟩ := evict_scan_none _ _ _ h2
        subst hm2
        refine ⟨hb.symm, ?_⟩
        intro id hid
        rcases List.mem_append.1 hid with hid | hid
        · exact hf id hid
        · exact hl id hid

theorem evict_check_of_wf (bm : BufferManager) (h : WF bm) :
    evict_check bm = (first_unpinned bm, bm) := by
  obtain ⟨_, _, _, hq, _⟩ := h
  have hf : ∀ id ∈ bm.fifo, id ∈ frame_ids bm.bufferframes :=
    fun id hid => hq id (List.mem_append_left _ hid)
  have hl : ∀ id ∈ bm.lru, id ∈ frame_ids bm.bufferframes :=
    fun id hid => hq id (List.mem_append_right _ hid)
  unfold evict_check first_unpinned pin_count
  rw [evict_scan_of_mem _ _ hf]
  cases hv : List.find? (fun id => decide ((frame_get bm.bufferframes id).thread_cnt = 0)) bm.fifo with
  | some v => rfl
  | none =>
    simp only
    rw [evict_scan_of_mem _ _ hl]

theorem load_page_ne_full (bm : BufferManager) (id : Nat) (e : Bool) (pos : Position) :
    (load_page bm id e pos).1 ≠ FixResult.buffer_full_error := by
  unfold load_page
  cases lock_frame bm id true with
  | none => simp
  | some bm1 =>
    simp only
    cases read_frame bm1 id with
    | mk ok bm2 =>
      cases ok with
      | false => simp
      | true =>
        simp only
        split <;> simp

/-- C7: a call of `fix_page` that throws `buffer_full_error` leaves the whole
buffer manager as it was: the frame table with every pin count, latch and
dirty state, both queues, the byte pool and the segment files. -/
theorem fix_page_full_unchanged (bm : BufferManager) (page_id : Nat) (exclusive : Bool)
    (h : (fix_page bm page_id exclusive).1 = FixResult.buffer_full_error) :
    (fix_page bm page_id exclusive).2 = bm := by
  unfold fix_page at h ⊢
  by_cases h1 : page_id ∈ bm.lru
  · simp [h1] at h
  · by_cases h2 : page_id ∈ bm.fifo
    · simp [h1, h2] at h
    · by_cases h3 : bm.bufferframes.length < bm.page_count
      · simp only [h1, h2, h3, if_false, if_true] at h
        exact absurd h (load_page_ne_full _ _ _ _)
      · simp only [h1, h2, h3, if_false] at h ⊢
        cases hc : evict_check bm with
        | mk r bm1 =>
          rw [hc] at h
          cases r with
          | none => exact (evict_check_none bm bm1 hc).1
          | some v =>
            simp only at h
            cases he : evict bm1 v with
            | mk ok bm2 =>
              rw [he] at h
              cases ok with
              | false => simp at h
              | true => exact absurd h (load_page_ne_full _ _ _ _)

theorem first_unpinned_none_iff (bm : BufferManager) :
    first_unpinned bm = none ↔ ∀ id ∈ bm.fifo ++ bm.lru, pin_count bm id ≠ 0 := by
  unfold first_unpinned
  cases hf : List.find? (fun id => decide (pin_count bm id = 0)) bm.fifo with
  | some v =>
    simp only [false_iff, reduceCtorEq]
    intro hall
    have hv := List.find?_some hf
    have hm := List.mem_of_find?_eq_some hf
    simp only [decide_eq_true_eq] at hv
    exact hall v (List.mem_append_left _ hm) hv
  | none =>
    simp only [List.find?_eq_none, decide_eq_true_eq] at hf ⊢
    constructor
    · intro hl id hid
      rcases List.mem_append.1 hid with hid | hid
      · exact hf id hid
      · exact hl id hid
    · intro hall id hid
      exact hall id (List.mem_append_right _ hid)

/-- In a well-formed buffer manager `fix_page` throws `buffer_full_error`
exactly when the page is not in the frame table, the frame table holds
`page_count` frames and every frame in it has a pin count greater than 0. -/
theorem full_iff_of_wf (bm : BufferManager) (hwf : WF bm) (page_id : Nat)
    (exclusive : Bool) :
    (fix_page bm page_id exclusive).1 = FixResult.buffer_full_error ↔
      (page_id ∉ frame_ids bm.bufferframes ∧
       bm.bufferframes.length = bm.page_count ∧
       ∀ id ∈ frame_ids bm.bufferframes, 0 < pin_count bm id) := by
  obtain ⟨_, _, hsub, hq, _, _, _, hlen⟩ := hwf
  constructor
  · intro h
    unfold fix_page at h
    by_cases h1 : page_id ∈ bm.lru
    · simp [h1] at h
    · by_cases h2 : page_id ∈ bm.fifo
      · simp [h1, h2] at h
      · by_cases h3 : bm.bufferframes.length < bm.page_count
        · simp only [h1, h2, h3, if_false, if_true] at h
          exact absurd h (load_page_ne_full _ _ _ _)
        · simp only [h1, h2, h3, if_false] at h
          cases hc : evict_check bm with
          | mk r bm1 =>
            rw [hc] at h
            cases r with
            | none =>
              obtain ⟨_, hall⟩ := evict_check_none bm bm1 hc
              refine ⟨?_, by omega, ?_⟩
              · intro hmem
                rcases List.mem_append.1 (hsub _ hmem) with hm | hm
                · exact h2 hm
                · exact h1 hm
              · intro id hid
                exact Nat.pos_of_ne_zero (hall id (hsub id hid)).2
            | some v =>
              simp only at h
              cases he : evict bm1 v with
              | mk ok bm2 =>
                rw [he] at h
                cases ok with
                | false => simp at h
                | true => exact absurd h (load_page_ne_full _ _ _ _)
  · rintro ⟨hnr, hfull, hpin⟩
    have h1 : page_id ∉ bm.lru := fun hm => hnr (hq _ (List.mem_append_right _ hm))
    have h2 : page_id ∉ bm.fifo := fun hm => hnr (hq _ (List.mem_append_left _ hm))
    have h3 : ¬ bm.bufferframes.length < bm.page_count := by omega
    have hnone : first_unpinned bm = none :=
      (first_unpinned_none_iff bm).2 (fun id hid => Nat.pos_iff_ne_zero.1 (hpin id (hq id hid)))
    unfold fix_page
    simp only [h1, h2, h3, if_false]
    rw [evict_check_of_wf bm ⟨‹_›, ‹_›, hsub, hq, ‹_›, ‹_›, ‹_›, hlen⟩, hnone]

/-! ### Loading and evicting -/

theorem frame_ids_touch_modify (m : List (Nat × BufferFrame)) (id : Nat)
    (g : BufferFrame → BufferFrame) :
    frame_ids (frame_touch (frame_modify m id g) id) = frame_ids (frame_touch m id) := by
  rw [frame_touch_of_mem, frame_ids_modify]
  rw [frame_ids_modify]
  exact frame_ids_touch_mem m id

theorem frame_ids_touch_touch (m : List (Nat × BufferFrame)) (id : Nat) :
    frame_touch (frame_touch m id) id = frame_touch m id :=
  frame_touch_of_mem _ _ (frame_ids_touch_mem m id)

theorem lock_frame_some (bm bm1 : BufferManager) (id : Nat) (e : Bool)
    (h : lock_frame bm id e = some bm1) :
    bm1.fifo = bm.fifo ∧ bm1.lru = bm.lru ∧
    frame_ids bm1.bufferframes = frame_ids (frame_touch bm.bufferframes id) ∧
    bm1.file_error = bm.file_error := by
  unfold lock_frame at h
  cases e with
  | false =>
    simp only [Bool.not_false, if_true] at h
    split at h
    · cases h
    · cases h
      simp [frame_ids_modify, frame_ids_touch_touch]
  | true =>
    simp only [Bool.not_true, Bool.false_eq_true, if_false] at h
    split at h
    · cases h
    · cases h
      simp [frame_ids_modify, frame_ids_touch_touch]

theorem read_frame_fields (bm : BufferManager) (id : Nat) :
    (read_frame bm id).2.fifo = bm.fifo ∧ (read_frame bm id).2.lru = bm.lru ∧
    frame_ids (read_frame bm id).2.bufferframes = frame_ids (frame_touch bm.bufferframes id) ∧
    ((read_frame bm id).1 = false ↔ bm.file_error (get_segment_id id) = true) := by
  unfold read_frame
  by_cases hfe : bm.file_error (get_segment_id id) = true
  · simp [hfe, frame_ids_modify]
  · simp [hfe, frame_ids_modify, frame_ids_touch_modify]

theorem load_page_ids (bm : BufferManager) (id : Nat) (e : Bool) (pos : Position) :
    ∀ k ∈ frame_ids bm.bufferframes, k ∈ frame_ids (load_page bm id e pos).2.bufferframes := by
  intro k hk
  have hsub : k ∈ frame_ids (frame_touch bm.bufferframes id) := by
    by_cases hm : id ∈ frame_ids bm.bufferframes
    · rw [frame_touch_of_mem _ _ hm]; exact hk
    · rw [frame_touch_of_not_mem _ _ hm]
      simp only [frame_ids, List.map_append, List.mem_append] at hk ⊢
      exact Or.inl hk
  unfold load_page
  cases h1 : lock_frame bm id true with
  | none => exact hk
  | some bm1 =>
    obtain ⟨_, _, hids1, _⟩ := lock_frame_some _ _ _ _ h1
    simp only
    obtain ⟨_, _, hids2, _⟩ := read_frame_fields bm1 id
    have hid1 : id ∈ frame_ids bm1.bufferframes := by
      rw [hids1]; exact frame_ids_touch_mem _ _
    rw [frame_touch_of_mem _ _ hid1] at hids2
    cases h2 : read_frame bm1 id with
    | mk ok bm2 =>
      rw [h2] at hids2
      simp only at hids2
      have hid2 : id ∈ frame_ids bm2.bufferframes := by rw [hids2]; exact hid1
      cases ok with
      | false =>
        simp only
        rw [hids2, hids1]; exact hsub
      | true =>
        simp only
        have hbase : ∀ (m : List (Nat × BufferFrame)),
            frame_ids m = frame_ids bm2.bufferframes →
            k ∈ frame_ids m := by
          intro m hm; rw [hm, hids2, hids1]; exact hsub
        split
        · split
          · simp only [unlock_frame]
            apply hbase
            rw [frame_ids_modify, frame_touch_of_mem]
            · rw [frame_ids_modify, frame_touch_of_mem _ _ hid2]
            · simp only [frame_ids_modify]; rw [frame_touch_of_mem _ _ hid2]; exact hid2
          · simp only [unlock_frame]
            apply hbase
            rw [frame_ids_modify, frame_touch_of_mem]
            · rw [frame_ids_modify, frame_touch_of_mem _ _ hid2]
            · simp only [frame_ids_modify]; rw [frame_touch_of_mem _ _ hid2]; exact hid2
        · rename_i bm5 h5
          obtain ⟨_, _, hids5, _⟩ := lock_frame_some _ _ _ _ h5
          rw [hids5]
          split <;>
          · simp only [unlock_frame]
            apply hbase
            rw [frame_ids_touch_modify, frame_touch_of_mem]
            · rw [frame_ids_modify, frame_touch_of_mem _ _ hid2]
            · simp only [frame_ids_modify]; rw [frame_touch_of_mem _ _ hid2]; exact hid2

theorem load_page_ok_fields (bm r : BufferManager) (id k : Nat) (e : Bool) (pos : Position)
    (h : load_page bm id e pos = (FixResult.ok k, r)) :
    k = id ∧ frame_ids r.bufferframes = frame_ids (frame_touch bm.bufferframes id) ∧
    (pos = Position.FIFO → r.fifo = bm.fifo ++ [id] ∧ r.lru = bm.lru) ∧
    (pos ≠ Position.FIFO → r.lru = bm.lru ++ [id] ∧ r.fifo = bm.fifo) := by
  unfold load_page at h
  cases h1 : lock_frame bm id true with
  | none => rw [h1] at h; simp at h
  | some bm1 =>
    rw [h1] at h
    obtain ⟨hf1, hl1, hids1, _⟩ := lock_frame_some _ _ _ _ h1
    simp only at h
    obtain ⟨hf2, hl2, hids2, _⟩ := read_frame_fields bm1 id
    have hid1 : id ∈ frame_ids bm1.bufferframes := by
      rw [hids1]; exact frame_ids_touch_mem _ _
    rw [frame_touch_of_mem _ _ hid1] at hids2
    cases h2 : read_frame bm1 id with
    | mk ok bm2 =>
      rw [h2] at h hids2 hf2 hl2
      simp only at hids2 hf2 hl2
      have hid2 : id ∈ frame_ids bm2.bufferframes := by rw [hids2]; exact hid1
      cases ok with
      | false => simp at h
      | true =>
        simp only at h
        split at h
        · simp at h
        · rename_i bm5 h5
          obtain ⟨hf5, hl5, hids5, _⟩ := lock_frame_some _ _ _ _ h5
          simp only [Prod.mk.injEq, FixResult.ok.injEq] at h
          obtain ⟨hk, hr⟩ := h
          subst hr
          refine ⟨hk.symm, ?_, ?_, ?_⟩
          · rw [hids5]
            by_cases hp : pos = Position.FIFO
            · simp only [hp, if_true, unlock_frame]
              rw [frame_ids_touch_modify, frame_touch_of_mem]
              · rw [frame_ids_modify, frame_touch_of_mem _ _ hid2, hids2, hids1]
              · simp only [frame_ids_modify]; rw [frame_touch_of_mem _ _ hid2]; exact hid2
            · simp only [hp, if_false, unlock_frame]
              rw [frame_ids_touch_modify, frame_touch_of_mem]
              · rw [frame_ids_modify, frame_touch_of_mem _ _ hid2, hids2, hids1]
              · simp only [frame_ids_modify]; rw [frame_touch_of_mem _ _ hid2]; exact hid2
          · intro hp
            rw [hf5, hl5]
            simp only [hp, if_true, unlock_frame]
            rw [hf2, hl2, hf1, hl1]
            exact ⟨rfl, rfl⟩
          · intro hp
            rw [hf5, hl5]
            simp only [hp, if_false, unlock_frame]
            rw [hf2, hl2, hf1, hl1]
            exact ⟨rfl, rfl⟩

theorem load_page_succeeds (bm : BufferManager) (id : Nat) (e : Bool) (pos : Position)
    (hnew : id ∉ frame_ids bm.bufferframes)
    (hfe : bm.file_error (get_segment_id id) = false) :
    (load_page bm id e pos).1 = FixResult.ok id := by
  have hfresh : frame_get bm.bufferframes id = BufferFrame.fresh :=
    frame_get_of_not_mem _ _ hnew
  unfold load_page lock_frame
  simp only [frame_get_touch, hfresh, BufferFrame.fresh, Bool.not_true, Bool.false_eq_true,
    if_false, Bool.or_self, ne_eq, not_true_eq_false, decide_False]
  unfold read_frame
  simp only [hfe, Bool.false_eq_true, if_false]
  by_cases hp : pos = Position.FIFO <;> cases e <;>
    simp [hp, unlock_frame, frame_get_touch, frame_get_modify_same, hfresh, BufferFrame.fresh,
      Latch.unlock]

theorem evict_fields (bm : BufferManager) (v : Nat) :
    ((evict bm v).1 = false → (evict bm v).2 = bm) ∧
    ((evict bm v).1 = true →
      frame_ids (evict bm v).2.bufferframes =
        (frame_ids bm.bufferframes).filter
          (fun k => !(k == (frame_get bm.bufferframes v).page_id)) ∧
      ((frame_get bm.bufferframes v).position = Position.FIFO →
        (evict bm v).2.fifo = bm.fifo.erase (frame_get bm.bufferframes v).page_id ∧
        (evict bm v).2.lru = bm.lru) ∧
      ((frame_get bm.bufferframes v).position ≠ Position.FIFO →
        (evict bm v).2.lru = bm.lru.erase (frame_get bm.bufferframes v).page_id ∧
        (evict bm v).2.fifo = bm.fifo) ∧
      (evict bm v).2.file_error = bm.file_error) ∧
    ((∀ seg, bm.file_error seg = false) → (evict bm v).1 = true) := by
  unfold evict write_back_to_disk
  by_cases hd : (frame_get bm.bufferframes v).state = State.DIRTY
  · by_cases hfe : bm.file_error (get_segment_id (frame_get bm.bufferframes v).page_id) = true
    · simp only [hd, hfe, if_true]
      refine ⟨fun _ => rfl, fun h => by simp at h, fun h => ?_⟩
      rw [h] at hfe; cases hfe
    · by_cases hp : (frame_get bm.bufferframes v).position = Position.FIFO <;>
        simp [hd, hfe, hp, frame_ids_erase]
  · by_cases hp : (frame_get bm.bufferframes v).position = Position.FIFO <;>
      simp [hd, hp, frame_ids_erase]

/-! ### The eviction policy -/

theorem first_unpinned_some (bm : BufferManager) (v : Nat) (h : first_unpinned bm = some v) :
    pin_count bm v = 0 ∧
    ((∃ pre post, bm.fifo = pre ++ v :: post ∧ ∀ x ∈ pre, pin_count bm x ≠ 0) ∨
     ((∀ x ∈ bm.fifo, pin_count bm x ≠ 0) ∧
       ∃ pre post, bm.lru = pre ++ v :: post ∧ ∀ x ∈ pre, pin_count bm x ≠ 0)) := by
  unfold first_unpinned at h
  cases hf : List.find? (fun id => decide (pin_count bm id = 0)) bm.fifo with
  | some w =>
    rw [hf] at h
    simp only [Option.some.injEq] at h
    subst h
    obtain ⟨hp, pre, post, hsplit, hpre⟩ := List.find?_eq_some.1 hf
    simp only [decide_eq_true_eq] at hp
    refine ⟨hp, Or.inl ⟨pre, post, hsplit, ?_⟩⟩
    intro x hx
    simpa using hpre x hx
  | none =>
    rw [hf] at h
    simp only at h
    obtain ⟨hp, pre, post, hsplit, hpre⟩ := List.find?_eq_some.1 h
    simp only [decide_eq_true_eq] at hp
    simp only [List.find?_eq_none, decide_eq_true_eq] at hf
    refine ⟨hp, Or.inr ⟨hf, pre, post, hsplit, ?_⟩⟩
    intro x hx
    simpa using hpre x hx

theorem fix_page_at_capacity (bm : BufferManager) (hwf : WF bm) (page_id : Nat)
    (exclusive : Bool) (hnr : page_id ∉ frame_ids bm.bufferframes)
    (hfull : bm.bufferframes.length = bm.page_count) :
    fix_page bm page_id exclusive =
      match first_unpinned bm with
      | none => (FixResult.buffer_full_error, bm)
      | some v =>
        match evict bm v with
        | (false, bm2) => (FixResult.io_error, bm2)
        | (true, bm2) =>
          load_page bm2 page_id exclusive
            (if (frame_get bm.bufferframes v).position = Position.FIFO then Position.FIFO
             else Position.LRU) := by
  have hq := hwf.2.2.2.1
  have h1 : page_id ∉ bm.lru := fun hm => hnr (hq _ (List.mem_append_right _ hm))
  have h2 : page_id ∉ bm.fifo := fun hm => hnr (hq _ (List.mem_append_left _ hm))
  have h3 : ¬ bm.bufferframes.length < bm.page_count := by omega
  unfold fix_page
  simp only [h1, h2, h3, if_false]
  rw [evict_check_of_wf bm hwf]
  cases first_unpinned bm <;> rfl

/-- C5: when `fix_page` is called for a page that is not resident while the
frame table holds `page_count` frames, no frame with a non-zero pin count
leaves the table; a call that succeeds has evicted exactly one frame, the
first one in FIFO order with pin count 0 or, when all of FIFO is pinned, the
first such one in LRU order, and has queued the new page at the tail of the
victim's queue; the call succeeds whenever some frame is unpinned and the
files work; and when all frames are unfixed the victim is the FIFO head. -/
theorem eviction_order (bm : BufferManager) (hwf : WF bm) (page_id : Nat)
    (exclusive : Bool) (hnr : page_id ∉ frame_ids bm.bufferframes)
    (hfull : bm.bufferframes.length = bm.page_count) :
    (∀ k ∈ frame_ids bm.bufferframes, pin_count bm k ≠ 0 →
      k ∈ frame_ids (fix_page bm page_id exclusive).2.bufferframes) ∧
    (∀ r, fix_page bm page_id exclusive = (FixResult.ok page_id, r) →
      ∃ v, pin_count bm v = 0 ∧
        frame_ids r.bufferframes =
          (frame_ids bm.bufferframes).filter (fun k => !(k == v)) ++ [page_id] ∧
        ((∃ pre post, bm.fifo = pre ++ v :: post ∧ (∀ x ∈ pre, pin_count bm x ≠ 0) ∧
            r.fifo = bm.fifo.erase v ++ [page_id] ∧ r.lru = bm.lru) ∨
         ((∀ x ∈ bm.fifo, pin_count bm x ≠ 0) ∧
            ∃ pre post, bm.lru = pre ++ v :: post ∧ (∀ x ∈ pre, pin_count bm x ≠ 0) ∧
              r.lru = bm.lru.erase v ++ [page_id] ∧ r.fifo = bm.fifo))) ∧
    ((∃ k ∈ frame_ids bm.bufferframes, pin_count bm k = 0) →
      (∀ seg, bm.file_error seg = false) →
      (fix_page bm page_id exclusive).1 = FixResult.ok page_id) ∧
    (∀ hd tl r, bm.fifo = hd :: tl →
      (∀ k ∈ frame_ids bm.bufferframes, pin_count bm k = 0) →
      fix_page bm page_id exclusive = (FixResult.ok page_id, r) →
      frame_ids r.bufferframes =
        (frame_ids bm.bufferframes).filter (fun k => !(k == hd)) ++ [page_id] ∧
      r.fifo = tl ++ [page_id] ∧ r.lru = bm.lru) := by
  have hfix := fix_page_at_capacity bm hwf page_id exclusive hnr hfull
  obtain ⟨_, hnd, hsub, hq, hpf, hpl, hpid, _⟩ := hwf
  -- the shape of a successful call
  have hok : ∀ r, fix_page bm page_id exclusive = (FixResult.ok page_id, r) →
      ∃ v, pin_count bm v = 0 ∧
        frame_ids r.bufferframes =
          (frame_ids bm.bufferframes).filter (fun k => !(k == v)) ++ [page_id] ∧
        ((∃ pre post, bm.fifo = pre ++ v :: post ∧ (∀ x ∈ pre, pin_count bm x ≠ 0) ∧
            r.fifo = bm.fifo.erase v ++ [page_id] ∧ r.lru = bm.lru) ∨
         ((∀ x ∈ bm.fifo, pin_count bm x ≠ 0) ∧
            ∃ pre post, bm.lru = pre ++ v :: post ∧ (∀ x ∈ pre, pin_count bm x ≠ 0) ∧
              r.lru = bm.lru.erase v ++ [page_id] ∧ r.fifo = bm.fifo)) := by
    intro r hr
    rw [hfix] at hr
    cases hv : first_unpinned bm with
    | none => rw [hv] at hr; simp at hr
    | some v =>
      rw [hv] at hr
      simp only at hr
      obtain ⟨hpin, hwhere⟩ := first_unpinned_some bm v hv
      have hvq : v ∈ bm.fifo ++ bm.lru := by
        rcases hwhere with ⟨pre, post, hs, _⟩ | ⟨_, pre, post, hs, _⟩
        · exact List.mem_append_left _ (by rw [hs]; simp)
        · exact List.mem_append_right _ (by rw [hs]; simp)
      have hvid : (frame_get bm.bufferframes v).page_id = v := hpid v (hq v hvq)
      obtain ⟨_, he2, _⟩ := evict_fields bm v
      cases he : evict bm v with
      | mk ok bm2 =>
        rw [he] at hr he2
        cases ok with
        | false => simp at hr
        | true =>
          simp only at hr he2
          obtain ⟨hids2, hfifo2, hlru2, _⟩ := he2 trivial
          rw [hvid] at hids2 hfifo2 hlru2
          obtain ⟨_, hidsr, hrf, hrl⟩ := load_page_ok_fields _ _ _ _ _ _ hr
          have hnew : page_id ∉ frame_ids bm2.bufferframes := by
            rw [hids2]
            intro hm
            exact hnr (List.mem_filter.1 hm).1
          rw [frame_touch_of_not_mem _ _ hnew] at hidsr
          have hidsr2 : frame_ids r.bufferframes =
              (frame_ids bm.bufferframes).filter (fun k => !(k == v)) ++ [page_id] := by
            rw [hidsr]
            simp only [frame_ids, List.map_append, List.map_cons, List.map_nil]
            simp only [frame_ids] at hids2
            rw [hids2]
          refine ⟨v, hpin, hidsr2, ?_⟩
          rcases hwhere with ⟨pre, post, hs, hpre⟩ | ⟨hall, pre, post, hs, hpre⟩
          · have hvf : v ∈ bm.fifo := by rw [hs]; simp
            have hpos := hpf v hvf
            obtain ⟨hf2, hl2⟩ := hfifo2 hpos
            rw [hpos] at hrf
            obtain ⟨hrf1, hrf2⟩ := hrf (by simp)
            exact Or.inl ⟨pre, post, hs, hpre, by rw [hrf1, hf2], by rw [hrf2, hl2]⟩
          · have hvl : v ∈ bm.lru := by rw [hs]; simp
            have hpos := hpl v hvl
            have hne : (frame_get bm.bufferframes v).position ≠ Position.FIFO := by
              rw [hpos]; simp
            obtain ⟨hl2, hf2⟩ := hlru2 hne
            rw [hpos] at hrl
            obtain ⟨hrl1, hrl2⟩ := hrl (by simp)
            exact Or.inr ⟨hall, pre, post, hs, hpre, by rw [hrl1, hl2], by rw [hrl2, hf2]⟩
  refine ⟨?_, hok, ?_, ?_⟩
  · intro k hk hpin
    rw [hfix]
    cases hv : first_unpinned bm with
    | none => exact hk
    | some v =>
      simp only
      obtain ⟨hpinv, hwhere⟩ := first_unpinned_some bm v hv
      have hvq : v ∈ bm.fifo ++ bm.lru := by
        rcases hwhere with ⟨pre, post, hs, _⟩ | ⟨_, pre, post, hs, _⟩
        · exact List.mem_append_left _ (by rw [hs]; simp)
        · exact List.mem_append_right _ (by rw [hs]; simp)
      have hvid : (frame_get bm.bufferframes v).page_id = v := hpid v (hq v hvq)
      have hkv : k ≠ v := by
        intro hkv; subst hkv; exact hpin hpinv
      obtain ⟨he1, he2, _⟩ := evict_fields bm v
      cases he : evict bm v with
      | mk ok bm2 =>
        rw [he] at he1 he2
        cases ok with
        | false =>
          simp only at he1 ⊢
          rw [he1 trivial]; exact hk
        | true =>
          simp only at he2 ⊢
          obtain ⟨hids2, _⟩ := he2 trivial
          rw [hvid] at hids2
          apply load_page_ids
          rw [hids2]
          exact List.mem_filter.2 ⟨hk, by simpa using hkv⟩
  · rintro ⟨k, hk, hpin⟩ hfe
    rw [hfix]
    cases hv : first_unpinned bm with
    | none =>
      exact absurd hpin ((first_unpinned_none_iff bm).1 hv k (hsub k hk))
    | some v =>
      simp only
      obtain ⟨hpinv, hwhere⟩ := first_unpinned_some bm v hv
      have hvq : v ∈ bm.fifo ++ bm.lru := by
        rcases hwhere with ⟨pre, post, hs, _⟩ | ⟨_, pre, post, hs, _⟩
        · exact List.mem_append_left _ (by rw [hs]; simp)
        · exact List.mem_append_right _ (by rw [hs]; simp)
      have hvid : (frame_get bm.bufferframes v).page_id = v := hpid v (hq v hvq)
      obtain ⟨_, he2, he3⟩ := evict_fields bm v
      cases he : evict bm v with
      | mk ok bm2 =>
        rw [he] at he2 he3
        have hok2 : ok = true := he3 hfe
        subst hok2
        simp only at he2 ⊢
        obtain ⟨hids2, _, _, hfe2⟩ := he2 trivial
        rw [hvid] at hids2
        apply load_page_succeeds
        · rw [hids2]
          intro hm
          exact hnr (List.mem_filter.1 hm).1
        · rw [hfe2]; exact hfe _
  · intro hd tl r hfifo hall hr
    obtain ⟨v, hpin, hids, hcase⟩ := hok r hr
    have hhd : hd ∈ frame_ids bm.bufferframes :=
      hq hd (List.mem_append_left _ (by rw [hfifo]; simp))
    rcases hcase with ⟨pre, post, hs, hpre, hrf, hrl⟩ | ⟨hpinned, _⟩
    · cases pre with
      | nil =>
        rw [hfifo] at hs
        simp only [List.nil_append, List.cons.injEq] at hs
        obtain ⟨hv, _⟩ := hs
        subst hv
        refine ⟨hids, ?_, hrl⟩
        rw [hrf, hfifo]
        simp
      | cons a pre =>
        have ha : a ∈ bm.fifo := by rw [hs]; simp
        exact absurd (hall a (hq a (List.mem_append_left _ ha))) (hpre a (by simp))
    · exact absurd (hall hd hhd) (hpinned hd (by rw [hfifo]; simp))

/-! ### Fixing a resident page -/

theorem erase_filter_of_nodup (l : List Nat) (a : Nat) (h : l.Nodup) :
    l.erase a = l.filter (fun k => !(k == a)) := by
  rw [List.Nodup.erase_eq_filter h]
  congr 1

theorem filter_append_self (l : List Nat) (a : Nat) :
    (l ++ [a]).filter (fun k => !(k == a)) = l.filter (fun k => !(k == a)) := by
  simp

/-- C8: `fix_page` on a resident page that is in FIFO removes it from FIFO
and appends it to the tail of LRU; on a resident page that is in LRU it moves
the page to the tail of LRU.  In both cases the call succeeds, the other ids
keep their relative order in both queues, and the set of resident frames is
the same, so nothing is evicted. -/
theorem fix_page_resident (bm : BufferManager) (hwf : WF bm) (page_id : Nat)
    (exclusive : Bool) :
    (page_id ∈ bm.fifo →
      (fix_page bm page_id exclusive).1 = FixResult.ok page_id ∧
      (fix_page bm page_id exclusive).2.fifo = bm.fifo.erase page_id ∧
      page_id ∉ (fix_page bm page_id exclusive).2.fifo ∧
      (fix_page bm page_id exclusive).2.lru = bm.lru ++ [page_id] ∧
      (fix_page bm page_id exclusive).2.fifo.filter (fun k => !(k == page_id)) =
        bm.fifo.filter (fun k => !(k == page_id)) ∧
      (fix_page bm page_id exclusive).2.lru.filter (fun k => !(k == page_id)) =
        bm.lru.filter (fun k => !(k == page_id)) ∧
      frame_ids (fix_page bm page_id exclusive).2.bufferframes = frame_ids bm.bufferframes) ∧
    (page_id ∈ bm.lru →
      (fix_page bm page_id exclusive).1 = FixResult.ok page_id ∧
      (fix_page bm page_id exclusive).2.lru = bm.lru.erase page_id ++ [page_id] ∧
      (fix_page bm page_id exclusive).2.fifo = bm.fifo ∧
      (fix_page bm page_id exclusive).2.lru.filter (fun k => !(k == page_id)) =
        bm.lru.filter (fun k => !(k == page_id)) ∧
      frame_ids (fix_page bm page_id exclusive).2.bufferframes = frame_ids bm.bufferframes) := by
  obtain ⟨_, hnd, _, hq, _⟩ := hwf
  have hndf : bm.fifo.Nodup := (List.nodup_append.1 hnd).1
  have hndl : bm.lru.Nodup := (List.nodup_append.1 hnd).2.1
  have hdisj := (List.nodup_append.1 hnd).2.2
  constructor
  · intro hf
    have hl : page_id ∉ bm.lru := fun hl => hdisj hf hl
    have hres : page_id ∈ frame_ids bm.bufferframes := hq _ (List.mem_append_left _ hf)
    unfold fix_page
    simp only [hl, hf, if_false, if_true]
    refine ⟨trivial, trivial, ?_, trivial, ?_, ?_, ?_⟩
    · rw [erase_filter_of_nodup _ _ hndf]
      simp
    · rw [erase_filter_of_nodup _ _ hndf]
      simp
    · exact filter_append_self _ _
    · rw [frame_ids_modify, frame_touch_of_mem, frame_ids_modify, frame_touch_of_mem _ _ hres]
      rw [frame_ids_modify, frame_touch_of_mem _ _ hres]
      exact hres
  · intro hl
    have hres : page_id ∈ frame_ids bm.bufferframes := hq _ (List.mem_append_right _ hl)
    unfold fix_page
    simp only [hl, if_true]
    refine ⟨trivial, trivial, trivial, ?_, ?_⟩
    · rw [filter_append_self, erase_filter_of_nodup _ _ hndl]
      simp
    · rw [frame_ids_modify, frame_touch_of_mem _ _ hres]

/-! ### The invariants of the frame table are kept -/

theorem frame_touch_length (m : List (Nat × BufferFrame)) (id : Nat) :
    (frame_touch m id).length = if id ∈ frame_ids m then m.length else m.length + 1 := by
  by_cases h : id ∈ frame_ids m
  · rw [frame_touch_of_mem m id h]; simp [h]
  · rw [frame_touch_of_not_mem m id h]; simp [h]

theorem frame_modify_length (m : List (Nat × BufferFrame)) (id : Nat)
    (g : BufferFrame → BufferFrame) :
    (frame_modify m id g).length = (frame_touch m id).length := by
  simp [frame_modify]

theorem frame_ids_length (m : List (Nat × BufferFrame)) : (frame_ids m).length = m.length := by
  simp [frame_ids]

theorem lock_frame_frames (bm bm1 : BufferManager) (id : Nat) (e : Bool)
    (h : lock_frame bm id e = some bm1) :
    (∀ j, j ≠ id → frame_get bm1.bufferframes j = frame_get bm.bufferframes j) ∧
    (frame_get bm1.bufferframes id).position = (frame_get bm.bufferframes id).position ∧
    (frame_get bm1.bufferframes id).page_id = (frame_get bm.bufferframes id).page_id := by
  unfold lock_frame at h
  cases e with
  | false =>
    simp only [Bool.not_false, if_true] at h
    split at h
    · cases h
    · cases h
      refine ⟨fun j hj => ?_, ?_, ?_⟩
      · simp only []
        rw [frame_get_modify_other _ _ _ _ hj, frame_get_touch]
      · simp only []
        rw [frame_get_modify_same, frame_get_touch]
      · simp only []
        rw [frame_get_modify_same, frame_get_touch]
  | true =>
    simp only [Bool.not_true, Bool.false_eq_true, if_false] at h
    split at h
    · cases h
    · cases h
      refine ⟨fun j hj => ?_, ?_, ?_⟩
      · simp only []
        rw [frame_get_modify_other _ _ _ _ hj, frame_get_touch]
      · simp only []
        rw [frame_get_modify_same, frame_get_touch]
      · simp only []
        rw [frame_get_modify_same, frame_get_touch]

theorem read_frame_frames (bm : BufferManager) (id : Nat) :
    (∀ j, j ≠ id → frame_get (read_frame bm id).2.bufferframes j = frame_get bm.bufferframes j) ∧
    (frame_get (read_frame bm id).2.bufferframes id).position
      = (frame_get bm.bufferframes id).position ∧
    (frame_get (read_frame bm id).2.bufferframes id).page_id = id := by
  unfold read_frame
  by_cases hfe : bm.file_error (get_segment_id id) = true
  · simp only [hfe, if_true]
    refine ⟨fun j hj => frame_get_modify_other _ _ _ _ hj, ?_, ?_⟩
    · rw [frame_get_modify_same]
    · rw [frame_get_modify_same]
  · simp only [hfe, Bool.false_eq_true, if_false]
    refine ⟨fun j hj => ?_, ?_, ?_⟩
    · rw [frame_get_modify_other _ _ _ _ hj, frame_get_modify_other _ _ _ _ hj]
    · rw [frame_get_modify_same, frame_get_modify_same]
    · rw [frame_get_modify_same, frame_get_modify_same]

theorem load_page_frames (bm r : BufferManager) (id k : Nat) (e : Bool) (pos : Position)
    (hpos : pos = Position.FIFO ∨ pos = Position.LRU)
    (h : load_page bm id e pos = (FixResult.ok k, r)) :
    (∀ j, j ≠ id → frame_get r.bufferframes j = frame_get bm.bufferframes j) ∧
    (frame_get r.bufferframes id).position = pos ∧
    (frame_get r.bufferframes id).page_id = id := by
  unfold load_page at h
  cases h1 : lock_frame bm id true with
  | none => rw [h1] at h; simp at h
  | some bm1 =>
    rw [h1] at h
    obtain ⟨ho1, _, _⟩ := lock_frame_frames _ _ _ _ h1
    simp only at h
    obtain ⟨ho2, _, hid2⟩ := read_frame_frames bm1 id
    cases h2 : read_frame bm1 id with
    | mk ok bm2 =>
      rw [h2] at h ho2 hid2
      simp only at ho2 hid2
      cases ok with
      | false => simp at h
      | true =>
        simp only at h
        split at h
        · simp at h
        · rename_i bm5 h5
          obtain ⟨ho5, hp5, hid5⟩ := lock_frame_frames _ _ _ _ h5
          simp only [Prod.mk.injEq, FixResult.ok.injEq] at h
          obtain ⟨_, hr⟩ := h
          subst hr
          refine ⟨fun j hj => ?_, ?_, ?_⟩
          · rw [ho5 j hj]
            rcases hpos with hp | hp
            · simp only [hp, if_true, unlock_frame]
              rw [frame_get_modify_other _ _ _ _ hj, frame_get_modify_other _ _ _ _ hj,
                ho2 j hj, ho1 j hj]
            · simp only [hp, if_false, unlock_frame, reduceCtorEq]
              rw [frame_get_modify_other _ _ _ _ hj, frame_get_modify_other _ _ _ _ hj,
                ho2 j hj, ho1 j hj]
          · rw [hp5]
            rcases hpos with hp | hp
            · simp only [hp, if_true, unlock_frame]
              rw [frame_get_modify_same, frame_get_modify_same]
            · simp only [hp, if_false, unlock_frame, reduceCtorEq]
              rw [frame_get_modify_same, frame_get_modify_same]
          · rw [hid5]
            rcases hpos with hp | hp
            · simp only [hp, if_true, unlock_frame]
              rw [frame_get_modify_same, frame_get_modify_same]
              exact hid2
            · simp only [hp, if_false, unlock_frame, reduceCtorEq]
              rw [frame_get_modify_same, frame_get_modify_same]
              exact hid2

theorem wf_init (page_size page_count : Nat) (disk : Nat → Nat → Nat)
    (file_error : Nat → Bool) : WF (BufferManager.init page_size page_count disk file_error) := by
  simp [WF, BufferManager.init, frame_ids]

theorem frame_find_some_mem (m : List (Nat × BufferFrame)) (id : Nat) (f : BufferFrame)
    (h : frame_find m id = some f) : id ∈ frame_ids m := by
  by_contra hn
  unfold frame_find at h
  rw [(lookup_eq_none_iff_not_mem m id).2 hn] at h
  cases h

theorem wf_modify (bm : BufferManager) (hwf : WF bm) (id : Nat)
    (g : BufferFrame → BufferFrame) (hid : id ∈ frame_ids bm.bufferframes)
    (hg : ∀ f, (g f).position = f.position ∧ (g f).page_id = f.page_id) :
    WF { bm with bufferframes := frame_modify bm.bufferframes id g } := by
  obtain ⟨h1, h2, h3, h4, h5, h6, h7, h8⟩ := hwf
  have hids : frame_ids (frame_modify bm.bufferframes id g) = frame_ids bm.bufferframes := by
    rw [frame_ids_modify, frame_touch_of_mem _ _ hid]
  have hget : ∀ j, (frame_get (frame_modify bm.bufferframes id g) j).position
        = (frame_get bm.bufferframes j).position ∧
      (frame_get (frame_modify bm.bufferframes id g) j).page_id
        = (frame_get bm.bufferframes j).page_id := by
    intro j
    by_cases hj : j = id
    · subst hj
      rw [frame_get_modify_same]
      exact hg _
    · rw [frame_get_modify_other _ _ _ _ hj]
      exact ⟨rfl, rfl⟩
  refine ⟨by rw [hids]; exact h1, h2, by rw [hids]; exact h3, by rw [hids]; exact h4,
    ?_, ?_, ?_, ?_⟩
  · intro j hj
    simp only [(hget j).1]
    exact h5 j hj
  · intro j hj
    simp only [(hget j).1]
    exact h6 j hj
  · intro j hj
    rw [hids] at hj
    simp only [(hget j).2]
    exact h7 j hj
  · simp only [frame_modify_length, frame_touch_length, hid, if_true]
    exact h8

/-- The invariants `WF` are kept by `unfix_page`. -/
theorem unfix_page_wf (bm : BufferManager) (hwf : WF bm) (page_id : Nat) (is_dirty : Bool) :
    WF (unfix_page bm page_id is_dirty) := by
  unfold unfix_page
  cases hf : frame_find bm.bufferframes page_id with
  | none => exact hwf
  | some f =>
    exact wf_modify bm hwf page_id _ (frame_find_some_mem _ _ _ hf) (fun _ => ⟨rfl, rfl⟩)

theorem wf_lru_hit (bm : BufferManager) (hwf : WF bm) (id : Nat) (hid : id ∈ bm.lru) :
    WF { bm with lru := bm.lru.erase id ++ [id] } := by
  obtain ⟨h1, h2, h3, h4, h5, h6, h7, h8⟩ := hwf
  have hperm : List.Perm (bm.lru.erase id ++ [id]) bm.lru := by
    have := (List.perm_cons_erase hid).symm
    exact (List.perm_append_comm.trans (by simpa using this))
  have hperm2 : List.Perm (bm.fifo ++ (bm.lru.erase id ++ [id])) (bm.fifo ++ bm.lru) :=
    List.Perm.append_left _ hperm
  refine ⟨h1, (List.Perm.nodup_iff hperm2).2 h2, ?_, ?_, h5, ?_, h7, h8⟩
  · intro j hj
    exact (List.Perm.mem_iff hperm2).2 (h3 j hj)
  · intro j hj
    exact h4 j ((List.Perm.mem_iff hperm2).1 hj)
  · intro j hj
    exact h6 j ((List.Perm.mem_iff hperm).1 hj)

theorem lock_frame_page_count (bm bm1 : BufferManager) (id : Nat) (e : Bool)
    (h : lock_frame bm id e = some bm1) : bm1.page_count = bm.page_count := by
  unfold lock_frame at h
  cases e with
  | false =>
    simp only [Bool.not_false, if_true] at h
    split at h
    · cases h
    · cases h; rfl
  | true =>
    simp only [Bool.not_true, Bool.false_eq_true, if_false] at h
    split at h
    · cases h
    · cases h; rfl

theorem read_frame_page_count (bm : BufferManager) (id : Nat) :
    (read_frame bm id).2.page_count = bm.page_count := by
  unfold read_frame
  by_cases hfe : bm.file_error (get_segment_id id) = true
  · simp [hfe]
  · simp [hfe]

theorem load_page_page_count (bm r : BufferManager) (id k : Nat) (e : Bool) (pos : Position)
    (h : load_page bm id e pos = (FixResult.ok k, r)) : r.page_count = bm.page_count := by
  unfold load_page at h
  cases h1 : lock_frame bm id true with
  | none => rw [h1] at h; simp at h
  | some bm1 =>
    rw [h1] at h
    have hp1 := lock_frame_page_count _ _ _ _ h1
    simp only at h
    have hp2 := read_frame_page_count bm1 id
    cases h2 : read_frame bm1 id with
    | mk ok bm2 =>
      rw [h2] at h hp2
      simp only at hp2
      cases ok with
      | false => simp at h
      | true =>
        simp only at h
        split at h
        · simp at h
        · rename_i bm5 h5
          have hp5 := lock_frame_page_count _ _ _ _ h5
          simp only [Prod.mk.injEq, FixResult.ok.injEq] at h
          obtain ⟨_, hr⟩ := h
          subst hr
          rw [hp5]
          by_cases hp : pos = Position.FIFO
          · simp only [hp, if_true, unlock_frame]
            rw [hp2, hp1]
          · simp only [hp, if_false, unlock_frame]
            rw [hp2, hp1]

theorem wf_load (bm r : BufferManager) (hwf : WF bm) (id k : Nat) (e : Bool) (pos : Position)
    (hpos : pos = Position.FIFO ∨ pos = Position.LRU)
    (hnew : id ∉ frame_ids bm.bufferframes)
    (hroom : bm.bufferframes.length < bm.page_count)
    (h : load_page bm id e pos = (FixResult.ok k, r)) : WF r := by
  obtain ⟨h1, h2, h3, h4, h5, h6, h7, h8⟩ := hwf
  obtain ⟨_, hids, hqf, hql⟩ := load_page_ok_fields _ _ _ _ _ _ h
  obtain ⟨hother, hposn, hpid⟩ := load_page_frames _ _ _ _ _ _ hpos h
  have hpc := load_page_page_count _ _ _ _ _ _ h
  rw [frame_touch_of_not_mem _ _ hnew] at hids
  have hids2 : frame_ids r.bufferframes = frame_ids bm.bufferframes ++ [id] := by
    rw [hids]; simp [frame_ids]
  have hnq : id ∉ bm.fifo ++ bm.lru := fun hm => hnew (h4 id hm)
  have hlen : r.bufferframes.length = bm.bufferframes.length + 1 := by
    rw [← frame_ids_length, hids2, List.length_append, frame_ids_length]
    rfl
  have hnd : (frame_ids r.bufferframes).Nodup := by
    rw [hids2]
    exact List.Nodup.append h1 (List.nodup_singleton _) (by simpa using hnew)
  have hfr : ∀ j, j ∈ bm.fifo ++ bm.lru → frame_get r.bufferframes j
      = frame_get bm.bufferframes j := by
    intro j hj
    exact hother j (fun hji => hnq (hji ▸ hj))
  have hpidr : ∀ j ∈ frame_ids r.bufferframes, (frame_get r.bufferframes j).page_id = j := by
    intro j hj
    rw [hids2] at hj
    rcases List.mem_append.1 hj with hj | hj
    · rw [hother j (fun hji => hnew (hji ▸ hj))]
      exact h7 j hj
    · simp only [List.mem_singleton] at hj
      rw [hj]; exact hpid
  rcases hpos with hp | hp
  · obtain ⟨hf, hl⟩ := hqf hp
    have hperm : List.Perm (r.fifo ++ r.lru) ((bm.fifo ++ bm.lru) ++ [id]) := by
      rw [hf, hl]
      simp only [List.append_assoc]
      exact List.Perm.append_left _ List.perm_append_comm
    refine ⟨hnd, ?_, ?_, ?_, ?_, ?_, hpidr, by rw [hlen, hpc]; omega⟩
    · rw [List.Perm.nodup_iff hperm]
      exact List.Nodup.append h2 (List.nodup_singleton _) (by simpa using hnq)
    · intro j hj
      rw [List.Perm.mem_iff hperm]
      rw [hids2] at hj
      rcases List.mem_append.1 hj with hj | hj
      · exact List.mem_append_left _ (h3 j hj)
      · exact List.mem_append_right _ hj
    · intro j hj
      rw [List.Perm.mem_iff hperm] at hj
      rw [hids2]
      rcases List.mem_append.1 hj with hj | hj
      · exact List.mem_append_left _ (h4 j hj)
      · exact List.mem_append_right _ hj
    · intro j hj
      rw [hf] at hj
      rcases List.mem_append.1 hj with hj | hj
      · rw [hfr j (List.mem_append_left _ hj)]; exact h5 j hj
      · simp only [List.mem_singleton] at hj
        rw [hj, hposn, hp]
    · intro j hj
      rw [hl] at hj
      rw [hfr j (List.mem_append_right _ hj)]; exact h6 j hj
  · obtain ⟨hl, hf⟩ := hql (by rw [hp]; simp)
    have hperm : List.Perm (r.fifo ++ r.lru) ((bm.fifo ++ bm.lru) ++ [id]) := by
      rw [hf, hl]
      simp only [List.append_assoc]
      exact List.Perm.refl _
    refine ⟨hnd, ?_, ?_, ?_, ?_, ?_, hpidr, by rw [hlen, hpc]; omega⟩
    · rw [List.Perm.nodup_iff hperm]
      exact List.Nodup.append h2 (List.nodup_singleton _) (by simpa using hnq)
    · intro j hj
      rw [List.Perm.mem_iff hperm]
      rw [hids2] at hj
      rcases List.mem_append.1 hj with hj | hj
      · exact List.mem_append_left _ (h3 j hj)
      · exact List.mem_append_right _ hj
    · intro j hj
      rw [List.Perm.mem_iff hperm] at hj
      rw [hids2]
      rcases List.mem_append.1 hj with hj | hj
      · exact List.mem_append_left _ (h4 j hj)
      · exact List.mem_append_right _ hj
    · intro j hj
      rw [hf] at hj
      rw [hfr j (List.mem_append_left _ hj)]; exact h5 j hj
    · intro j hj
      rw [hl] at hj
      rcases List.mem_append.1 hj with hj | hj
      · rw [hfr j (List.mem_append_right _ hj)]; exact h6 j hj
      · simp only [List.mem_singleton] at hj
        rw [hj, hposn, hp]

theorem evict_frames (bm : BufferManager) (v : Nat) (h : (evict bm v).1 = true) :
    (evict bm v).2.bufferframes
      = frame_erase bm.bufferframes (frame_get bm.bufferframes v).page_id ∧
    (evict bm v).2.page_count = bm.page_count := by
  unfold evict write_back_to_disk at h ⊢
  by_cases hd : (frame_get bm.bufferframes v).state = State.DIRTY
  · by_cases hfe : bm.file_error (get_segment_id (frame_get bm.bufferframes v).page_id) = true
    · simp [hd, hfe] at h
    · by_cases hp : (frame_get bm.bufferframes v).position = Position.FIFO <;>
        simp [hd, hfe, hp]
  · by_cases hp : (frame_get bm.bufferframes v).position = Position.FIFO <;>
      simp [hd, hp]

theorem wf_evict (bm : BufferManager) (hwf : WF bm) (v : Nat)
    (hv : v ∈ bm.fifo ++ bm.lru) (h : (evict bm v).1 = true) :
    WF (evict bm v).2 ∧
    (evict bm v).2.bufferframes.length + 1 = bm.bufferframes.length ∧
    (evict bm v).2.page_count = bm.page_count ∧
    frame_ids (evict bm v).2.bufferframes
      = (frame_ids bm.bufferframes).filter (fun k => !(k == v)) := by
  obtain ⟨h1, h2, h3, h4, h5, h6, h7, h8⟩ := hwf
  have hvid : v ∈ frame_ids bm.bufferframes := h4 v hv
  have hpidv : (frame_get bm.bufferframes v).page_id = v := h7 v hvid
  obtain ⟨hfr, hpc⟩ := evict_frames bm v h
  obtain ⟨_, he2, _⟩ := evict_fields bm v
  obtain ⟨hids, hqf, hql, _⟩ := he2 h
  rw [hpidv] at hfr hids hqf hql
  have hndf : bm.fifo.Nodup := (List.nodup_append.1 h2).1
  have hndl : bm.lru.Nodup := (List.nodup_append.1 h2).2.1
  have hdisj := (List.nodup_append.1 h2).2.2
  have hget : ∀ j, j ≠ v → frame_get (evict bm v).2.bufferframes j = frame_get bm.bufferframes j := by
    intro j hj
    rw [hfr]
    exact frame_get_erase_other _ _ _ hj
  have hlen : (evict bm v).2.bufferframes.length + 1 = bm.bufferframes.length := by
    rw [← frame_ids_length, hids, ← erase_filter_of_nodup _ _ h1,
      List.length_erase_of_mem hvid, frame_ids_length]
    have : 0 < bm.bufferframes.length := by
      rw [← frame_ids_length]
      exact List.length_pos_of_mem hvid
    omega
  have hmem_ids : ∀ j, j ∈ frame_ids (evict bm v).2.bufferframes ↔
      j ∈ frame_ids bm.bufferframes ∧ j ≠ v := by
    intro j
    rw [hids]
    simp [List.mem_filter]
  have hnd_ids : (frame_ids (evict bm v).2.bufferframes).Nodup := by
    rw [hids]; exact List.Nodup.filter _ h1
  have hpidr : ∀ j ∈ frame_ids (evict bm v).2.bufferframes,
      (frame_get (evict bm v).2.bufferframes j).page_id = j := by
    intro j hj
    obtain ⟨hj1, hj2⟩ := (hmem_ids j).1 hj
    rw [hget j hj2]; exact h7 j hj1
  refine ⟨?_, hlen, hpc, hids⟩
  rcases List.mem_append.1 hv with hvf | hvl
  · -- the victim leaves FIFO
    obtain ⟨hf, hl⟩ := hqf (h5 v hvf)
    have hvl : v ∉ bm.lru := fun hm => hdisj hvf hm
    refine ⟨hnd_ids, ?_, ?_, ?_, ?_, ?_, hpidr, by omega⟩
    · rw [hf, hl]
      exact List.Nodup.sublist (List.Sublist.append_right (List.erase_sublist v bm.fifo) _) h2
    · intro j hj
      obtain ⟨hj1, hj2⟩ := (hmem_ids j).1 hj
      rw [hf, hl]
      rcases List.mem_append.1 (h3 j hj1) with hm | hm
      · exact List.mem_append_left _ ((List.mem_erase_of_ne hj2).2 hm)
      · exact List.mem_append_right _ hm
    · intro j hj
      rw [hf, hl] at hj
      rw [hmem_ids]
      rcases List.mem_append.1 hj with hm | hm
      · have hjne : j ≠ v := fun hjv => by
          rw [hjv] at hm
          exact (List.Nodup.not_mem_erase hndf) hm
        exact ⟨h4 j (List.mem_append_left _ (List.mem_of_mem_erase hm)), hjne⟩
      · exact ⟨h4 j (List.mem_append_right _ hm), fun hjv => hvl (hjv ▸ hm)⟩
    · intro j hj
      rw [hf] at hj
      have hjne : j ≠ v := fun hjv => by
        rw [hjv] at hj
        exact (List.Nodup.not_mem_erase hndf) hj
      rw [hget j hjne]
      exact h5 j (List.mem_of_mem_erase hj)
    · intro j hj
      rw [hl] at hj
      rw [hget j (fun hjv => hvl (hjv ▸ hj))]
      exact h6 j hj
  · -- the victim leaves LRU
    have hne : (frame_get bm.bufferframes v).position ≠ Position.FIFO := by
      rw [h6 v hvl]; simp
    obtain ⟨hl, hf⟩ := hql hne
    have hvf : v ∉ bm.fifo := fun hm => hdisj hm hvl
    refine ⟨hnd_ids, ?_, ?_, ?_, ?_, ?_, hpidr, by omega⟩
    · rw [hf, hl]
      exact List.Nodup.sublist (List.Sublist.append_left (List.erase_sublist v bm.lru) _) h2
    · intro j hj
      obtain ⟨hj1, hj2⟩ := (hmem_ids j).1 hj
      rw [hf, hl]
      rcases List.mem_append.1 (h3 j hj1) with hm | hm
      · exact List.mem_append_left _ hm
      · exact List.mem_append_right _ ((List.mem_erase_of_ne hj2).2 hm)
    · intro j hj
      rw [hf, hl] at hj
      rw [hmem_ids]
      rcases List.mem_append.1 hj with hm | hm
      · exact ⟨h4 j (List.mem_append_left _ hm), fun hjv => hvf (hjv ▸ hm)⟩
      · have hjne : j ≠ v := fun hjv => by
          rw [hjv] at hm
          exact (List.Nodup.not_mem_erase hndl) hm
        exact ⟨h4 j (List.mem_append_right _ (List.mem_of_mem_erase hm)), hjne⟩
    · intro j hj
      rw [hf] at hj
      rw [hget j (fun hjv => hvf (hjv ▸ hj))]
      exact h5 j hj
    · intro j hj
      rw [hl] at hj
      have hjne : j ≠ v := fun hjv => by
        rw [hjv] at hj
        exact (List.Nodup.not_mem_erase hndl) hj
      rw [hget j hjne]
      exact h6 j (List.mem_of_mem_erase hj)

theorem wf_promote (bm : BufferManager) (hwf : WF bm) (id : Nat) (hid : id ∈ bm.fifo) :
    WF { bm with
      bufferframes := frame_modify
        (frame_modify bm.bufferframes id
          (fun f => { f with thread_cnt := size_incr f.thread_cnt }))
        id (fun f => { f with position := Position.LRU }),
      lru := bm.lru ++ [id],
      fifo := bm.fifo.erase id } := by
  obtain ⟨h1, h2, h3, h4, h5, h6, h7, h8⟩ := hwf
  have hres : id ∈ frame_ids bm.bufferframes := h4 id (List.mem_append_left _ hid)
  have hndf : bm.fifo.Nodup := (List.nodup_append.1 h2).1
  have hdisj := (List.nodup_append.1 h2).2.2
  have hidl : id ∉ bm.lru := fun hm => hdisj hid hm
  have hids1 : frame_ids (frame_modify bm.bufferframes id
      (fun f => { f with thread_cnt := size_incr f.thread_cnt })) = frame_ids bm.bufferframes := by
    rw [frame_ids_modify, frame_touch_of_mem _ _ hres]
  have hids : frame_ids (frame_modify
      (frame_modify bm.bufferframes id
        (fun f => { f with thread_cnt := size_incr f.thread_cnt }))
      id (fun f => { f with position := Position.LRU })) = frame_ids bm.bufferframes := by
    rw [frame_ids_modify, frame_touch_of_mem _ _ (by rw [hids1]; exact hres), hids1]
  have hperm : List.Perm (bm.fifo.erase id ++ (bm.lru ++ [id])) (bm.fifo ++ bm.lru) := by
    have h := List.perm_cons_erase hid
    have h2 : List.Perm (bm.fifo.erase id ++ (bm.lru ++ [id])) (id :: bm.fifo.erase id ++ bm.lru) := by
      rw [← List.append_assoc]
      exact List.perm_append_comm.trans (by simp)
    exact h2.trans (List.Perm.append_right _ h.symm)
  refine ⟨by rw [hids]; exact h1, (List.Perm.nodup_iff hperm).2 h2, ?_, ?_, ?_, ?_, ?_, ?_⟩
  · intro j hj
    rw [hids] at hj
    exact (List.Perm.mem_iff hperm).2 (h3 j hj)
  · intro j hj
    rw [hids]
    exact h4 j ((List.Perm.mem_iff hperm).1 hj)
  · intro j hj
    have hjne : j ≠ id := fun hjv => by
      simp only [hjv] at hj
      exact (List.Nodup.not_mem_erase hndf) hj
    simp only []
    rw [frame_get_modify_other _ _ _ _ hjne, frame_get_modify_other _ _ _ _ hjne]
    exact h5 j (List.mem_of_mem_erase hj)
  · intro j hj
    simp only [] at hj ⊢
    rcases List.mem_append.1 hj with hm | hm
    · have hjne : j ≠ id := fun hjv => hidl (hjv ▸ hm)
      rw [frame_get_modify_other _ _ _ _ hjne, frame_get_modify_other _ _ _ _ hjne]
      exact h6 j hm
    · simp only [List.mem_singleton] at hm
      rw [hm, frame_get_modify_same]
  · intro j hj
    rw [hids] at hj
    simp only []
    by_cases hjne : j = id
    · rw [hjne, frame_get_modify_same, frame_get_modify_same]
      exact h7 id hres
    · rw [frame_get_modify_other _ _ _ _ hjne, frame_get_modify_other _ _ _ _ hjne]
      exact h7 j hj
  · simp only [frame_modify_length, frame_touch_length, hids1, hres, if_true]
    exact h8

/-- The invariants `WF` are kept by every `fix_page` that returns a frame. -/
theorem fix_page_wf (bm r : BufferManager) (hwf : WF bm) (page_id k : Nat) (exclusive : Bool)
    (h : fix_page bm page_id exclusive = (FixResult.ok k, r)) : WF r := by
  have hq := hwf.2.2.2.1
  unfold fix_page at h
  by_cases h1 : page_id ∈ bm.lru
  · simp only [h1, if_true, Prod.mk.injEq] at h
    rw [← h.2]
    exact wf_lru_hit _ (wf_modify bm hwf page_id
      (fun f => { f with thread_cnt := size_incr f.thread_cnt })
      (hq _ (List.mem_append_right _ h1)) (fun _ => ⟨rfl, rfl⟩)) page_id h1
  · by_cases h2 : page_id ∈ bm.fifo
    · simp only [h1, h2, if_false, if_true, Prod.mk.injEq] at h
      rw [← h.2]
      exact wf_promote bm hwf page_id h2
    · have hnew : page_id ∉ frame_ids bm.bufferframes := by
        intro hm
        rcases List.mem_append.1 (hwf.2.2.1 _ hm) with hm | hm
        · exact h2 hm
        · exact h1 hm
      by_cases h3 : bm.bufferframes.length < bm.page_count
      · simp only [h1, h2, h3, if_false, if_true] at h
        exact wf_load bm r hwf page_id k exclusive _ (Or.inl rfl) hnew h3 h
      · simp only [h1, h2, h3, if_false] at h
        rw [evict_check_of_wf bm hwf] at h
        cases hv : first_unpinned bm with
        | none => rw [hv] at h; simp at h
        | some v =>
          rw [hv] at h
          simp only at h
          obtain ⟨_, hwhere⟩ := first_unpinned_some bm v hv
          have hvq : v ∈ bm.fifo ++ bm.lru := by
            rcases hwhere with ⟨pre, post, hs, _⟩ | ⟨_, pre, post, hs, _⟩
            · exact List.mem_append_left _ (by rw [hs]; simp)
            · exact List.mem_append_right _ (by rw [hs]; simp)
          cases he : evict bm v with
          | mk ok bm2 =>
            rw [he] at h
            cases ok with
            | false => simp at h
            | true =>
              simp only at h
              have he1 : (evict bm v).1 = true := by rw [he]
              obtain ⟨hwf2, hlen2, hpc2, hids2⟩ := wf_evict bm hwf v hvq he1
              rw [he] at hwf2 hlen2 hpc2 hids2
              simp only at hwf2 hlen2 hpc2 hids2
              have hle := hwf.2.2.2.2.2.2.2
              refine wf_load bm2 r hwf2 page_id k exclusive _ ?_ ?_ ?_ h
              · by_cases hp : (frame_get bm.bufferframes v).position = Position.FIFO
                · simp [hp]
                · simp [hp]
              · rw [hids2]
                intro hm
                exact hnew (List.mem_filter.1 hm).1
              · omega

/-! ### Scenarios -/

theorem page_id_roundtrip_witness :
    (2 ^ 48 + 5 < 2 ^ 64 ∧ 3 < 2 ^ 16 ∧ 9 < 2 ^ 48) ∧
    (make_page_id (get_segment_id (2 ^ 48 + 5)) (get_segment_page_id (2 ^ 48 + 5)) = 2 ^ 48 + 5 ∧
      get_segment_id (make_page_id 3 9) = 3 ∧
      get_segment_page_id (make_page_id 3 9) = 9) :=
  ⟨by decide, page_id_roundtrip (2 ^ 48 + 5) 3 9 (by decide) (by decide) (by decide)⟩

theorem fix_page_full_unchanged_witness :
    (fix_page scene_single_pinned 1 false).1 = FixResult.buffer_full_error ∧
    (fix_page scene_single_pinned 1 false).2 = scene_single_pinned :=
  ⟨by decide, fix_page_full_unchanged scene_single_pinned 1 false (by decide)⟩

theorem eviction_order_witness :
    (WF scene_two_unpinned ∧ 2 ∉ frame_ids scene_two_unpinned.bufferframes ∧
      scene_two_unpinned.bufferframes.length = scene_two_unpinned.page_count) ∧
    (fix_page scene_two_unpinned 2 false).1 = FixResult.ok 2 :=
  ⟨by decide,
    (eviction_order scene_two_unpinned (by decide) 2 false (by decide) (by decide)).2.2.1
      ⟨0, by decide, by decide⟩ (fun _ => rfl)⟩

theorem fix_page_resident_witness :
    WF scene_promoted ∧ 1 ∈ scene_promoted.fifo ∧ 0 ∈ scene_promoted.lru ∧
    (fix_page scene_promoted 1 false).2.lru = scene_promoted.lru ++ [1] ∧
    (fix_page scene_promoted 0 false).2.lru = scene_promoted.lru.erase 0 ++ [0] :=
  ⟨by decide, by decide, by decide,
    ((fix_page_resident scene_promoted (by decide) 1 false).1 (by decide)).2.2.2.1,
    ((fix_page_resident scene_promoted (by decide) 0 false).2 (by decide)).2.1⟩

/-- C4 (what the code does): page 0 is written with the byte 7 and unfixed
dirty; afterwards only other pages are fixed and unfixed.  Loading page 3
evicts the dirty page 2 and leaves `free_pos` at the pool slot of page 0;
loading page 4 then evicts the clean page 1 without resetting `free_pos`, so
page 4 is read into the slot that the still resident page 0 occupies.  The
next `fix_page(0, false)` succeeds and returns a frame whose byte is 0, not
7. -/
theorem durability_lost :
    frame_bytes scene_written 0 = [7] ∧
    (fix_page scene_written 3 true).1 = FixResult.ok 3 ∧
    (fix_page scene_written 3 true).2.free_pos
      = (frame_get scene_written.bufferframes 0).data ∧
    (fix_page
      (unfix_page (unfix_page (fix_page scene_written 3 true).2 3 false) 1 false)
      4 true).1 = FixResult.ok 4 ∧
    0 ∈ frame_ids scene_after_others.bufferframes ∧
    (frame_get scene_after_others.bufferframes 4).data
      = (frame_get scene_after_others.bufferframes 0).data ∧
    (fix_page scene_after_others 0 false).1 = FixResult.ok 0 ∧
    frame_bytes (fix_page scene_after_others 0 false).2 0 = [0] := by
  refine ⟨by decide, by decide, by decide, by decide, by decide, by decide, by decide,
    by decide⟩

/-! ### Descents that do not split -/

theorem descend_read_eq {K V : Type} [LinearOrder K] (P : TreeParams) (key : K) :
    ∀ (fuel : Nat) (t t1 : BTree K V) (p c p1 l : Nat),
      descend P key false fuel t p c = some (t1, p1, l) →
      t1 = { t with leaf_page_id := l } ∧ (t.pages l).is_leaf = true ∧
      l ∈ descent_path t.pages key fuel c := by
  intro fuel
  induction fuel with
  | zero => intro t t1 p c p1 l h; simp [descend] at h
  | succ n ih =>
    intro t t1 p c p1 l h
    unfold descend at h
    unfold descent_path
    by_cases hl : (t.pages c).is_leaf = true
    · simp only [hl, if_true, Option.some.injEq, Prod.mk.injEq] at h ⊢
      obtain ⟨h1, _, h3⟩ := h
      subst h3
      exact ⟨h1.symm, hl, by simp⟩
    · simp only [hl, Bool.false_and, Bool.false_eq_true, if_false] at h ⊢
      obtain ⟨h1, h2, h3⟩ := ih _ _ _ _ _ _ h
      exact ⟨h1, h2, List.mem_cons_of_mem _ h3⟩

theorem lookup_leaf_page_read_eq {K V : Type} [LinearOrder K] (P : TreeParams) (key : K)
    (fuel : Nat) (t t1 : BTree K V) (p1 l : Nat)
    (h : lookup_leaf_page P fuel t key false = some (t1, p1, l)) :
    t1 = { t with leaf_page_id := l } ∧ (t.pages l).is_leaf = true ∧
    l ∈ descent_path t.pages key (fuel + 1) t.root := by
  unfold lookup_leaf_page at h
  unfold descent_path
  by_cases hl : (t.pages t.root).is_leaf = true
  · simp only [hl, if_true, Option.some.injEq, Prod.mk.injEq] at h ⊢
    obtain ⟨h1, _, h3⟩ := h
    subst h3
    exact ⟨h1.symm, hl, by simp⟩
  · simp only [hl, Bool.false_and, Bool.false_eq_true, if_false] at h ⊢
    obtain ⟨h1, h2, h3⟩ := descend_read_eq P key _ _ _ _ _ _ _ h
    exact ⟨h1, h2, List.mem_cons_of_mem _ h3⟩

theorem descend_without_split {K V : Type} [LinearOrder K] (P : TreeParams) (key : K) :
    ∀ (fuel : Nat) (t : BTree K V) (p c : Nat),
      (∀ x ∈ descent_path t.pages key fuel c, (t.pages x).is_leaf = false →
        (t.pages x).count < InnerNode.kCapacity P + 1) →
      descend P key true fuel t p c = descend P key false fuel t p c := by
  intro fuel
  induction fuel with
  | zero => intro t p c _; rfl
  | succ n ih =>
    intro t p c h
    unfold descend
    unfold descent_path at h
    by_cases hl : (t.pages c).is_leaf = true
    · simp only [hl, if_true]
    · have hl2 : (t.pages c).is_leaf = false := by simpa using hl
      simp only [hl2, Bool.false_eq_true, if_false, List.mem_cons] at h ⊢
      have hc : ¬ (t.pages c).count ≥ InnerNode.kCapacity P + 1 := by
        have := h c (Or.inl rfl) hl2
        omega
      simp only [hc, decide_False, Bool.and_false, Bool.false_eq_true, if_false]
      exact ih _ _ _ (fun x hx => h x (Or.inr hx))

theorem lookup_leaf_page_without_split {K V : Type} [LinearOrder K] (P : TreeParams)
    (key : K) (fuel : Nat) (t : BTree K V)
    (h : ∀ x ∈ descent_path t.pages key (fuel + 1) t.root, (t.pages x).is_leaf = false →
      (t.pages x).count < InnerNode.kCapacity P + 1) :
    lookup_leaf_page P fuel t key true = lookup_leaf_page P fuel t key false := by
  unfold lookup_leaf_page
  unfold descent_path at h
  by_cases hl : (t.pages t.root).is_leaf = true
  · simp only [hl, if_true]
  · have hl2 : (t.pages t.root).is_leaf = false := by simpa using hl
    simp only [hl2, Bool.false_eq_true, if_false, List.mem_cons] at h ⊢
    have hc : ¬ (t.pages t.root).count ≥ InnerNode.kCapacity P + 1 := by
      have := h t.root (Or.inl rfl) hl2
      omega
    simp only [hc, decide_False, Bool.and_false, Bool.false_eq_true, if_false]
    exact descend_without_split P key _ _ _ _ (fun x hx => h x (Or.inr hx))

theorem inner_lookup_congr {K V : Type} [LinearOrder K] (n1 n2 : Node K V) (key : K)
    (hc : n1.count = n2.count) (hk : n1.keys = n2.keys) (hch : n1.children = n2.children) :
    InnerNode.lookup n1 key = InnerNode.lookup n2 key := by
  unfold InnerNode.lookup InnerNode.lower_bound
  rw [hc, hk, hch]

theorem descend_read_congr {K V : Type} [LinearOrder K] (P : TreeParams) (key : K) :
    ∀ (fuel : Nat) (t1 t2 : BTree K V) (p c : Nat),
      (∀ id, (t1.pages id).level = (t2.pages id).level ∧
        ((t2.pages id).level ≠ 0 →
          (t1.pages id).count = (t2.pages id).count ∧
          (t1.pages id).keys = (t2.pages id).keys ∧
          (t1.pages id).children = (t2.pages id).children)) →
      (descend P key false fuel t1 p c).map (fun r => r.2) =
        (descend P key false fuel t2 p c).map (fun r => r.2) := by
  intro fuel
  induction fuel with
  | zero => intro t1 t2 p c _; rfl
  | succ n ih =>
    intro t1 t2 p c h
    unfold descend
    have hlv : (t1.pages c).is_leaf = (t2.pages c).is_leaf := by
      unfold Node.is_leaf; rw [(h c).1]
    by_cases hl : (t2.pages c).is_leaf = true
    · simp [hlv, hl]
    · simp only [hlv, hl, Bool.false_and, Bool.false_eq_true, if_false]
      have hne : (t2.pages c).level ≠ 0 := by
        simpa [Node.is_leaf] using hl
      obtain ⟨hc1, hc2, hc3⟩ := (h c).2 hne
      rw [inner_lookup_congr (t1.pages c) (t2.pages c) key hc1 hc2 hc3]
      exact ih _ _ _ _ h

theorem lookup_leaf_page_read_congr {K V : Type} [LinearOrder K] (P : TreeParams) (key : K)
    (fuel : Nat) (t1 t2 : BTree K V) (hr : t1.root = t2.root)
    (h : ∀ id, (t1.pages id).level = (t2.pages id).level ∧
        ((t2.pages id).level ≠ 0 →
          (t1.pages id).count = (t2.pages id).count ∧
          (t1.pages id).keys = (t2.pages id).keys ∧
          (t1.pages id).children = (t2.pages id).children)) :
    (lookup_leaf_page P fuel t1 key false).map (fun r => r.2) =
      (lookup_leaf_page P fuel t2 key false).map (fun r => r.2) := by
  unfold lookup_leaf_page
  have hlv : (t1.pages t2.root).is_leaf = (t2.pages t2.root).is_leaf := by
    unfold Node.is_leaf; rw [(h t2.root).1]
  simp only [hr]
  by_cases hl : (t2.pages t2.root).is_leaf = true
  · simp [hlv, hl]
  · simp only [hlv, hl, Bool.false_and, Bool.false_eq_true, if_false]
    have hne : (t2.pages t2.root).level ≠ 0 := by
      simpa [Node.is_leaf] using hl
    obtain ⟨hc1, hc2, hc3⟩ := (h t2.root).2 hne
    rw [inner_lookup_congr (t1.pages t2.root) (t2.pages t2.root) key hc1 hc2 hc3]
    exact descend_read_congr P key _ _ _ _ _ h

theorem leaf_lookup_some {K V : Type} [LinearOrder K] (n : Node K V) (key : K) (v : V)
    (h : LeafNode.lookup n key = some v) :
    (LeafNode.lower_bound n key).2 = true ∧ n.values (LeafNode.lower_bound n key).1 = v ∧
    n.count ≠ 0 ∧ (LeafNode.lower_bound n key).1 < n.count ∧
    n.keys (LeafNode.lower_bound n key).1 = key := by
  unfold LeafNode.lookup at h
  by_cases hf : (LeafNode.lower_bound n key).2 = true
  · simp only [hf, if_true, Option.some.injEq] at h
    refine ⟨hf, h, ?_⟩
    by_cases hc : n.count = 0
    · simp [LeafNode.lower_bound, hc] at hf
    · refine ⟨hc, ?_⟩
      simp only [LeafNode.lower_bound, hc, if_false, Bool.and_eq_true, decide_eq_true_eq]
        at hf ⊢
      exact ⟨hf.2, hf.1⟩
  · simp [hf] at h

/-- C3 (amended): if the tree is not empty, `lookup(k)` returns a value, the
leaf the descent for `k` ends in is not full and no inner node on that
descent is full, then `insert(k, v2)` returns, `next_page` and `root` are
unchanged, every page keeps its level, count, keys and children, the only
value slot that changes is the one of `k` in that leaf, and `lookup(k)`
returns `v2` afterwards. -/
theorem insert_existing_key {K V : Type} [LinearOrder K] (P : TreeParams) (fuel : Nat)
    (t : BTree K V) (k : K) (v v2 : V)
    (hne : t.is_empty = false)
    (hhas : (lookup P fuel t k).map Prod.fst = some (some v))
    (hpath : ∀ x ∈ descent_path t.pages k (fuel + 1) t.root,
      if (t.pages x).is_leaf = true then (t.pages x).count ≠ LeafNode.kCapacity P
      else (t.pages x).count < InnerNode.kCapacity P + 1) :
    ∃ t2 leaf i, insert P fuel t k v2 = some t2 ∧
      t2.next_page = t.next_page ∧ t2.root = t.root ∧ t2.is_empty = false ∧
      (∀ id, (t2.pages id).level = (t.pages id).level ∧
        (t2.pages id).count = (t.pages id).count ∧
        (t2.pages id).keys = (t.pages id).keys ∧
        (t2.pages id).children = (t.pages id).children) ∧
      (∀ id, id ≠ leaf → t2.pages id = t.pages id) ∧
      (t.pages leaf).is_leaf = true ∧
      i < (t.pages leaf).count ∧ (t.pages leaf).keys i = k ∧ (t.pages leaf).values i = v ∧
      (t2.pages leaf).values = (fun j => if j = i then v2 else (t.pages leaf).values j) ∧
      (lookup P fuel t2 k).map Prod.fst = some (some v2) := by
  -- the read descent
  unfold lookup at hhas
  cases hlp : lookup_leaf_page P fuel t k false with
  | none => rw [hlp] at hhas; simp at hhas
  | some r =>
    obtain ⟨t1, p, leaf⟩ := r
    rw [hlp] at hhas
    simp only [Option.map_some', Option.some.injEq] at hhas
    obtain ⟨ht1, hleaf, hmem⟩ := lookup_leaf_page_read_eq P k fuel t t1 p leaf hlp
    have hpages : t1.pages = t.pages := by rw [ht1]
    rw [hpages] at hhas
    obtain ⟨hfound, hval, hcnt, hlt, hkey⟩ := leaf_lookup_some _ _ _ hhas
    -- the insert descent is the same one
    have hins : lookup_leaf_page P fuel t k true = some (t1, p, leaf) := by
      rw [lookup_leaf_page_without_split P k fuel t, hlp]
      intro x hx hxl
      have := hpath x hx
      simpa [hxl] using this
    have hnotfull : (t.pages leaf).count ≠ LeafNode.kCapacity P := by
      have := hpath leaf hmem
      simpa [hleaf] using this
    have hnode : LeafNode.insert (t.pages leaf) k v2 =
        { t.pages leaf with values := fun j =>
            if j = (LeafNode.lower_bound (t.pages leaf) k).1 then v2
            else (t.pages leaf).values j } := by
      unfold LeafNode.insert
      simp only [hcnt, if_false, hfound, if_true]
    obtain ⟨pg, hpg⟩ : ∃ pg, pg = set_page t.pages leaf (LeafNode.insert (t.pages leaf) k v2) :=
      ⟨_, rfl⟩
    have hres : insert P fuel t k v2 = some { t1 with pages := pg } := by
      unfold insert
      simp only [hne, Bool.false_eq_true, if_false, hins, hpages, hnotfull, hpg]
    have hshape : ∀ id, (pg id).level = (t.pages id).level ∧
        (pg id).count = (t.pages id).count ∧ (pg id).keys = (t.pages id).keys ∧
        (pg id).children = (t.pages id).children := by
      intro id
      rw [hpg]
      simp only [set_page]
      by_cases hid : id = leaf
      · subst hid
        simp only [if_true, hnode]
        exact ⟨trivial, trivial, trivial, trivial⟩
      · simp only [hid, if_false]
        exact ⟨trivial, trivial, trivial, trivial⟩
    refine ⟨_, leaf, (LeafNode.lower_bound (t.pages leaf) k).1, hres, ?_, ?_, ?_, hshape, ?_,
      hleaf, hlt, hkey, hval, ?_, ?_⟩
    · rw [ht1]
    · rw [ht1]
    · rw [ht1]; exact hne
    · intro id hid
      simp only [hpg, set_page, hid, if_false]
    · simp only [hpg, set_page, if_true, hnode]
    · -- the lookup after the insert follows the same path
      have hroot : ({ t1 with pages := pg } : BTree K V).root = t.root := by
        rw [ht1]
      have hcongr := lookup_leaf_page_read_congr P k fuel { t1 with pages := pg } t hroot
        (fun id => ⟨(hshape id).1, fun _ => (hshape id).2⟩)
      rw [hlp] at hcongr
      simp only [Option.map_some'] at hcongr
      unfold lookup
      cases hlp2 : lookup_leaf_page P fuel ({ t1 with pages := pg } : BTree K V) k false with
      | none => rw [hlp2] at hcongr; simp at hcongr
      | some r2 =>
        obtain ⟨t3, p3, leaf3⟩ := r2
        rw [hlp2] at hcongr
        simp only [Option.map_some', Option.some.injEq, Prod.mk.injEq] at hcongr
        obtain ⟨_, hl3⟩ := hcongr
        subst hl3
        obtain ⟨ht3, _, _⟩ := lookup_leaf_page_read_eq P k fuel _ t3 p3 leaf3 hlp2
        simp only [Option.map_some', Option.some.injEq]
        have hp3 : t3.pages leaf3 = LeafNode.insert (t.pages leaf3) k v2 := by
          rw [ht3]
          simp only [hpg, set_page, if_true]
        rw [hp3, hnode]
        unfold LeafNode.lookup
        have hlb : LeafNode.lower_bound
            ({ t.pages leaf3 with values := fun j =>
                if j = (LeafNode.lower_bound (t.pages leaf3) k).1 then v2
                else (t.pages leaf3).values j } : Node K V) k
            = LeafNode.lower_bound (t.pages leaf3) k := by
          unfold LeafNode.lower_bound
          rfl
        rw [hlb]
        simp only [hfound, if_true]

theorem insert_existing_key_witness :
    (tree_two_leaves.is_empty = false ∧
      (lookup params_wide_values 3 tree_two_leaves 30).map Prod.fst = some (some 300) ∧
      ∀ x ∈ descent_path tree_two_leaves.pages 30 (3 + 1) tree_two_leaves.root,
        if (tree_two_leaves.pages x).is_leaf = true
        then (tree_two_leaves.pages x).count ≠ LeafNode.kCapacity params_wide_values
        else (tree_two_leaves.pages x).count < InnerNode.kCapacity params_wide_values + 1) ∧
    ∃ t2, insert params_wide_values 3 tree_two_leaves 30 999 = some t2 ∧
      t2.next_page = tree_two_leaves.next_page ∧
      (lookup params_wide_values 3 t2 30).map Prod.fst = some (some 999) := by
  refine ⟨⟨by decide, by decide, by decide⟩, ?_⟩
  obtain ⟨t2, _, _, h1, h2, _, _, _, _, _, _, _, _, _, h3⟩ :=
    insert_existing_key params_wide_values 3 tree_two_leaves 30 300 999
      (by decide) (by decide) (by decide)
  exact ⟨t2, h1, h2, h3⟩

/-! ### Binary search -/

theorem lower_bound_loop_bounds {K : Type} [LinearOrder K] (keys : Nat → K) (key : K) :
    ∀ (fuel first count : Nat),
      first ≤ lower_bound_loop keys key fuel first count ∧
      lower_bound_loop keys key fuel first count ≤ first + count := by
  intro fuel
  induction fuel with
  | zero => intro first count; simp [lower_bound_loop]
  | succ n ih =>
    intro first count
    unfold lower_bound_loop
    by_cases hc : 0 < count
    · simp only [hc, if_true]
      by_cases hk : keys (first + count / 2) < key
      · simp only [hk, if_true]
        have := ih (first + count / 2 + 1) (count - (count / 2 + 1))
        omega
      · simp only [hk, if_false]
        have := ih first (count / 2)
        omega
    · simp only [hc, if_false]
      omega

theorem lower_bound_loop_spec {K : Type} [LinearOrder K] (keys : Nat → K) (key : K) :
    ∀ (fuel first count : Nat), count ≤ fuel →
      (∀ i j, first ≤ i → i < j → j < first + count → keys i < keys j) →
      (∀ i, first ≤ i → i < lower_bound_loop keys key fuel first count → keys i < key) ∧
      (∀ i, lower_bound_loop keys key fuel first count ≤ i → i < first + count →
        ¬ keys i < key) := by
  intro fuel
  induction fuel with
  | zero =>
    intro first count hc _
    simp only [lower_bound_loop]
    constructor
    · intro i h1 h2; omega
    · intro i h1 h2; omega
  | succ n ih =>
    intro first count hcf hs
    unfold lower_bound_loop
    by_cases hc : 0 < count
    · simp only [hc, if_true]
      by_cases hk : keys (first + count / 2) < key
      · simp only [hk, if_true]
        obtain ⟨h1, h2⟩ := ih (first + count / 2 + 1) (count - (count / 2 + 1)) (by omega)
          (fun i j hi hij hj => hs i j (by omega) hij (by omega))
        constructor
        · intro i hi hlt
          by_cases hle : i ≤ first + count / 2
          · rcases Nat.lt_or_eq_of_le hle with hlt2 | heq
            · exact lt_trans (hs i (first + count / 2) hi hlt2 (by omega)) hk
            · rw [heq]; exact hk
          · exact h1 i (by omega) hlt
        · intro i hi hlt
          exact h2 i hi (by omega)
      · simp only [hk, if_false]
        obtain ⟨h1, h2⟩ := ih first (count / 2) (by omega)
          (fun i j hi hij hj => hs i j hi hij (by omega))
        constructor
        · exact h1
        · intro i hi hlt
          by_cases hle : i < first + count / 2
          · exact h2 i hi hle
          · intro hik
            apply hk
            rcases Nat.lt_or_eq_of_le (Nat.le_of_not_lt hle) with hlt2 | heq
            · exact lt_trans (hs (first + count / 2) i (by omega) hlt2 hlt) hik
            · rw [heq]; exact hik
    · simp only [hc, if_false]
      constructor
      · intro i h1 h2; omega
      · intro i h1 h2; omega

/-! ### Leaves -/

theorem leaf_lower_bound_spec {K V : Type} [LinearOrder K] (n : Node K V) (key : K)
    (hs : ∀ i j, i < j → j < n.count → n.keys i < n.keys j) :
    (LeafNode.lower_bound n key).1 ≤ n.count ∧
    (∀ i, i < (LeafNode.lower_bound n key).1 → n.keys i < key) ∧
    (∀ i, (LeafNode.lower_bound n key).1 ≤ i → i < n.count → ¬ n.keys i < key) ∧
    ((LeafNode.lower_bound n key).2 = true ↔
      (LeafNode.lower_bound n key).1 < n.count ∧
      n.keys (LeafNode.lower_bound n key).1 = key) := by
  unfold LeafNode.lower_bound
  by_cases hc : n.count = 0
  · simp only [hc, if_true]
    refine ⟨le_refl _, ?_, ?_, ?_⟩
    · intro i hi; omega
    · intro i _ hi; omega
    · simp
  · simp only [hc, if_false]
    obtain ⟨hb1, hb2⟩ := lower_bound_loop_bounds n.keys key n.count 0 n.count
    obtain ⟨h1, h2⟩ := lower_bound_loop_spec n.keys key n.count 0 n.count (le_refl _)
      (fun i j _ hij hj => hs i j hij (by omega))
    refine ⟨by omega, fun i hi => h1 i (Nat.zero_le _) hi, fun i hi hlt => h2 i hi (by omega), ?_⟩
    simp only [Bool.and_eq_true, decide_eq_true_eq]
    exact ⟨fun h => ⟨h.2, h.1⟩, fun h => ⟨h.2, h.1⟩⟩

theorem leaf_lookup_of_mem {K V : Type} [LinearOrder K] (n : Node K V) (key : K)
    (hs : ∀ i j, i < j → j < n.count → n.keys i < n.keys j)
    (i : Nat) (hi : i < n.count) (hk : n.keys i = key) :
    LeafNode.lookup n key = some (n.values i) := by
  obtain ⟨_, h1, h2, h3⟩ := leaf_lower_bound_spec n key hs
  have hfi : (LeafNode.lower_bound n key).1 = i := by
    rcases Nat.lt_trichotomy (LeafNode.lower_bound n key).1 i with hlt | heq | hgt
    · exfalso
      have hlt2 := hs _ _ hlt hi
      rw [hk] at hlt2
      exact h2 _ (le_refl _) (by omega) hlt2
    · exact heq
    · exfalso
      have := h1 i hgt
      rw [hk] at this
      exact lt_irrefl _ this
  unfold LeafNode.lookup
  have hfound : (LeafNode.lower_bound n key).2 = true := h3.2 ⟨by omega, by rw [hfi]; exact hk⟩
  simp only [hfound, if_true, hfi]

theorem leaf_lookup_none_of_not_mem {K V : Type} [LinearOrder K] (n : Node K V) (key : K)
    (h : ∀ i, i < n.count → n.keys i ≠ key) :
    LeafNode.lookup n key = none := by
  cases hl : LeafNode.lookup n key with
  | none => rfl
  | some v =>
    obtain ⟨_, _, _, hlt, hk⟩ := leaf_lookup_some n key v hl
    exact absurd hk (h _ hlt)

theorem leaf_lookup_none_iff {K V : Type} [LinearOrder K] (n : Node K V) (key : K)
    (hs : ∀ i j, i < j → j < n.count → n.keys i < n.keys j) :
    LeafNode.lookup n key = none ↔ ∀ i, i < n.count → n.keys i ≠ key := by
  constructor
  · intro h i hi hk
    rw [leaf_lookup_of_mem n key hs i hi hk] at h
    cases h
  · exact leaf_lookup_none_of_not_mem n key

theorem leaf_insert_ok {K V : Type} [LinearOrder K] (P : TreeParams) (n : Node K V)
    (key : K) (value : V) (hok : LeafOK P n) (hlt : n.count < LeafNode.kCapacity P)
    (hcap : LeafNode.kCapacity P < 2 ^ 16) :
    LeafOK P (LeafNode.insert n key value) ∧
    (LeafNode.insert n key value).level = n.level := by
  obtain ⟨_, hs⟩ := hok
  obtain ⟨hle, h1, h2, h3⟩ := leaf_lower_bound_spec n key hs
  unfold LeafNode.insert
  by_cases hc : n.count = 0
  · simp only [hc, if_true]
    refine ⟨⟨?_, ?_⟩, trivial⟩
    · simp only [u16_incr]; omega
    · intro i j hij hj
      simp only [u16_incr] at hj
      omega
  · simp only [hc, if_false]
    by_cases hf : (LeafNode.lower_bound n key).2 = true
    · simp only [hf, if_true]
      exact ⟨⟨by dsimp only; omega, hs⟩, trivial⟩
    · simp only [hf, Bool.false_eq_true, if_false]
      have hnf : ¬ ((LeafNode.lower_bound n key).1 < n.count ∧
          n.keys (LeafNode.lower_bound n key).1 = key) := fun h => hf (h3.2 h)
      have hcnt : u16_incr n.count = n.count + 1 := by
        unfold u16_incr; exact Nat.mod_eq_of_lt (by omega)
      have hna : (n.count + 2 ^ 32 - (LeafNode.lower_bound n key).1) % 2 ^ 32
          = n.count - (LeafNode.lower_bound n key).1 := by
        have : n.count + 2 ^ 32 - (LeafNode.lower_bound n key).1
            = (n.count - (LeafNode.lower_bound n key).1) + 2 ^ 32 := by omega
        rw [this, Nat.add_mod_right]
        exact Nat.mod_eq_of_lt (by omega)
      refine ⟨⟨by dsimp only; rw [hcnt]; omega, ?_⟩, trivial⟩
      generalize hfdef : (LeafNode.lower_bound n key).1 = f at *
      -- the keys after the shift
      have hkeys : ∀ j, j < n.count + 1 →
          (if j = f then key else memmove_elems n.keys (f + 1) n.keys f
            ((n.count + 2 ^ 32 - f) % 2 ^ 32) j) =
          if j < f then n.keys j else if j = f then key else n.keys (j - 1) := by
        intro j hj
        rw [hna]
        unfold memmove_elems
        by_cases hjf : j = f
        · simp [hjf]
        · by_cases hjl : j < f
          · have : ¬ (f + 1 ≤ j ∧ j < f + 1 + (n.count - f)) := by omega
            simp [hjf, hjl, this]
          · have h4 : f + 1 ≤ j ∧ j < f + 1 + (n.count - f) := by omega
            have h5 : f + (j - (f + 1)) = j - 1 := by omega
            simp [hjf, hjl, h4, h5]
      have hkey_lt : ∀ i, f ≤ i → i < n.count → key < n.keys i := by
        intro i hfi hic
        have hge : ¬ n.keys i < key := h2 i hfi hic
        rcases lt_trichotomy (n.keys i) key with hlt2 | heq | hgt
        · exact absurd hlt2 hge
        · exfalso
          rcases Nat.lt_or_eq_of_le hfi with hlt3 | heq2
          · have := hs f i hlt3 hic
            rw [heq] at this
            exact h2 f (le_refl _) (by omega) this
          · subst heq2
            exact hnf ⟨hic, heq⟩
        · exact hgt
      intro i j hij hj
      simp only [hcnt] at hj
      simp only []
      rw [hkeys i (by omega), hkeys j hj]
      by_cases hif : i < f
      · by_cases hjf : j < f
        · simp only [hif, hjf, if_true]
          exact hs i j hij (by omega)
        · by_cases hjf2 : j = f
          · simp only [hif, hjf2, if_true, lt_irrefl, if_false]
            exact h1 i hif
          · have : ¬ j < f := hjf
            simp only [hif, this, hjf2, if_true, if_false]
            exact hs i (j - 1) (by omega) (by omega)
      · by_cases hif2 : i = f
        · have hjf : ¬ j < f := by omega
          have hjf2 : ¬ j = f := by omega
          simp only [hif, hif2, hjf, hjf2, if_false, if_true, lt_irrefl]
          exact hkey_lt (j - 1) (by omega) (by omega)
        · have hjf : ¬ j < f := by omega
          have hjf2 : ¬ j = f := by omega
          simp only [hif, hif2, hjf, hjf2, if_false]
          exact hs (i - 1) (j - 1) (by omega) (by omega)

theorem leaf_erase_absent {K V : Type} [LinearOrder K] (n : Node K V) (key : K)
    (h : (LeafNode.lower_bound n key).2 = false) : LeafNode.erase n key = n := by
  unfold LeafNode.erase
  by_cases hc : n.count = 0
  · simp [hc]
  · simp [hc, h]

theorem leaf_erase_found {K V : Type} [LinearOrder K] (P : TreeParams) (n : Node K V) (key : K)
    (hok : LeafOK P n) (hcap : LeafNode.kCapacity P < 2 ^ 16)
    (h : (LeafNode.lower_bound n key).2 = true) :
    (LeafNode.erase n key).level = n.level ∧
    (LeafNode.erase n key).count = n.count - 1 ∧
    (∀ j, j < n.count - 1 → (LeafNode.erase n key).keys j =
      if j < (LeafNode.lower_bound n key).1 then n.keys j else n.keys (j + 1)) ∧
    (∀ j, j < n.count - 1 → (LeafNode.erase n key).values j =
      if j < (LeafNode.lower_bound n key).1 then n.values j else n.values (j + 1)) := by
  obtain ⟨hle, hs⟩ := hok
  obtain ⟨_, _, _, h3⟩ := leaf_lower_bound_spec n key hs
  obtain ⟨hlt, _⟩ := h3.1 h
  have hc : n.count ≠ 0 := by omega
  have hna : (n.count + 2 ^ 32 - (LeafNode.lower_bound n key).1 - 1) % 2 ^ 32
      = n.count - (LeafNode.lower_bound n key).1 - 1 := by
    have : n.count + 2 ^ 32 - (LeafNode.lower_bound n key).1 - 1
        = (n.count - (LeafNode.lower_bound n key).1 - 1) + 2 ^ 32 := by omega
    rw [this, Nat.add_mod_right]
    exact Nat.mod_eq_of_lt (by omega)
  have hdec : u16_decr n.count = n.count - 1 := by
    unfold u16_decr
    have : n.count + 2 ^ 16 - 1 = (n.count - 1) + 2 ^ 16 := by omega
    rw [this, Nat.add_mod_right]
    exact Nat.mod_eq_of_lt (by omega)
  unfold LeafNode.erase
  simp only [hc, if_false, h, if_true, hna, hdec]
  generalize (LeafNode.lower_bound n key).1 = f at *
  refine ⟨trivial, trivial, ?_, ?_⟩
  · intro j hj
    unfold memmove_elems
    by_cases hjf : j < f
    · have : ¬ (f ≤ j ∧ j < f + (n.count - f - 1)) := by omega
      simp [hjf, this]
    · have h4 : f ≤ j ∧ j < f + (n.count - f - 1) := by omega
      have h5 : f + 1 + (j - f) = j + 1 := by omega
      simp [hjf, h4, h5]
  · intro j hj
    unfold memmove_elems
    by_cases hjf : j < f
    · have : ¬ (f ≤ j ∧ j < f + (n.count - f - 1)) := by omega
      simp [hjf, this]
    · have h4 : f ≤ j ∧ j < f + (n.count - f - 1) := by omega
      have h5 : f + 1 + (j - f) = j + 1 := by omega
      simp [hjf, h4, h5]

theorem leaf_erase_ok {K V : Type} [LinearOrder K] (P : TreeParams) (n : Node K V) (key : K)
    (hok : LeafOK P n) (hcap : LeafNode.kCapacity P < 2 ^ 16) :
    LeafOK P (LeafNode.erase n key) ∧ (LeafNode.erase n key).level = n.level := by
  by_cases hf : (LeafNode.lower_bound n key).2 = true
  · obtain ⟨hl, hc, hk, _⟩ := leaf_erase_found P n key hok hcap hf
    obtain ⟨hle, hs⟩ := hok
    refine ⟨⟨by rw [hc]; omega, ?_⟩, hl⟩
    intro i j hij hj
    rw [hc] at hj
    rw [hk i (by omega), hk j hj]
    by_cases hif : i < (LeafNode.lower_bound n key).1
    · by_cases hjf : j < (LeafNode.lower_bound n key).1
      · simp only [hif, hjf, if_true]
        exact hs i j hij (by omega)
      · simp only [hif, hjf, if_true, if_false]
        exact hs i (j + 1) (by omega) (by omega)
    · have hjf : ¬ j < (LeafNode.lower_bound n key).1 := by omega
      simp only [hif, hjf, if_false]
      exact hs (i + 1) (j + 1) (by omega) (by omega)
  · have hf2 : (LeafNode.lower_bound n key).2 = false := by simpa using hf
    rw [leaf_erase_absent n key hf2]
    exact ⟨hok, rfl⟩

theorem leaf_erase_lookup_self {K V : Type} [LinearOrder K] (P : TreeParams) (n : Node K V)
    (key : K) (hok : LeafOK P n) (hcap : LeafNode.kCapacity P < 2 ^ 16) :
    LeafNode.lookup (LeafNode.erase n key) key = none := by
  by_cases hf : (LeafNode.lower_bound n key).2 = true
  · obtain ⟨_, hc, hk, _⟩ := leaf_erase_found P n key hok hcap hf
    obtain ⟨hle, hs⟩ := hok
    obtain ⟨_, _, _, h3⟩ := leaf_lower_bound_spec n key hs
    obtain ⟨hlt, hkey⟩ := h3.1 hf
    apply leaf_lookup_none_of_not_mem
    intro i hi
    rw [hc] at hi
    rw [hk i hi]
    by_cases hif : i < (LeafNode.lower_bound n key).1
    · simp only [hif, if_true]
      have := hs i _ hif hlt
      rw [hkey] at this
      exact ne_of_lt this
    · simp only [hif, if_false]
      have := hs (LeafNode.lower_bound n key).1 (i + 1) (by omega) (by omega)
      rw [hkey] at this
      exact (ne_of_lt this).symm
  · have hf2 : (LeafNode.lower_bound n key).2 = false := by simpa using hf
    rw [leaf_erase_absent n key hf2]
    unfold LeafNode.lookup
    simp [hf2]

theorem leaf_erase_lookup_other {K V : Type} [LinearOrder K] (P : TreeParams) (n : Node K V)
    (key other : K) (hok : LeafOK P n) (hcap : LeafNode.kCapacity P < 2 ^ 16)
    (hne : other ≠ key) :
    LeafNode.lookup (LeafNode.erase n key) other = LeafNode.lookup n other := by
  by_cases hf : (LeafNode.lower_bound n key).2 = true
  · obtain ⟨hok2, _⟩ := leaf_erase_ok P n key hok hcap
    obtain ⟨_, hc, hk, hv⟩ := leaf_erase_found P n key hok hcap hf
    obtain ⟨hle, hs⟩ := hok
    obtain ⟨_, _, _, h3⟩ := leaf_lower_bound_spec n key hs
    obtain ⟨hlt, hkey⟩ := h3.1 hf
    cases hl : LeafNode.lookup n other with
    | none =>
      apply leaf_lookup_none_of_not_mem
      have hall := (leaf_lookup_none_iff n other hs).1 hl
      intro i hi
      rw [hc] at hi
      rw [hk i hi]
      by_cases hif : i < (LeafNode.lower_bound n key).1
      · simp only [hif, if_true]
        exact hall i (by omega)
      · simp only [hif, if_false]
        exact hall (i + 1) (by omega)
    | some v =>
      obtain ⟨_, hval, _, hilt, hik⟩ := leaf_lookup_some n other v hl
      generalize (LeafNode.lower_bound n other).1 = i at *
      have hif : i ≠ (LeafNode.lower_bound n key).1 := by
        intro h
        rw [h, hkey] at hik
        exact hne hik.symm
      by_cases hlt2 : i < (LeafNode.lower_bound n key).1
      · have h1 := leaf_lookup_of_mem (LeafNode.erase n key) other hok2.2 i
          (by rw [hc]; omega) (by rw [hk i (by omega)]; simp [hlt2, hik])
        rw [h1, hv i (by omega)]
        simp [hlt2, hval]
      · have hpos : 0 < i := by omega
        have h1 := leaf_lookup_of_mem (LeafNode.erase n key) other hok2.2 (i - 1)
          (by rw [hc]; omega)
          (by
            rw [hk (i - 1) (by omega)]
            have h6 : ¬ i - 1 < (LeafNode.lower_bound n key).1 := by omega
            have h7 : i - 1 + 1 = i := by omega
            simp [h6, h7, hik])
        rw [h1, hv (i - 1) (by omega)]
        have h6 : ¬ i - 1 < (LeafNode.lower_bound n key).1 := by omega
        have h7 : i - 1 + 1 = i := by omega
        simp [h6, h7, hval]
  · have hf2 : (LeafNode.lower_bound n key).2 = false := by simpa using hf
    rw [leaf_erase_absent n key hf2]

theorem leaf_split_ok {K V : Type} [LinearOrder K] (P : TreeParams) (n buffer : Node K V)
    (hok : LeafOK P n) (hfull : n.count = LeafNode.kCapacity P)
    (h3 : 3 ≤ LeafNode.kCapacity P) (hcap : LeafNode.kCapacity P < 2 ^ 16) :
    LeafOK P (LeafNode.split n buffer).2.1 ∧
    (LeafNode.split n buffer).2.1.count < LeafNode.kCapacity P ∧
    (LeafNode.split n buffer).2.1.level = n.level ∧
    LeafOK P (LeafNode.split n buffer).2.2 ∧
    (LeafNode.split n buffer).2.2.count < LeafNode.kCapacity P ∧
    (LeafNode.split n buffer).2.2.level = buffer.level := by
  obtain ⟨hle, hs⟩ := hok
  have hl : (n.count / 2 + 1) % 2 ^ 16 = n.count / 2 + 1 := Nat.mod_eq_of_lt (by omega)
  have hr : (n.count + 2 ^ 16 - (n.count / 2 + 1)) % 2 ^ 16 = n.count - (n.count / 2 + 1) := by
    have : n.count + 2 ^ 16 - (n.count / 2 + 1) = (n.count - (n.count / 2 + 1)) + 2 ^ 16 := by
      omega
    rw [this, Nat.add_mod_right]
    exact Nat.mod_eq_of_lt (by omega)
  unfold LeafNode.split
  simp only [hl, hr]
  refine ⟨⟨by dsimp only; omega, ?_⟩, by omega, trivial,
    ⟨by dsimp only; omega, ?_⟩, by omega, trivial⟩
  · intro i j hij hj
    dsimp only at hj ⊢
    exact hs i j hij (by omega)
  · intro i j hij hj
    dsimp only at hj ⊢
    unfold memmove_elems
    have h4 : 0 ≤ i ∧ i < 0 + (n.count - (n.count / 2 + 1)) := by omega
    have h5 : 0 ≤ j ∧ j < 0 + (n.count - (n.count / 2 + 1)) := by omega
    simp only [h4, h5, and_self, if_true]
    exact hs _ _ (by omega) (by omega)

/-! ### Inner nodes -/

theorem memmove_words_aligned (dst : Nat → Nat) (d : Nat) (src : Nat → Nat) (s m : Nat)
    (hm : m * 8 < 2 ^ 64) :
    memmove_words dst d src s ((m * 8) % 2 ^ 64) = memmove_elems dst d src s m := by
  funext j
  unfold memmove_words memmove_elems
  rw [Nat.mod_eq_of_lt hm]
  have h1 : m * 8 / 8 = m := by omega
  have h2 : m * 8 % 8 = 0 := by omega
  simp only [h1, h2, ne_eq, not_true_eq_false, and_false, if_false]

theorem inner_lower_bound_le {K V : Type} [LinearOrder K] (n : Node K V) (key : K)
    (h : 1 ≤ n.count) : (InnerNode.lower_bound n key).1 ≤ n.count - 1 := by
  unfold InnerNode.lower_bound
  have hc : n.count ≠ 0 := by omega
  simp only [hc, if_false]
  have := (lower_bound_loop_bounds n.keys key (n.count - 1) 0 (n.count - 1)).2
  omega

theorem inner_lookup_child {K V : Type} [LinearOrder K] (n : Node K V) (key : K)
    (h : 1 ≤ n.count) : ∃ i, i < n.count ∧ InnerNode.lookup n key = n.children i := by
  have hle := inner_lower_bound_le n key h
  refine ⟨(InnerNode.lower_bound n key).1, by omega, ?_⟩
  unfold InnerNode.lookup
  have : ¬ (InnerNode.lower_bound n key).1 = n.count := by omega
  simp only [this, if_false]

theorem inner_insert_split_ok {K V : Type} [LinearOrder K] (P : TreeParams) (n : Node K V)
    (key : K) (split_page : Nat) (hv : P.sizeofValue = 8) (h1 : 1 ≤ n.count)
    (hle : n.count ≤ InnerNode.kCapacity P) (hcap : InnerNode.kCapacity P + 1 < 2 ^ 16) :
    (InnerNode.insert_split P n key split_page).level = n.level ∧
    (InnerNode.insert_split P n key split_page).count = n.count + 1 ∧
    ∀ i, i < n.count + 1 →
      (InnerNode.insert_split P n key split_page).children i = split_page ∨
      ∃ j, j < n.count ∧ (InnerNode.insert_split P n key split_page).children i = n.children j := by
  have hf := inner_lower_bound_le n key h1
  have hna : (n.count + 2 ^ 32 - (InnerNode.lower_bound n key).1 - 1) % 2 ^ 32
      = n.count - (InnerNode.lower_bound n key).1 - 1 := by
    have : n.count + 2 ^ 32 - (InnerNode.lower_bound n key).1 - 1
        = (n.count - (InnerNode.lower_bound n key).1 - 1) + 2 ^ 32 := by omega
    rw [this, Nat.add_mod_right]
    exact Nat.mod_eq_of_lt (by omega)
  have hcnt : u16_incr n.count = n.count + 1 := by
    unfold u16_incr; exact Nat.mod_eq_of_lt (by omega)
  unfold InnerNode.insert_split
  simp only [hna, hcnt, hv]
  rw [memmove_words_aligned _ _ _ _ _ (by omega)]
  generalize (InnerNode.lower_bound n key).1 = f at *
  refine ⟨trivial, trivial, ?_⟩
  intro i hi
  by_cases hif : i = f + 1
  · left; simp [hif]
  · right
    simp only [hif, if_false]
    unfold memmove_elems
    by_cases hr : f + 2 ≤ i ∧ i < f + 2 + (n.count - f - 1)
    · refine ⟨f + 1 + (i - (f + 2)), by omega, ?_⟩
      simp only [hr, and_self, if_true]
    · refine ⟨i, by omega, ?_⟩
      simp only [hr, if_false]

theorem inner_split_ok {K V : Type} [LinearOrder K] (P : TreeParams) (n buffer : Node K V)
    (hv : P.sizeofValue = 8) (hfull : n.count = InnerNode.kCapacity P + 1)
    (h2 : 2 ≤ InnerNode.kCapacity P) (hcap : InnerNode.kCapacity P + 1 < 2 ^ 16) :
    (InnerNode.split P n buffer).2.1.level = n.level ∧
    1 ≤ (InnerNode.split P n buffer).2.1.count ∧
    (InnerNode.split P n buffer).2.1.count ≤ InnerNode.kCapacity P ∧
    (InnerNode.split P n buffer).2.1.count ≤ n.count ∧
    (InnerNode.split P n buffer).2.1.children = n.children ∧
    (InnerNode.split P n buffer).2.2.level = buffer.level ∧
    1 ≤ (InnerNode.split P n buffer).2.2.count ∧
    (InnerNode.split P n buffer).2.2.count ≤ InnerNode.kCapacity P ∧
    ∀ i, i < (InnerNode.split P n buffer).2.2.count →
      ∃ j, j < n.count ∧ (InnerNode.split P n buffer).2.2.children i = n.children j := by
  have hl : ((n.count - 1) / 2 + 1) % 2 ^ 16 = (n.count - 1) / 2 + 1 :=
    Nat.mod_eq_of_lt (by omega)
  have hr : (n.count + 2 ^ 16 - ((n.count - 1) / 2 + 1)) % 2 ^ 16
      = n.count - ((n.count - 1) / 2 + 1) := by
    have : n.count + 2 ^ 16 - ((n.count - 1) / 2 + 1)
        = (n.count - ((n.count - 1) / 2 + 1)) + 2 ^ 16 := by omega
    rw [this, Nat.add_mod_right]
    exact Nat.mod_eq_of_lt (by omega)
  unfold InnerNode.split
  simp only [hl, hr, hv]
  rw [memmove_words_aligned _ _ _ _ _ (by omega)]
  refine ⟨trivial, by omega, by omega, by omega, trivial, trivial, by omega, by omega, ?_⟩
  intro i hi
  refine ⟨(n.count - 1) / 2 + 1 + (i - 0), by omega, ?_⟩
  unfold memmove_elems
  have h4 : 0 ≤ i ∧ i < 0 + (n.count - ((n.count - 1) / 2 + 1)) := by omega
  simp only [h4, and_self, if_true]

/-! ### Pages and lookups -/

theorem set_page_same {K V : Type} (pages : Nat → Node K V) (id : Nat) (n : Node K V) :
    set_page pages id n id = n := by
  simp [set_page]

theorem set_page_other {K V : Type} (pages : Nat → Node K V) (id i : Nat) (n : Node K V)
    (h : i ≠ id) : set_page pages id n i = pages i := by
  simp [set_page, h]

theorem is_leaf_iff {K V : Type} (n : Node K V) : n.is_leaf = true ↔ n.level = 0 := by
  simp [Node.is_leaf]

theorem lookup_map_fst {K V : Type} [LinearOrder K] (P : TreeParams) (fuel : Nat)
    (t : BTree K V) (q : K) :
    (lookup P fuel t q).map Prod.fst =
      (lookup_leaf_page P fuel t q false).map (fun r => LeafNode.lookup (t.pages r.2.2) q) := by
  unfold lookup
  cases h : lookup_leaf_page P fuel t q false with
  | none => rfl
  | some r =>
    obtain ⟨t1, p, l⟩ := r
    obtain ⟨ht1, _, _⟩ := lookup_leaf_page_read_eq P q fuel t t1 p l h
    simp only [Option.map_some']
    rw [ht1]

/-! ### More fuel does not change a result -/

theorem lower_bound_loop_fuel {K : Type} [LinearOrder K] (keys : Nat → K) (key : K) :
    ∀ (fuel fuel2 first count : Nat), count ≤ fuel → count ≤ fuel2 →
      lower_bound_loop keys key fuel first count = lower_bound_loop keys key fuel2 first count := by
  intro fuel
  induction fuel with
  | zero =>
    intro fuel2 first count h1 _
    have hc : count = 0 := by omega
    subst hc
    cases fuel2 with
    | zero => rfl
    | succ m => simp [lower_bound_loop]
  | succ n ih =>
    intro fuel2 first count h1 h2
    cases fuel2 with
    | zero =>
      have hc : count = 0 := by omega
      subst hc
      simp [lower_bound_loop]
    | succ m =>
      unfold lower_bound_loop
      by_cases hc : 0 < count
      · simp only [hc, if_true]
        by_cases hk : keys (first + count / 2) < key
        · simp only [hk, if_true]
          exact ih m _ _ (by omega) (by omega)
        · simp only [hk, if_false]
          exact ih m _ _ (by omega) (by omega)
      · simp only [hc, if_false]

theorem descend_fuel_succ {K V : Type} [LinearOrder K] (P : TreeParams) (key : K) (m : Bool) :
    ∀ (fuel : Nat) (t : BTree K V) (p c : Nat) (r : BTree K V × Nat × Nat),
      descend P key m fuel t p c = some r → descend P key m (fuel + 1) t p c = some r := by
  intro fuel
  induction fuel with
  | zero => intro t p c r h; simp [descend] at h
  | succ n ih =>
    intro t p c r h
    unfold descend at h ⊢
    by_cases hl : (t.pages c).is_leaf = true
    · simpa [hl] using h
    · simp only [hl, Bool.false_eq_true, if_false] at h ⊢
      split at h
      · rename_i hc
        simp only [hc, if_true]
        exact ih _ _ _ _ h
      · rename_i hc
        simp only [hc, if_false]
        exact ih _ _ _ _ h

theorem descend_fuel_le {K V : Type} [LinearOrder K] (P : TreeParams) (key : K) (m : Bool)
    (fuel fuel2 : Nat) (hle : fuel ≤ fuel2) (t : BTree K V) (p c : Nat)
    (r : BTree K V × Nat × Nat) (h : descend P key m fuel t p c = some r) :
    descend P key m fuel2 t p c = some r := by
  induction hle with
  | refl => exact h
  | step _ ih => exact descend_fuel_succ P key m _ t p c r ih

theorem lookup_leaf_page_fuel_le {K V : Type} [LinearOrder K] (P : TreeParams) (key : K)
    (m : Bool) (fuel fuel2 : Nat) (hle : fuel ≤ fuel2) (t : BTree K V)
    (r : BTree K V × Nat × Nat) (h : lookup_leaf_page P fuel t key m = some r) :
    lookup_leaf_page P fuel2 t key m = some r := by
  unfold lookup_leaf_page at h ⊢
  by_cases hl : (t.pages t.root).is_leaf = true
  · simpa [hl] using h
  · simp only [hl, Bool.false_eq_true, if_false] at h ⊢
    split at h
    · rename_i hc
      simp only [hc, if_true]
      exact descend_fuel_le P key m fuel fuel2 hle _ _ _ r h
    · rename_i hc
      simp only [hc, if_false]
      exact descend_fuel_le P key m fuel fuel2 hle _ _ _ r h

theorem lookup_fuel_le {K V : Type} [LinearOrder K] (P : TreeParams) (key : K)
    (fuel fuel2 : Nat) (hle : fuel ≤ fuel2) (t : BTree K V) (r : Option V × BTree K V)
    (h : lookup P fuel t key = some r) : lookup P fuel2 t key = some r := by
  unfold lookup at h ⊢
  cases hl : lookup_leaf_page P fuel t key false with
  | none => rw [hl] at h; cases h
  | some x =>
    rw [hl] at h
    rw [lookup_leaf_page_fuel_le P key false fuel fuel2 hle t x hl]
    exact h

theorem insert_fuel_le {K V : Type} [LinearOrder K] (P : TreeParams) (key : K) (value : V)
    (fuel fuel2 : Nat) (hle : fuel ≤ fuel2) (t r : BTree K V)
    (h : insert P fuel t key value = some r) : insert P fuel2 t key value = some r := by
  unfold insert at h ⊢
  by_cases he : t.is_empty = true
  · simpa [he] using h
  · simp only [he, Bool.false_eq_true, if_false] at h ⊢
    cases hl : lookup_leaf_page P fuel t key true with
    | none => rw [hl] at h; cases h
    | some x =>
      rw [hl] at h
      rw [lookup_leaf_page_fuel_le P key true fuel fuel2 hle t x hl]
      exact h

theorem insert_all_fuel_le {K V : Type} [LinearOrder K] (P : TreeParams)
    (fuel fuel2 : Nat) (hle : fuel ≤ fuel2) :
    ∀ (ops : List (K × V)) (t r : BTree K V),
      insert_all P fuel t ops = some r → insert_all P fuel2 t ops = some r := by
  intro ops
  induction ops with
  | nil => intro t r h; exact h
  | cons e rest ih =>
    intro t r h
    obtain ⟨k, v⟩ := e
    simp only [insert_all] at h ⊢
    cases hi : insert P fuel t k v with
    | none => rw [hi] at h; cases h
    | some t1 =>
      rw [hi] at h
      rw [insert_fuel_le P k v fuel fuel2 hle t t1 hi]
      exact ih t1 r h

theorem insert_all_map_fuel_le {K V α : Type} [LinearOrder K] (P : TreeParams)
    (fuel fuel2 : Nat) (hle : fuel ≤ fuel2) (t0 : BTree K V) (ops : List (K × V))
    (f : BTree K V → α) (x : α) (h : (insert_all P fuel t0 ops).map f = some x) :
    (insert_all P fuel2 t0 ops).map f = some x := by
  cases hi : insert_all P fuel t0 ops with
  | none => rw [hi] at h; cases h
  | some t =>
    rw [hi] at h
    rw [insert_all_fuel_le P fuel fuel2 hle ops t0 t hi]
    exact h

theorem insert_all_lookup_fuel_le {K V : Type} [LinearOrder K] (P : TreeParams)
    (fuel fuel2 : Nat) (hle : fuel ≤ fuel2) (t0 : BTree K V) (ops : List (K × V)) (q : K)
    (x : Option V)
    (h : (insert_all P fuel t0 ops).bind (fun t => (lookup P fuel t q).map Prod.fst) = some x) :
    (insert_all P fuel2 t0 ops).bind (fun t => (lookup P fuel2 t q).map Prod.fst) = some x := by
  cases hi : insert_all P fuel t0 ops with
  | none => rw [hi] at h; cases h
  | some t =>
    rw [hi] at h
    rw [insert_all_fuel_le P fuel fuel2 hle ops t0 t hi]
    simp only [Option.some_bind] at h ⊢
    cases hl : lookup P fuel t q with
    | none => rw [hl] at h; cases h
    | some r =>
      rw [hl] at h
      rw [lookup_fuel_le P q fuel fuel2 hle t r hl]
      exact h

/-! ### The tree on concrete runs -/

/-- C1 (what the code does): on pages of 52 bytes with 4-byte keys and 4-byte
values both capacities are 3.  After the eight inserts of `eight_inserts`
into a fresh tree every call has returned (three passes of the descent loop
are enough, and a larger bound changes nothing), and `lookup(50)` returns
nothing although `(50, 500)` was inserted: the last insert splits the
leftmost leaf, and `insert_split` moves the two child pointers to its right
by `2 * sizeof(ValueT) = 8` bytes, one pointer instead of two, so the leaf
that holds 50 and 60 is no longer a child of the root.  With 8-byte values
the same run finds 500. -/
theorem lookup_misses_inserted_key (fuel : Nat) (hfuel : 3 ≤ fuel) :
    InnerNode.kCapacity params_narrow_values = 3 ∧
    LeafNode.kCapacity params_narrow_values = 3 ∧
    (50, 500) ∈ eight_inserts ∧
    ((insert_all params_narrow_values fuel (BTree.init Nat Nat 0 0 0) eight_inserts).bind
      (fun t => (lookup params_narrow_values fuel t 50).map Prod.fst)) = some none ∧
    ((insert_all params_wide_values fuel (BTree.init Nat Nat 0 0 0) eight_inserts).bind
      (fun t => (lookup params_wide_values fuel t 50).map Prod.fst)) = some (some 500) := by
  refine ⟨by decide, by decide, by decide, ?_, ?_⟩
  · exact insert_all_lookup_fuel_le params_narrow_values 3 fuel hfuel _ _ 50 none (by decide)
  · exact insert_all_lookup_fuel_le params_wide_values 3 fuel hfuel _ _ 50 (some 500)
      (by decide)

theorem lookup_misses_inserted_key_witness :
    (3 ≤ 4) ∧
    ((insert_all params_narrow_values 4 (BTree.init Nat Nat 0 0 0) eight_inserts).bind
      (fun t => (lookup params_narrow_values 4 t 50).map Prod.fst)) = some none :=
  ⟨by decide, (lookup_misses_inserted_key 4 (by decide)).2.2.2.1⟩

/-- C10 (what the code does): after the same eight inserts with 4-byte
values the root is an inner node of level 1 with the four children 0, 4, 1, 0
(page 3 is lost and page 0 is a child twice), so the leaves read from left to
right give the keys 5, 7, 10, 20, 30, 40, 5, 7, 10, which are not strictly
increasing. -/
theorem leaf_order_broken (fuel : Nat) (hfuel : 3 ≤ fuel) :
    ((insert_all params_narrow_values fuel (BTree.init Nat Nat 0 0 0) eight_inserts).map
      (fun t => ((t.pages t.root).level, (t.pages t.root).count,
        (List.range 4).map (t.pages t.root).children,
        leaf_keys_in_order t.pages 2 t.root))) =
      some (1, 4, [0, 4, 1, 0], [5, 7, 10, 20, 30, 40, 5, 7, 10]) ∧
    ¬ List.Pairwise (fun a b : Nat => a < b) [5, 7, 10, 20, 30, 40, 5, 7, 10] := by
  refine ⟨?_, by decide⟩
  exact insert_all_map_fuel_le params_narrow_values 3 fuel hfuel _ _ _ _ (by decide)

theorem leaf_order_broken_witness :
    (3 ≤ 4) ∧
    ((insert_all params_narrow_values 4 (BTree.init Nat Nat 0 0 0) eight_inserts).map
      (fun t => ((t.pages t.root).level, (t.pages t.root).count,
        (List.range 4).map (t.pages t.root).children,
        leaf_keys_in_order t.pages 2 t.root))) =
      some (1, 4, [0, 4, 1, 0], [5, 7, 10, 20, 30, 40, 5, 7, 10]) :=
  ⟨by decide, (leaf_order_broken 4 (by decide)).1⟩

/-- C3 (counterexample): the root of `tree_full_root_leaf` is a full leaf
that holds the key 20; `insert(20, 999)` on it returns with `next_page` raised
from 1 to 3 and with the count of the root leaf lowered from 3 to 2. -/
theorem overwrite_in_full_leaf_allocates :
    (tree_full_root_leaf.bind
      (fun t => (lookup params_wide_values 3 t 20).map Prod.fst)) = some (some 200) ∧
    (tree_full_root_leaf.map
      (fun t => (t.next_page, (t.pages 0).count, LeafNode.kCapacity params_wide_values)))
      = some (1, 3, 3) ∧
    ((tree_full_root_leaf.bind (fun t => insert params_wide_values 3 t 20 999)).map
      (fun t => (t.next_page, (t.pages 0).count))) = some (3, 2) := by
  refine ⟨by decide, by decide, by decide⟩

/-! ### Node capacities -/

/-- For a page size of at least 16 bytes and capacities that fit 32 bits,
`InnerNode::kCapacity` is `(PageSize - 8) / (sizeof(Key) + 8)` and
`LeafNode::kCapacity` is `(PageSize - 16) / (sizeof(Key) + 8)`, both with integer
division and whatever the value type is; the leaf capacity is
`(PageSize - 16) / (sizeof(Key) + sizeof(Value))` when a value has 8 bytes. -/
theorem kCapacity_formulas (P : TreeParams) (hsize : 16 ≤ P.PageSize)
    (hsize64 : P.PageSize < 2 ^ 64) (hkey : P.sizeofKey + 8 < 2 ^ 64)
    (hfit : (P.PageSize - 8) / (P.sizeofKey + 8) < 2 ^ 32) :
    InnerNode.kCapacity P = (P.PageSize - 8) / (P.sizeofKey + 8) ∧
    LeafNode.kCapacity P = (P.PageSize - 16) / (P.sizeofKey + 8) ∧
    (P.sizeofValue = 8 →
      LeafNode.kCapacity P = (P.PageSize - 16) / (P.sizeofKey + P.sizeofValue)) := by
  have h1 : (P.PageSize + 2 ^ 64 - 8) % 2 ^ 64 = P.PageSize - 8 := by omega
  have h2 : (P.PageSize + 2 ^ 64 - 16) % 2 ^ 64 = P.PageSize - 16 := by omega
  have h3 : (P.sizeofKey + 8) % 2 ^ 64 = P.sizeofKey + 8 := Nat.mod_eq_of_lt hkey
  have h4 : (P.PageSize - 16) / (P.sizeofKey + 8) ≤ (P.PageSize - 8) / (P.sizeofKey + 8) :=
    Nat.div_le_div_right (by omega)
  have hI : InnerNode.kCapacity P = (P.PageSize - 8) / (P.sizeofKey + 8) := by
    unfold InnerNode.kCapacity
    rw [h1, h3]
    exact Nat.mod_eq_of_lt hfit
  have hL : LeafNode.kCapacity P = (P.PageSize - 16) / (P.sizeofKey + 8) := by
    unfold LeafNode.kCapacity
    rw [h2, h3]
    exact Nat.mod_eq_of_lt (by omega)
  refine ⟨hI, hL, ?_⟩
  intro hv
  rw [hL, hv]

theorem kCapacity_formulas_witness :
    (16 ≤ (1024 : Nat) ∧ (1024 : Nat) < 2 ^ 64 ∧ 4 + 8 < 2 ^ 64 ∧
      (1024 - 8) / (4 + 8) < 2 ^ 32) ∧
    InnerNode.kCapacity { PageSize := 1024, sizeofKey := 4, sizeofValue := 4 } = 84 ∧
    LeafNode.kCapacity { PageSize := 1024, sizeofKey := 4, sizeofValue := 4 } = 84 :=
  ⟨by decide,
   (kCapacity_formulas { PageSize := 1024, sizeofKey := 4, sizeofValue := 4 }
      (by decide) (by decide) (by decide) (by decide)).1,
   (kCapacity_formulas { PageSize := 1024, sizeofKey := 4, sizeofValue := 4 }
      (by decide) (by decide) (by decide) (by decide)).2.1⟩

/-- C14 (what the code does): `LeafNode::kCapacity` divides by
`sizeof(KeyT) + sizeof(uint64_t)` whatever the value type is.  With pages of 1024
bytes, keys of 8 bytes and values of 16 bytes it is 63, not
`(1024 - 16) / (8 + 16) = 42`, and the arrays `keys[63]` and `values[63]` take
more bytes than the page has; with keys and values of 4 bytes it is 84, not
`(1024 - 16) / (4 + 4) = 126`. -/
theorem leaf_capacity_ignores_value_size :
    LeafNode.kCapacity { PageSize := 1024, sizeofKey := 8, sizeofValue := 16 } = 63 ∧
    (1024 - 16) / (8 + 16) = 42 ∧
    1024 < LeafNode.kCapacity { PageSize := 1024, sizeofKey := 8, sizeofValue := 16 }
      * (8 + 16) ∧
    LeafNode.kCapacity { PageSize := 1024, sizeofKey := 4, sizeofValue := 4 } = 84 ∧
    (1024 - 16) / (4 + 4) = 126 := by
  refine ⟨by decide, by decide, by decide, by decide, by decide⟩

/-- C18: `unfix_page` of a frame in the table sets its state to `DIRTY` when
`is_dirty` is true and leaves the state as it was otherwise; both queues, the
keys of the table, every other frame, the byte pool, the segment files and
`free_pos` are as before. -/
theorem unfix_page_effect (bm : BufferManager) (page_id : Nat) (is_dirty : Bool)
    (hres : page_id ∈ frame_ids bm.bufferframes) :
    (frame_get (unfix_page bm page_id is_dirty).bufferframes page_id).state
      = (if is_dirty then State.DIRTY else (frame_get bm.bufferframes page_id).state) ∧
    (unfix_page bm page_id is_dirty).fifo = bm.fifo ∧
    (unfix_page bm page_id is_dirty).lru = bm.lru ∧
    frame_ids (unfix_page bm page_id is_dirty).bufferframes = frame_ids bm.bufferframes ∧
    (∀ j, j ≠ page_id →
      frame_get (unfix_page bm page_id is_dirty).bufferframes j = frame_get bm.bufferframes j) ∧
    (unfix_page bm page_id is_dirty).buffer = bm.buffer ∧
    (unfix_page bm page_id is_dirty).disk = bm.disk ∧
    (unfix_page bm page_id is_dirty).free_pos = bm.free_pos := by
  unfold unfix_page
  cases hf : frame_find bm.bufferframes page_id with
  | none =>
    exfalso
    unfold frame_find at hf
    exact (lookup_eq_none_iff_not_mem _ _).1 hf hres
  | some f =>
    refine ⟨?_, rfl, rfl, ?_, ?_, rfl, rfl, rfl⟩
    · simp only [frame_get_modify_same]
    · simp only [frame_ids_modify, frame_touch_of_mem _ _ hres]
    · intro j hj
      simp only [frame_get_modify_other _ _ _ _ hj]

/-! ### Splitting a root that is a leaf -/

theorem leaf_insert_level {K V : Type} [LinearOrder K] (n : Node K V) (key : K) (value : V) :
    (LeafNode.insert n key value).level = n.level := by
  unfold LeafNode.insert
  split
  · rfl
  · split <;> rfl

theorem split_leaf_of_root {K V : Type} [LinearOrder K] (P : TreeParams) (t : BTree K V)
    (hroot : t.root < t.next_page) :
    (split_leaf P t t.root t.root).1.root = t.next_page + 1 ∧
    (split_leaf P t t.root t.root).1.next_page = t.next_page + 2 ∧
    (split_leaf P t t.root t.root).1.is_empty = t.is_empty ∧
    (split_leaf P t t.root t.root).2.2 = t.next_page ∧
    ((split_leaf P t t.root t.root).1.pages (t.next_page + 1)).level = 1 ∧
    ((split_leaf P t t.root t.root).1.pages (t.next_page + 1)).count = 2 ∧
    ((split_leaf P t t.root t.root).1.pages (t.next_page + 1)).children 0 = t.root ∧
    ((split_leaf P t t.root t.root).1.pages (t.next_page + 1)).children 1 = t.next_page ∧
    ((split_leaf P t t.root t.root).1.pages (t.next_page + 1)).keys 0
      = (t.pages t.root).keys ((t.pages t.root).count / 2) ∧
    ((split_leaf P t t.root t.root).1.pages t.root).level = (t.pages t.root).level ∧
    ((split_leaf P t t.root t.root).1.pages t.next_page).level = 0 := by
  have h1 : t.root ≠ t.next_page + 1 := by omega
  have h2 : t.next_page ≠ t.next_page + 1 := by omega
  have h3 : t.root ≠ t.next_page := by omega
  simp [split_leaf, set_page, h1, h2, h3, InnerNode.first_insert, LeafNode.split]

/-- C16: on a non-empty tree whose root is an allocated leaf with
`count = K_leaf`, `insert` returns for every key and value, and afterwards the
root is the newly allocated page `next_page + 1`, an inner node of level 1
with exactly two children: the old root leaf on the left and the newly
allocated leaf `next_page` on the right; its separator is the key that was at
index `K_leaf / 2` of the old leaf before the insert. -/
theorem root_leaf_split {K V : Type} [LinearOrder K] (P : TreeParams) (fuel : Nat)
    (t : BTree K V) (key : K) (value : V)
    (hne : t.is_empty = false) (hroot : t.root < t.next_page)
    (hleaf : (t.pages t.root).is_leaf = true)
    (hfull : (t.pages t.root).count = LeafNode.kCapacity P) :
    ∃ t1, insert P fuel t key value = some t1 ∧
      t1.root = t.next_page + 1 ∧ t1.next_page = t.next_page + 2 ∧
      (t1.pages t1.root).level = 1 ∧ (t1.pages t1.root).count = 2 ∧
      (t1.pages t1.root).children 0 = t.root ∧
      (t1.pages t1.root).children 1 = t.next_page ∧
      (t1.pages t1.root).keys 0 = (t.pages t.root).keys (LeafNode.kCapacity P / 2) ∧
      (t1.pages t.root).is_leaf = true ∧ (t1.pages t.next_page).is_leaf = true := by
  have hlevel : (t.pages t.root).level = 0 := by
    simpa [Node.is_leaf] using hleaf
  obtain ⟨s1, s2, _, s4, s5, s6, s7, s8, s9, s10, s11⟩ :=
    split_leaf_of_root P { t with leaf_page_id := t.root } hroot
  simp only at s1 s2 s4 s5 s6 s7 s8 s9 s10 s11
  unfold insert
  simp only [hne, Bool.false_eq_true, if_false]
  unfold lookup_leaf_page
  simp only [hleaf, if_true, hfull]
  refine ⟨_, rfl, ?_⟩
  obtain ⟨tgt, htgt⟩ : ∃ tgt, tgt = (if (split_leaf P { t with leaf_page_id := t.root }
      t.root t.root).2.1 < key then (split_leaf P { t with leaf_page_id := t.root }
      t.root t.root).2.2 else t.root) := ⟨_, rfl⟩
  have htgt2 : tgt = t.next_page ∨ tgt = t.root := by
    rw [htgt, s4]
    split
    · exact Or.inl rfl
    · exact Or.inr rfl
  have hne1 : t.next_page + 1 ≠ tgt := by
    rcases htgt2 with h | h <;> omega
  simp only [← htgt, s1, s2]
  refine ⟨trivial, trivial, ?_, ?_, ?_, ?_, ?_, ?_, ?_⟩
  · simp only [set_page, hne1, if_false, s5]
  · simp only [set_page, hne1, if_false, s6]
  · simp only [set_page, hne1, if_false, s7]
  · simp only [set_page, hne1, if_false, s8]
  · simp only [set_page, hne1, if_false, s9, hfull]
  · simp only [set_page, Node.is_leaf, decide_eq_true_eq]
    split
    · rename_i h
      rw [leaf_insert_level, ← h, s10, hlevel]
    · rw [s10, hlevel]
  · simp only [set_page, Node.is_leaf, decide_eq_true_eq]
    split
    · rename_i h
      rw [leaf_insert_level, ← h, s11]
    · rw [s11]

/-! ### Invariants over sequences of calls -/

theorem wf_iff_coherent (bm : BufferManager) :
    WF bm ↔ Coherent bm ∧ ∀ id ∈ frame_ids bm.bufferframes, id ∈ bm.fifo ++ bm.lru := by
  constructor
  · rintro ⟨h1, h2, h3, h4, h5, h6, h7, h8⟩
    exact ⟨⟨h1, h2, h4, h5, h6, fun id hid => h7 id (h4 id hid), h8⟩, h3⟩
  · rintro ⟨⟨h1, h2, h4, h5, h6, h7, h8⟩, h3⟩
    exact ⟨h1, h2, h3, h4, h5, h6, fun id hid => h7 id (h3 id hid), h8⟩

/-- A step that changes at most the frame of `id` and may create it. -/
theorem coherent_frame_step (bm bm1 : BufferManager) (id : Nat) (h : Coherent bm)
    (hf : bm1.fifo = bm.fifo) (hl : bm1.lru = bm.lru) (hpc : bm1.page_count = bm.page_count)
    (hids : frame_ids bm1.bufferframes = frame_ids (frame_touch bm.bufferframes id))
    (hother : ∀ j, j ≠ id → frame_get bm1.bufferframes j = frame_get bm.bufferframes j)
    (hroom : id ∈ frame_ids bm.bufferframes ∨ bm.bufferframes.length < bm.page_count)
    (hkeep : id ∈ bm.fifo ++ bm.lru →
      (frame_get bm1.bufferframes id).position = (frame_get bm.bufferframes id).position ∧
      (frame_get bm1.bufferframes id).page_id = (frame_get bm.bufferframes id).page_id) :
    Coherent bm1 := by
  obtain ⟨h1, h2, h3, h4, h5, h6, h7⟩ := h
  have hsub : ∀ j ∈ frame_ids bm.bufferframes, j ∈ frame_ids bm1.bufferframes := by
    intro j hj
    rw [hids]
    by_cases hm : id ∈ frame_ids bm.bufferframes
    · rw [frame_touch_of_mem _ _ hm]; exact hj
    · rw [frame_touch_of_not_mem _ _ hm]
      simp only [frame_ids, List.map_append, List.mem_append]
      exact Or.inl hj
  have hget : ∀ j, j ∈ bm.fifo ++ bm.lru →
      (frame_get bm1.bufferframes j).position = (frame_get bm.bufferframes j).position ∧
      (frame_get bm1.bufferframes j).page_id = (frame_get bm.bufferframes j).page_id := by
    intro j hj
    by_cases hji : j = id
    · subst hji; exact hkeep hj
    · rw [hother j hji]; exact ⟨rfl, rfl⟩
  refine ⟨?_, by rw [hf, hl]; exact h2, ?_, ?_, ?_, ?_, ?_⟩
  · rw [hids]
    by_cases hm : id ∈ frame_ids bm.bufferframes
    · rw [frame_touch_of_mem _ _ hm]; exact h1
    · rw [frame_touch_of_not_mem _ _ hm]
      simp only [frame_ids, List.map_append, List.map_cons, List.map_nil]
      exact List.Nodup.append h1 (List.nodup_singleton _) (by simpa [frame_ids] using hm)
  · intro j hj
    rw [hf, hl] at hj
    exact hsub j (h3 j hj)
  · intro j hj
    rw [hf] at hj
    rw [(hget j (List.mem_append_left _ hj)).1]
    exact h4 j hj
  · intro j hj
    rw [hl] at hj
    rw [(hget j (List.mem_append_right _ hj)).1]
    exact h5 j hj
  · intro j hj
    rw [hf, hl] at hj
    rw [(hget j hj).2]
    exact h6 j hj
  · rw [← frame_ids_length, hids, frame_ids_length, frame_touch_length, hpc]
    split
    · exact h7
    · rename_i hm
      rcases hroom with hr | hr
      · exact absurd hr hm
      · omega

theorem coherent_modify (bm : BufferManager) (h : Coherent bm) (id : Nat)
    (g : BufferFrame → BufferFrame)
    (hroom : id ∈ frame_ids bm.bufferframes ∨ bm.bufferframes.length < bm.page_count)
    (hg : id ∈ bm.fifo ++ bm.lru →
      ∀ f, (g f).position = f.position ∧ (g f).page_id = f.page_id) :
    Coherent { bm with bufferframes := frame_modify bm.bufferframes id g } := by
  refine coherent_frame_step bm _ id h rfl rfl rfl (frame_ids_modify _ _ _) ?_ hroom ?_
  · intro j hj
    exact frame_get_modify_other _ _ _ _ hj
  · intro hq
    simp only [frame_get_modify_same]
    exact hg hq _

theorem coherent_queues (bm : BufferManager) (h : Coherent bm) (fifo1 lru1 : List Nat)
    (hnd : (fifo1 ++ lru1).Nodup) (hf : ∀ j ∈ fifo1, j ∈ bm.fifo) (hl : ∀ j ∈ lru1, j ∈ bm.lru) :
    Coherent { bm with fifo := fifo1, lru := lru1 } := by
  obtain ⟨h1, h2, h3, h4, h5, h6, h7⟩ := h
  refine ⟨h1, hnd, ?_, ?_, ?_, ?_, h7⟩
  · intro j hj
    rcases List.mem_append.1 hj with hm | hm
    · exact h3 j (List.mem_append_left _ (hf j hm))
    · exact h3 j (List.mem_append_right _ (hl j hm))
  · intro j hj; exact h4 j (hf j hj)
  · intro j hj; exact h5 j (hl j hj)
  · intro j hj
    rcases List.mem_append.1 hj with hm | hm
    · exact h6 j (List.mem_append_left _ (hf j hm))
    · exact h6 j (List.mem_append_right _ (hl j hm))

/-- Appending a page that has a frame and is in neither queue to one of the
queues, with the queue recorded in its frame. -/
theorem coherent_push (bm : BufferManager) (h : Coherent bm) (id : Nat) (pos : Position)
    (hq : id ∉ bm.fifo ++ bm.lru) (hid : id ∈ frame_ids bm.bufferframes)
    (hp : (frame_get bm.bufferframes id).page_id = id) :
    Coherent
      (if pos = Position.FIFO then
        { bm with
          bufferframes := frame_modify bm.bufferframes id
            (fun f => { f with position := Position.FIFO }),
          fifo := bm.fifo ++ [id] }
      else
        { bm with
          bufferframes := frame_modify bm.bufferframes id
            (fun f => { f with position := Position.LRU }),
          lru := bm.lru ++ [id] }) := by
  obtain ⟨h1, h2, h3, h4, h5, h6, h7⟩ := h
  have hqf : id ∉ bm.fifo := fun hm => hq (List.mem_append_left _ hm)
  have hql : id ∉ bm.lru := fun hm => hq (List.mem_append_right _ hm)
  have hids : ∀ g, frame_ids (frame_modify bm.bufferframes id g) = frame_ids bm.bufferframes := by
    intro g
    rw [frame_ids_modify, frame_touch_of_mem _ _ hid]
  have hlen : ∀ g, (frame_modify bm.bufferframes id g).length = bm.bufferframes.length := by
    intro g
    rw [← frame_ids_length, hids, frame_ids_length]
  by_cases hpos : pos = Position.FIFO
  · simp only [hpos, if_true]
    have hperm : List.Perm (bm.fifo ++ [id] ++ bm.lru) (id :: (bm.fifo ++ bm.lru)) := by
      simp only [List.append_assoc, List.singleton_append]
      exact List.perm_middle
    refine ⟨by rw [hids]; exact h1, ?_, ?_, ?_, ?_, ?_, by rw [hlen]; exact h7⟩
    · exact (List.Perm.nodup_iff hperm).2 (List.nodup_cons.2 ⟨hq, h2⟩)
    · intro j hj
      rw [hids]
      rcases List.mem_cons.1 ((List.Perm.mem_iff hperm).1 hj) with hm | hm
      · rw [hm]; exact hid
      · exact h3 j hm
    · intro j hj
      simp only [] at hj ⊢
      rcases List.mem_append.1 hj with hm | hm
      · have hne : j ≠ id := fun hji => hqf (hji ▸ hm)
        rw [frame_get_modify_other _ _ _ _ hne]
        exact h4 j hm
      · simp only [List.mem_singleton] at hm
        rw [hm, frame_get_modify_same]
    · intro j hj
      simp only [] at hj ⊢
      have hne : j ≠ id := fun hji => hql (hji ▸ hj)
      rw [frame_get_modify_other _ _ _ _ hne]
      exact h5 j hj
    · intro j hj
      simp only [] at hj ⊢
      rcases List.mem_cons.1 ((List.Perm.mem_iff hperm).1 hj) with hm | hm
      · rw [hm, frame_get_modify_same]; exact hp
      · have hne : j ≠ id := fun hji => hq (hji ▸ hm)
        rw [frame_get_modify_other _ _ _ _ hne]
        exact h6 j hm
  · simp only [hpos, if_false]
    have hperm : List.Perm (bm.fifo ++ (bm.lru ++ [id])) (id :: (bm.fifo ++ bm.lru)) := by
      rw [← List.append_assoc]
      exact List.perm_append_singleton _ _
    refine ⟨by rw [hids]; exact h1, ?_, ?_, ?_, ?_, ?_, by rw [hlen]; exact h7⟩
    · exact (List.Perm.nodup_iff hperm).2 (List.nodup_cons.2 ⟨hq, h2⟩)
    · intro j hj
      rw [hids]
      rcases List.mem_cons.1 ((List.Perm.mem_iff hperm).1 hj) with hm | hm
      · rw [hm]; exact hid
      · exact h3 j hm
    · intro j hj
      simp only [] at hj ⊢
      have hne : j ≠ id := fun hji => hqf (hji ▸ hj)
      rw [frame_get_modify_other _ _ _ _ hne]
      exact h4 j hj
    · intro j hj
      simp only [] at hj ⊢
      rcases List.mem_append.1 hj with hm | hm
      · have hne : j ≠ id := fun hji => hql (hji ▸ hm)
        rw [frame_get_modify_other _ _ _ _ hne]
        exact h5 j hm
      · simp only [List.mem_singleton] at hm
        rw [hm, frame_get_modify_same]
    · intro j hj
      simp only [] at hj ⊢
      rcases List.mem_cons.1 ((List.Perm.mem_iff hperm).1 hj) with hm | hm
      · rw [hm, frame_get_modify_same]; exact hp
      · have hne : j ≠ id := fun hji => hq (hji ▸ hm)
        rw [frame_get_modify_other _ _ _ _ hne]
        exact h6 j hm

theorem coherent_lock (bm bm1 : BufferManager) (id : Nat) (e : Bool) (h : Coherent bm)
    (hroom : id ∈ frame_ids bm.bufferframes ∨ bm.bufferframes.length < bm.page_count)
    (hl : lock_frame bm id e = some bm1) : Coherent bm1 := by
  obtain ⟨hf, hlr, hids, _⟩ := lock_frame_some _ _ _ _ hl
  obtain ⟨hother, hpos, hpid⟩ := lock_frame_frames _ _ _ _ hl
  exact coherent_frame_step bm bm1 id h hf hlr (lock_frame_page_count _ _ _ _ hl) hids hother
    hroom (fun _ => ⟨hpos, hpid⟩)

theorem coherent_read (bm : BufferManager) (id : Nat) (h : Coherent bm)
    (hroom : id ∈ frame_ids bm.bufferframes ∨ bm.bufferframes.length < bm.page_count)
    (hq : id ∉ bm.fifo ++ bm.lru) : Coherent (read_frame bm id).2 := by
  obtain ⟨hf, hlr, hids, _⟩ := read_frame_fields bm id
  obtain ⟨hother, _, _⟩ := read_frame_frames bm id
  exact coherent_frame_step bm _ id h hf hlr (read_frame_page_count bm id) hids hother
    hroom (fun hm => absurd hm hq)

theorem coherent_unlock (bm : BufferManager) (id : Nat) (h : Coherent bm)
    (hid : id ∈ frame_ids bm.bufferframes) : Coherent (unlock_frame bm id) := by
  unfold unlock_frame
  exact coherent_modify bm h id _ (Or.inl hid) (fun _ _ => ⟨rfl, rfl⟩)

theorem unlock_frame_fields (bm : BufferManager) (id : Nat) :
    (unlock_frame bm id).fifo = bm.fifo ∧ (unlock_frame bm id).lru = bm.lru ∧
    (unlock_frame bm id).page_count = bm.page_count ∧
    frame_ids (unlock_frame bm id).bufferframes = frame_ids (frame_touch bm.bufferframes id) := by
  unfold unlock_frame
  refine ⟨rfl, rfl, rfl, ?_⟩
  simp only [frame_ids_modify]

/-- The loading tail of `fix_page` keeps `Coherent`, however it ends. -/
theorem coherent_load (bm : BufferManager) (id : Nat) (e : Bool) (pos : Position)
    (h : Coherent bm) (hq : id ∉ bm.fifo ++ bm.lru)
    (hroom : id ∈ frame_ids bm.bufferframes ∨ bm.bufferframes.length < bm.page_count) :
    Coherent (load_page bm id e pos).2 ∧
    (load_page bm id e pos).2.page_count = bm.page_count := by
  unfold load_page
  cases h1 : lock_frame bm id true with
  | none => exact ⟨h, rfl⟩
  | some bm1 =>
    simp only
    have c1 := coherent_lock bm bm1 id true h hroom h1
    obtain ⟨hf1, hl1, hids1, _⟩ := lock_frame_some _ _ _ _ h1
    have hp1 := lock_frame_page_count _ _ _ _ h1
    have hid1 : id ∈ frame_ids bm1.bufferframes := by
      rw [hids1]; exact frame_ids_touch_mem _ _
    have hq1 : id ∉ bm1.fifo ++ bm1.lru := by rw [hf1, hl1]; exact hq
    have c2 := coherent_read bm1 id c1 (Or.inl hid1) hq1
    obtain ⟨hf2, hl2, hids2, _⟩ := read_frame_fields bm1 id
    obtain ⟨_, _, hpid2⟩ := read_frame_frames bm1 id
    have hp2 := read_frame_page_count bm1 id
    cases h2 : read_frame bm1 id with
    | mk ok bm2 =>
      rw [h2] at c2 hf2 hl2 hids2 hpid2 hp2
      simp only at c2 hf2 hl2 hids2 hpid2 hp2
      have hid2 : id ∈ frame_ids bm2.bufferframes := by
        rw [hids2, frame_touch_of_mem _ _ hid1]; exact hid1
      have hq2 : id ∉ bm2.fifo ++ bm2.lru := by rw [hf2, hl2]; exact hq1
      cases ok with
      | false => exact ⟨c2, by rw [hp2, hp1]⟩
      | true =>
        simp only
        have c3 := coherent_push bm2 c2 id pos hq2 hid2 hpid2
        obtain ⟨bm3, hbm3⟩ : ∃ bm3, bm3 = (if pos = Position.FIFO then
            { bm2 with
              bufferframes := frame_modify bm2.bufferframes id
                (fun f => { f with position := Position.FIFO }),
              fifo := bm2.fifo ++ [id] }
          else
            { bm2 with
              bufferframes := frame_modify bm2.bufferframes id
                (fun f => { f with position := Position.LRU }),
              lru := bm2.lru ++ [id] }) := ⟨_, rfl⟩
        rw [← hbm3] at c3 ⊢
        have hid3 : id ∈ frame_ids bm3.bufferframes := by
          rw [hbm3]
          split
          · simp only [frame_ids_modify, frame_touch_of_mem _ _ hid2]; exact hid2
          · simp only [frame_ids_modify, frame_touch_of_mem _ _ hid2]; exact hid2
        have hp3 : bm3.page_count = bm2.page_count := by
          rw [hbm3]; split <;> rfl
        have c4 := coherent_unlock bm3 id c3 hid3
        obtain ⟨_, _, hp4, hids4⟩ := unlock_frame_fields bm3 id
        have hid4 : id ∈ frame_ids (unlock_frame bm3 id).bufferframes := by
          rw [hids4]; exact frame_ids_touch_mem _ _
        cases h5 : lock_frame (unlock_frame bm3 id) id e with
        | none => exact ⟨c4, by rw [hp4, hp3, hp2, hp1]⟩
        | some bm5 =>
          exact ⟨coherent_lock _ bm5 id e c4 (Or.inl hid4) h5,
            by rw [lock_frame_page_count _ _ _ _ h5, hp4, hp3, hp2, hp1]⟩

theorem evict_check_of_queued (bm : BufferManager)
    (hq : ∀ id ∈ bm.fifo ++ bm.lru, id ∈ frame_ids bm.bufferframes) :
    evict_check bm = (first_unpinned bm, bm) := by
  have hf : ∀ id ∈ bm.fifo, id ∈ frame_ids bm.bufferframes :=
    fun id hid => hq id (List.mem_append_left _ hid)
  have hl : ∀ id ∈ bm.lru, id ∈ frame_ids bm.bufferframes :=
    fun id hid => hq id (List.mem_append_right _ hid)
  unfold evict_check first_unpinned pin_count
  rw [evict_scan_of_mem _ _ hf]
  cases hv : List.find? (fun id => decide ((frame_get bm.bufferframes id).thread_cnt = 0))
      bm.fifo with
  | some v => rfl
  | none =>
    simp only
    rw [evict_scan_of_mem _ _ hl]

theorem first_unpinned_queued (bm : BufferManager) (v : Nat) (h : first_unpinned bm = some v) :
    v ∈ bm.fifo ++ bm.lru := by
  obtain ⟨_, hwhere⟩ := first_unpinned_some bm v h
  rcases hwhere with ⟨pre, post, hs, _⟩ | ⟨_, pre, post, hs, _⟩
  · exact List.mem_append_left _ (by rw [hs]; simp)
  · exact List.mem_append_right _ (by rw [hs]; simp)

/-- Evicting a queued page keeps `Coherent` and frees one entry of the table. -/
theorem coherent_evict (bm : BufferManager) (h : Coherent bm) (v : Nat)
    (hv : v ∈ bm.fifo ++ bm.lru) (he : (evict bm v).1 = true) :
    Coherent (evict bm v).2 ∧
    (evict bm v).2.bufferframes.length + 1 = bm.bufferframes.length ∧
    (evict bm v).2.page_count = bm.page_count ∧
    (∀ j, j ∈ (evict bm v).2.fifo ++ (evict bm v).2.lru → j ∈ bm.fifo ++ bm.lru) ∧
    frame_ids (evict bm v).2.bufferframes
      = (frame_ids bm.bufferframes).filter (fun k => !(k == v)) := by
  obtain ⟨h1, h2, h4, h5, h6, h7, h8⟩ := h
  have hvid : v ∈ frame_ids bm.bufferframes := h4 v hv
  have hpidv : (frame_get bm.bufferframes v).page_id = v := h7 v hv
  obtain ⟨hfr, hpc⟩ := evict_frames bm v he
  obtain ⟨_, he2, _⟩ := evict_fields bm v
  obtain ⟨hids, hqf, hql, _⟩ := he2 he
  rw [hpidv] at hfr hids hqf hql
  have hndf : bm.fifo.Nodup := (List.nodup_append.1 h2).1
  have hndl : bm.lru.Nodup := (List.nodup_append.1 h2).2.1
  have hdisj := (List.nodup_append.1 h2).2.2
  have hget : ∀ j, j ≠ v →
      frame_get (evict bm v).2.bufferframes j = frame_get bm.bufferframes j := by
    intro j hj
    rw [hfr]
    exact frame_get_erase_other _ _ _ hj
  have hlen : (evict bm v).2.bufferframes.length + 1 = bm.bufferframes.length := by
    rw [← frame_ids_length, hids, ← erase_filter_of_nodup _ _ h1,
      List.length_erase_of_mem hvid, frame_ids_length]
    have : 0 < bm.bufferframes.length := by
      rw [← frame_ids_length]
      exact List.length_pos_of_mem hvid
    omega
  have hmem_ids : ∀ j, j ∈ frame_ids (evict bm v).2.bufferframes ↔
      j ∈ frame_ids bm.bufferframes ∧ j ≠ v := by
    intro j
    rw [hids]
    simp [List.mem_filter]
  have hnd_ids : (frame_ids (evict bm v).2.bufferframes).Nodup := by
    rw [hids]; exact List.Nodup.filter _ h1
  rcases List.mem_append.1 hv with hvf | hvl
  · obtain ⟨hf, hl⟩ := hqf (h5 v hvf)
    have hvl : v ∉ bm.lru := fun hm => hdisj hvf hm
    have hne_f : ∀ j, j ∈ bm.fifo.erase v → j ≠ v := by
      intro j hm hjv
      rw [hjv] at hm
      exact (List.Nodup.not_mem_erase hndf) hm
    have hsub : ∀ j, j ∈ (evict bm v).2.fifo ++ (evict bm v).2.lru → j ∈ bm.fifo ++ bm.lru := by
      intro j hj
      rw [hf, hl] at hj
      rcases List.mem_append.1 hj with hm | hm
      · exact List.mem_append_left _ (List.mem_of_mem_erase hm)
      · exact List.mem_append_right _ hm
    have hneq : ∀ j, j ∈ (evict bm v).2.fifo ++ (evict bm v).2.lru → j ≠ v := by
      intro j hj
      rw [hf, hl] at hj
      rcases List.mem_append.1 hj with hm | hm
      · exact hne_f j hm
      · exact fun hjv => hvl (hjv ▸ hm)
    refine ⟨⟨hnd_ids, ?_, ?_, ?_, ?_, ?_, by omega⟩, hlen, hpc, hsub, hids⟩
    · rw [hf, hl]
      exact List.Nodup.sublist (List.Sublist.append_right (List.erase_sublist v bm.fifo) _) h2
    · intro j hj
      exact (hmem_ids j).2 ⟨h4 j (hsub j hj), hneq j hj⟩
    · intro j hj
      rw [hget j (hneq j (List.mem_append_left _ hj))]
      rw [hf] at hj
      exact h5 j (List.mem_of_mem_erase hj)
    · intro j hj
      rw [hget j (hneq j (List.mem_append_right _ hj))]
      rw [hl] at hj
      exact h6 j hj
    · intro j hj
      rw [hget j (hneq j hj)]
      exact h7 j (hsub j hj)
  · have hne : (frame_get bm.bufferframes v).position ≠ Position.FIFO := by
      rw [h6 v hvl]; simp
    obtain ⟨hl, hf⟩ := hql hne
    have hvf : v ∉ bm.fifo := fun hm => hdisj hm hvl
    have hne_l : ∀ j, j ∈ bm.lru.erase v → j ≠ v := by
      intro j hm hjv
      rw [hjv] at hm
      exact (List.Nodup.not_mem_erase hndl) hm
    have hsub : ∀ j, j ∈ (evict bm v).2.fifo ++ (evict bm v).2.lru → j ∈ bm.fifo ++ bm.lru := by
      intro j hj
      rw [hf, hl] at hj
      rcases List.mem_append.1 hj with hm | hm
      · exact List.mem_append_left _ hm
      · exact List.mem_append_right _ (List.mem_of_mem_erase hm)
    have hneq : ∀ j, j ∈ (evict bm v).2.fifo ++ (evict bm v).2.lru → j ≠ v := by
      intro j hj
      rw [hf, hl] at hj
      rcases List.mem_append.1 hj with hm | hm
      · exact fun hjv => hvf (hjv ▸ hm)
      · exact hne_l j hm
    refine ⟨⟨hnd_ids, ?_, ?_, ?_, ?_, ?_, by omega⟩, hlen, hpc, hsub, hids⟩
    · rw [hf, hl]
      exact List.Nodup.sublist (List.Sublist.append_left (List.erase_sublist v bm.lru) _) h2
    · intro j hj
      exact (hmem_ids j).2 ⟨h4 j (hsub j hj), hneq j hj⟩
    · intro j hj
      rw [hget j (hneq j (List.mem_append_left _ hj))]
      rw [hf] at hj
      exact h5 j hj
    · intro j hj
      rw [hget j (hneq j (List.mem_append_right _ hj))]
      rw [hl] at hj
      exact h6 j (List.mem_of_mem_erase hj)
    · intro j hj
      rw [hget j (hneq j hj)]
      exact h7 j (hsub j hj)

/-- Every call of `fix_page` keeps `Coherent` and `page_count`, whether it returns a
frame, throws, or waits. -/
theorem fix_page_coherent (bm : BufferManager) (h : Coherent bm) (id : Nat) (e : Bool) :
    Coherent (fix_page bm id e).2 ∧ (fix_page bm id e).2.page_count = bm.page_count := by
  have hq := h.2.2.1
  have hnd := h.2.1
  unfold fix_page
  by_cases h1 : id ∈ bm.lru
  · simp only [h1, if_true]
    refine ⟨?_, trivial⟩
    have hid : id ∈ frame_ids bm.bufferframes := hq _ (List.mem_append_right _ h1)
    have c1 := coherent_modify bm h id (fun f => { f with thread_cnt := size_incr f.thread_cnt })
      (Or.inl hid) (fun _ _ => ⟨rfl, rfl⟩)
    have hperm : List.Perm (bm.fifo ++ (bm.lru.erase id ++ [id])) (bm.fifo ++ bm.lru) := by
      refine List.Perm.append_left _ ?_
      have := (List.perm_cons_erase h1).symm
      exact (List.perm_append_comm.trans (by simpa using this))
    exact coherent_queues _ c1 bm.fifo (bm.lru.erase id ++ [id])
      ((List.Perm.nodup_iff hperm).2 hnd) (fun _ hj => hj)
      (fun j hj => by
        rcases List.mem_append.1 hj with hm | hm
        · exact List.mem_of_mem_erase hm
        · simp only [List.mem_singleton] at hm
          rw [hm]; exact h1)
  · by_cases h2 : id ∈ bm.fifo
    · simp only [h1, h2, if_false, if_true]
      refine ⟨?_, trivial⟩
      have hid : id ∈ frame_ids bm.bufferframes := hq _ (List.mem_append_left _ h2)
      have hpid : (frame_get bm.bufferframes id).page_id = id :=
        h.2.2.2.2.2.1 _ (List.mem_append_left _ h2)
      have hndf : bm.fifo.Nodup := (List.nodup_append.1 hnd).1
      have c1 := coherent_modify bm h id
        (fun f => { f with thread_cnt := size_incr f.thread_cnt })
        (Or.inl hid) (fun _ _ => ⟨rfl, rfl⟩)
      have c2 := coherent_queues _ c1 (bm.fifo.erase id) bm.lru
        (List.Nodup.sublist (List.Sublist.append_right (List.erase_sublist id bm.fifo) _) hnd)
        (fun j hj => List.mem_of_mem_erase hj) (fun _ hj => hj)
      have hq2 : id ∉ bm.fifo.erase id ++ bm.lru := by
        intro hm
        rcases List.mem_append.1 hm with hm | hm
        · exact (List.Nodup.not_mem_erase hndf) hm
        · exact h1 hm
      have c3 := coherent_push _ c2 id Position.LRU hq2
        (by
          simp only [frame_ids_modify, frame_touch_of_mem _ _ hid]
          exact hid)
        (by
          simp only [frame_get_modify_same]
          exact hpid)
      rw [if_neg (by decide)] at c3
      exact c3
    · have hnq : id ∉ bm.fifo ++ bm.lru := by
        intro hm
        rcases List.mem_append.1 hm with hm | hm
        · exact h2 hm
        · exact h1 hm
      by_cases h3 : bm.bufferframes.length < bm.page_count
      · simp only [h1, h2, h3, if_false, if_true]
        exact coherent_load bm id e _ h hnq (Or.inr h3)
      · simp only [h1, h2, h3, if_false]
        rw [evict_check_of_queued bm hq]
        cases hv : first_unpinned bm with
        | none => exact ⟨h, rfl⟩
        | some v =>
          simp only
          have hvq := first_unpinned_queued bm v hv
          cases he : evict bm v with
          | mk ok bm2 =>
            cases ok with
            | false =>
              simp only
              have := (evict_fields bm v).1 (by rw [he])
              rw [he] at this
              simp only at this
              rw [this]
              exact ⟨h, rfl⟩
            | true =>
              simp only
              have he1 : (evict bm v).1 = true := by rw [he]
              obtain ⟨c2, hlen2, hpc2, hsub2, _⟩ := coherent_evict bm h v hvq he1
              rw [he] at c2 hlen2 hpc2 hsub2
              simp only at c2 hlen2 hpc2 hsub2
              have hle := h.2.2.2.2.2.2
              obtain ⟨c3, hpc3⟩ := coherent_load bm2 id e
                (if (frame_get bm.bufferframes v).position = Position.FIFO then Position.FIFO
                 else Position.LRU) c2 (fun hm => hnq (hsub2 _ hm)) (Or.inr (by omega))
              exact ⟨c3, by rw [hpc3, hpc2]⟩

theorem unfix_page_coherent (bm : BufferManager) (h : Coherent bm) (id : Nat) (d : Bool) :
    Coherent (unfix_page bm id d) ∧ (unfix_page bm id d).page_count = bm.page_count := by
  unfold unfix_page
  cases hf : frame_find bm.bufferframes id with
  | none => exact ⟨h, rfl⟩
  | some f =>
    exact ⟨coherent_modify bm h id _ (Or.inl (frame_find_some_mem _ _ _ hf))
      (fun _ _ => ⟨rfl, rfl⟩), rfl⟩

theorem coherent_init (page_size page_count : Nat) (disk : Nat → Nat → Nat)
    (file_error : Nat → Bool) :
    Coherent (BufferManager.init page_size page_count disk file_error) := by
  simp [Coherent, BufferManager.init, frame_ids]

theorem run_coherent (calls : List Call) :
    ∀ (bm : BufferManager), Coherent bm →
      Coherent (bm.run calls) ∧ (bm.run calls).page_count = bm.page_count := by
  induction calls with
  | nil => intro bm h; exact ⟨h, rfl⟩
  | cons c rest ih =>
    intro bm h
    cases c with
    | fix_page id e =>
      obtain ⟨c1, p1⟩ := fix_page_coherent bm h id e
      obtain ⟨c2, p2⟩ := ih _ c1
      exact ⟨c2, by rw [← p1]; exact p2⟩
    | unfix_page id d =>
      obtain ⟨c1, p1⟩ := unfix_page_coherent bm h id d
      obtain ⟨c2, p2⟩ := ih _ c1
      exact ⟨c2, by rw [← p1]; exact p2⟩

/-- C12: after every sequence of `fix_page` and `unfix_page` calls on a freshly
constructed buffer manager the frame table holds at most `page_count` frames,
whatever the files contain and also when reads or write-backs fail. -/
theorem resident_frames_bounded (page_size page_count : Nat) (disk : Nat → Nat → Nat)
    (file_error : Nat → Bool) (calls : List Call) :
    ((BufferManager.init page_size page_count disk file_error).run calls).bufferframes.length
      ≤ page_count := by
  obtain ⟨c, p⟩ := run_coherent calls _ (coherent_init page_size page_count disk file_error)
  have := c.2.2.2.2.2.2
  rw [p] at this
  exact this

theorem lock_frame_fresh (bm : BufferManager) (id : Nat) (e : Bool)
    (hnew : id ∉ frame_ids bm.bufferframes) :
    ∃ bm1, lock_frame bm id e = some bm1 ∧ bm1.file_error = bm.file_error := by
  have hfresh : frame_get bm.bufferframes id = BufferFrame.fresh :=
    frame_get_of_not_mem _ _ hnew
  unfold lock_frame
  cases e <;>
    simp [frame_get_touch, hfresh, BufferFrame.fresh]

theorem size_incr_zero : size_incr 0 = 1 := by
  unfold size_incr; norm_num

theorem size_decr_one : size_decr 1 = 0 := by
  unfold size_decr; norm_num

/-- A new page that is read without error is returned with pin count 1. -/
theorem load_page_fresh_pin (bm : BufferManager) (id : Nat) (e : Bool) (pos : Position)
    (hnew : id ∉ frame_ids bm.bufferframes)
    (hfe : bm.file_error (get_segment_id id) = false) :
    pin_count (load_page bm id e pos).2 id = 1 := by
  have hfresh : frame_get bm.bufferframes id = BufferFrame.fresh :=
    frame_get_of_not_mem _ _ hnew
  unfold pin_count load_page lock_frame
  simp only [frame_get_touch, hfresh, BufferFrame.fresh, Bool.not_true, Bool.false_eq_true,
    if_false, Bool.or_self, ne_eq, not_true_eq_false, decide_False]
  unfold read_frame
  simp only [hfe, Bool.false_eq_true, if_false]
  by_cases hp : pos = Position.FIFO <;> cases e <;>
    simp [hp, unlock_frame, frame_get_touch, frame_get_modify_same, hfresh, BufferFrame.fresh,
      Latch.unlock, size_incr_zero, size_decr_one]

/-- A failed read of a new page: the error comes through, both queues are as
before, and the frame created for the page stays in the table, pinned once
and exclusively latched. -/
theorem load_page_read_error (bm : BufferManager) (id : Nat) (e : Bool) (pos : Position)
    (hnew : id ∉ frame_ids bm.bufferframes)
    (hfe : bm.file_error (get_segment_id id) = true) :
    (load_page bm id e pos).1 = FixResult.io_error ∧
    (load_page bm id e pos).2.fifo = bm.fifo ∧
    (load_page bm id e pos).2.lru = bm.lru ∧
    frame_ids (load_page bm id e pos).2.bufferframes = frame_ids bm.bufferframes ++ [id] ∧
    pin_count (load_page bm id e pos).2 id = 1 ∧
    (frame_get (load_page bm id e pos).2.bufferframes id).frame_latch.exclusive = true := by
  have hfresh : frame_get bm.bufferframes id = BufferFrame.fresh :=
    frame_get_of_not_mem _ _ hnew
  unfold pin_count load_page lock_frame
  simp only [frame_get_touch, hfresh, BufferFrame.fresh, Bool.not_true, Bool.false_eq_true,
    if_false, Bool.or_self, ne_eq, not_true_eq_false, decide_False]
  unfold read_frame
  simp only [hfe, if_true]
  refine ⟨trivial, trivial, trivial, ?_, ?_, ?_⟩
  · simp only [frame_ids_modify, frame_ids_touch_modify, frame_ids_touch_touch]
    rw [frame_touch_of_not_mem _ _ hnew]
    simp [frame_ids]
  · simp [frame_get_touch, frame_get_modify_same, hfresh, BufferFrame.fresh, size_incr_zero]
  · simp [frame_get_touch, frame_get_modify_same, hfresh, BufferFrame.fresh]

theorem wf_not_resident (bm : BufferManager) (hwf : WF bm) (id : Nat)
    (h1 : id ∉ bm.lru) (h2 : id ∉ bm.fifo) : id ∉ frame_ids bm.bufferframes := by
  intro hm
  rcases List.mem_append.1 (hwf.2.2.1 _ hm) with hm | hm
  · exact h2 hm
  · exact h1 hm

theorem load_page_ok_file (bm r : BufferManager) (id k : Nat) (e : Bool) (pos : Position)
    (hnew : id ∉ frame_ids bm.bufferframes)
    (h : load_page bm id e pos = (FixResult.ok k, r)) :
    bm.file_error (get_segment_id id) = false := by
  cases hfe : bm.file_error (get_segment_id id) with
  | false => rfl
  | true =>
    have := (load_page_read_error bm id e pos hnew hfe).1
    rw [h] at this
    cases this

/-- What `read_fails` says on a state that satisfies `WF`. -/
theorem read_fails_of_wf (bm : BufferManager) (hwf : WF bm) (id : Nat) :
    read_fails bm id =
      if id ∈ bm.lru then false
      else if id ∈ bm.fifo then false
      else if bm.bufferframes.length < bm.page_count then bm.file_error (get_segment_id id)
      else
        match first_unpinned bm with
        | none => false
        | some v => (evict bm v).1 && bm.file_error (get_segment_id id) := by
  unfold read_fails
  by_cases h1 : id ∈ bm.lru
  · simp only [h1, if_true]
  · by_cases h2 : id ∈ bm.fifo
    · simp only [h1, h2, if_true, if_false]
    · have hnew := wf_not_resident bm hwf id h1 h2
      simp only [h1, h2, if_false]
      by_cases h3 : bm.bufferframes.length < bm.page_count
      · simp only [h3, if_true]
        obtain ⟨bm1, hl, hfe1⟩ := lock_frame_fresh bm id true hnew
        rw [hl]
        simp only
        have := (read_frame_fields bm1 id).2.2.2
        rw [hfe1] at this
        cases hr : (read_frame bm1 id).1 with
        | false => rw [this.1 hr]; rfl
        | true =>
          cases hfe : bm.file_error (get_segment_id id) with
          | false => rfl
          | true => rw [this.2 hfe] at hr; cases hr
      · simp only [h3, if_false]
        rw [evict_check_of_wf bm hwf]
        cases hv : first_unpinned bm with
        | none => rfl
        | some v =>
          simp only
          have hvq := first_unpinned_queued bm v hv
          cases he : evict bm v with
          | mk ok bm2 =>
            cases ok with
            | false => simp
            | true =>
              simp only [Bool.true_and]
              have he1 : (evict bm v).1 = true := by rw [he]
              obtain ⟨_, _, _, hids2⟩ := wf_evict bm hwf v hvq he1
              have hfe2 := ((evict_fields bm v).2.1 he1).2.2.2
              rw [he] at hids2 hfe2
              simp only at hids2 hfe2
              have hnew2 : id ∉ frame_ids bm2.bufferframes := by
                rw [hids2]
                intro hm
                exact hnew (List.mem_filter.1 hm).1
              obtain ⟨bm3, hl, hfe3⟩ := lock_frame_fresh bm2 id true hnew2
              rw [hl]
              simp only
              have := (read_frame_fields bm3 id).2.2.2
              rw [hfe3, hfe2] at this
              cases hr : (read_frame bm3 id).1 with
              | false => rw [this.1 hr]; rfl
              | true =>
                cases hfe : bm.file_error (get_segment_id id) with
                | false => rfl
                | true => rw [this.2 hfe] at hr; cases hr

/-- On a state that satisfies `WF`, a call of `fix_page` in which no read fails
returns a frame or leaves the state as it was. -/
theorem fix_page_ok_or_same (bm : BufferManager) (hwf : WF bm) (id : Nat) (e : Bool)
    (hr : read_fails bm id = false) :
    (fix_page bm id e).1 = FixResult.ok id ∨ (fix_page bm id e).2 = bm := by
  rw [read_fails_of_wf bm hwf] at hr
  by_cases h1 : id ∈ bm.lru
  · left; unfold fix_page; simp only [h1, if_true]
  · by_cases h2 : id ∈ bm.fifo
    · left; unfold fix_page; simp only [h1, h2, if_true, if_false]
    · have hnew := wf_not_resident bm hwf id h1 h2
      simp only [h1, h2, if_false] at hr
      by_cases h3 : bm.bufferframes.length < bm.page_count
      · simp only [h3, if_true] at hr
        left
        unfold fix_page
        simp only [h1, h2, h3, if_true, if_false]
        exact load_page_succeeds bm id e _ hnew hr
      · simp only [h3, if_false] at hr
        have hfull : bm.bufferframes.length = bm.page_count := by
          have := hwf.2.2.2.2.2.2.2
          omega
        rw [fix_page_at_capacity bm hwf id e hnew hfull]
        cases hv : first_unpinned bm with
        | none => right; rfl
        | some v =>
          rw [hv] at hr
          simp only at hr ⊢
          have hvq := first_unpinned_queued bm v hv
          cases he : evict bm v with
          | mk ok bm2 =>
            cases ok with
            | false =>
              right
              simp only
              have := (evict_fields bm v).1 (by rw [he])
              rw [he] at this
              exact this
            | true =>
              left
              simp only
              rw [he] at hr
              simp only [Bool.true_and] at hr
              have he1 : (evict bm v).1 = true := by rw [he]
              obtain ⟨_, _, _, hids2⟩ := wf_evict bm hwf v hvq he1
              have hfe2 := ((evict_fields bm v).2.1 he1).2.2.2
              rw [he] at hids2 hfe2
              simp only at hids2 hfe2
              have hnew2 : id ∉ frame_ids bm2.bufferframes := by
                rw [hids2]
                intro hm
                exact hnew (List.mem_filter.1 hm).1
              exact load_page_succeeds bm2 id e _ hnew2 (by rw [hfe2]; exact hr)

theorem fix_page_wf_step (bm : BufferManager) (hwf : WF bm) (id : Nat) (e : Bool)
    (hr : read_fails bm id = false) : WF (fix_page bm id e).2 := by
  rcases fix_page_ok_or_same bm hwf id e hr with h | h
  · exact fix_page_wf bm _ hwf id id e (Prod.ext h rfl)
  · rw [h]; exact hwf

theorem run_wf (calls : List Call) :
    ∀ (bm : BufferManager), WF bm → reads_succeed bm calls = true → WF (bm.run calls) := by
  induction calls with
  | nil => intro bm h _; exact h
  | cons c rest ih =>
    intro bm h hr
    cases c with
    | fix_page id e =>
      simp only [reads_succeed, Bool.and_eq_true, Bool.not_eq_true'] at hr
      exact ih _ (fix_page_wf_step bm h id e hr.1) hr.2
    | unfix_page id d =>
      simp only [reads_succeed] at hr
      exact ih _ (unfix_page_wf bm h id d) hr

/-- C6 (counterexample): on a pool of one frame whose segment files cannot be
opened, `fix_page(0, false)` ends in the error of the read and leaves the frame
of page 0 in the frame table, in neither queue.  A second `fix_page(0, false)`
throws `buffer_full_error` although page 0 is in the frame table: it is in
neither queue, the table holds `page_count` frames, and `evict_check` looks
for a victim in the queues only. -/
theorem fix_page_full_for_page_in_table :
    (fix_page (BufferManager.init 1 1 (fun _ _ => 0) (fun _ => true)) 0 false).1
      = FixResult.io_error ∧
    reads_succeed (BufferManager.init 1 1 (fun _ _ => 0) (fun _ => true))
      [Call.fix_page 0 false] = false ∧
    frame_ids scene_failed_read.bufferframes = [0] ∧
    scene_failed_read.fifo = [] ∧ scene_failed_read.lru = [] ∧
    scene_failed_read.page_count = 1 ∧
    (fix_page scene_failed_read 0 false).1 = FixResult.buffer_full_error := by
  decide

/-- C6 (amended): in every state that a freshly constructed buffer manager
reaches by `fix_page` and `unfix_page` calls none of whose reads fails,
`fix_page(id, _)` throws `buffer_full_error` if and only if `id` is not in the
frame table, the frame table holds `page_count` frames and every frame in it
has a pin count greater than 0. -/
theorem fix_page_full_iff (page_size page_count : Nat) (disk : Nat → Nat → Nat)
    (file_error : Nat → Bool) (calls : List Call)
    (hreads : reads_succeed (BufferManager.init page_size page_count disk file_error) calls
      = true)
    (page_id : Nat) (exclusive : Bool) :
    (fix_page ((BufferManager.init page_size page_count disk file_error).run calls)
        page_id exclusive).1 = FixResult.buffer_full_error ↔
      (page_id ∉ frame_ids
          ((BufferManager.init page_size page_count disk file_error).run calls).bufferframes ∧
       ((BufferManager.init page_size page_count disk file_error).run calls).bufferframes.length
         = ((BufferManager.init page_size page_count disk file_error).run calls).page_count ∧
       ∀ id ∈ frame_ids
          ((BufferManager.init page_size page_count disk file_error).run calls).bufferframes,
         0 < pin_count ((BufferManager.init page_size page_count disk file_error).run calls) id) :=
  full_iff_of_wf _ (run_wf calls _ (wf_init page_size page_count disk file_error) hreads)
    page_id exclusive

theorem fix_page_full_iff_witness :
    reads_succeed (BufferManager.init 1 1 (fun _ _ => 0) (fun _ => false))
      [Call.fix_page 0 false] = true ∧
    (fix_page ((BufferManager.init 1 1 (fun _ _ => 0) (fun _ => false)).run
        [Call.fix_page 0 false]) 1 false).1 = FixResult.buffer_full_error ∧
    ((fix_page ((BufferManager.init 1 1 (fun _ _ => 0) (fun _ => false)).run
        [Call.fix_page 0 false]) 1 false).1 = FixResult.buffer_full_error ↔
      (1 ∉ frame_ids
          ((BufferManager.init 1 1 (fun _ _ => 0) (fun _ => false)).run
            [Call.fix_page 0 false]).bufferframes ∧
       ((BufferManager.init 1 1 (fun _ _ => 0) (fun _ => false)).run
            [Call.fix_page 0 false]).bufferframes.length
         = ((BufferManager.init 1 1 (fun _ _ => 0) (fun _ => false)).run
            [Call.fix_page 0 false]).page_count ∧
       ∀ id ∈ frame_ids
          ((BufferManager.init 1 1 (fun _ _ => 0) (fun _ => false)).run
            [Call.fix_page 0 false]).bufferframes,
         0 < pin_count ((BufferManager.init 1 1 (fun _ _ => 0) (fun _ => false)).run
            [Call.fix_page 0 false]) id)) :=
  ⟨by decide, by decide,
   fix_page_full_iff 1 1 (fun _ _ => 0) (fun _ => false) [Call.fix_page 0 false] (by decide)
     1 false⟩

/-- C13: after every sequence of `fix_page` and `unfix_page` calls on a freshly
constructed buffer manager in which no read fails, a page id is in the frame
table exactly when it is in FIFO or in LRU, no id occurs twice in the
concatenation of the two queues, and every resident id occurs in it exactly
once. -/
theorem resident_iff_queued (page_size page_count : Nat) (disk : Nat → Nat → Nat)
    (file_error : Nat → Bool) (calls : List Call)
    (hreads : reads_succeed (BufferManager.init page_size page_count disk file_error) calls
      = true) :
    (∀ id, id ∈ frame_ids ((BufferManager.init page_size page_count disk file_error).run
        calls).bufferframes ↔
      (id ∈ ((BufferManager.init page_size page_count disk file_error).run calls).fifo ∨
       id ∈ ((BufferManager.init page_size page_count disk file_error).run calls).lru)) ∧
    (((BufferManager.init page_size page_count disk file_error).run calls).fifo ++
      ((BufferManager.init page_size page_count disk file_error).run calls).lru).Nodup ∧
    (∀ id ∈ frame_ids ((BufferManager.init page_size page_count disk file_error).run
        calls).bufferframes,
      List.count id (((BufferManager.init page_size page_count disk file_error).run calls).fifo ++
        ((BufferManager.init page_size page_count disk file_error).run calls).lru) = 1) := by
  have hwf := run_wf calls _ (wf_init page_size page_count disk file_error) hreads
  obtain ⟨_, h2, h3, h4, _⟩ := hwf
  refine ⟨?_, h2, ?_⟩
  · intro id
    constructor
    · intro hm; exact List.mem_append.1 (h3 id hm)
    · intro hm; exact h4 id (List.mem_append.2 hm)
  · intro id hm
    exact List.count_eq_one_of_mem h2 (h3 id hm)

theorem frame_get_erase_self (m : List (Nat × BufferFrame)) (id : Nat) :
    frame_get (frame_erase m id) id = BufferFrame.fresh := by
  apply frame_get_of_not_mem
  rw [frame_ids_erase]
  simp [List.mem_filter]

/-- How a `fix_page` that returns a frame changes the pin counts: the page
fixed gains one, every other page keeps its count. -/
theorem fix_page_pin (bm r : BufferManager) (hwf : WF bm) (id k : Nat) (e : Bool)
    (h : fix_page bm id e = (FixResult.ok k, r)) :
    ∀ j, pin_count r j = if j = id then size_incr (pin_count bm id) else pin_count bm j := by
  intro j
  by_cases h1 : id ∈ bm.lru
  · unfold fix_page at h
    simp only [h1, if_true, Prod.mk.injEq] at h
    rw [← h.2]
    unfold pin_count
    by_cases hj : j = id
    · subst hj
      simp only [frame_get_modify_same, if_true]
    · simp only [frame_get_modify_other _ _ _ _ hj, hj, if_false]
  · by_cases h2 : id ∈ bm.fifo
    · unfold fix_page at h
      simp only [h1, h2, if_false, if_true, Prod.mk.injEq] at h
      rw [← h.2]
      unfold pin_count
      by_cases hj : j = id
      · subst hj
        simp only [frame_get_modify_same, if_true]
      · simp only [frame_get_modify_other _ _ _ _ hj, hj, if_false]
    · have hnew := wf_not_resident bm hwf id h1 h2
      have hpin0 : pin_count bm id = 0 := by
        unfold pin_count
        rw [frame_get_of_not_mem _ _ hnew]
        rfl
      by_cases h3 : bm.bufferframes.length < bm.page_count
      · unfold fix_page at h
        simp only [h1, h2, h3, if_false, if_true] at h
        by_cases hj : j = id
        · subst hj
          have := load_page_fresh_pin bm j e Position.FIFO hnew
            (load_page_ok_file bm r j k e _ hnew h)
          rw [h] at this
          simp only [if_true, hpin0, size_incr_zero]
          exact this
        · simp only [hj, if_false]
          unfold pin_count
          rw [(load_page_frames bm r id k e _ (Or.inl rfl) h).1 j hj]
      · have hfull : bm.bufferframes.length = bm.page_count := by
          have := hwf.2.2.2.2.2.2.2
          omega
        rw [fix_page_at_capacity bm hwf id e hnew hfull] at h
        cases hv : first_unpinned bm with
        | none => rw [hv] at h; simp at h
        | some v =>
          rw [hv] at h
          simp only at h
          have hvq := first_unpinned_queued bm v hv
          have hv0 : pin_count bm v = 0 := (first_unpinned_some bm v hv).1
          cases he : evict bm v with
          | mk ok bm2 =>
            rw [he] at h
            cases ok with
            | false => simp at h
            | true =>
              simp only at h
              have he1 : (evict bm v).1 = true := by rw [he]
              obtain ⟨_, _, _, hids2⟩ := wf_evict bm hwf v hvq he1
              obtain ⟨hfr2, _⟩ := evict_frames bm v he1
              have hpidv : (frame_get bm.bufferframes v).page_id = v :=
                hwf.2.2.2.2.2.2.1 v (hwf.2.2.2.1 v hvq)
              rw [he] at hids2 hfr2
              simp only at hids2 hfr2
              rw [hpidv] at hfr2
              have hnew2 : id ∉ frame_ids bm2.bufferframes := by
                rw [hids2]
                intro hm
                exact hnew (List.mem_filter.1 hm).1
              obtain ⟨pos, hposdef⟩ : ∃ pos, pos =
                  (if (frame_get bm.bufferframes v).position = Position.FIFO
                  then Position.FIFO else Position.LRU) := ⟨_, rfl⟩
              rw [← hposdef] at h
              have hpos : pos = Position.FIFO ∨ pos = Position.LRU := by
                rw [hposdef]
                split
                · exact Or.inl rfl
                · exact Or.inr rfl
              by_cases hj : j = id
              · subst hj
                have := load_page_fresh_pin bm2 j e pos hnew2
                  (load_page_ok_file bm2 r j k e pos hnew2 h)
                rw [h] at this
                simp only [if_true, hpin0, size_incr_zero]
                exact this
              · simp only [hj, if_false]
                unfold pin_count
                rw [(load_page_frames bm2 r id k e pos hpos h).1 j hj, hfr2]
                by_cases hjv : j = v
                · subst hjv
                  rw [frame_get_erase_self]
                  unfold pin_count at hv0
                  rw [hv0]
                  rfl
                · rw [frame_get_erase_other _ _ _ hjv]

theorem unfix_page_pin (bm : BufferManager) (id : Nat) (d : Bool)
    (hpin : pin_count bm id ≠ 0) :
    ∀ j, pin_count (unfix_page bm id d) j
      = if j = id then size_decr (pin_count bm id) else pin_count bm j := by
  intro j
  have hid : id ∈ frame_ids bm.bufferframes := by
    by_contra hn
    apply hpin
    unfold pin_count
    rw [frame_get_of_not_mem _ _ hn]
    rfl
  unfold unfix_page
  cases hf : frame_find bm.bufferframes id with
  | none =>
    exfalso
    unfold frame_find at hf
    exact (lookup_eq_none_iff_not_mem _ _).1 hf hid
  | some f =>
    unfold pin_count
    by_cases hj : j = id
    · subst hj
      simp only [frame_get_modify_same, if_true]
    · simp only [frame_get_modify_other _ _ _ _ hj, hj, if_false]

theorem unfix_page_pin_other (bm : BufferManager) (id : Nat) (d : Bool) (j : Nat)
    (hj : j ≠ id) : pin_count (unfix_page bm id d) j = pin_count bm j := by
  unfold unfix_page
  cases hf : frame_find bm.bufferframes id with
  | none => rfl
  | some f =>
    unfold pin_count
    simp only [frame_get_modify_other _ _ _ _ hj]

theorem run_pin (page_id : Nat) (calls : List Call) :
    ∀ (bm : BufferManager) (n m : Nat), WF bm → reads_succeed bm calls = true →
      pin_count bm page_id = n → n + calls.length < 2 ^ 64 →
      unmatched_fixes page_id bm n calls = some m →
      pin_count (bm.run calls) page_id = m := by
  induction calls with
  | nil =>
    intro bm n m _ _ hp _ hu
    simp only [unmatched_fixes, Option.some.injEq] at hu
    rw [← hu]
    exact hp
  | cons c rest ih =>
    intro bm n m hwf hr hp hlen hu
    simp only [List.length_cons] at hlen
    cases c with
    | fix_page id e =>
      simp only [reads_succeed, Bool.and_eq_true, Bool.not_eq_true'] at hr
      simp only [unmatched_fixes] at hu
      have hwf1 := fix_page_wf_step bm hwf id e hr.1
      refine ih (fix_page bm id e).2 _ m hwf1 hr.2 ?_ ?_ hu
      · by_cases hok : (fix_page bm id e).1 = FixResult.ok id
        · have hp1 := fix_page_pin bm _ hwf id id e (Prod.ext hok rfl) page_id
          rw [hp1]
          by_cases hj : page_id = id
          · subst hj
            simp only [if_true, hok, and_self]
            rw [hp]
            unfold size_incr
            exact Nat.mod_eq_of_lt (by omega)
          · have hj2 : ¬ id = page_id := fun h => hj h.symm
            simp only [hj, hj2, if_false, false_and]
            exact hp
        · have hsame := (fix_page_ok_or_same bm hwf id e hr.1).resolve_left hok
          rw [hsame]
          simp only [hok, and_false, if_false]
          exact hp
      · split <;> omega
    | unfix_page id d =>
      simp only [reads_succeed] at hr
      simp only [unmatched_fixes] at hu
      have hwf1 := unfix_page_wf bm hwf id d
      by_cases hj : id = page_id
      · subst hj
        simp only [if_true] at hu
        by_cases hn : n = 0
        · simp [hn] at hu
        · simp only [hn, if_false] at hu
          refine ih (unfix_page bm id d) _ m hwf1 hr ?_ (by omega) hu
          rw [unfix_page_pin bm id d (by rw [hp]; exact hn) id]
          simp only [if_true]
          rw [hp]
          unfold size_decr
          have : n + 2 ^ 64 - 1 = (n - 1) + 2 ^ 64 := by omega
          rw [this, Nat.add_mod_right]
          exact Nat.mod_eq_of_lt (by omega)
      · simp only [hj, if_false] at hu
        refine ih (unfix_page bm id d) _ m hwf1 hr ?_ (by omega) hu
        rw [unfix_page_pin_other bm id d page_id (fun h => hj h.symm)]
        exact hp

/-- C17 (amended): along every sequence of fewer than `2 ^ 64` calls on a
freshly constructed buffer manager in which no read fails and no frame is
unfixed without a fix to match, the pin count of a page equals the number of
fixes of that page that returned a frame and are not yet matched by an unfix:
every such fix adds exactly one (for a resident page, a page loaded into a
free frame and a page loaded after an eviction alike) and every unfix takes
exactly one away. -/
theorem pin_count_is_unmatched_fixes (page_size page_count : Nat) (disk : Nat → Nat → Nat)
    (file_error : Nat → Bool) (calls : List Call) (page_id n : Nat)
    (hlen : calls.length < 2 ^ 64)
    (hreads : reads_succeed (BufferManager.init page_size page_count disk file_error) calls
      = true)
    (hcount : unmatched_fixes page_id
      (BufferManager.init page_size page_count disk file_error) 0 calls = some n) :
    pin_count ((BufferManager.init page_size page_count disk file_error).run calls) page_id
      = n := by
  refine run_pin page_id calls _ 0 n (wf_init _ _ _ _) hreads ?_ (by omega) hcount
  simp [pin_count, BufferManager.init, frame_get, BufferFrame.fresh]

/-- C17 (counterexample): on a pool whose segment files cannot be opened,
`fix_page(0, false)` ends in the error of the read and returns no frame, so no
fix of page 0 is waiting for an unfix; the frame that `lock_frame` created for
page 0 before the read stays in the frame table with pin count 1. -/
theorem failed_read_leaves_pin_count :
    (fix_page scene_unreadable 0 false).1 = FixResult.io_error ∧
    reads_succeed scene_unreadable [Call.fix_page 0 false] = false ∧
    unmatched_fixes 0 scene_unreadable 0 [Call.fix_page 0 false] = some 0 ∧
    pin_count (scene_unreadable.run [Call.fix_page 0 false]) 0 = 1 := by
  decide

/-- C20: a `fix_page` that returns the frame of a page that was not resident has
appended the page to FIFO when the table was below capacity; when the table
was at capacity it evicted the first unpinned page `v` and appended the new
page to the queue `v` was in, FIFO or LRU, leaving the other queue as it was.
After every `fix_page` that returns a frame the page is in `get_fifo_list()` or
in `get_lru_list()`. -/
theorem fix_page_queue_tail (bm r : BufferManager) (hwf : WF bm) (page_id : Nat)
    (exclusive : Bool) (h : fix_page bm page_id exclusive = (FixResult.ok page_id, r)) :
    (page_id ∉ frame_ids bm.bufferframes → bm.bufferframes.length < bm.page_count →
      get_fifo_list r = get_fifo_list bm ++ [page_id] ∧ get_lru_list r = get_lru_list bm) ∧
    (page_id ∉ frame_ids bm.bufferframes → bm.bufferframes.length = bm.page_count →
      ∃ v, first_unpinned bm = some v ∧ v ∉ frame_ids r.bufferframes ∧
        (v ∈ get_fifo_list bm ∨ v ∈ get_lru_list bm) ∧
        (v ∈ get_fifo_list bm →
          get_fifo_list r = (get_fifo_list bm).erase v ++ [page_id] ∧
          get_lru_list r = get_lru_list bm) ∧
        (v ∈ get_lru_list bm →
          get_lru_list r = (get_lru_list bm).erase v ++ [page_id] ∧
          get_fifo_list r = get_fifo_list bm)) ∧
    (page_id ∈ get_fifo_list r ∨ page_id ∈ get_lru_list r) := by
  unfold get_fifo_list get_lru_list
  have hq := hwf.2.2.2.1
  have hnd := hwf.2.1
  have hdisj := (List.nodup_append.1 hnd).2.2
  have hresident : page_id ∉ frame_ids bm.bufferframes → page_id ∉ bm.lru ∧ page_id ∉ bm.fifo :=
    fun hn => ⟨fun hm => hn (hq _ (List.mem_append_right _ hm)),
      fun hm => hn (hq _ (List.mem_append_left _ hm))⟩
  have part1 : page_id ∉ frame_ids bm.bufferframes → bm.bufferframes.length < bm.page_count →
      r.fifo = bm.fifo ++ [page_id] ∧ r.lru = bm.lru := by
    intro hn hlt
    obtain ⟨h1, h2⟩ := hresident hn
    unfold fix_page at h
    simp only [h1, h2, hlt, if_false, if_true] at h
    exact (load_page_ok_fields bm r page_id page_id exclusive _ h).2.2.1 rfl
  have part2 : page_id ∉ frame_ids bm.bufferframes → bm.bufferframes.length = bm.page_count →
      ∃ v, first_unpinned bm = some v ∧ v ∉ frame_ids r.bufferframes ∧
        (v ∈ bm.fifo ∨ v ∈ bm.lru) ∧
        (v ∈ bm.fifo → r.fifo = bm.fifo.erase v ++ [page_id] ∧ r.lru = bm.lru) ∧
        (v ∈ bm.lru → r.lru = bm.lru.erase v ++ [page_id] ∧ r.fifo = bm.fifo) := by
    intro hn hfull
    rw [fix_page_at_capacity bm hwf page_id exclusive hn hfull] at h
    cases hv : first_unpinned bm with
    | none => rw [hv] at h; simp at h
    | some v =>
      rw [hv] at h
      simp only at h
      have hvq := first_unpinned_queued bm v hv
      cases he : evict bm v with
      | mk ok bm2 =>
        rw [he] at h
        cases ok with
        | false => simp at h
        | true =>
          simp only at h
          have he1 : (evict bm v).1 = true := by rw [he]
          obtain ⟨_, _, _, hids2⟩ := wf_evict bm hwf v hvq he1
          have hpidv : (frame_get bm.bufferframes v).page_id = v :=
            hwf.2.2.2.2.2.2.1 v (hq v hvq)
          obtain ⟨_, hqf, hql, _⟩ := (evict_fields bm v).2.1 he1
          rw [he] at hids2 hqf hql
          simp only at hids2 hqf hql
          rw [hpidv] at hqf hql
          obtain ⟨_, hidsr, hf, hl⟩ := load_page_ok_fields bm2 r page_id page_id exclusive _ h
          have hvne : v ≠ page_id := fun hvp => hn (hvp ▸ hq v hvq)
          refine ⟨v, rfl, ?_, List.mem_append.1 hvq, ?_, ?_⟩
          · rw [hidsr]
            have hn2 : page_id ∉ frame_ids bm2.bufferframes := by
              rw [hids2]
              intro hm
              exact hn (List.mem_filter.1 hm).1
            rw [frame_touch_of_not_mem _ _ hn2]
            simp only [frame_ids, List.map_append, List.map_cons, List.map_nil,
              List.mem_append, List.mem_singleton, not_or]
            refine ⟨?_, hvne⟩
            have : v ∉ frame_ids bm2.bufferframes := by
              rw [hids2]
              simp [List.mem_filter]
            exact this
          · intro hvf
            have hpos := hwf.2.2.2.2.1 v hvf
            obtain ⟨hf2, hl2⟩ := hqf hpos
            obtain ⟨hrf, hrl⟩ := hf (by simp [hpos])
            rw [hrf, hrl, hf2, hl2]
            exact ⟨rfl, rfl⟩
          · intro hvl
            have hpos := hwf.2.2.2.2.2.1 v hvl
            have hne : (frame_get bm.bufferframes v).position ≠ Position.FIFO := by
              rw [hpos]; simp
            obtain ⟨hl2, hf2⟩ := hql hne
            obtain ⟨hrl, hrf⟩ := hl (by simp [hpos])
            rw [hrf, hrl, hf2, hl2]
            exact ⟨rfl, rfl⟩
  refine ⟨part1, part2, ?_⟩
  by_cases h1 : page_id ∈ bm.lru
  · right
    unfold fix_page at h
    simp only [h1, if_true, Prod.mk.injEq] at h
    rw [← h.2]
    simp
  · by_cases h2 : page_id ∈ bm.fifo
    · right
      unfold fix_page at h
      simp only [h1, h2, if_false, if_true, Prod.mk.injEq] at h
      rw [← h.2]
      simp
    · have hn := wf_not_resident bm hwf page_id h1 h2
      by_cases h3 : bm.bufferframes.length < bm.page_count
      · left
        rw [(part1 hn h3).1]
        simp
      · have hfull : bm.bufferframes.length = bm.page_count := by
          have := hwf.2.2.2.2.2.2.2
          omega
        obtain ⟨v, _, _, hvq, hvf, hvl⟩ := part2 hn hfull
        rcases hvq with hm | hm
        · left; rw [(hvf hm).1]; simp
        · right; rw [(hvl hm).1]; simp

theorem cast_same_type (child : Expression) (args : Nat → Nat) :
    (Cast.new child child.type).evaluate args = child.evaluate args := by
  unfold Cast.evaluate Cast.new
  cases child.evaluate args with
  | none => rfl
  | some v => simp

theorem cast_double_to_int64 (bits : Nat) (args : Nat → Nat) :
    (Cast.new (Constant.double bits) ValueType.INT64).evaluate args = some (bits % 2 ^ 64) := by
  unfold Cast.evaluate Cast.new Constant.double
  simp only [reduceCtorEq, if_false, if_true, Option.some.injEq]
  omega

theorem resident_iff_queued_witness :
    reads_succeed (BufferManager.init 1 2 (fun _ _ => 0) (fun _ => false)) calls_promote_evict
      = true ∧
    (((BufferManager.init 1 2 (fun _ _ => 0) (fun _ => false)).run calls_promote_evict).fifo ++
      ((BufferManager.init 1 2 (fun _ _ => 0) (fun _ => false)).run
        calls_promote_evict).lru).Nodup :=
  ⟨by decide,
   (resident_iff_queued 1 2 (fun _ _ => 0) (fun _ => false) calls_promote_evict
      (by decide)).2.1⟩

theorem pin_count_is_unmatched_fixes_witness :
    (calls_promote_evict.length < 2 ^ 64 ∧
      reads_succeed (BufferManager.init 1 2 (fun _ _ => 0) (fun _ => false))
        calls_promote_evict = true ∧
      unmatched_fixes 0 (BufferManager.init 1 2 (fun _ _ => 0) (fun _ => false)) 0
        calls_promote_evict = some 1) ∧
    pin_count ((BufferManager.init 1 2 (fun _ _ => 0) (fun _ => false)).run
      calls_promote_evict) 0 = 1 :=
  ⟨by decide,
   pin_count_is_unmatched_fixes 1 2 (fun _ _ => 0) (fun _ => false) calls_promote_evict 0 1
     (by decide) (by decide) (by decide)⟩

theorem fix_page_queue_tail_witness :
    (WF scene_two_unpinned ∧ (fix_page scene_two_unpinned 2 false).1 = FixResult.ok 2) ∧
    (2 ∈ get_fifo_list (fix_page scene_two_unpinned 2 false).2 ∨
      2 ∈ get_lru_list (fix_page scene_two_unpinned 2 false).2) :=
  ⟨by decide,
   (fix_page_queue_tail scene_two_unpinned (fix_page scene_two_unpinned 2 false).2
      (by decide) 2 false (Prod.ext (by decide) rfl)).2.2⟩

theorem unfix_page_effect_witness :
    0 ∈ frame_ids scene_single_pinned.bufferframes ∧
    (frame_get (unfix_page scene_single_pinned 0 true).bufferframes 0).state = State.DIRTY :=
  ⟨by decide, (unfix_page_effect scene_single_pinned 0 true (by decide)).1⟩

theorem root_leaf_split_witness :
    (tree_three_keys.is_empty = false ∧ tree_three_keys.root < tree_three_keys.next_page ∧
      (tree_three_keys.pages tree_three_keys.root).is_leaf = true ∧
      (tree_three_keys.pages tree_three_keys.root).count
        = LeafNode.kCapacity params_wide_values) ∧
    ∃ t1, insert params_wide_values 3 tree_three_keys 40 400 = some t1 ∧
      t1.root = tree_three_keys.next_page + 1 ∧
      t1.next_page = tree_three_keys.next_page + 2 ∧
      (t1.pages t1.root).level = 1 ∧ (t1.pages t1.root).count = 2 ∧
      (t1.pages t1.root).children 0 = tree_three_keys.root ∧
      (t1.pages t1.root).children 1 = tree_three_keys.next_page ∧
      (t1.pages t1.root).keys 0 = (tree_three_keys.pages tree_three_keys.root).keys
        (LeafNode.kCapacity params_wide_values / 2) ∧
      (t1.pages tree_three_keys.root).is_leaf = true ∧
      (t1.pages tree_three_keys.next_page).is_leaf = true :=
  ⟨by decide,
   root_leaf_split params_wide_values 3 tree_three_keys 40 400 (by decide) (by decide)
     (by decide) (by decide)⟩

/-- C19 (what the code does): `Cast::evaluate` of a `DOUBLE` child that evaluates
to 42.0 (bits `0x4045000000000000`) cast to `INT64` returns the same bits, not
42; of an `INT64` child that evaluates to 42 cast to `DOUBLE` it returns
`0x2A`, not the bits of 42.0.  With child type and target type equal the value
of the child is returned unchanged. -/
theorem cast_evaluate_keeps_bits :
    (∀ args, (Cast.new (Constant.double 0x4045000000000000) ValueType.INT64).evaluate args
      = some 0x4045000000000000) ∧
    (∀ args, (Cast.new (Constant.int64 42) ValueType.DOUBLE).evaluate args = some 0x2A) ∧
    (∀ args, (Cast.new (Constant.int64 42) ValueType.INT64).evaluate args = some 42) ∧
    (∀ args, (Cast.new (Constant.double 0x4045000000000000) ValueType.DOUBLE).evaluate args
      = some 0x4045000000000000) := by
  refine ⟨fun _ => rfl, fun _ => rfl, fun _ => rfl, fun _ => rfl⟩

/-! ### Entries below a page -/

theorem mem_entries_below_succ {K V : Type} (pages : Nat → Node K V) (fuel id : Nat)
    (e : K × V) :
    e ∈ entries_below pages (fuel + 1) id ↔
      ((pages id).level = 0 ∧ e ∈ LeafNode.get_entries (pages id)) ∨
      ((pages id).level ≠ 0 ∧
        ∃ i, i < (pages id).count ∧ e ∈ entries_below pages fuel ((pages id).children i)) := by
  rw [entries_below]
  by_cases h : (pages id).level = 0
  · simp [Node.is_leaf, h]
  · simp [Node.is_leaf, h, List.mem_flatMap]

theorem entries_of_leaf {K V : Type} (pages : Nat → Node K V) (x : Nat)
    (h : (pages x).level = 0) : entries_of pages x = LeafNode.get_entries (pages x) := by
  unfold entries_of
  rw [h, entries_below]
  simp [Node.is_leaf, h]

/-! ### Children of split inner nodes -/

theorem inner_split_children {K V : Type} [LinearOrder K] (P : TreeParams) (n buffer : Node K V)
    (hv : P.sizeofValue = 8) (hfull : n.count = InnerNode.kCapacity P + 1)
    (h2 : 2 ≤ InnerNode.kCapacity P) (hcap : InnerNode.kCapacity P + 1 < 2 ^ 16) :
    (InnerNode.split P n buffer).2.1.count = (n.count - 1) / 2 + 1 ∧
    (InnerNode.split P n buffer).2.1.children = n.children ∧
    (InnerNode.split P n buffer).2.1.level = n.level ∧
    (InnerNode.split P n buffer).2.2.count = n.count - ((n.count - 1) / 2 + 1) ∧
    (InnerNode.split P n buffer).2.2.level = buffer.level ∧
    ∀ i, i < n.count - ((n.count - 1) / 2 + 1) →
      (InnerNode.split P n buffer).2.2.children i = n.children ((n.count - 1) / 2 + 1 + i) := by
  have hl : ((n.count - 1) / 2 + 1) % 2 ^ 16 = (n.count - 1) / 2 + 1 :=
    Nat.mod_eq_of_lt (by omega)
  have hr : (n.count + 2 ^ 16 - ((n.count - 1) / 2 + 1)) % 2 ^ 16
      = n.count - ((n.count - 1) / 2 + 1) := by
    have : n.count + 2 ^ 16 - ((n.count - 1) / 2 + 1)
        = (n.count - ((n.count - 1) / 2 + 1)) + 2 ^ 16 := by omega
    rw [this, Nat.add_mod_right]
    exact Nat.mod_eq_of_lt (by omega)
  unfold InnerNode.split
  simp only [hl, hr, hv]
  rw [memmove_words_aligned _ _ _ _ _ (by omega)]
  refine ⟨trivial, trivial, trivial, trivial, trivial, ?_⟩
  intro i hi
  unfold memmove_elems
  have h4 : 0 ≤ i ∧ i < 0 + (n.count - ((n.count - 1) / 2 + 1)) := by omega
  simp only [h4, and_self, if_true, Nat.sub_zero]

theorem inner_insert_split_children {K V : Type} [LinearOrder K] (P : TreeParams)
    (n : Node K V) (key : K) (split_page : Nat) (hv : P.sizeofValue = 8) (h1 : 1 ≤ n.count)
    (hle : n.count ≤ InnerNode.kCapacity P) (hcap : InnerNode.kCapacity P + 1 < 2 ^ 16) :
    (∀ j, j < n.count → ∃ i, i < n.count + 1 ∧
      (InnerNode.insert_split P n key split_page).children i = n.children j) ∧
    (∃ i, i < n.count + 1 ∧ (InnerNode.insert_split P n key split_page).children i = split_page) := by
  have hf := inner_lower_bound_le n key h1
  have hna : (n.count + 2 ^ 32 - (InnerNode.lower_bound n key).1 - 1) % 2 ^ 32
      = n.count - (InnerNode.lower_bound n key).1 - 1 := by
    have : n.count + 2 ^ 32 - (InnerNode.lower_bound n key).1 - 1
        = (n.count - (InnerNode.lower_bound n key).1 - 1) + 2 ^ 32 := by omega
    rw [this, Nat.add_mod_right]
    exact Nat.mod_eq_of_lt (by omega)
  unfold InnerNode.insert_split
  simp only [hna, hv]
  rw [memmove_words_aligned _ _ _ _ _ (by omega)]
  generalize (InnerNode.lower_bound n key).1 = f at *
  refine ⟨?_, ⟨f + 1, by omega, by simp⟩⟩
  intro j hj
  unfold memmove_elems
  by_cases hjf : j ≤ f
  · refine ⟨j, by omega, ?_⟩
    have h1 : ¬ j = f + 1 := by omega
    have h2 : ¬ (f + 2 ≤ j ∧ j < f + 2 + (n.count - f - 1)) := by omega
    simp only [h1, h2, if_false]
  · refine ⟨j + 1, by omega, ?_⟩
    have h1 : ¬ j + 1 = f + 1 := by omega
    have h2 : f + 2 ≤ j + 1 ∧ j + 1 < f + 2 + (n.count - f - 1) := by omega
    simp only [h1, h2, and_self, if_true, if_false]
    congr 1
    omega

/-! ### The pages a split writes -/

theorem split_child_pages {K V : Type} [LinearOrder K] (P : TreeParams) (t : BTree K V)
    (p c : Nat) (hpc : p ≠ c) (hpn : p ≠ t.next_page) (hcn : c ≠ t.next_page) :
    (split_child P t p c).1.pages c
      = (InnerNode.split P (t.pages c)
          { t.pages t.next_page with level := (t.pages c).level }).2.1 ∧
    (split_child P t p c).1.pages t.next_page
      = (InnerNode.split P (t.pages c)
          { t.pages t.next_page with level := (t.pages c).level }).2.2 ∧
    (split_child P t p c).1.pages p
      = InnerNode.insert_split P (t.pages p)
          (InnerNode.split P (t.pages c)
            { t.pages t.next_page with level := (t.pages c).level }).1 t.next_page ∧
    (∀ x, x ≠ p → x ≠ c → x ≠ t.next_page → (split_child P t p c).1.pages x = t.pages x) := by
  have hcp : c ≠ p := fun h => hpc h.symm
  have hnp : t.next_page ≠ p := fun h => hpn h.symm
  refine ⟨?_, ?_, ?_, ?_⟩
  · simp [split_child, split_inner, set_page, hcp, hcn]
  · simp [split_child, split_inner, set_page, hnp]
  · simp [split_child, split_inner, set_page, hpc, hpn]
  · intro x h1 h2 h3
    simp [split_child, split_inner, set_page, h1, h2, h3]

theorem split_root_pages {K V : Type} (P : TreeParams) (t : BTree K V)
    (hr : t.root < t.next_page) :
    (split_root P t).1.pages t.root
      = (InnerNode.split P (t.pages t.root)
          { t.pages t.next_page with level := (t.pages t.root).level }).2.1 ∧
    (split_root P t).1.pages t.next_page
      = (InnerNode.split P (t.pages t.root)
          { t.pages t.next_page with level := (t.pages t.root).level }).2.2 ∧
    ((split_root P t).1.pages (t.next_page + 1)).count = 2 ∧
    ((split_root P t).1.pages (t.next_page + 1)).children 0 = t.root ∧
    ((split_root P t).1.pages (t.next_page + 1)).children 1 = t.next_page ∧
    (∀ x, x < t.next_page → x ≠ t.root → (split_root P t).1.pages x = t.pages x) := by
  have h1 : t.root ≠ t.next_page := by omega
  have h2 : t.root ≠ t.next_page + 1 := by omega
  have h3 : t.next_page ≠ t.next_page + 1 := by omega
  refine ⟨?_, ?_, ?_, ?_, ?_, ?_⟩
  · simp [split_root, split_inner, set_page, h1, h2]
  · simp [split_root, split_inner, set_page, h3]
  · simp [split_root, split_inner, set_page, InnerNode.first_insert]
  · simp [split_root, split_inner, set_page, InnerNode.first_insert]
  · simp [split_root, split_inner, set_page, InnerNode.first_insert]
  · intro x hx hxr
    have h4 : x ≠ t.next_page := by omega
    have h5 : x ≠ t.next_page + 1 := by omega
    simp [split_root, split_inner, set_page, hxr, h4, h5]

/-! ### Failing fixes during an insert -/

theorem session_fix_tree {K V : Type} (s s1 : Session K V) (id : Nat) (r : FixResult)
    (h : s.fix id = (r, s1)) : s1.tree = s.tree := by
  unfold Session.fix at h
  split at h
  · simp only [Prod.mk.injEq] at h
    rw [← h.2]
  · simp only [Prod.mk.injEq] at h
    rw [← h.2]

theorem of_failure_site {α : Type} (r : FixResult) (site site2 : FixSite)
    (h : (Outcome.of_failure r site : Outcome α) = Outcome.buffer_full_error site2) :
    site2 = site := by
  unfold Outcome.of_failure at h
  split at h
  · simp only [Outcome.buffer_full_error.injEq] at h
    exact h.symm
  · cases h

theorem sameEntries_refl {K V : Type} (t : BTree K V) : SameEntries t t := fun _ => Iff.rfl

theorem sameEntries_trans {K V : Type} (t t1 t2 : BTree K V) (h1 : SameEntries t t1)
    (h2 : SameEntries t1 t2) : SameEntries t t2 := fun e => (h2 e).trans (h1 e)

theorem sameEntries_of_fields {K V : Type} (t t1 : BTree K V) (hp : t1.pages = t.pages)
    (hr : t1.root = t.root) (he : t1.is_empty = t.is_empty) : SameEntries t t1 := by
  intro e
  unfold BTree.entries
  rw [hp, hr, he]

/-- The three ways a fix of the tree can end on the pool. -/
theorem session_fix_cases {K V : Type} (s s1 : Session K V) (id : Nat) (r : FixResult)
    (h : s.fix id = (r, s1)) :
    (r = FixResult.ok id ∧ id ∉ s.pool.fixed ∧ s.pool.fixed.length < s.pool.page_count ∧
      s1.pool.fixed = id :: s.pool.fixed ∧ s1.pool.page_count = s.pool.page_count) ∨
    (r = FixResult.blocked ∧ s1 = s) ∨
    (r = FixResult.buffer_full_error ∧ s.pool.page_count ≤ s.pool.fixed.length ∧ s1 = s) := by
  unfold Session.fix Pool.fix_page at h
  by_cases hm : id ∈ s.pool.fixed
  · simp only [hm, if_true, Prod.mk.injEq] at h
    exact Or.inr (Or.inl ⟨h.1.symm, h.2.symm⟩)
  · by_cases hl : s.pool.fixed.length < s.pool.page_count
    · simp only [hm, hl, if_true, if_false, Prod.mk.injEq] at h
      obtain ⟨h1, h2⟩ := h
      subst h1 h2
      exact Or.inl ⟨rfl, hm, hl, rfl, rfl⟩
    · simp only [hm, hl, if_false, Prod.mk.injEq] at h
      exact Or.inr (Or.inr ⟨h.1.symm, by omega, h.2.symm⟩)

/-- A fix that returns a frame found the page unfixed and a frame free. -/
theorem session_fix_ok {K V : Type} (s s1 : Session K V) (id k : Nat)
    (h : s.fix id = (FixResult.ok k, s1)) :
    id ∉ s.pool.fixed ∧ s.pool.fixed.length < s.pool.page_count ∧
      s1.pool.fixed = id :: s.pool.fixed ∧ s1.pool.page_count = s.pool.page_count := by
  rcases session_fix_cases s s1 id _ h with h1 | h1 | h1
  · exact h1.2
  · cases h1.1
  · cases h1.1

/-- A fix on a pool with a free frame does not end in buffer-full. -/
theorem session_fix_room {K V : Type} (s s1 : Session K V) (id : Nat) (r : FixResult)
    (site site2 : FixSite) (α : Type) (h : s.fix id = (r, s1))
    (hroom : s.pool.fixed.length < s.pool.page_count) :
    (Outcome.of_failure r site : Outcome α) ≠ Outcome.buffer_full_error site2 := by
  rcases session_fix_cases s s1 id _ h with h1 | h1 | h1
  · rw [h1.1]; intro h2; cases h2
  · rw [h1.1]; intro h2; cases h2
  · omega

/-- Once a frame is free while parent and child are fixed, no later fix of the
descent ends in buffer-full, and a frame is free when the descent returns. -/
theorem descend_fx_room {K V : Type} [LinearOrder K] (P : TreeParams) (key : K) :
    ∀ (fuel : Nat) (s s1 : Session K V) (p c : Nat) (o : Outcome (Nat × Nat)),
      s.pool.fixed.length < s.pool.page_count → p ∈ s.pool.fixed → c ∈ s.pool.fixed → p ≠ c →
      descend_fx P key true fuel s p c = (s1, o) →
      (∀ site, o ≠ Outcome.buffer_full_error site) ∧
      s1.pool.fixed.length < s1.pool.page_count := by
  intro fuel
  induction fuel with
  | zero =>
    intro s s1 p c o hroom _ _ _ h
    rw [descend_fx] at h
    simp only [Prod.mk.injEq] at h
    obtain ⟨h1, h2⟩ := h
    subst h1 h2
    exact ⟨(fun _ h => by cases h), hroom⟩
  | succ fuel ih =>
    intro s s1 p c o hroom hp hc hpc h
    rw [descend_fx] at h
    by_cases hleaf : (s.tree.pages c).is_leaf = true
    · simp only [hleaf, if_true, Prod.mk.injEq] at h
      obtain ⟨h1, h2⟩ := h
      subst h1 h2
      refine ⟨(fun _ h => by cases h), ?_⟩
      have := List.length_erase_of_mem hp
      simp only [Session.unfix, Pool.unfix_page]
      omega
    · simp only [hleaf, Bool.false_eq_true, if_false, Bool.true_and, decide_eq_true_eq] at h
      have hlen1 : (s.pool.fixed.erase p).length + 1 = s.pool.fixed.length := by
        have := List.length_erase_of_mem hp
        have := List.length_pos_of_mem hp
        omega
      by_cases hfull : (s.tree.pages c).count ≥ InnerNode.kCapacity P + 1
      · simp only [hfull, if_true] at h
        split at h
        · rename_i k s2 hfx
          obtain ⟨f1, f2, f3, f4⟩ := session_fix_ok _ _ _ _ hfx
          simp only at f1 f2 f3 f4
          obtain ⟨cid, hcid⟩ : ∃ cid, cid =
              (if (split_child P s.tree p c).2.1 < key then s.tree.next_page else c) :=
            ⟨_, rfl⟩
          simp only [← hcid] at h
          obtain ⟨s5, hs5⟩ : ∃ s5 : Session K V, s5 =
              Session.unfix (if (split_child P s.tree p c).2.1 < key then
                Session.unfix { s2 with
                  tree := (split_child P s.tree p c).1,
                  trace := s2.trace ++ [Event.write s.tree.next_page, Event.write c,
                    Event.write p] } c
              else
                Session.unfix { s2 with
                  tree := (split_child P s.tree p c).1,
                  trace := s2.trace ++ [Event.write s.tree.next_page, Event.write c,
                    Event.write p] } s.tree.next_page) p := ⟨_, rfl⟩
          simp only [← hs5] at h
          have hnc : s.tree.next_page ≠ c := fun h => f1 (h ▸ hc)
          have hnp : s.tree.next_page ≠ p := fun h => f1 (h ▸ hp)
          have hcp : c ∈ s.pool.fixed.erase p := (List.mem_erase_of_ne (Ne.symm hpc)).2 hc
          have hs5p : s5.pool.page_count = s.pool.page_count ∧
              s5.pool.fixed.length + 1 = s.pool.fixed.length ∧ cid ∈ s5.pool.fixed := by
            rw [hs5, hcid]
            split
            · refine ⟨f4, ?_, ?_⟩
              · simp only [Session.unfix, Pool.unfix_page, f3]
                rw [List.erase_cons_tail (by simpa using hnc),
                  List.erase_cons_tail (by simpa using hnp)]
                have hpe : p ∈ s.pool.fixed.erase c := (List.mem_erase_of_ne hpc).2 hp
                have h1 := List.length_erase_of_mem hpe
                have h2 := List.length_erase_of_mem hc
                have h3 := List.length_pos_of_mem hpe
                simp only [List.length_cons]
                omega
              · simp only [Session.unfix, Pool.unfix_page, f3]
                rw [List.erase_cons_tail (by simpa using hnc),
                  List.erase_cons_tail (by simpa using hnp)]
                exact List.mem_cons_self _ _
            · refine ⟨f4, ?_, ?_⟩
              · simp only [Session.unfix, Pool.unfix_page, f3]
                rw [List.erase_cons_head]
                exact hlen1
              · simp only [Session.unfix, Pool.unfix_page, f3]
                rw [List.erase_cons_head]
                exact hcp
          obtain ⟨g1, g2, g3⟩ := hs5p
          split at h
          · rename_i k2 s6 hfx2
            obtain ⟨e1, e2, e3, e4⟩ := session_fix_ok _ _ _ _ hfx2
            exact ih s6 s1 cid _ o (by rw [e3, e4, List.length_cons]; omega)
              (by rw [e3]; exact List.mem_cons_of_mem _ g3)
              (by rw [e3]; exact List.mem_cons_self _ _)
              (fun h => e1 (by rw [← h]; exact g3)) h
          · rename_i res s6 _ hfx2
            simp only [Prod.mk.injEq] at h
            obtain ⟨h1, h2⟩ := h
            have hr5 : s5.pool.fixed.length < s5.pool.page_count := by omega
            have hno := fun site => session_fix_room _ _ _ _ FixSite.child_page site
              (Nat × Nat) hfx2 hr5
            rcases session_fix_cases _ _ _ _ hfx2 with q | q | q
            · subst h1 h2
              exact ⟨hno, by rw [q.2.2.2.1, q.2.2.2.2, List.length_cons]; omega⟩
            · subst h1 h2
              exact ⟨hno, by rw [q.2]; exact hr5⟩
            · omega
        · rename_i res s2 _ hfx
          simp only [Prod.mk.injEq] at h
          obtain ⟨h1, h2⟩ := h
          have hno := fun site => session_fix_room _ _ _ _ FixSite.new_inner_page site
            (Nat × Nat) hfx hroom
          rcases session_fix_cases _ _ _ _ hfx with q | q | q
          · subst h1 h2
            refine ⟨hno, ?_⟩
            rw [q.2.2.2.1, q.2.2.2.2]
            rename_i hres
            exact absurd q.1 (hres _)
          · subst h1 h2
            exact ⟨hno, by rw [q.2]; exact hroom⟩
          · have := q.2.1
            simp only at this
            omega
      · simp only [hfull, if_false] at h
        split at h
        · rename_i k2 s6 hfx2
          obtain ⟨e1, e2, e3, e4⟩ := session_fix_ok _ _ _ _ hfx2
          simp only [Session.unfix, Pool.unfix_page] at e1 e2 e3 e4
          have hcp : c ∈ s.pool.fixed.erase p := (List.mem_erase_of_ne (Ne.symm hpc)).2 hc
          exact ih s6 s1 c _ o (by rw [e3, e4, List.length_cons]; omega)
            (by rw [e3]; exact List.mem_cons_of_mem _ hcp)
            (by rw [e3]; exact List.mem_cons_self _ _)
            (fun h => e1 (by have h2 : c = InnerNode.lookup (s.tree.pages c) key := h
                             rw [← h2]; exact hcp)) h
        · rename_i res s6 _ hfx2
          simp only [Prod.mk.injEq] at h
          obtain ⟨h1, h2⟩ := h
          have hr5 : (s.unfix p).pool.fixed.length < (s.unfix p).pool.page_count := by
            simp only [Session.unfix, Pool.unfix_page]
            omega
          have hno := fun site => session_fix_room _ _ _ _ FixSite.child_page site
            (Nat × Nat) hfx2 hr5
          rcases session_fix_cases _ _ _ _ hfx2 with q | q | q
          · subst h1 h2
            refine ⟨hno, ?_⟩
            rw [q.2.2.2.1, q.2.2.2.2, List.length_cons]
            simp only [Session.unfix, Pool.unfix_page]
            omega
          · subst h1 h2
            exact ⟨hno, by rw [q.2]; exact hr5⟩
          · have := q.2.1
            omega

theorem of_failure_cases (α : Type) (r : FixResult) (site : FixSite) :
    (Outcome.of_failure r site : Outcome α) = Outcome.buffer_full_error site ∨
    (Outcome.of_failure r site : Outcome α) = Outcome.blocked site := by
  cases r <;> simp [Outcome.of_failure]

/-- C11 (counterexample): the root of `tree_three_keys` is a full leaf with the entries
of the keys 10, 20 and 30.  On a pool of two frames the insert of key 40 fixes
the root and the new leaf, splits the leaf, and ends in the buffer-full error
of the fix of the new root page: the root is still page 0, and the entry of
key 30, which the split moved to the new leaf, is no longer reachable from
it. -/
theorem insert_buffer_full_loses_entries :
    (insert_fx params_wide_values 3 (Session.start tree_three_keys 2) 40 400).2
      = Outcome.buffer_full_error FixSite.new_root_page ∧
    tree_three_keys.entries = [(10, 100), (20, 200), (30, 300)] ∧
    (insert_fx params_wide_values 3 (Session.start tree_three_keys 2) 40 400).1.tree.root
      = tree_three_keys.root ∧
    (insert_fx params_wide_values 3 (Session.start tree_three_keys 2) 40 400).1.tree.entries
      = [(10, 100), (20, 200)] := by
  decide

/-! ### Binary search in a node -/

theorem lower_bound_loop_spec_le {K : Type} [LinearOrder K] (keys : Nat → K) (key : K) :
    ∀ (fuel first count : Nat), count ≤ fuel →
      (∀ i j, first ≤ i → i < j → j < first + count → keys i ≤ keys j) →
      (∀ i, first ≤ i → i < lower_bound_loop keys key fuel first count → keys i < key) ∧
      (∀ i, lower_bound_loop keys key fuel first count ≤ i → i < first + count →
        ¬ keys i < key) := by
  intro fuel
  induction fuel with
  | zero =>
    intro first count hc _
    simp only [lower_bound_loop]
    constructor
    · intro i h1 h2; omega
    · intro i h1 h2; omega
  | succ n ih =>
    intro first count hcf hs
    unfold lower_bound_loop
    by_cases hc : 0 < count
    · simp only [hc, if_true]
      by_cases hk : keys (first + count / 2) < key
      · simp only [hk, if_true]
        obtain ⟨h1, h2⟩ := ih (first + count / 2 + 1) (count - (count / 2 + 1)) (by omega)
          (fun i j hi hij hj => hs i j (by omega) hij (by omega))
        constructor
        · intro i hi hlt
          by_cases hle : i ≤ first + count / 2
          · rcases Nat.lt_or_eq_of_le hle with hlt2 | heq
            · exact lt_of_le_of_lt (hs i (first + count / 2) hi hlt2 (by omega)) hk
            · rw [heq]; exact hk
          · exact h1 i (by omega) hlt
        · intro i hi hlt
          exact h2 i hi (by omega)
      · simp only [hk, if_false]
        obtain ⟨h1, h2⟩ := ih first (count / 2) (by omega)
          (fun i j hi hij hj => hs i j hi hij (by omega))
        constructor
        · exact h1
        · intro i hi hlt
          by_cases hle : i < first + count / 2
          · exact h2 i hi hle
          · intro hik
            apply hk
            rcases Nat.lt_or_eq_of_le (Nat.le_of_not_lt hle) with hlt2 | heq
            · exact lt_of_le_of_lt (hs (first + count / 2) i (by omega) hlt2 hlt) hik
            · rw [heq]; exact hik
    · simp only [hc, if_false]
      constructor
      · intro i h1 h2; omega
      · intro i h1 h2; omega

/-- Counting the indices below `m` at which a predicate holds, when it holds
exactly below `i`. -/
theorem filter_range_length (p : Nat → Bool) :
    ∀ (m i : Nat), i ≤ m → (∀ j, j < i → p j = true) → (∀ j, i ≤ j → j < m → p j = false) →
      ((List.range m).filter p).length = i := by
  intro m
  induction m with
  | zero =>
    intro i hi _ _
    simp only [List.range_zero, List.filter_nil, List.length_nil]
    omega
  | succ m ih =>
    intro i hi h1 h2
    rw [List.range_succ, List.filter_append, List.length_append]
    by_cases him : i ≤ m
    · have hpm : p m = false := h2 m him (by omega)
      rw [ih i him h1 (fun j hj hjm => h2 j hj (by omega))]
      simp [hpm]
    · have hi2 : i = m + 1 := by omega
      have hpm : p m = true := h1 m (by omega)
      rw [ih m (le_refl _) (fun j hj => h1 j (by omega)) (fun j hj hjm => by omega)]
      simp [hpm, hi2]

/-- The boundary that the two halves of a search result describe is the
number of keys less than the query. -/
theorem keys_less_eq {K V : Type} [LinearOrder K] (n : Node K V) (m i : Nat) (q : K)
    (hi : i ≤ m) (h1 : ∀ j, j < i → n.keys j < q)
    (h2 : ∀ j, i ≤ j → j < m → ¬ n.keys j < q) : keys_less n m q = i := by
  unfold keys_less
  exact filter_range_length _ m i hi (fun j hj => by simpa using h1 j hj)
    (fun j hj hjm => by simpa using h2 j hj hjm)

/-- C23: for a leaf whose first `count` keys are sorted (equal neighbours
allowed) and every query key `q`, `LeafNode::lower_bound(q)` returns `(i, found)`
where `i` is the number of stored keys less than `q`: every key before slot
`i` is less than `q`, no key from slot `i` on is, and `i` is at most `count`;
`found` is true exactly when `i < count` and `keys[i]` equals `q`. -/
theorem leaf_lower_bound_result {K V : Type} [LinearOrder K] (n : Node K V) (q : K)
    (hs : ∀ i j, i < j → j < n.count → n.keys i ≤ n.keys j) :
    (LeafNode.lower_bound n q).1 = keys_less n n.count q ∧
    (LeafNode.lower_bound n q).1 ≤ n.count ∧
    (∀ j, j < (LeafNode.lower_bound n q).1 → n.keys j < q) ∧
    (∀ j, (LeafNode.lower_bound n q).1 ≤ j → j < n.count → ¬ n.keys j < q) ∧
    ((LeafNode.lower_bound n q).2 = true ↔
      (LeafNode.lower_bound n q).1 < n.count ∧ n.keys (LeafNode.lower_bound n q).1 = q) := by
  have key : (LeafNode.lower_bound n q).1 ≤ n.count ∧
      (∀ j, j < (LeafNode.lower_bound n q).1 → n.keys j < q) ∧
      (∀ j, (LeafNode.lower_bound n q).1 ≤ j → j < n.count → ¬ n.keys j < q) ∧
      ((LeafNode.lower_bound n q).2 = true ↔
        (LeafNode.lower_bound n q).1 < n.count ∧
        n.keys (LeafNode.lower_bound n q).1 = q) := by
    unfold LeafNode.lower_bound
    by_cases hc : n.count = 0
    · simp only [hc, if_true]
      refine ⟨le_refl _, ?_, ?_, ?_⟩
      · intro i hi; omega
      · intro i _ hi; omega
      · simp
    · simp only [hc, if_false]
      obtain ⟨hb1, hb2⟩ := lower_bound_loop_bounds n.keys q n.count 0 n.count
      obtain ⟨h1, h2⟩ := lower_bound_loop_spec_le n.keys q n.count 0 n.count (le_refl _)
        (fun i j _ hij hj => hs i j hij (by omega))
      refine ⟨by omega, fun i hi => h1 i (Nat.zero_le _) hi,
        fun i hi hlt => h2 i hi (by omega), ?_⟩
      simp only [Bool.and_eq_true, decide_eq_true_eq]
      exact ⟨fun h => ⟨h.2, h.1⟩, fun h => ⟨h.2, h.1⟩⟩
  obtain ⟨k1, k2, k3, k4⟩ := key
  exact ⟨(keys_less_eq n n.count _ q k1 k2 k3).symm, k1, k2, k3, k4⟩

theorem leaf_three_entries_sorted :
    ∀ i j, i < j → j < leaf_three_entries.count →
      leaf_three_entries.keys i < leaf_three_entries.keys j := by
  intro i j hij _
  simp only [leaf_three_entries]
  omega

theorem leaf_lower_bound_result_witness :
    (∀ i j, i < j → j < leaf_three_entries.count →
      leaf_three_entries.keys i ≤ leaf_three_entries.keys j) ∧
    LeafNode.lower_bound leaf_three_entries 20 = (1, true) ∧
    (LeafNode.lower_bound leaf_three_entries 20).1 = keys_less leaf_three_entries 3 20 ∧
    LeafNode.lower_bound leaf_three_entries 25 = (2, false) ∧
    (LeafNode.lower_bound leaf_three_entries 25).1 = keys_less leaf_three_entries 3 25 :=
  ⟨fun i j hij hj => le_of_lt (leaf_three_entries_sorted i j hij hj),
   by decide,
   (leaf_lower_bound_result leaf_three_entries 20
     (fun i j hij hj => le_of_lt (leaf_three_entries_sorted i j hij hj))).1,
   by decide,
   (leaf_lower_bound_result leaf_three_entries 25
     (fun i j hij hj => le_of_lt (leaf_three_entries_sorted i j hij hj))).1⟩

/-- C28: for an inner node with `count = n ≥ 1` children whose first `n - 1` keys are
strictly increasing, `InnerNode::lookup(q)` returns `children[i]` where `i` is the
number of keys among `keys[0..n-2]` that are less than `q`; `i` is at most
`n - 1`, a query equal to `keys[i]` for a separator index `i` descends into child
`i`, and a node that differs only in key slots from `n - 1` on gives the same
result. -/
theorem inner_lookup_result {K V : Type} [LinearOrder K] (n : Node K V) (q : K)
    (h1 : 1 ≤ n.count)
    (hs : ∀ i j, i < j → j < n.count - 1 → n.keys i < n.keys j) :
    InnerNode.lookup n q = n.children (keys_less n (n.count - 1) q) ∧
    keys_less n (n.count - 1) q ≤ n.count - 1 ∧
    (∀ i, i < n.count - 1 → n.keys i = q → InnerNode.lookup n q = n.children i) ∧
    (∀ n2 : Node K V, n2.count = n.count → n2.children = n.children →
      (∀ j, j < n.count - 1 → n2.keys j = n.keys j) →
      InnerNode.lookup n2 q = InnerNode.lookup n q) := by
  have hc : n.count ≠ 0 := by omega
  have hlook : ∀ m : Node K V, m.count = n.count → m.children = n.children →
      (∀ j, j < n.count - 1 → m.keys j = n.keys j) →
      InnerNode.lookup m q = n.children (keys_less n (n.count - 1) q) ∧
      keys_less n (n.count - 1) q ≤ n.count - 1 := by
    intro m hmc hmch hmk
    have hsm : ∀ i j, 0 ≤ i → i < j → j < 0 + (m.count - 1) → m.keys i ≤ m.keys j := by
      intro i j _ hij hj
      rw [hmc] at hj
      rw [hmk i (by omega), hmk j (by omega)]
      exact le_of_lt (hs i j hij (by omega))
    obtain ⟨hb1, hb2⟩ := lower_bound_loop_bounds m.keys q (m.count - 1) 0 (m.count - 1)
    obtain ⟨s1, s2⟩ := lower_bound_loop_spec_le m.keys q (m.count - 1) 0 (m.count - 1)
      (le_refl _) hsm
    have hk : keys_less n (n.count - 1) q
        = lower_bound_loop m.keys q (m.count - 1) 0 (m.count - 1) := by
      apply keys_less_eq
      · omega
      · intro j hj
        have hj2 : j < n.count - 1 := by omega
        rw [← hmk j hj2]
        exact s1 j (Nat.zero_le _) hj
      · intro j hj hjm
        rw [← hmk j hjm]
        exact s2 j hj (by rw [hmc]; omega)
    have hmc0 : m.count ≠ 0 := by omega
    refine ⟨?_, by rw [hk, ← hmc]; omega⟩
    unfold InnerNode.lookup InnerNode.lower_bound
    simp only [hmc0, if_false]
    have hne : lower_bound_loop m.keys q (m.count - 1) 0 (m.count - 1) ≠ m.count := by omega
    simp only [hne, if_false]
    rw [hmch, hk]
  obtain ⟨l1, l2⟩ := hlook n rfl rfl (fun _ _ => rfl)
  refine ⟨l1, l2, ?_, ?_⟩
  · intro i hi hk
    rw [l1]
    congr 1
    apply keys_less_eq n (n.count - 1) i q (by omega)
    · intro j hj
      rw [← hk]
      exact hs j i hj hi
    · intro j hj hjm h
      rw [← hk] at h
      rcases Nat.lt_or_eq_of_le hj with hlt | heq
      · exact lt_asymm (hs i j hlt hjm) h
      · rw [heq] at h
        exact lt_irrefl _ h
  · intro n2 h2c h2ch h2k
    rw [(hlook n2 h2c h2ch h2k).1, l1]

theorem inner_lookup_result_witness :
    (1 ≤ inner_three_children.count ∧
      ∀ i j, i < j → j < inner_three_children.count - 1 →
        inner_three_children.keys i < inner_three_children.keys j) ∧
    InnerNode.lookup inner_three_children 15 = 12 ∧
    InnerNode.lookup inner_three_children 20 = 12 ∧
    InnerNode.lookup inner_three_children 25 = 13 :=
  ⟨⟨by decide, fun i j hij hj => by
      have hj1 : j = 1 := by simp only [inner_three_children] at hj; omega
      have hi0 : i = 0 := by omega
      subst hj1 hi0
      decide⟩,
   ((inner_lookup_result inner_three_children 15 (by decide) (fun i j hij hj => by
      have hj1 : j = 1 := by simp only [inner_three_children] at hj; omega
      have hi0 : i = 0 := by omega
      subst hj1 hi0
      decide)).1).trans (by decide),
   by decide, by decide⟩

/-! ### What the calls on a leaf do to its entries -/

/-- The leaf after `insert` of a key that `lower_bound` finds. -/
theorem leaf_insert_found_eq {K V : Type} [LinearOrder K] (n : Node K V) (k : K) (v : V)
    (h : (LeafNode.lower_bound n k).2 = true) :
    (LeafNode.insert n k v).count = n.count ∧ (LeafNode.insert n k v).keys = n.keys ∧
    (LeafNode.insert n k v).values
      = (fun j => if j = (LeafNode.lower_bound n k).1 then v else n.values j) := by
  have hc : n.count ≠ 0 := by
    intro hc
    simp [LeafNode.lower_bound, hc] at h
  unfold LeafNode.insert
  simp only [hc, if_false, h, if_true, and_self]

/-- The leaf after `insert` of a key that `lower_bound` does not find. -/
theorem leaf_insert_absent_eq {K V : Type} [LinearOrder K] (n : Node K V) (k : K) (v : V)
    (h : (LeafNode.lower_bound n k).2 = false) (hle : (LeafNode.lower_bound n k).1 ≤ n.count)
    (hc16 : n.count + 1 < 2 ^ 16) :
    (LeafNode.insert n k v).count = n.count + 1 ∧
    (∀ j, (LeafNode.insert n k v).keys j =
      if j = (LeafNode.lower_bound n k).1 then k
      else if (LeafNode.lower_bound n k).1 < j ∧ j ≤ n.count then n.keys (j - 1)
      else n.keys j) ∧
    (∀ j, (LeafNode.insert n k v).values j =
      if j = (LeafNode.lower_bound n k).1 then v
      else if (LeafNode.lower_bound n k).1 < j ∧ j ≤ n.count then n.values (j - 1)
      else n.values j) := by
  have hu : u16_incr n.count = n.count + 1 := by
    unfold u16_incr
    exact Nat.mod_eq_of_lt hc16
  by_cases hc : n.count = 0
  · have hlb : (LeafNode.lower_bound n k).1 = 0 := by omega
    unfold LeafNode.insert
    simp only [hc, if_true]
    refine ⟨by rw [← hc, hu, hc], ?_, ?_⟩
    · intro j
      rw [hlb]
      by_cases hj : j = 0
      · simp [hj]
      · have : ¬ (0 < j ∧ j ≤ 0) := by omega
        simp [hj, this]
    · intro j
      rw [hlb]
      by_cases hj : j = 0
      · simp [hj]
      · have : ¬ (0 < j ∧ j ≤ 0) := by omega
        simp [hj, this]
  · obtain ⟨first, hfirst⟩ : ∃ first, first = (LeafNode.lower_bound n k).1 := ⟨_, rfl⟩
    have hna : (n.count + 2 ^ 32 - first) % 2 ^ 32 = n.count - first := by
      rw [hfirst]; omega
    unfold LeafNode.insert
    simp only [hc, if_false, h, Bool.false_eq_true, ← hfirst, hna]
    refine ⟨hu, ?_, ?_⟩
    · intro j
      by_cases hj : j = first
      · simp [hj]
      · simp only [hj, if_false, memmove_elems]
        by_cases hm : first < j ∧ j ≤ n.count
        · have hm2 : first + 1 ≤ j ∧ j < first + 1 + (n.count - first) := by omega
          have hidx : first + (j - (first + 1)) = j - 1 := by omega
          simp only [hm, hm2, and_self, if_true, hidx]
        · have hm2 : ¬ (first + 1 ≤ j ∧ j < first + 1 + (n.count - first)) := by
            rw [hfirst] at hm ⊢; omega
          simp only [hm, hm2, if_false]
    · intro j
      by_cases hj : j = first
      · simp [hj]
      · simp only [hj, if_false, memmove_elems]
        by_cases hm : first < j ∧ j ≤ n.count
        · have hm2 : first + 1 ≤ j ∧ j < first + 1 + (n.count - first) := by omega
          have hidx : first + (j - (first + 1)) = j - 1 := by omega
          simp only [hm, hm2, and_self, if_true, hidx]
        · have hm2 : ¬ (first + 1 ≤ j ∧ j < first + 1 + (n.count - first)) := by
            rw [hfirst] at hm ⊢; omega
          simp only [hm, hm2, if_false]

/-- C24: for a leaf with strictly increasing keys and `count < K_leaf` (a capacity
that fits the 16-bit `count`), `LeafNode::insert(k, v)` does the following.  If `k`
is stored in slot `i`, the keys and `count` are unchanged and only the value
of slot `i` becomes `v`.  Otherwise, with `i` the lower-bound index of `k`,
slot `i` holds `(k, v)`, the slots before `i` are unchanged, every entry from
slot `i` on has moved one slot to the right, and `count` has grown by one.  In
both cases the keys are strictly increasing again, `lookup(k)` gives `v`, and
`lookup` of every other key gives what it gave before. -/
theorem leaf_insert_effect {K V : Type} [LinearOrder K] (P : TreeParams) (n : Node K V)
    (k : K) (v : V)
    (hs : ∀ i j, i < j → j < n.count → n.keys i < n.keys j)
    (hlt : n.count < LeafNode.kCapacity P) (hcap : LeafNode.kCapacity P < 2 ^ 16) :
    (∀ i, i < n.count → n.keys i = k →
      (LeafNode.insert n k v).count = n.count ∧
      (LeafNode.insert n k v).keys = n.keys ∧
      (LeafNode.insert n k v).values i = v ∧
      ∀ j, j ≠ i → (LeafNode.insert n k v).values j = n.values j) ∧
    ((∀ i, i < n.count → n.keys i ≠ k) →
      (LeafNode.insert n k v).count = n.count + 1 ∧
      (LeafNode.insert n k v).keys (LeafNode.lower_bound n k).1 = k ∧
      (LeafNode.insert n k v).values (LeafNode.lower_bound n k).1 = v ∧
      (∀ j, j < (LeafNode.lower_bound n k).1 →
        (LeafNode.insert n k v).keys j = n.keys j ∧
        (LeafNode.insert n k v).values j = n.values j) ∧
      (∀ j, (LeafNode.lower_bound n k).1 ≤ j → j < n.count →
        (LeafNode.insert n k v).keys (j + 1) = n.keys j ∧
        (LeafNode.insert n k v).values (j + 1) = n.values j)) ∧
    (∀ i j, i < j → j < (LeafNode.insert n k v).count →
      (LeafNode.insert n k v).keys i < (LeafNode.insert n k v).keys j) ∧
    LeafNode.lookup (LeafNode.insert n k v) k = some v ∧
    (∀ k2, k2 ≠ k →
      LeafNode.lookup (LeafNode.insert n k v) k2 = LeafNode.lookup n k2) := by
  obtain ⟨hle, hbefore, hafter, hfound⟩ := leaf_lower_bound_spec n k hs
  have hsorted : ∀ i j, i < j → j < (LeafNode.insert n k v).count →
      (LeafNode.insert n k v).keys i < (LeafNode.insert n k v).keys j :=
    (leaf_insert_ok P n k v ⟨by omega, hs⟩ hlt hcap).1.2
  -- the slot of a stored key is its lower-bound index
  have hslot : ∀ i, i < n.count → n.keys i = k → (LeafNode.lower_bound n k).1 = i := by
    intro i hi hk
    rcases Nat.lt_trichotomy (LeafNode.lower_bound n k).1 i with hlt2 | heq | hgt
    · exfalso
      have h2 := hs _ _ hlt2 hi
      rw [hk] at h2
      exact hafter _ (le_refl _) (by omega) h2
    · exact heq
    · exfalso
      have h2 := hbefore i hgt
      rw [hk] at h2
      exact lt_irrefl _ h2
  by_cases hf : (LeafNode.lower_bound n k).2 = true
  · -- the key is stored
    obtain ⟨f1, f2, f3⟩ := leaf_insert_found_eq n k v hf
    obtain ⟨hi0, hk0⟩ := hfound.1 hf
    refine ⟨?_, ?_, hsorted, ?_, ?_⟩
    · intro i hi hk
      have hsl := hslot i hi hk
      refine ⟨f1, f2, ?_, ?_⟩
      · rw [f3]; simp [hsl]
      · intro j hj
        rw [f3]; simp [hsl, hj]
    · intro habs
      exact absurd hk0 (habs _ hi0)
    · rw [leaf_lookup_of_mem _ k hsorted (LeafNode.lower_bound n k).1 (by rw [f1]; exact hi0)
        (by rw [f2]; exact hk0), f3]
      simp
    · intro k2 hk2
      by_cases hex : ∃ j, j < n.count ∧ n.keys j = k2
      · obtain ⟨j, hj, hjk⟩ := hex
        have hne : j ≠ (LeafNode.lower_bound n k).1 := by
          intro h
          rw [h, hk0] at hjk
          exact hk2 hjk.symm
        rw [leaf_lookup_of_mem _ k2 hsorted j (by rw [f1]; exact hj) (by rw [f2]; exact hjk),
          leaf_lookup_of_mem n k2 hs j hj hjk, f3]
        simp [hne]
      · have hnone : ∀ j, j < n.count → n.keys j ≠ k2 := fun j hj hjk => hex ⟨j, hj, hjk⟩
        rw [leaf_lookup_none_of_not_mem n k2 hnone]
        apply leaf_lookup_none_of_not_mem
        intro j hj
        rw [f1] at hj
        rw [f2]
        exact hnone j hj
  · -- the key is new
    have hf2 : (LeafNode.lower_bound n k).2 = false := by
      cases hq : (LeafNode.lower_bound n k).2
      · rfl
      · exact absurd hq hf
    obtain ⟨a1, a2, a3⟩ := leaf_insert_absent_eq n k v hf2 hle (by omega)
    obtain ⟨first, hfirst⟩ : ∃ first, first = (LeafNode.lower_bound n k).1 := ⟨_, rfl⟩
    rw [← hfirst] at a2 a3 hle hbefore hafter
    have hkf : (LeafNode.insert n k v).keys first = k := by rw [a2]; simp
    have hvf : (LeafNode.insert n k v).values first = v := by rw [a3]; simp
    have hlow : ∀ j, j < first →
        (LeafNode.insert n k v).keys j = n.keys j ∧
        (LeafNode.insert n k v).values j = n.values j := by
      intro j hj
      have h1 : j ≠ first := by omega
      have h2 : ¬ (first < j ∧ j ≤ n.count) := by omega
      rw [a2, a3]
      simp [h1, h2]
    have hhigh : ∀ j, first ≤ j → j < n.count →
        (LeafNode.insert n k v).keys (j + 1) = n.keys j ∧
        (LeafNode.insert n k v).values (j + 1) = n.values j := by
      intro j hj hjc
      have h1 : j + 1 ≠ first := by omega
      have h2 : first < j + 1 ∧ j + 1 ≤ n.count := by omega
      rw [a2, a3]
      simp [h1, h2]
    refine ⟨?_, ?_, hsorted, ?_, ?_⟩
    · intro i hi hk
      exfalso
      have hsl := hslot i hi hk
      have := hfound.2 ⟨by omega, by rw [hsl]; exact hk⟩
      rw [hf2] at this
      cases this
    · intro _
      rw [← hfirst]
      exact ⟨a1, hkf, hvf, hlow, hhigh⟩
    · rw [leaf_lookup_of_mem _ k hsorted first (by rw [a1]; omega) hkf, hvf]
    · intro k2 hk2
      by_cases hex : ∃ j, j < n.count ∧ n.keys j = k2
      · obtain ⟨j, hj, hjk⟩ := hex
        rw [leaf_lookup_of_mem n k2 hs j hj hjk]
        by_cases hjf : j < first
        · rw [leaf_lookup_of_mem _ k2 hsorted j (by rw [a1]; omega)
            (by rw [(hlow j hjf).1]; exact hjk), (hlow j hjf).2]
        · rw [leaf_lookup_of_mem _ k2 hsorted (j + 1) (by rw [a1]; omega)
            (by rw [(hhigh j (by omega) hj).1]; exact hjk), (hhigh j (by omega) hj).2]
      · have hnone : ∀ j, j < n.count → n.keys j ≠ k2 := fun j hj hjk => hex ⟨j, hj, hjk⟩
        rw [leaf_lookup_none_of_not_mem n k2 hnone]
        apply leaf_lookup_none_of_not_mem
        intro j hj
        rw [a1] at hj
        rcases Nat.lt_trichotomy j first with h | h | h
        · rw [(hlow j h).1]; exact hnone j (by omega)
        · rw [h, hkf]; exact fun q => hk2 q.symm
        · have := (hhigh (j - 1) (by omega) (by omega)).1
          rw [show j - 1 + 1 = j by omega] at this
          rw [this]
          exact hnone (j - 1) (by omega)

theorem leaf_insert_effect_witness :
    ((∀ i j, i < j → j < leaf_two_entries.count →
        leaf_two_entries.keys i < leaf_two_entries.keys j) ∧
      leaf_two_entries.count < LeafNode.kCapacity params_wide_values ∧
      LeafNode.kCapacity params_wide_values < 2 ^ 16) ∧
    LeafNode.get_entries (LeafNode.insert leaf_two_entries 20 7) = [(10, 100), (20, 7)] ∧
    LeafNode.get_entries (LeafNode.insert leaf_two_entries 15 7)
      = [(10, 100), (15, 7), (20, 200)] ∧
    LeafNode.lookup (LeafNode.insert leaf_two_entries 15 7) 15 = some 7 :=
  ⟨⟨fun i j hij hj => by
      simp only [leaf_two_entries, leaf_three_entries]
      omega, by decide, by decide⟩,
   by decide, by decide,
   (leaf_insert_effect params_wide_values leaf_two_entries 15 7
     (fun i j hij hj => by
      simp only [leaf_two_entries, leaf_three_entries]
      omega) (by decide) (by decide)).2.2.2.1⟩

/-- Parameters whose leaf capacity is the largest value of the 16-bit `count`. -/
theorem leaf_capacity_u16_max :
    LeafNode.kCapacity { PageSize := 16 + 65535 * 8, sizeofKey := 0, sizeofValue := 8 }
      = 65535 := by
  decide

/-- C25: for a leaf with strictly increasing keys, `LeafNode::erase(k)` does the
following.  If `k` is stored in slot `i`, `count` shrinks by one, the slots
before `i` are unchanged and every entry behind slot `i` has moved one slot
to the left.  If `k` is not stored, the leaf is unchanged.  Erasing the same
key a second time changes nothing any more. -/
theorem leaf_erase_effect {K V : Type} [LinearOrder K] (n : Node K V) (k : K)
    (hs : ∀ i j, i < j → j < n.count → n.keys i < n.keys j) (hc16 : n.count < 2 ^ 16) :
    (∀ i, i < n.count → n.keys i = k →
      (LeafNode.erase n k).count = n.count - 1 ∧
      (∀ j, j < i →
        (LeafNode.erase n k).keys j = n.keys j ∧
        (LeafNode.erase n k).values j = n.values j) ∧
      (∀ j, i ≤ j → j + 1 < n.count →
        (LeafNode.erase n k).keys j = n.keys (j + 1) ∧
        (LeafNode.erase n k).values j = n.values (j + 1))) ∧
    ((∀ i, i < n.count → n.keys i ≠ k) → LeafNode.erase n k = n) ∧
    LeafNode.erase (LeafNode.erase n k) k = LeafNode.erase n k := by
  obtain ⟨hle, hbefore, hafter, hfound⟩ := leaf_lower_bound_spec n k hs
  obtain ⟨P0, hP0⟩ : ∃ P0 : TreeParams, LeafNode.kCapacity P0 = 65535 :=
    ⟨_, leaf_capacity_u16_max⟩
  have hok : LeafOK P0 n := ⟨by rw [hP0]; omega, hs⟩
  have hcap : LeafNode.kCapacity P0 < 2 ^ 16 := by rw [hP0]; norm_num
  refine ⟨?_, ?_, ?_⟩
  · intro i hi hk
    have hsl : (LeafNode.lower_bound n k).1 = i := by
      rcases Nat.lt_trichotomy (LeafNode.lower_bound n k).1 i with hlt2 | heq | hgt
      · exfalso
        have h2 := hs _ _ hlt2 hi
        rw [hk] at h2
        exact hafter _ (le_refl _) (by omega) h2
      · exact heq
      · exfalso
        have h2 := hbefore i hgt
        rw [hk] at h2
        exact lt_irrefl _ h2
    have hf : (LeafNode.lower_bound n k).2 = true :=
      hfound.2 ⟨by omega, by rw [hsl]; exact hk⟩
    obtain ⟨_, e1, e2, e3⟩ := leaf_erase_found _ n k hok hcap hf
    rw [hsl] at e2 e3
    refine ⟨e1, ?_, ?_⟩
    · intro j hj
      rw [e2 j (by omega), e3 j (by omega)]
      simp [hj]
    · intro j hj hjc
      have : ¬ j < i := by omega
      rw [e2 j (by omega), e3 j (by omega)]
      simp [this]
  · intro habs
    apply leaf_erase_absent
    cases hq : (LeafNode.lower_bound n k).2
    · rfl
    · obtain ⟨h1, h2⟩ := hfound.1 hq
      exact absurd h2 (habs _ h1)
  · apply leaf_erase_absent
    have hnone := leaf_erase_lookup_self _ n k hok hcap
    unfold LeafNode.lookup at hnone
    cases hq : (LeafNode.lower_bound (LeafNode.erase n k) k).2
    · rfl
    · rw [hq] at hnone
      simp at hnone

theorem leaf_erase_effect_witness :
    ((∀ i j, i < j → j < leaf_three_entries.count →
        leaf_three_entries.keys i < leaf_three_entries.keys j) ∧
      leaf_three_entries.count < 2 ^ 16) ∧
    LeafNode.get_entries (LeafNode.erase leaf_three_entries 20) = [(10, 100), (30, 300)] ∧
    LeafNode.get_entries (LeafNode.erase leaf_three_entries 25)
      = [(10, 100), (20, 200), (30, 300)] ∧
    LeafNode.erase (LeafNode.erase leaf_three_entries 20) 20
      = LeafNode.erase leaf_three_entries 20 :=
  ⟨⟨leaf_three_entries_sorted, by decide⟩, by decide, by decide,
   (leaf_erase_effect leaf_three_entries 20 leaf_three_entries_sorted (by decide)).2.2⟩

/-- The counts that `LeafNode::split` assigns, for a leaf that holds an entry. -/
theorem leaf_split_counts {K V : Type} (n buffer : Node K V) (h1 : 1 ≤ n.count)
    (hc16 : n.count < 2 ^ 16) :
    (LeafNode.split n buffer).2.1.count = n.count / 2 + 1 ∧
    (LeafNode.split n buffer).2.2.count = n.count - (n.count / 2 + 1) := by
  unfold LeafNode.split
  refine ⟨Nat.mod_eq_of_lt (by omega), ?_⟩
  show (n.count + 2 ^ 16 - (n.count / 2 + 1)) % 2 ^ 16 = n.count - (n.count / 2 + 1)
  have : n.count + 2 ^ 16 - (n.count / 2 + 1) = (n.count - (n.count / 2 + 1)) + 2 ^ 16 := by
    omega
  rw [this, Nat.add_mod_right]
  exact Nat.mod_eq_of_lt (by omega)

/-- C26 (amended): for a leaf with strictly increasing keys that holds at least one
entry, with `count = n` and `m = n / 2`, `LeafNode::split` returns `keys[m]`, leaves
the old leaf with the entries of the slots `0..m` (count `m + 1`) and fills the
new leaf with the entries of the slots `m+1..n-1` in the same order (count
`n - m - 1`); the entries of the two halves concatenated are the original
entries, the separator is the last and largest key of the left half, and it
is less than every key of the right half. -/
theorem leaf_split_effect {K V : Type} [LinearOrder K] (n buffer : Node K V)
    (hs : ∀ i j, i < j → j < n.count → n.keys i < n.keys j)
    (h1 : 1 ≤ n.count) (hc16 : n.count < 2 ^ 16) :
    (LeafNode.split n buffer).1 = n.keys (n.count / 2) ∧
    (LeafNode.split n buffer).2.1.count = n.count / 2 + 1 ∧
    (LeafNode.split n buffer).2.1.keys = n.keys ∧
    (LeafNode.split n buffer).2.1.values = n.values ∧
    (LeafNode.split n buffer).2.2.count = n.count - n.count / 2 - 1 ∧
    (∀ j, j < n.count - n.count / 2 - 1 →
      (LeafNode.split n buffer).2.2.keys j = n.keys (n.count / 2 + 1 + j) ∧
      (LeafNode.split n buffer).2.2.values j = n.values (n.count / 2 + 1 + j)) ∧
    LeafNode.get_entries (LeafNode.split n buffer).2.1
      ++ LeafNode.get_entries (LeafNode.split n buffer).2.2 = LeafNode.get_entries n ∧
    (LeafNode.split n buffer).1
      = (LeafNode.split n buffer).2.1.keys ((LeafNode.split n buffer).2.1.count - 1) ∧
    (∀ j, j < (LeafNode.split n buffer).2.1.count →
      (LeafNode.split n buffer).2.1.keys j ≤ (LeafNode.split n buffer).1) ∧
    (∀ j, j < (LeafNode.split n buffer).2.2.count →
      (LeafNode.split n buffer).1 < (LeafNode.split n buffer).2.2.keys j) := by
  obtain ⟨c1, c2⟩ := leaf_split_counts n buffer h1 hc16
  have hsep : (LeafNode.split n buffer).1 = n.keys (n.count / 2) := rfl
  have hk1 : (LeafNode.split n buffer).2.1.keys = n.keys := rfl
  have hv1 : (LeafNode.split n buffer).2.1.values = n.values := rfl
  have hright : ∀ j, j < n.count - n.count / 2 - 1 →
      (LeafNode.split n buffer).2.2.keys j = n.keys (n.count / 2 + 1 + j) ∧
      (LeafNode.split n buffer).2.2.values j = n.values (n.count / 2 + 1 + j) := by
    intro j hj
    have e1 : ((n.count / 2 + 1) % 2 ^ 16) = n.count / 2 + 1 := Nat.mod_eq_of_lt (by omega)
    have e2 : (n.count + 2 ^ 16 - (n.count / 2 + 1)) % 2 ^ 16
        = n.count - (n.count / 2 + 1) := c2
    have hin : 0 ≤ j ∧ j < 0 + (n.count - (n.count / 2 + 1)) := by omega
    simp only [LeafNode.split, memmove_elems, e1, e2, hin, and_self, if_true, Nat.sub_zero]
  have hc2 : (LeafNode.split n buffer).2.2.count = n.count - n.count / 2 - 1 := by
    rw [c2]; omega
  refine ⟨hsep, c1, hk1, hv1, hc2, hright, ?_, ?_, ?_, ?_⟩
  · unfold LeafNode.get_entries
    rw [c1, hc2, hk1, hv1]
    have hsum : n.count = (n.count / 2 + 1) + (n.count - n.count / 2 - 1) := by omega
    conv_rhs => rw [hsum, List.range_add, List.map_append, List.map_map]
    congr 1
    apply List.map_congr_left
    intro j hj
    rw [List.mem_range] at hj
    obtain ⟨r1, r2⟩ := hright j hj
    simp only [Function.comp, r1, r2]
  · rw [hsep, hk1, c1]
    congr 1
  · intro j hj
    rw [c1] at hj
    rw [hsep, hk1]
    rcases Nat.lt_or_eq_of_le (Nat.lt_succ_iff.1 hj) with h | h
    · exact le_of_lt (hs j (n.count / 2) h (by omega))
    · rw [h]
  · intro j hj
    rw [hc2] at hj
    rw [hsep, (hright j hj).1]
    exact hs _ _ (by omega) (by omega)

/-- C26 (counterexample): `LeafNode::split` of an empty leaf (a page of zero bytes)
sets the count of the old leaf to 1 and the count of the new leaf to 65535,
so the old leaf alone has one entry more than the leaf had. -/
theorem leaf_split_of_empty_leaf :
    LeafNode.get_entries (Node.zero Nat Nat) = [] ∧
    (LeafNode.split (Node.zero Nat Nat) (Node.zero Nat Nat)).2.1.count = 1 ∧
    (LeafNode.split (Node.zero Nat Nat) (Node.zero Nat Nat)).2.2.count = 65535 ∧
    LeafNode.get_entries (LeafNode.split (Node.zero Nat Nat) (Node.zero Nat Nat)).2.1
      = [(0, 0)] := by
  refine ⟨by decide, by decide, by decide, by decide⟩

theorem leaf_split_effect_witness :
    ((∀ i j, i < j → j < leaf_three_entries.count →
        leaf_three_entries.keys i < leaf_three_entries.keys j) ∧
      1 ≤ leaf_three_entries.count ∧ leaf_three_entries.count < 2 ^ 16) ∧
    (LeafNode.split leaf_three_entries (Node.zero Nat Nat)).1 = 20 ∧
    LeafNode.get_entries (LeafNode.split leaf_three_entries (Node.zero Nat Nat)).2.1
      = [(10, 100), (20, 200)] ∧
    LeafNode.get_entries (LeafNode.split leaf_three_entries (Node.zero Nat Nat)).2.2
      = [(30, 300)] ∧
    LeafNode.get_entries (LeafNode.split leaf_three_entries (Node.zero Nat Nat)).2.1
      ++ LeafNode.get_entries (LeafNode.split leaf_three_entries (Node.zero Nat Nat)).2.2
      = LeafNode.get_entries leaf_three_entries :=
  ⟨⟨leaf_three_entries_sorted, by decide, by decide⟩, by decide, by decide, by decide,
   (leaf_split_effect leaf_three_entries (Node.zero Nat Nat) leaf_three_entries_sorted
     (by decide) (by decide)).2.2.2.2.2.2.1⟩

/-- C27 (amended): for every leaf holding at least three entries, both halves are
non-empty after `LeafNode::split`: the count of the old leaf and the count of the
new leaf are at least 1. -/
theorem leaf_split_nonempty {K V : Type} (n buffer : Node K V) (h3 : 3 ≤ n.count)
    (hc16 : n.count < 2 ^ 16) :
    1 ≤ (LeafNode.split n buffer).2.1.count ∧ 1 ≤ (LeafNode.split n buffer).2.2.count := by
  obtain ⟨c1, c2⟩ := leaf_split_counts n buffer (by omega) hc16
  rw [c1, c2]
  omega

/-- C27 (counterexample): `LeafNode::split` of a leaf that holds the two entries
(10, 100), (20, 200) leaves both in the old leaf; the new leaf has count 0. -/
theorem leaf_split_two_entries :
    leaf_two_entries.count = 2 ∧
    (LeafNode.split leaf_two_entries (Node.zero Nat Nat)).2.1.count = 2 ∧
    (LeafNode.split leaf_two_entries (Node.zero Nat Nat)).2.2.count = 0 := by
  refine ⟨by decide, by decide, by decide⟩

theorem leaf_split_nonempty_witness :
    (3 ≤ leaf_three_entries.count ∧ leaf_three_entries.count < 2 ^ 16) ∧
    1 ≤ (LeafNode.split leaf_three_entries (Node.zero Nat Nat)).2.1.count ∧
    1 ≤ (LeafNode.split leaf_three_entries (Node.zero Nat Nat)).2.2.count :=
  ⟨by decide, leaf_split_nonempty leaf_three_entries (Node.zero Nat Nat) (by decide)
    (by decide)⟩

/-! ### The slot of an evicted page and the latch of a resident page -/

/-- C21 (what the code does): on a pool of two one-byte frames page 0 is fixed
and stays fixed (slot 0) and page 1 is fixed and unfixed (slot 1), so
`fix_page(2, true)` evicts page 1.  When page 1 was unfixed clean, the frame of
page 2 gets `start_pos` 0, not the victim's 1: it is the slot in which page 0
is still resident and fixed.  When page 1 was unfixed dirty, the frame of
page 2 gets the victim's `start_pos` 1. -/
theorem clean_victim_slot_not_reused :
    ((evict_check (scene_victim false)).1 = some 1 ∧
      (frame_get (scene_victim false).bufferframes 1).start_pos = 1 ∧
      (frame_get (scene_victim false).bufferframes 1).state ≠ State.DIRTY ∧
      (fix_page (scene_victim false) 2 true).1 = FixResult.ok 2 ∧
      frame_ids (fix_page (scene_victim false) 2 true).2.bufferframes = [0, 2] ∧
      (frame_get (fix_page (scene_victim false) 2 true).2.bufferframes 2).start_pos = 0 ∧
      (frame_get (fix_page (scene_victim false) 2 true).2.bufferframes 0).start_pos = 0 ∧
      pin_count (fix_page (scene_victim false) 2 true).2 0 = 1) ∧
    ((evict_check (scene_victim true)).1 = some 1 ∧
      (frame_get (scene_victim true).bufferframes 1).start_pos = 1 ∧
      (frame_get (scene_victim true).bufferframes 1).state = State.DIRTY ∧
      (fix_page (scene_victim true) 2 true).1 = FixResult.ok 2 ∧
      frame_ids (fix_page (scene_victim true) 2 true).2.bufferframes = [0, 2] ∧
      (frame_get (fix_page (scene_victim true) 2 true).2.bufferframes 2).start_pos = 1) := by
  decide

/-- C22 (what the code does): `fix_page(id, exclusive)` on a page that is in FIFO or
in LRU returns the frame with its latch exactly as it was before the call,
for both values of `exclusive`: the two branches for a resident page never
call `lock_frame`. -/
theorem fix_page_resident_takes_no_latch (bm : BufferManager) (page_id : Nat)
    (exclusive : Bool) (h : page_id ∈ bm.fifo ∨ page_id ∈ bm.lru) :
    (fix_page bm page_id exclusive).1 = FixResult.ok page_id ∧
    (frame_get (fix_page bm page_id exclusive).2.bufferframes page_id).frame_latch
      = (frame_get bm.bufferframes page_id).frame_latch := by
  unfold fix_page
  by_cases hl : page_id ∈ bm.lru
  · simp only [hl, if_true, frame_get_modify_same, and_self]
  · have hf : page_id ∈ bm.fifo := h.resolve_right hl
    simp only [hl, hf, if_true, if_false, frame_get_modify_same, and_self]

theorem fix_page_resident_takes_no_latch_witness :
    ((0 ∈ scene_two_unpinned.fifo ∨ 0 ∈ scene_two_unpinned.lru) ∧
      (frame_get scene_two_unpinned.bufferframes 0).frame_latch
        = { exclusive := false, shared := 0 }) ∧
    ((fix_page scene_two_unpinned 0 true).1 = FixResult.ok 0 ∧
      (frame_get (fix_page scene_two_unpinned 0 true).2.bufferframes 0).frame_latch
        = (frame_get scene_two_unpinned.bufferframes 0).frame_latch) ∧
    (frame_get scene_single_pinned.bufferframes 0).frame_latch
      = { exclusive := true, shared := 0 } :=
  ⟨by decide, fix_page_resident_takes_no_latch scene_two_unpinned 0 true (by decide),
   by decide⟩

/-! ### Child pointers moved with the size of a value -/

/-- C29 (what the code does): with keys and values of 4 bytes (`K_inner = 3`),
`InnerNode::insert_split(5, 99)` on the node with the children 11, 12, 13 and the
separators 10, 20 gives the separators 5, 10, 20 and the children 11, 99, 12,
0: the child 13 is lost, because the two child pointers behind slot 0 are
moved as `2 * sizeof(ValueT) = 8` bytes, which is one pointer.  With values of
8 bytes the same call gives the children 11, 99, 12, 13. -/
theorem insert_split_loses_child :
    (inner_three_children.count ≤ InnerNode.kCapacity params_narrow_values ∧
      (InnerNode.lower_bound inner_three_children 5).1 = 0) ∧
    ((InnerNode.insert_split params_narrow_values inner_three_children 5 99).count = 4 ∧
      (List.range 3).map (InnerNode.insert_split params_narrow_values
        inner_three_children 5 99).keys = [5, 10, 20] ∧
      (List.range 4).map (InnerNode.insert_split params_narrow_values
        inner_three_children 5 99).children = [11, 99, 12, 0]) ∧
    (List.range 4).map (InnerNode.insert_split params_wide_values
      inner_three_children 5 99).children = [11, 99, 12, 13] := by
  decide

/-- C30 (what the code does): with keys and values of 4 bytes (`K_inner = 3`),
`InnerNode::split` of the node with the children 11, 12, 13, 14 and the
separators 10, 20, 30 into a page of zero bytes returns 20 and leaves the old
node with the children 11, 12 and the separator 10; the new node has count 2
and the separator 30, but its children are 13, 0: the child 14 is lost,
because the two child pointers are moved as `2 * sizeof(ValueT) = 8` bytes,
which is one pointer.  With values of 8 bytes the new node has the children
13, 14. -/
theorem inner_split_loses_child :
    inner_four_children.count = InnerNode.kCapacity params_narrow_values + 1 ∧
    ((InnerNode.split params_narrow_values inner_four_children (Node.zero Nat Nat)).1 = 20 ∧
      (InnerNode.split params_narrow_values inner_four_children
        (Node.zero Nat Nat)).2.1.count = 2 ∧
      (List.range 2).map (InnerNode.split params_narrow_values inner_four_children
        (Node.zero Nat Nat)).2.1.children = [11, 12] ∧
      (InnerNode.split params_narrow_values inner_four_children
        (Node.zero Nat Nat)).2.1.keys 0 = 10 ∧
      (InnerNode.split params_narrow_values inner_four_children
        (Node.zero Nat Nat)).2.2.count = 2 ∧
      (InnerNode.split params_narrow_values inner_four_children
        (Node.zero Nat Nat)).2.2.keys 0 = 30 ∧
      (List.range 2).map (InnerNode.split params_narrow_values inner_four_children
        (Node.zero Nat Nat)).2.2.children = [13, 0]) ∧
    (List.range 2).map (InnerNode.split params_wide_values inner_four_children
      (Node.zero Nat Nat)).2.2.children = [13, 14] := by
  decide

/-! ### Evaluations of whole operations -/

/-- C31 (what the code does): with keys and values of 4 bytes (`K_leaf = K_inner = 3`),
after the inserts of the keys 1 to 9 in increasing order the root (page 6)
has two children and the separator `keys[0] = 4`, and the subtree of its child
1 (page 5) holds the keys 5, 6, 1, 2, 9: the keys 1 and 2 are below the
separator.  `InnerNode::split` moved one child pointer instead of two, so the
second child of page 5 is page 0, the leftmost leaf.  With values of 8 bytes
the same subtree holds 5, 6, 7, 8, 9. -/
theorem separator_order_broken :
    ((tree_increasing params_narrow_values 9).root = 6 ∧
      ((tree_increasing params_narrow_values 9).pages 6).level = 2 ∧
      ((tree_increasing params_narrow_values 9).pages 6).count = 2 ∧
      ((tree_increasing params_narrow_values 9).pages 6).keys 0 = 4 ∧
      ((tree_increasing params_narrow_values 9).pages 6).children 1 = 5 ∧
      (List.range 2).map ((tree_increasing params_narrow_values 9).pages 5).children = [3, 0] ∧
      leaf_keys_in_order (tree_increasing params_narrow_values 9).pages 2 5
        = [5, 6, 1, 2, 9]) ∧
    ((tree_increasing params_wide_values 9).root = 6 ∧
      ((tree_increasing params_wide_values 9).pages 6).keys 0 = 4 ∧
      ((tree_increasing params_wide_values 9).pages 6).children 1 = 5 ∧
      leaf_keys_in_order (tree_increasing params_wide_values 9).pages 2 5
        = [5, 6, 7, 8, 9]) := by
  decide

/-- C32 (what the code does): with keys and values of 4 bytes (`K_leaf = K_inner = 3`),
after the inserts of the keys 1 to 19 in increasing order the root (page 15,
level 3) has the child page 14 of level 2, and the second child of page 14
is page 0, a leaf: its level is 0, not 1.  With values of 8 bytes the
children of every inner node are one level below it. -/
theorem levels_broken :
    (tree_increasing params_narrow_values 19).root = 15 ∧
    ((tree_increasing params_narrow_values 19).pages 15).level = 3 ∧
    (List.range 2).map ((tree_increasing params_narrow_values 19).pages 15).children
      = [6, 14] ∧
    ((tree_increasing params_narrow_values 19).pages 14).level = 2 ∧
    ((tree_increasing params_narrow_values 19).pages 14).count = 2 ∧
    (List.range 2).map ((tree_increasing params_narrow_values 19).pages 14).children
      = [5, 0] ∧
    ((tree_increasing params_narrow_values 19).pages 0).level = 0 := by
  decide

/-- C34 (what the code does): `tree_full_right_leaf` has the root page 2 over the
leaves page 0 and page 1, and page 1 is full.  `insert(60, 600)` fixes page 2
and page 1, unfixes page 2 at the end of `lookup_leaf_page`, fixes the new leaf
page 3, splits page 1 and only then applies `insert_split` to page 2: the
parent is written while it is not fixed.  On a buffer manager with two
frames the fix of the new leaf page evicts the parent. -/
theorem parent_written_unfixed :
    (insert_fx params_wide_values 3 (Session.start tree_full_right_leaf 2) 60 600).2
      = Outcome.done () ∧
    (insert_fx params_wide_values 3 (Session.start tree_full_right_leaf 2) 60 600).1.trace
      = [Event.fix_page 2 true, Event.fix_page 1 true, Event.unfix_page 2 true,
         Event.fix_page 3 true, Event.write 3, Event.write 1, Event.write 2, Event.write 3,
         Event.unfix_page 3 true, Event.unfix_page 1 true] ∧
    unfixed_writes []
      (insert_fx params_wide_values 3 (Session.start tree_full_right_leaf 2) 60 600).1.trace
      = [2] ∧
    frame_ids ((BufferManager.blank 1 2).run
      [Call.fix_page 2 true, Call.fix_page 1 true, Call.unfix_page 2 true]).bufferframes
      = [2, 1] ∧
    frame_ids ((BufferManager.blank 1 2).run
      [Call.fix_page 2 true, Call.fix_page 1 true, Call.unfix_page 2 true,
       Call.fix_page 3 true]).bufferframes = [1, 3] := by
  decide

/-- C38 (what the code does): on a pool of two one-byte frames page 0 is fixed
and holds the byte 7 that its holder wrote, and page 1 was fixed and unfixed
clean.  `fix_page(2, true)` evicts page 1 and returns a frame; afterwards the
resident pages 0 and 2 both have `start_pos` 0, and the frame of page 0 holds
the byte 0 that was read for page 2. -/
theorem resident_frames_share_slot :
    frame_bytes scene_victim_written 0 = [7] ∧
    pin_count scene_victim_written 0 = 1 ∧
    (fix_page scene_victim_written 2 true).1 = FixResult.ok 2 ∧
    frame_ids (fix_page scene_victim_written 2 true).2.bufferframes = [0, 2] ∧
    (frame_get (fix_page scene_victim_written 2 true).2.bufferframes 0).start_pos = 0 ∧
    (frame_get (fix_page scene_victim_written 2 true).2.bufferframes 2).start_pos = 0 ∧
    frame_bytes (fix_page scene_victim_written 2 true).2 0 = [0] := by
  decide

/-! ### The fixes of a lookup -/

theorem fix_events_append (a b : List Event) :
    fix_events (a ++ b) = fix_events a ++ fix_events b := by
  induction a with
  | nil => rfl
  | cons e rest ih =>
    cases e <;> simp [fix_events, ih]

/-- A fix that returns a frame appends its event; the tree is as before. -/
theorem session_fix_trace {K V : Type} (s s1 : Session K V) (id k : Nat)
    (h : s.fix id = (FixResult.ok k, s1)) :
    s1.trace = s.trace ++ [Event.fix_page id true] ∧ s1.tree = s.tree := by
  unfold Session.fix at h
  cases hp : s.pool.fix_page id with
  | mk r p =>
    rw [hp] at h
    cases r with
    | ok k2 =>
      simp only [Prod.mk.injEq] at h
      rw [← h.2]
      exact ⟨rfl, rfl⟩
    | buffer_full_error => simp only [Prod.mk.injEq] at h; cases h.1
    | io_error => simp only [Prod.mk.injEq] at h; cases h.1
    | blocked => simp only [Prod.mk.injEq] at h; cases h.1

theorem descent_path_head {K V : Type} [LinearOrder K] (pages : Nat → Node K V) (key : K)
    (fuel id : Nat) :
    descent_path pages key (fuel + 1) id = id :: (descent_path pages key (fuel + 1) id).tail := by
  rw [descent_path]
  split <;> rfl

/-- The fixes of the descent loop in read mode are those of the pages behind
`child_id` on the descent path, all of them exclusive; the pages are not
changed. -/
theorem descend_fx_read_fixes {K V : Type} [LinearOrder K] (P : TreeParams) (key : K) :
    ∀ (fuel : Nat) (s s1 : Session K V) (p c : Nat) (r : Nat × Nat),
      descend_fx P key false fuel s p c = (s1, Outcome.done r) →
      fix_events s1.trace = fix_events s.trace ++
        ((descent_path s.tree.pages key fuel c).tail).map (fun id => (id, true)) ∧
      s1.tree.pages = s.tree.pages := by
  intro fuel
  induction fuel with
  | zero =>
    intro s s1 p c r h
    rw [descend_fx] at h
    simp only [Prod.mk.injEq] at h
    cases h.2
  | succ n ih =>
    intro s s1 p c r h
    rw [descend_fx] at h
    rw [descent_path]
    by_cases hleaf : (s.tree.pages c).is_leaf = true
    · simp only [hleaf, if_true, Prod.mk.injEq] at h ⊢
      obtain ⟨h1, _⟩ := h
      subst h1
      simp [Session.unfix, fix_events_append, fix_events]
    · simp only [hleaf, Bool.false_eq_true, if_false, Bool.false_and] at h ⊢
      split at h
      · rename_i k s6 hfx
        obtain ⟨t1, t2⟩ := session_fix_trace _ _ _ _ hfx
        obtain ⟨e1, e2⟩ := ih s6 s1 c _ r h
        have hn : n ≠ 0 := by
          intro hn
          subst hn
          rw [descend_fx] at h
          simp only [Prod.mk.injEq] at h
          cases h.2
        obtain ⟨m, hm⟩ := Nat.exists_eq_succ_of_ne_zero hn
        have ht6 : s6.tree.pages = s.tree.pages := by rw [t2]; rfl
        rw [ht6] at e1 e2
        refine ⟨?_, e2⟩
        rw [e1, t1]
        simp only [Session.unfix, fix_events_append, fix_events, List.tail_cons,
          List.append_nil, List.append_assoc]
        subst hm
        conv_rhs => rw [descent_path_head]
        simp
      · simp only [Prod.mk.injEq] at h
        rename_i res s6 _ _
        have := h.2
        cases res <;> simp [Outcome.of_failure] at this

/-- The fixes of `lookup_leaf_page` in read mode are those of the pages of the
descent path, all of them exclusive. -/
theorem lookup_leaf_page_fx_read_fixes {K V : Type} [LinearOrder K] (P : TreeParams)
    (key : K) (fuel : Nat) (s s1 : Session K V) (r : Nat × Nat)
    (h : lookup_leaf_page_fx P fuel s key false = (s1, Outcome.done r)) :
    fix_events s1.trace = fix_events s.trace ++
      (descent_path s.tree.pages key (fuel + 1) s.tree.root).map (fun id => (id, true)) ∧
    s1.tree.pages = s.tree.pages := by
  unfold lookup_leaf_page_fx at h
  dsimp only at h
  rw [descent_path]
  split at h
  · rename_i k sa hfa
    obtain ⟨t1, t2⟩ := session_fix_trace _ _ _ _ hfa
    simp only [t2] at h
    by_cases hleaf : (s.tree.pages s.tree.root).is_leaf = true
    · simp only [hleaf, if_true, Prod.mk.injEq] at h ⊢
      obtain ⟨h1, _⟩ := h
      subst h1
      refine ⟨?_, rfl⟩
      simp [t1, fix_events_append, fix_events]
    · simp only [hleaf, Bool.false_eq_true, if_false, Bool.false_and] at h ⊢
      split at h
      · rename_i k2 s8 hfd
        obtain ⟨u1, u2⟩ := session_fix_trace _ _ _ _ hfd
        obtain ⟨e1, e2⟩ := descend_fx_read_fixes P key fuel s8 s1 s.tree.root _ r h
        have hn : fuel ≠ 0 := by
          intro hn
          subst hn
          rw [descend_fx] at h
          simp only [Prod.mk.injEq] at h
          cases h.2
        obtain ⟨m, hm⟩ := Nat.exists_eq_succ_of_ne_zero hn
        have ht8 : s8.tree.pages = s.tree.pages := by rw [u2, t2]
        rw [ht8] at e1 e2
        refine ⟨?_, e2⟩
        rw [e1, u1, t1]
        simp only [fix_events_append, fix_events, List.append_nil, List.append_assoc,
          List.map_cons]
        subst hm
        conv_rhs => rw [descent_path_head]
        simp
      · simp only [Prod.mk.injEq] at h
        rename_i res s8 _ _
        have := h.2
        cases res <;> simp [Outcome.of_failure] at this
  · simp only [Prod.mk.injEq] at h
    rename_i res sa _ _
    have := h.2
    cases res <;> simp [Outcome.of_failure] at this

/-- C35 (amended): a `lookup` that returns has fixed every page on its descent path,
from the root to the leaf, in this order and no other page, each with an
exclusive latch (`fix_page` is called with `exclusive = true`) and none with a
shared one. -/
theorem lookup_fixes_exclusively {K V : Type} [LinearOrder K] (P : TreeParams) (fuel : Nat)
    (s s1 : Session K V) (key : K) (r : Option V)
    (h : lookup_fx P fuel s key = (s1, Outcome.done r)) :
    fix_events s1.trace = fix_events s.trace ++
      (descent_path s.tree.pages key (fuel + 1) s.tree.root).map (fun id => (id, true)) := by
  unfold lookup_fx at h
  split at h
  · rename_i sl parent_id leaf_id hlk
    obtain ⟨e1, _⟩ := lookup_leaf_page_fx_read_fixes P key fuel s sl _ hlk
    dsimp only at h
    split at h
    · simp only [Prod.mk.injEq] at h
      rw [← h.1, ← e1]
      simp [Session.unfix, fix_events_append, fix_events]
    · simp only [Prod.mk.injEq] at h
      rw [← h.1, ← e1]
      simp [Session.unfix, fix_events_append, fix_events]
  · simp only [Prod.mk.injEq] at h
    cases h.2
  · simp only [Prod.mk.injEq] at h
    cases h.2
  · simp only [Prod.mk.injEq] at h
    cases h.2

/-- C35 (counterexample): `lookup(40)` on `tree_full_right_leaf` fixes the root, page 2,
and the leaf, page 1, both with `exclusive = true`. -/
theorem lookup_fix_is_exclusive :
    (lookup_fx params_wide_values 3 (Session.start tree_full_right_leaf 2) 40).2
      = Outcome.done (some 400) ∧
    descent_path tree_full_right_leaf.pages 40 4 tree_full_right_leaf.root = [2, 1] ∧
    (lookup_fx params_wide_values 3 (Session.start tree_full_right_leaf 2) 40).1.trace
      = [Event.fix_page 2 true, Event.fix_page 1 true, Event.unfix_page 2 true,
         Event.unfix_page 1 true] := by
  decide

theorem lookup_fixes_exclusively_witness :
    lookup_fx params_wide_values 3 (Session.start tree_full_right_leaf 2) 40
      = ((lookup_fx params_wide_values 3 (Session.start tree_full_right_leaf 2) 40).1,
          Outcome.done (some 400)) ∧
    fix_events (lookup_fx params_wide_values 3 (Session.start tree_full_right_leaf 2) 40).1.trace
      = fix_events [] ++
        (descent_path tree_full_right_leaf.pages 40 (3 + 1) tree_full_right_leaf.root).map
          (fun id => (id, true)) :=
  ⟨Prod.ext rfl (by decide),
   lookup_fixes_exclusively params_wide_values 3 (Session.start tree_full_right_leaf 2) _ 40
     (some 400) (Prod.ext rfl (by decide))⟩

/-! ### Every fix of an operation is matched by an unfix -/

/-- A failed fix does not end an operation in `done`. -/
theorem of_failure_ne_done {α : Type} (res : FixResult) (site : FixSite) (a : α) :
    (Outcome.of_failure res site : Outcome α) ≠ Outcome.done a := by
  cases res <;> simp [Outcome.of_failure]

/-- The pool after a fix that returned a frame. -/
theorem session_fix_fixed {K V : Type} (s s1 : Session K V) (id k : Nat)
    (h : s.fix id = (FixResult.ok k, s1)) :
    s1.pool.fixed = id :: s.pool.fixed ∧ id ∉ s.pool.fixed :=
  ⟨(session_fix_ok s s1 id k h).2.2.1, (session_fix_ok s s1 id k h).1⟩

/-- When the descent loop returns, the pages fixed are those fixed before
without the parent and the child it began with, and the leaf it ends in. -/
theorem descend_fx_balance {K V : Type} [LinearOrder K] (P : TreeParams) (key : K)
    (mode : Bool) :
    ∀ (fuel : Nat) (s s1 : Session K V) (p c : Nat) (r : Nat × Nat) (F : List Nat),
      s.pool.fixed = c :: p :: F → c ≠ p →
      descend_fx P key mode fuel s p c = (s1, Outcome.done r) →
      s1.pool.fixed = r.2 :: F := by
  intro fuel
  induction fuel with
  | zero =>
    intro s s1 p c r F _ _ h
    rw [descend_fx] at h
    simp only [Prod.mk.injEq] at h
    cases h.2
  | succ n ih =>
    intro s s1 p c r F hF hcp h
    rw [descend_fx] at h
    have hpc : ¬ (c == p) = true := by simpa using hcp
    by_cases hleaf : (s.tree.pages c).is_leaf = true
    · simp only [hleaf, if_true, Prod.mk.injEq, Outcome.done.injEq] at h
      obtain ⟨h1, h2⟩ := h
      subst h1 h2
      simp only [Session.unfix, Pool.unfix_page, hF]
      rw [List.erase_cons_tail hpc, List.erase_cons_head]
    · simp only [hleaf, Bool.false_eq_true, if_false] at h
      by_cases hfull : (mode && decide ((s.tree.pages c).count ≥ InnerNode.kCapacity P + 1))
          = true
      · simp only [hfull, if_true] at h
        split at h
        · rename_i k s2 hfx
          obtain ⟨f1, f2⟩ := session_fix_fixed _ _ _ _ hfx
          simp only [hF] at f1 f2
          have hnc : ¬ (s.tree.next_page == c) = true := by
            simpa using (fun q : s.tree.next_page = c => f2 (by rw [q]; simp))
          have hnp : ¬ (s.tree.next_page == p) = true := by
            simpa using (fun q : s.tree.next_page = p => f2 (by rw [q]; simp))
          obtain ⟨cid, hcid⟩ : ∃ cid, cid =
              (if (split_child P s.tree p c).2.1 < key then s.tree.next_page else c) :=
            ⟨_, rfl⟩
          simp only [← hcid] at h
          obtain ⟨s5, hs5⟩ : ∃ s5 : Session K V, s5 =
              Session.unfix (if (split_child P s.tree p c).2.1 < key then
                Session.unfix { s2 with
                  tree := (split_child P s.tree p c).1,
                  trace := s2.trace ++ [Event.write s.tree.next_page, Event.write c,
                    Event.write p] } c
              else
                Session.unfix { s2 with
                  tree := (split_child P s.tree p c).1,
                  trace := s2.trace ++ [Event.write s.tree.next_page, Event.write c,
                    Event.write p] } s.tree.next_page) p := ⟨_, rfl⟩
          simp only [← hs5] at h
          have hs5f : s5.pool.fixed = cid :: F := by
            rw [hs5, hcid]
            split
            · simp only [Session.unfix, Pool.unfix_page, f1]
              rw [List.erase_cons_tail hnc, List.erase_cons_head, List.erase_cons_tail hnp,
                List.erase_cons_head]
            · simp only [Session.unfix, Pool.unfix_page, f1]
              rw [List.erase_cons_head, List.erase_cons_tail hpc, List.erase_cons_head]
          split at h
          · rename_i k2 s6 hfx2
            obtain ⟨g1, g2⟩ := session_fix_fixed _ _ _ _ hfx2
            rw [hs5f] at g1 g2
            exact ih s6 s1 cid _ r F g1 (fun q => g2 (by rw [q]; simp)) h
          · simp only [Prod.mk.injEq] at h
            exact absurd h.2 (of_failure_ne_done _ _ _)
        · simp only [Prod.mk.injEq] at h
          exact absurd h.2 (of_failure_ne_done _ _ _)
      · simp only [hfull, Bool.false_eq_true, if_false] at h
        split at h
        · rename_i k2 s6 hfx2
          obtain ⟨g1, g2⟩ := session_fix_fixed _ _ _ _ hfx2
          have h5 : (s.unfix p).pool.fixed = c :: F := by
            simp only [Session.unfix, Pool.unfix_page, hF]
            rw [List.erase_cons_tail hpc, List.erase_cons_head]
          rw [h5] at g1 g2
          exact ih s6 s1 c _ r F g1 (fun q => g2 (by rw [q]; simp)) h
        · simp only [Prod.mk.injEq] at h
          exact absurd h.2 (of_failure_ne_done _ _ _)

/-- When `lookup_leaf_page` returns, the leaf it returns is fixed on top of the
pages that were fixed before; every other page it fixed is unfixed again. -/
theorem lookup_leaf_page_fx_balance {K V : Type} [LinearOrder K] (P : TreeParams) (key : K)
    (mode : Bool) (fuel : Nat) (s s1 : Session K V) (r : Nat × Nat)
    (h : lookup_leaf_page_fx P fuel s key mode = (s1, Outcome.done r)) :
    s1.pool.fixed = r.2 :: s.pool.fixed := by
  unfold lookup_leaf_page_fx at h
  dsimp only at h
  split at h
  · rename_i k sa hfa
    obtain ⟨a1, a2⟩ := session_fix_fixed _ _ _ _ hfa
    obtain ⟨_, at2⟩ := session_fix_trace _ _ _ _ hfa
    simp only [at2] at h
    by_cases hleaf : (s.tree.pages s.tree.root).is_leaf = true
    · simp only [hleaf, if_true, Prod.mk.injEq, Outcome.done.injEq] at h
      obtain ⟨h1, h2⟩ := h
      subst h1 h2
      exact a1
    · simp only [hleaf, Bool.false_eq_true, if_false] at h
      by_cases hfull : (mode &&
          decide ((s.tree.pages s.tree.root).count ≥ InnerNode.kCapacity P + 1)) = true
      · simp only [hfull, if_true] at h
        split at h
        · rename_i k2 sb hfb
          obtain ⟨b1, b2⟩ := session_fix_fixed _ _ _ _ hfb
          simp only [a1] at b1 b2
          have hnr : (split_inner P s.tree s.tree.root).1.next_page = s.tree.next_page + 1 :=
            rfl
          simp only [hnr] at h
          split at h
          · rename_i k3 sc hfc
            obtain ⟨c1, c2⟩ := session_fix_fixed _ _ _ _ hfc
            simp only [b1] at c1 c2
            obtain ⟨pid, hpid⟩ : ∃ pid, pid =
                (if (split_root P s.tree).2.1 < key then s.tree.next_page else s.tree.root) :=
              ⟨_, rfl⟩
            obtain ⟨s7, hs7⟩ : ∃ s7 : Session K V, s7 =
                (if (split_root P s.tree).2.1 < key then
                  Session.unfix (Session.unfix { sc with
                    tree := (split_root P s.tree).1,
                    trace := sc.trace ++ [Event.write (s.tree.next_page + 1)] }
                    (s.tree.next_page + 1)) s.tree.root
                else
                  Session.unfix (Session.unfix { sc with
                    tree := (split_root P s.tree).1,
                    trace := sc.trace ++ [Event.write (s.tree.next_page + 1)] }
                    (s.tree.next_page + 1)) s.tree.next_page) := ⟨_, rfl⟩
            simp only [← hpid, ← hs7] at h
            have hnr0 : ¬ (s.tree.next_page == s.tree.root) = true := by
              simpa using (fun q : s.tree.next_page = s.tree.root => b2 (by rw [q]; simp))
            have hs7f : s7.pool.fixed = pid :: s.pool.fixed := by
              rw [hs7, hpid]
              split
              · simp only [Session.unfix, Pool.unfix_page, c1]
                rw [List.erase_cons_head, List.erase_cons_tail hnr0, List.erase_cons_head]
              · simp only [Session.unfix, Pool.unfix_page, c1]
                rw [List.erase_cons_head, List.erase_cons_head]
            split at h
            · rename_i k4 s8 hfd
              obtain ⟨d1, d2⟩ := session_fix_fixed _ _ _ _ hfd
              rw [hs7f] at d1 d2
              exact descend_fx_balance P key mode fuel s8 s1 pid _ r _ d1
                (fun q => d2 (by rw [q]; simp)) h
            · simp only [Prod.mk.injEq] at h
              exact absurd h.2 (of_failure_ne_done _ _ _)
          · simp only [Prod.mk.injEq] at h
            exact absurd h.2 (of_failure_ne_done _ _ _)
        · simp only [Prod.mk.injEq] at h
          exact absurd h.2 (of_failure_ne_done _ _ _)
      · simp only [hfull, Bool.false_eq_true, if_false] at h
        split at h
        · rename_i k4 s8 hfd
          obtain ⟨d1, d2⟩ := session_fix_fixed _ _ _ _ hfd
          rw [a1] at d1 d2
          exact descend_fx_balance P key mode fuel s8 s1 s.tree.root _ r _ d1
            (fun q => d2 (by rw [q]; simp)) h
        · simp only [Prod.mk.injEq] at h
          exact absurd h.2 (of_failure_ne_done _ _ _)
  · simp only [Prod.mk.injEq] at h
    exact absurd h.2 (of_failure_ne_done _ _ _)

theorem lookup_fx_balance {K V : Type} [LinearOrder K] (P : TreeParams) (fuel : Nat)
    (s s1 : Session K V) (key : K) (r : Option V)
    (h : lookup_fx P fuel s key = (s1, Outcome.done r)) : s1.pool.fixed = s.pool.fixed := by
  unfold lookup_fx at h
  split at h
  · rename_i sl parent_id leaf_id hlk
    have hb := lookup_leaf_page_fx_balance P key false fuel s sl _ hlk
    dsimp only at h hb
    split at h
    · rename_i heq
      simp only [Prod.mk.injEq] at h
      rw [← h.1]
      simp only [Session.unfix, Pool.unfix_page, hb, heq, List.erase_cons_head]
    · simp only [Prod.mk.injEq] at h
      rw [← h.1]
      simp only [Session.unfix, Pool.unfix_page, hb, List.erase_cons_head]
  · simp only [Prod.mk.injEq] at h
    cases h.2
  · simp only [Prod.mk.injEq] at h
    cases h.2
  · simp only [Prod.mk.injEq] at h
    cases h.2

theorem erase_fx_balance {K V : Type} [LinearOrder K] (P : TreeParams) (fuel : Nat)
    (s s1 : Session K V) (key : K)
    (h : erase_fx P fuel s key = (s1, Outcome.done ())) : s1.pool.fixed = s.pool.fixed := by
  unfold erase_fx at h
  split at h
  · rename_i sl parent_id leaf_id hlk
    have hb := lookup_leaf_page_fx_balance P key false fuel s sl _ hlk
    dsimp only at h hb
    split at h
    · rename_i heq
      simp only [Prod.mk.injEq] at h
      rw [← h.1]
      simp only [Session.unfix, Pool.unfix_page, hb, heq, List.erase_cons_head]
    · simp only [Prod.mk.injEq] at h
      rw [← h.1]
      simp only [Session.unfix, Pool.unfix_page, hb, List.erase_cons_head]
  · simp only [Prod.mk.injEq] at h
    cases h.2
  · simp only [Prod.mk.injEq] at h
    cases h.2
  · simp only [Prod.mk.injEq] at h
    cases h.2

theorem insert_fx_balance {K V : Type} [LinearOrder K] (P : TreeParams) (fuel : Nat)
    (s s1 : Session K V) (key : K) (value : V)
    (h : insert_fx P fuel s key value = (s1, Outcome.done ())) :
    s1.pool.fixed = s.pool.fixed := by
  unfold insert_fx at h
  dsimp only at h
  by_cases hemp : s.tree.is_empty = true
  · simp only [hemp, if_true] at h
    split at h
    · rename_i k s2 hfx
      obtain ⟨f1, _⟩ := session_fix_fixed _ _ _ _ hfx
      simp only [Prod.mk.injEq] at h
      rw [← h.1]
      simp only [Session.unfix, Pool.unfix_page, f1, List.erase_cons_head]
    · simp only [Prod.mk.injEq] at h
      exact absurd h.2 (of_failure_ne_done _ _ _)
  · simp only [hemp, Bool.false_eq_true, if_false] at h
    split at h
    · rename_i sl parent_id leaf_id hlk
      have hb := lookup_leaf_page_fx_balance P key true fuel s sl _ hlk
      dsimp only at hb
      by_cases hfull : (sl.tree.pages leaf_id).count = LeafNode.kCapacity P
      · simp only [hfull, if_true] at h
        split at h
        · rename_i k3 s3 hf3
          obtain ⟨g1, g2⟩ := session_fix_fixed _ _ _ _ hf3
          simp only [hb] at g1 g2
          have hnl : ¬ (sl.tree.next_page == leaf_id) = true := by
            simpa using (fun q : sl.tree.next_page = leaf_id => g2 (by rw [q]; simp))
          split at h
          · split at h
            · rename_i k5 s5 hf5
              obtain ⟨e1, _⟩ := session_fix_fixed _ _ _ _ hf5
              simp only [g1] at e1
              simp only [Prod.mk.injEq] at h
              rw [← h.1]
              simp only [Session.unfix, Pool.unfix_page, e1, List.erase_cons_head]
            · simp only [Prod.mk.injEq] at h
              exact absurd h.2 (of_failure_ne_done _ _ _)
          · simp only [Prod.mk.injEq] at h
            rw [← h.1]
            simp only [Session.unfix, Pool.unfix_page, g1, List.erase_cons_head]
        · simp only [Prod.mk.injEq] at h
          exact absurd h.2 (of_failure_ne_done _ _ _)
      · simp only [hfull, if_false, Prod.mk.injEq] at h
        rw [← h.1]
        simp only [Session.unfix, Pool.unfix_page, hb, List.erase_cons_head]
    · simp only [Prod.mk.injEq] at h
      cases h.2
    · simp only [Prod.mk.injEq] at h
      cases h.2
    · simp only [Prod.mk.injEq] at h
      cases h.2

/-- C37: every `lookup`, `erase` and `insert` that returns has unfixed every page it
fixed: the pages that are fixed after the call are those that were fixed
before it, so the number of fixes held on each page is as before, on every
path of the three operations. -/
theorem operations_unfix_what_they_fix {K V : Type} [LinearOrder K] (P : TreeParams)
    (fuel : Nat) (s : Session K V) (key : K) (value : V) :
    (∀ s1 r, lookup_fx P fuel s key = (s1, Outcome.done r) →
      s1.pool.fixed = s.pool.fixed ∧
      ∀ id, s1.pool.fixed.count id = s.pool.fixed.count id) ∧
    (∀ s1, erase_fx P fuel s key = (s1, Outcome.done ()) →
      s1.pool.fixed = s.pool.fixed ∧
      ∀ id, s1.pool.fixed.count id = s.pool.fixed.count id) ∧
    (∀ s1, insert_fx P fuel s key value = (s1, Outcome.done ()) →
      s1.pool.fixed = s.pool.fixed ∧
      ∀ id, s1.pool.fixed.count id = s.pool.fixed.count id) := by
  refine ⟨?_, ?_, ?_⟩
  · intro s1 r h
    have hb := lookup_fx_balance P fuel s s1 key r h
    exact ⟨hb, fun id => by rw [hb]⟩
  · intro s1 h
    have hb := erase_fx_balance P fuel s s1 key h
    exact ⟨hb, fun id => by rw [hb]⟩
  · intro s1 h
    have hb := insert_fx_balance P fuel s s1 key value h
    exact ⟨hb, fun id => by rw [hb]⟩

theorem operations_unfix_what_they_fix_witness :
    (lookup_fx params_wide_values 3 (Session.start tree_full_right_leaf 3) 40
        = ((lookup_fx params_wide_values 3 (Session.start tree_full_right_leaf 3) 40).1,
            Outcome.done (some 400)) ∧
      erase_fx params_wide_values 3 (Session.start tree_full_right_leaf 3) 40
        = ((erase_fx params_wide_values 3 (Session.start tree_full_right_leaf 3) 40).1,
            Outcome.done ()) ∧
      insert_fx params_wide_values 3 (Session.start tree_full_right_leaf 3) 60 600
        = ((insert_fx params_wide_values 3 (Session.start tree_full_right_leaf 3) 60 600).1,
            Outcome.done ())) ∧
    (lookup_fx params_wide_values 3 (Session.start tree_full_right_leaf 3) 40).1.pool.fixed
      = [] ∧
    (insert_fx params_wide_values 3 (Session.start tree_full_right_leaf 3) 60 600).1.pool.fixed
      = [] :=
  ⟨⟨Prod.ext rfl (by decide), Prod.ext rfl (by decide), Prod.ext rfl (by decide)⟩,
   ((operations_unfix_what_they_fix params_wide_values 3
      (Session.start tree_full_right_leaf 3) 40 0).1 _ _ (Prod.ext rfl (by decide))).1,
   ((operations_unfix_what_they_fix params_wide_values 3
      (Session.start tree_full_right_leaf 3) 60 600).2.2 _ (Prod.ext rfl (by decide))).1⟩

/-! ### A tree on which `insert` was never called -/

/-- C39 (what the code does): `lookup` and `erase` do not test `is_empty`; they fix
the page that `root` names and read it.  Over pages that were never written
`lookup(k)` returns nothing and `erase(k)` leaves every page as it was, whatever
`root` holds.  But when the uninitialised `root` of a fresh tree in segment 0
holds `1 << 48`, the root leaf of the tree of segment 1 with the entry
(5, 50), `lookup(5)` returns 50 and `erase(5)` removes the entry of the other
tree. -/
theorem fresh_tree_reads_foreign_root :
    (∀ (P : TreeParams) (fuel segment_id root0 leaf0 k : Nat),
      (lookup P fuel (BTree.init Nat Nat segment_id root0 leaf0) k).map Prod.fst = some none ∧
      ∃ t, erase P fuel (BTree.init Nat Nat segment_id root0 leaf0) k = some t ∧
        ∀ id, LeafNode.get_entries (t.pages id) = []) ∧
    ((BTree.init_on tree_other_segment.pages 0 (first_page 1) 0).is_empty = true ∧
      tree_other_segment.root = first_page 1 ∧
      LeafNode.get_entries (tree_other_segment.pages (first_page 1)) = [(5, 50)] ∧
      (lookup params_wide_values 1
        (BTree.init_on tree_other_segment.pages 0 (first_page 1) 0) 5).map Prod.fst
        = some (some 50) ∧
      (erase params_wide_values 1
        (BTree.init_on tree_other_segment.pages 0 (first_page 1) 0) 5).map
          (fun t => LeafNode.get_entries (t.pages (first_page 1))) = some []) := by
  refine ⟨?_, by decide⟩
  intro P fuel segment_id root0 leaf0 k
  refine ⟨?_, ?_⟩
  · simp [lookup, lookup_leaf_page, BTree.init, Node.zero, Node.is_leaf, LeafNode.lookup,
      LeafNode.lower_bound]
  · have he : ∃ t, erase P fuel (BTree.init Nat Nat segment_id root0 leaf0) k = some t ∧
        t.pages = set_page (fun _ => Node.zero Nat Nat) root0
          (LeafNode.erase (Node.zero Nat Nat) k) := by
      unfold erase lookup_leaf_page
      simp only [BTree.init, Node.zero, Node.is_leaf, decide_True, if_true]
      exact ⟨_, rfl, rfl⟩
    obtain ⟨t, h1, h2⟩ := he
    refine ⟨t, h1, ?_⟩
    intro id
    rw [h2]
    simp only [set_page, LeafNode.erase, Node.zero, if_true]
    split <;> rfl

/-! ### Operators -/

theorem get_output_loop_eq {R : Type} (src : List R) :
    ∀ (remaining i : Nat) (output : List R), i ≤ src.length →
      Projection.get_output_loop src remaining i output =
        if i + remaining ≤ src.length then some (output ++ (src.drop i).take remaining)
        else none := by
  intro remaining
  induction remaining with
  | zero =>
    intro i output h
    simp [Projection.get_output_loop, h]
  | succ r ih =>
    intro i output _
    rw [Projection.get_output_loop]
    cases hg : src.get? i with
    | none =>
      have hlen : src.length ≤ i := List.get?_eq_none.1 hg
      have : ¬ i + (r + 1) ≤ src.length := by omega
      simp [this]
    | some x =>
      have hlt : i < src.length := by
        by_contra hc
        rw [List.get?_eq_none.2 (by omega)] at hg
        cases hg
      simp only [ih (i + 1) (output ++ [x]) (by omega)]
      by_cases hle : i + (r + 1) ≤ src.length
      · have h2 : i + 1 + r ≤ src.length := by omega
        simp only [hle, h2, if_true, Option.some.injEq, List.append_assoc]
        congr 1
        rw [List.drop_eq_getElem_cons hlt, List.take_succ_cons]
        have hx : src[i] = x := by
          have := List.get?_eq_get hlt
          rw [this] at hg
          simpa using hg
        rw [hx]
        rfl
      · have h2 : ¬ i + 1 + r ≤ src.length := by omega
        simp only [hle, h2, if_false]

/-- C40 (what the code does): `Projection::get_output` returns `attr_indexes.size()`
registers, but the `i`-th of them is the input register at position `i`: the
result is the first `attr_indexes.size()` registers of the input, whatever
`attr_indexes` contains (and the loop reads behind the end of the input's
vector when `attr_indexes` is longer than it).  For the input registers `r0`,
`r1`, `r2` and `attr_indexes = {2, 0}` it returns `r0`, `r1`, not `r2`, `r0`. -/
theorem projection_ignores_attr_indexes :
    (∀ (R : Type) (src : List R) (attr_indexes : List Nat),
      Projection.get_output src attr_indexes =
        if attr_indexes.length ≤ src.length then some (src.take attr_indexes.length)
        else none) ∧
    Projection.get_output [100, 101, 102] [2, 0] = some [100, 101] ∧
    [2, 0].map (fun i => [100, 101, 102].getD i 0) = [102, 100] := by
  refine ⟨?_, by decide, by decide⟩
  intro R src attr_indexes
  unfold Projection.get_output
  rw [get_output_loop_eq src attr_indexes.length 0 [] (Nat.zero_le _)]
  simp

/-! ### A failing fix comes before the first write -/

/-- However the descent of an insert ends, either no page, the root and the
emptiness flag are as they were when it began, or a frame was free for every
later fix: the descent did not end in buffer-full and a frame is free when it
ends. -/
theorem descend_fx_unchanged_or_room {K V : Type} [LinearOrder K] (P : TreeParams) (key : K) :
    ∀ (fuel : Nat) (s s1 : Session K V) (p c : Nat) (o : Outcome (Nat × Nat)),
      p ∈ s.pool.fixed → c ∈ s.pool.fixed → p ≠ c →
      descend_fx P key true fuel s p c = (s1, o) →
      (s1.tree.pages = s.tree.pages ∧ s1.tree.root = s.tree.root ∧
        s1.tree.is_empty = s.tree.is_empty) ∨
      ((∀ site, o ≠ Outcome.buffer_full_error site) ∧
        s1.pool.fixed.length < s1.pool.page_count) := by
  intro fuel
  induction fuel with
  | zero =>
    intro s s1 p c o _ _ _ h
    rw [descend_fx] at h
    simp only [Prod.mk.injEq] at h
    obtain ⟨h1, _⟩ := h
    subst h1
    exact Or.inl ⟨rfl, rfl, rfl⟩
  | succ fuel ih =>
    intro s s1 p c o hp hc hpc h
    have h0 := h
    rw [descend_fx] at h
    by_cases hleaf : (s.tree.pages c).is_leaf = true
    · simp only [hleaf, if_true, Prod.mk.injEq] at h
      obtain ⟨h1, _⟩ := h
      subst h1
      exact Or.inl ⟨rfl, rfl, rfl⟩
    · simp only [hleaf, Bool.false_eq_true, if_false, Bool.true_and, decide_eq_true_eq] at h
      by_cases hfull : (s.tree.pages c).count ≥ InnerNode.kCapacity P + 1
      · simp only [hfull, if_true] at h
        split at h
        · rename_i k s2 hfx
          obtain ⟨_, f2, _, _⟩ := session_fix_ok _ _ _ _ hfx
          simp only at f2
          exact Or.inr (descend_fx_room P key (fuel + 1) s s1 p c o f2 hp hc hpc h0)
        · rename_i res s2 _ hfx
          simp only [Prod.mk.injEq] at h
          obtain ⟨h1, _⟩ := h
          have ht := session_fix_tree _ _ _ _ hfx
          subst h1
          rw [ht]
          exact Or.inl ⟨rfl, rfl, rfl⟩
      · simp only [hfull, if_false] at h
        split at h
        · rename_i k2 s6 hfx2
          obtain ⟨e1, e2, e3, e4⟩ := session_fix_ok _ _ _ _ hfx2
          have ht := session_fix_tree _ _ _ _ hfx2
          simp only [Session.unfix, Pool.unfix_page] at e1 e2 e3 e4 ht
          have hcp : c ∈ s.pool.fixed.erase p := (List.mem_erase_of_ne (Ne.symm hpc)).2 hc
          rcases ih s6 s1 c _ o
            (by rw [e3]; exact List.mem_cons_of_mem _ hcp)
            (by rw [e3]; exact List.mem_cons_self _ _)
            (fun h => e1 (by have h2 : c = InnerNode.lookup (s.tree.pages c) key := h
                             rw [← h2]; exact hcp)) h with q | q
          · left
            rw [ht] at q
            exact q
          · exact Or.inr q
        · rename_i res s6 _ hfx2
          simp only [Prod.mk.injEq] at h
          obtain ⟨h1, _⟩ := h
          have ht := session_fix_tree _ _ _ _ hfx2
          subst h1
          rw [ht]
          exact Or.inl ⟨rfl, rfl, rfl⟩

/-- However `lookup_leaf_page` ends in insert mode, unless it is in the fix of a
new root page: either no page, the root and the emptiness flag are as they
were before, or a frame was free for every later fix. -/
theorem lookup_leaf_page_fx_unchanged_or_room {K V : Type} [LinearOrder K] (P : TreeParams)
    (key : K) (fuel : Nat) (s s1 : Session K V) (o : Outcome (Nat × Nat))
    (h : lookup_leaf_page_fx P fuel s key true = (s1, o))
    (hb : o ≠ Outcome.buffer_full_error FixSite.new_root_page)
    (hbl : o ≠ Outcome.blocked FixSite.new_root_page) :
    (s1.tree.pages = s.tree.pages ∧ s1.tree.root = s.tree.root ∧
      s1.tree.is_empty = s.tree.is_empty) ∨
    ((∀ site, o ≠ Outcome.buffer_full_error site) ∧
      s1.pool.fixed.length < s1.pool.page_count) := by
  unfold lookup_leaf_page_fx at h
  dsimp only at h
  split at h
  · rename_i k sa hfa
    have hta := session_fix_tree _ _ _ _ hfa
    obtain ⟨a1, a2, a3, a4⟩ := session_fix_ok _ _ _ _ hfa
    simp only [hta] at h
    by_cases hleaf : (s.tree.pages s.tree.root).is_leaf = true
    · simp only [hleaf, if_true, Prod.mk.injEq] at h
      obtain ⟨h1, _⟩ := h
      subst h1
      exact Or.inl ⟨rfl, rfl, rfl⟩
    · simp only [hleaf, Bool.false_eq_true, if_false, Bool.true_and, decide_eq_true_eq] at h
      by_cases hfull : (s.tree.pages s.tree.root).count ≥ InnerNode.kCapacity P + 1
      · simp only [hfull, if_true] at h
        split at h
        · rename_i k2 sb hfb
          obtain ⟨b1, b2, b3, b4⟩ := session_fix_ok _ _ _ _ hfb
          simp only at b1 b2 b3 b4
          have hnr : (split_inner P s.tree s.tree.root).1.next_page = s.tree.next_page + 1 := rfl
          simp only [hnr] at h
          split at h
          · rename_i k3 sc hfc
            obtain ⟨c1, c2, c3, c4⟩ := session_fix_ok _ _ _ _ hfc
            simp only at c1 c2 c3 c4
            obtain ⟨pid, hpid⟩ : ∃ pid, pid =
                (if (split_root P s.tree).2.1 < key then s.tree.next_page else s.tree.root) :=
              ⟨_, rfl⟩
            obtain ⟨s7, hs7⟩ : ∃ s7 : Session K V, s7 =
                (if (split_root P s.tree).2.1 < key then
                  Session.unfix (Session.unfix { sc with
                    tree := (split_root P s.tree).1,
                    trace := sc.trace ++ [Event.write (s.tree.next_page + 1)] }
                    (s.tree.next_page + 1)) s.tree.root
                else
                  Session.unfix (Session.unfix { sc with
                    tree := (split_root P s.tree).1,
                    trace := sc.trace ++ [Event.write (s.tree.next_page + 1)] }
                    (s.tree.next_page + 1)) s.tree.next_page) := ⟨_, rfl⟩
            simp only [← hpid, ← hs7] at h
            have hnr0 : s.tree.next_page ≠ s.tree.root := by
              intro q
              apply b1
              rw [a3, q]
              exact List.mem_cons_self _ _
            have hs7p : s7.pool.page_count = s.pool.page_count ∧
                s7.pool.fixed = pid :: s.pool.fixed := by
              rw [hs7, hpid]
              split
              · refine ⟨by simp only [Session.unfix, Pool.unfix_page]; omega, ?_⟩
                simp only [Session.unfix, Pool.unfix_page, c3, b3, a3]
                rw [List.erase_cons_head, List.erase_cons_tail (by simpa using hnr0),
                  List.erase_cons_head]
              · refine ⟨by simp only [Session.unfix, Pool.unfix_page]; omega, ?_⟩
                simp only [Session.unfix, Pool.unfix_page, c3, b3, a3]
                rw [List.erase_cons_head, List.erase_cons_head]
            obtain ⟨g1, g2⟩ := hs7p
            have hlen : s.pool.fixed.length + 3 ≤ s.pool.page_count := by
              rw [b3, a3] at c2
              simp only [List.length_cons] at c2
              omega
            have hr7 : s7.pool.fixed.length < s7.pool.page_count := by
              rw [g1, g2, List.length_cons]; omega
            split at h
            · rename_i k4 s8 hfd
              obtain ⟨d1, d2, d3, d4⟩ := session_fix_ok _ _ _ _ hfd
              exact Or.inr (descend_fx_room P key fuel s8 s1 pid _ o
                (by rw [d3, d4, g1, g2]; simp only [List.length_cons]; omega)
                (by rw [d3, g2]; exact List.mem_cons_of_mem _ (List.mem_cons_self _ _))
                (by rw [d3]; exact List.mem_cons_self _ _)
                (fun q => d1 (by rw [← q, g2]; exact List.mem_cons_self _ _)) h)
            · rename_i res s8 hres hfd
              simp only [Prod.mk.injEq] at h
              obtain ⟨h1, h2⟩ := h
              have hno := fun site => session_fix_room _ _ _ _ FixSite.child_page site
                (Nat × Nat) hfd hr7
              have hs8 : s8 = s7 := by
                rcases session_fix_cases _ _ _ _ hfd with q | q | q
                · exact absurd q.1 (hres _)
                · exact q.2
                · exact q.2.2
              subst h1 h2
              rw [hs8]
              exact Or.inr ⟨hno, hr7⟩
          · rename_i res sc _ hfc
            simp only [Prod.mk.injEq] at h
            obtain ⟨h1, h2⟩ := h
            subst h2
            rcases of_failure_cases (Nat × Nat) res FixSite.new_root_page with q | q
            · exact absurd q hb
            · exact absurd q hbl
        · rename_i res sb _ hfb
          simp only [Prod.mk.injEq] at h
          obtain ⟨h1, _⟩ := h
          have htb := session_fix_tree _ _ _ _ hfb
          subst h1
          rw [htb]
          exact Or.inl ⟨rfl, rfl, rfl⟩
      · simp only [hfull, if_false] at h
        split at h
        · rename_i k4 s8 hfd
          obtain ⟨d1, d2, d3, d4⟩ := session_fix_ok _ _ _ _ hfd
          have hs8t := session_fix_tree _ _ _ _ hfd
          rcases descend_fx_unchanged_or_room P key fuel s8 s1 s.tree.root _ o
            (by rw [d3, a3]; exact List.mem_cons_of_mem _ (List.mem_cons_self _ _))
            (by rw [d3]; exact List.mem_cons_self _ _)
            (fun q => d1 (by rw [← q, a3]; exact List.mem_cons_self _ _)) h with q | q
          · left
            rw [hs8t, hta] at q
            exact q
          · exact Or.inr q
        · rename_i res s8 hres hfd
          simp only [Prod.mk.injEq] at h
          obtain ⟨h1, _⟩ := h
          have hs8t := session_fix_tree _ _ _ _ hfd
          subst h1
          rw [hs8t]
          exact Or.inl ⟨by rw [hta], by rw [hta], by rw [hta]⟩
  · rename_i res sa _ hfa
    simp only [Prod.mk.injEq] at h
    obtain ⟨h1, _⟩ := h
    have hta := session_fix_tree _ _ _ _ hfa
    subst h1
    rw [hta]
    exact Or.inl ⟨rfl, rfl, rfl⟩

/-- C11 (amended): if `insert` ends in the buffer-full error of a `fix_page` other than
the fix of a new root page, the tree is left as it was before the call: a tree
that was empty is still empty, and a tree that was not has the same root and
the same set of key/value entries reachable from it. -/
theorem insert_buffer_full_keeps_tree {K V : Type} [LinearOrder K] (P : TreeParams)
    (fuel : Nat) (s s1 : Session K V) (key : K) (value : V) (site : FixSite)
    (h : insert_fx P fuel s key value = (s1, Outcome.buffer_full_error site))
    (hsite : site ≠ FixSite.new_root_page) :
    s1.tree.is_empty = s.tree.is_empty ∧
    (s.tree.is_empty = false → s1.tree.root = s.tree.root) ∧
    (∀ e, e ∈ s1.tree.entries ↔ e ∈ s.tree.entries) := by
  unfold insert_fx at h
  dsimp only at h
  by_cases hemp : s.tree.is_empty = true
  · simp only [hemp, if_true] at h
    split at h
    · simp only [Prod.mk.injEq] at h
      cases h.2
    · rename_i res s2 _ hfx
      simp only [Prod.mk.injEq] at h
      obtain ⟨h1, _⟩ := h
      have ht := session_fix_tree _ _ _ _ hfx
      subst h1
      rw [ht]
      refine ⟨?_, ?_, ?_⟩
      · exact hemp.symm
      · intro q; rw [hemp] at q; cases q
      · intro e
        unfold BTree.entries
        simp only [hemp, if_true]
  · have hne : s.tree.is_empty = false := by
      cases hq : s.tree.is_empty
      · rfl
      · exact absurd hq hemp
    simp only [hne, Bool.false_eq_true, if_false] at h
    split at h
    · rename_i sl parent_id leaf_id hlk
      have hkeep := lookup_leaf_page_fx_unchanged_or_room P key fuel s sl _ hlk
        (fun q => by cases q) (fun q => by cases q)
      by_cases hfull : (sl.tree.pages leaf_id).count = LeafNode.kCapacity P
      · simp only [hfull, if_true] at h
        split at h
        · split at h
          · split at h
            · simp only [Prod.mk.injEq] at h
              cases h.2
            · simp only [Prod.mk.injEq] at h
              exact absurd (of_failure_site _ _ _ h.2) hsite
          · simp only [Prod.mk.injEq] at h
            cases h.2
        · rename_i res s3 _ hfx
          simp only [Prod.mk.injEq] at h
          obtain ⟨h1, h2⟩ := h
          have ht := session_fix_tree _ _ _ _ hfx
          subst h1
          rw [ht]
          rcases hkeep with q | q
          · refine ⟨q.2.2, fun _ => q.2.1, ?_⟩
            exact sameEntries_of_fields _ _ q.1 q.2.1 q.2.2
          · exact absurd h2 (session_fix_room _ _ _ _ _ _ _ hfx q.2)
      · simp only [hfull, if_false, Prod.mk.injEq] at h
        cases h.2
    · rename_i sl site2 hlk
      simp only [Prod.mk.injEq, Outcome.buffer_full_error.injEq] at h
      obtain ⟨h1, h2⟩ := h
      subst h1 h2
      rcases lookup_leaf_page_fx_unchanged_or_room P key fuel s sl _ hlk
        (fun q => by
          simp only [Outcome.buffer_full_error.injEq] at q
          exact hsite q) (fun q => by cases q) with q | q
      · exact ⟨q.2.2, fun _ => q.2.1, sameEntries_of_fields _ _ q.1 q.2.1 q.2.2⟩
      · exact absurd rfl (q.1 site2)
    · simp only [Prod.mk.injEq] at h
      cases h.2
    · simp only [Prod.mk.injEq] at h
      cases h.2

theorem insert_buffer_full_keeps_tree_witness :
    (insert_fx params_wide_values 3 (Session.start tree_three_keys 1) 40 400
        = ((insert_fx params_wide_values 3 (Session.start tree_three_keys 1) 40 400).1,
            Outcome.buffer_full_error FixSite.new_leaf_page) ∧
      FixSite.new_leaf_page ≠ FixSite.new_root_page) ∧
    (insert_fx params_wide_values 3 (Session.start tree_three_keys 1) 40 400).1.tree.is_empty
      = tree_three_keys.is_empty ∧
    (tree_three_keys.is_empty = false →
      (insert_fx params_wide_values 3 (Session.start tree_three_keys 1) 40 400).1.tree.root
        = tree_three_keys.root) ∧
    (∀ e, e ∈ (insert_fx params_wide_values 3 (Session.start tree_three_keys 1) 40
        400).1.tree.entries ↔ e ∈ tree_three_keys.entries) :=
  ⟨⟨Prod.ext rfl (by decide), by decide⟩,
   insert_buffer_full_keeps_tree params_wide_values 3
     (Session.start tree_three_keys 1) _ 40 400 FixSite.new_leaf_page
     (Prod.ext rfl (by decide)) (by decide)⟩

/-! ### Child pointers moved with the size of a value: what survives -/

theorem ptrFit_of_ids_fit (P : TreeParams)
    (hsv : P.sizeofValue = 1 ∨ P.sizeofValue = 2 ∨ P.sizeofValue = 4 ∨ P.sizeofValue = 8)
    (bound : Nat) (h : ids_fit P bound) : PtrFit P bound := by
  intro num
  have hr : ((num * P.sizeofValue) % 2 ^ 64) % 8 = 0 ∨
      P.sizeofValue ≤ ((num * P.sizeofValue) % 2 ^ 64) % 8 := by
    rcases hsv with q | q | q | q <;> rw [q] <;> omega
  rcases hr with hr | hr
  · exact Or.inl hr
  · rcases h with h | h
    · left
      rw [h]
      omega
    · right
      exact le_trans h (Nat.pow_le_pow_right (by decide) hr)

theorem ptrFit_mono (P : TreeParams) (a b : Nat) (hab : a ≤ b) (h : PtrFit P b) : PtrFit P a := by
  intro num
  rcases h num with q | q
  · exact Or.inl q
  · exact Or.inr (le_trans hab q)

theorem memmove_words_cases (dst : Nat → Nat) (d : Nat) (src : Nat → Nat) (s nbytes : Nat)
    (hfit : nbytes % 8 = 0 ∨
      ((∀ j, dst j < 256 ^ (nbytes % 8)) ∧ ∀ j, src j < 256 ^ (nbytes % 8))) :
    ∀ j, memmove_words dst d src s nbytes j = dst j ∨
      ∃ i, memmove_words dst d src s nbytes j = src i := by
  intro j
  unfold memmove_words
  by_cases h1 : d ≤ j ∧ j < d + nbytes / 8
  · right
    refine ⟨s + (j - d), ?_⟩
    simp only [h1, and_self, if_true]
  · by_cases h2 : j = d + nbytes / 8 ∧ nbytes % 8 ≠ 0
    · right
      rcases hfit with q | q
      · exact absurd q h2.2
      · refine ⟨s + nbytes / 8, ?_⟩
        have e1 : dst j / 256 ^ (nbytes % 8) = 0 := Nat.div_eq_of_lt (q.1 _)
        have e2 : src (s + nbytes / 8) % 256 ^ (nbytes % 8) = src (s + nbytes / 8) :=
          Nat.mod_eq_of_lt (q.2 _)
        rw [if_neg h1, if_pos h2, e1, e2]
        omega
    · left
      simp only [h1, h2, if_false]

theorem inner_insert_split_w {K V : Type} [LinearOrder K] (P : TreeParams) (n : Node K V)
    (key : K) (split_page : Nat) (bound : Nat) (hfit : PtrFit P bound)
    (hb : ∀ j, n.children j < bound)
    (hle : n.count ≤ InnerNode.kCapacity P) (hcap : InnerNode.kCapacity P + 1 < 2 ^ 16) :
    (InnerNode.insert_split P n key split_page).level = n.level ∧
    (InnerNode.insert_split P n key split_page).count = n.count + 1 ∧
    ∀ j, (InnerNode.insert_split P n key split_page).children j = split_page ∨
      ∃ i, (InnerNode.insert_split P n key split_page).children j = n.children i := by
  have hcnt : u16_incr n.count = n.count + 1 := by
    unfold u16_incr; exact Nat.mod_eq_of_lt (by omega)
  unfold InnerNode.insert_split
  simp only [hcnt]
  refine ⟨trivial, trivial, ?_⟩
  intro j
  by_cases hj : j = (InnerNode.lower_bound n key).1 + 1
  · left
    simp only [hj, if_true]
  · right
    simp only [hj, if_false]
    have hm := memmove_words_cases n.children ((InnerNode.lower_bound n key).1 + 2) n.children
      ((InnerNode.lower_bound n key).1 + 1)
      ((((n.count + 2 ^ 32 - (InnerNode.lower_bound n key).1 - 1) % 2 ^ 32) * P.sizeofValue)
        % 2 ^ 64)
      (by
        rcases hfit ((n.count + 2 ^ 32 - (InnerNode.lower_bound n key).1 - 1) % 2 ^ 32) with q | q
        · exact Or.inl q
        · exact Or.inr ⟨fun i => lt_of_lt_of_le (hb i) q, fun i => lt_of_lt_of_le (hb i) q⟩) j
    rcases hm with q | ⟨i, q⟩
    · exact ⟨j, q⟩
    · exact ⟨i, q⟩

theorem inner_split_w {K V : Type} (P : TreeParams) (n buffer : Node K V)
    (bound : Nat) (hfit : PtrFit P bound)
    (hb : ∀ j, n.children j < bound) (hbb : ∀ j, buffer.children j < bound)
    (hfull : n.count = InnerNode.kCapacity P + 1)
    (h2 : 2 ≤ InnerNode.kCapacity P) (hcap : InnerNode.kCapacity P + 1 < 2 ^ 16) :
    (InnerNode.split P n buffer).2.1.level = n.level ∧
    1 ≤ (InnerNode.split P n buffer).2.1.count ∧
    (InnerNode.split P n buffer).2.1.count ≤ InnerNode.kCapacity P ∧
    (InnerNode.split P n buffer).2.1.children = n.children ∧
    (InnerNode.split P n buffer).2.2.level = buffer.level ∧
    1 ≤ (InnerNode.split P n buffer).2.2.count ∧
    (InnerNode.split P n buffer).2.2.count ≤ InnerNode.kCapacity P ∧
    ∀ j, (InnerNode.split P n buffer).2.2.children j = buffer.children j ∨
      ∃ i, (InnerNode.split P n buffer).2.2.children j = n.children i := by
  have hl : ((n.count - 1) / 2 + 1) % 2 ^ 16 = (n.count - 1) / 2 + 1 :=
    Nat.mod_eq_of_lt (by omega)
  have hr : (n.count + 2 ^ 16 - ((n.count - 1) / 2 + 1)) % 2 ^ 16
      = n.count - ((n.count - 1) / 2 + 1) := by
    have : n.count + 2 ^ 16 - ((n.count - 1) / 2 + 1)
        = (n.count - ((n.count - 1) / 2 + 1)) + 2 ^ 16 := by omega
    rw [this, Nat.add_mod_right]
    exact Nat.mod_eq_of_lt (by omega)
  unfold InnerNode.split
  simp only [hl, hr]
  refine ⟨trivial, by omega, by omega, trivial, trivial, by omega, by omega, ?_⟩
  intro j
  exact memmove_words_cases buffer.children 0 n.children ((n.count - 1) / 2 + 1)
    (((n.count - ((n.count - 1) / 2 + 1)) * P.sizeofValue) % 2 ^ 64)
    (by
      rcases hfit (n.count - ((n.count - 1) / 2 + 1)) with q | q
      · exact Or.inl q
      · exact Or.inr ⟨fun i => lt_of_lt_of_le (hbb i) q, fun i => lt_of_lt_of_le (hb i) q⟩) j

/-! ### The steps of an insert keep the shape invariant -/

theorem inner_lookup_slot {K V : Type} [LinearOrder K] (n : Node K V) (key : K) :
    ∃ j, InnerNode.lookup n key = n.children j := by
  unfold InnerNode.lookup
  dsimp only
  split
  · exact ⟨_, rfl⟩
  · exact ⟨_, rfl⟩

theorem treeInvW_leaf_page_id {K V : Type} [LinearOrder K] (P : TreeParams) (t : BTree K V)
    (c : Nat) (h : TreeInvW P t) : TreeInvW P { t with leaf_page_id := c } :=
  ⟨h.leaf, h.inner, h.down, h.slot, h.fresh, h.zero, h.root, h.empty⟩

theorem treeInvW_init {K V : Type} [LinearOrder K] [Inhabited K] [Inhabited V]
    (P : TreeParams) (segment_id root0 leaf0 : Nat) :
    TreeInvW P (BTree.init K V segment_id root0 leaf0) := by
  refine ⟨?_, ?_, ?_, ?_, ?_, ?_, ?_, ?_⟩
  · intro id _
    refine ⟨by simp [BTree.init, Node.zero], ?_⟩
    intro i j _ hj
    simp [BTree.init, Node.zero] at hj
  · intro id h
    simp [BTree.init, Node.zero] at h
  · intro id j h
    simp [BTree.init, Node.zero] at h
  · intro id j
    right
    simp [BTree.init, Node.zero]
  · intro id _ j
    simp [BTree.init, Node.zero]
  · simp [BTree.init, Node.zero]
  · intro h
    simp [BTree.init] at h
  · intro _ id
    simp [BTree.init, Node.zero]

/-- The first half of a split of the full inner node `c`: the node keeps its
lower children and the page `next_page` becomes an inner node of the same
level with the others. -/
theorem split_inner_w {K V : Type} [LinearOrder K] (P : TreeParams) (hP : ConfigOK P)
    (bound : Nat) (hfit : PtrFit P bound) (t : BTree K V) (c : Nat) (hinv : TreeInvW P t)
    (hne : t.is_empty = false) (hB : t.next_page < bound)
    (hcl : (t.pages c).level ≠ 0)
    (hfull : (t.pages c).count ≥ InnerNode.kCapacity P + 1) :
    TreeInvW P (split_inner P t c).1 ∧
    (split_inner P t c).1.is_empty = false ∧
    (split_inner P t c).1.root = t.root ∧
    (split_inner P t c).1.next_page = t.next_page + 1 ∧
    (split_inner P t c).2.2 = t.next_page ∧
    (∀ id, id ≠ c → id ≠ t.next_page → (split_inner P t c).1.pages id = t.pages id) ∧
    (∀ id, id ≠ t.next_page →
      ((split_inner P t c).1.pages id).level = (t.pages id).level) ∧
    ((split_inner P t c).1.pages t.next_page).level = (t.pages c).level ∧
    ((split_inner P t c).1.pages c).count ≤ InnerNode.kCapacity P ∧
    ((split_inner P t c).1.pages t.next_page).count ≤ InnerNode.kCapacity P := by
  obtain ⟨_, _, _, _, h2, hcap, _, _⟩ := hP
  obtain ⟨hcn, hc1, hcK⟩ := hinv.inner c hcl
  have hrt := hinv.root hne
  have hcnp : c ≠ t.next_page := by omega
  have hslotb : ∀ id j, (t.pages id).children j < bound := by
    intro id j
    rcases hinv.slot id j with q | q <;> omega
  have hfr : ∀ j, (t.pages t.next_page).children j = 0 := hinv.fresh _ (le_refl _)
  obtain ⟨s1, s2, s3, s4, s5, s6, s7, s8⟩ := inner_split_w P (t.pages c)
    { t.pages t.next_page with level := (t.pages c).level } bound hfit (hslotb c)
    (fun j => by simp only [hfr]; omega) (by omega) h2 hcap
  have hpc : (split_inner P t c).1.pages c = (InnerNode.split P (t.pages c)
      { t.pages t.next_page with level := (t.pages c).level }).2.1 := by
    simp only [split_inner, set_page, hcnp, if_false, if_true]
  have hpn : (split_inner P t c).1.pages t.next_page = (InnerNode.split P (t.pages c)
      { t.pages t.next_page with level := (t.pages c).level }).2.2 := by
    simp only [split_inner, set_page, if_true]
  have hpo : ∀ id, id ≠ c → id ≠ t.next_page → (split_inner P t c).1.pages id = t.pages id := by
    intro id h1 h2
    simp only [split_inner, set_page, h1, h2, if_false]
  have hlev : ∀ id, id ≠ t.next_page →
      ((split_inner P t c).1.pages id).level = (t.pages id).level := by
    intro id h
    by_cases hc : id = c
    · rw [hc, hpc, s1]
    · rw [hpo id hc h]
  have hlevn : ((split_inner P t c).1.pages t.next_page).level = (t.pages c).level := by
    rw [hpn, s5]
  have hnp1 : (split_inner P t c).1.next_page = t.next_page + 1 := rfl
  have hnp0 : t.next_page ≠ 0 := by omega
  -- the child slots of every page after the split
  have hchild : ∀ id j,
      (((split_inner P t c).1.pages id).children j < t.next_page ∨
        ((split_inner P t c).1.pages id).children j = 0) ∧
      (((split_inner P t c).1.pages id).level ≠ 0 →
        (t.pages (((split_inner P t c).1.pages id).children j)).level
          < ((split_inner P t c).1.pages id).level) := by
    intro id j
    by_cases hn : id = t.next_page
    · rw [hn, hlevn, hpn]
      rcases s8 j with q | ⟨i, q⟩
      · have q2 : (InnerNode.split P (t.pages c)
            { t.pages t.next_page with level := (t.pages c).level }).2.2.children j = 0 := by
          rw [q]; exact hfr j
        rw [q2]
        exact ⟨Or.inr rfl, fun _ => by rw [hinv.zero]; omega⟩
      · rw [q]
        exact ⟨hinv.slot c i, fun _ => hinv.down c i hcl⟩
    · by_cases hc : id = c
      · rw [hc, hlev c hcnp, hpc, s4]
        exact ⟨hinv.slot c j, fun _ => hinv.down c j hcl⟩
      · rw [hpo id hc hn]
        exact ⟨hinv.slot id j, fun h => hinv.down id j h⟩
  have hchild_ne : ∀ id j, ((split_inner P t c).1.pages id).children j ≠ t.next_page := by
    intro id j
    rcases (hchild id j).1 with q | q <;> omega
  refine ⟨⟨?_, ?_, ?_, ?_, ?_, ?_, ?_, ?_⟩, hne, rfl, rfl, rfl, hpo, hlev, hlevn, ?_, ?_⟩
  · intro id h0
    have hn : id ≠ t.next_page := by
      intro q
      rw [q, hlevn] at h0
      exact hcl h0
    have hc : id ≠ c := by
      intro q
      rw [q, hlev c hcnp] at h0
      exact hcl h0
    rw [hpo id hc hn]
    rw [hpo id hc hn] at h0
    exact hinv.leaf id h0
  · intro id h0
    rw [hnp1]
    by_cases hn : id = t.next_page
    · rw [hn, hpn]
      exact ⟨by omega, s6, by omega⟩
    · by_cases hc : id = c
      · rw [hc, hpc]
        exact ⟨by omega, s2, by omega⟩
      · rw [hpo id hc hn]
        rw [hpo id hc hn] at h0
        obtain ⟨a, b, d⟩ := hinv.inner id h0
        exact ⟨by omega, b, d⟩
  · intro id j h0
    rw [hlev _ (hchild_ne id j)]
    exact (hchild id j).2 h0
  · intro id j
    rw [hnp1]
    rcases (hchild id j).1 with q | q
    · exact Or.inl (by omega)
    · exact Or.inr q
  · intro id hid j
    rw [hnp1] at hid
    rw [hpo id (by omega) (by omega)]
    exact hinv.fresh id (by omega) j
  · rw [hlev 0 (fun q => hnp0 q.symm)]
    exact hinv.zero
  · intro _
    rw [hnp1]
    show t.root < t.next_page + 1
    omega
  · intro h
    have h2 : t.is_empty = true := h
    rw [hne] at h2
    cases h2
  · rw [hpc]; exact s3
  · rw [hpn]; exact s7

/-- The second half of a split below the parent `p`: the separator and the new
page `x`, a page of a lower level, go into `p`. -/
theorem link_w {K V : Type} [LinearOrder K] (P : TreeParams) (hP : ConfigOK P)
    (bound : Nat) (hfit : PtrFit P bound) (t : BTree K V) (p x : Nat) (sep : K)
    (hinv : TreeInvW P t) (hne : t.is_empty = false) (hB : t.next_page ≤ bound)
    (hp : (t.pages p).level ≠ 0) (hpc : (t.pages p).count ≤ InnerNode.kCapacity P)
    (hx : x < t.next_page) (hxl : (t.pages x).level < (t.pages p).level) :
    TreeInvW P { t with pages := set_page t.pages p (InnerNode.insert_split P (t.pages p) sep x) } ∧
    (∀ id, (set_page t.pages p (InnerNode.insert_split P (t.pages p) sep x) id).level
      = (t.pages id).level) ∧
    (∀ id, id ≠ p →
      set_page t.pages p (InnerNode.insert_split P (t.pages p) sep x) id = t.pages id) ∧
    (set_page t.pages p (InnerNode.insert_split P (t.pages p) sep x) p).count
      = (t.pages p).count + 1 := by
  obtain ⟨_, _, _, _, h2, hcap, _, _⟩ := hP
  have hrt := hinv.root hne
  have hslotb : ∀ j, (t.pages p).children j < bound := by
    intro j
    rcases hinv.slot p j with q | q <;> omega
  obtain ⟨i1, i2, i3⟩ := inner_insert_split_w P (t.pages p) sep x bound hfit hslotb hpc hcap
  obtain ⟨pg, hpg⟩ : ∃ pg, pg = set_page t.pages p (InnerNode.insert_split P (t.pages p) sep x) :=
    ⟨_, rfl⟩
  rw [← hpg]
  have hpp : pg p = InnerNode.insert_split P (t.pages p) sep x := by
    rw [hpg, set_page_same]
  have hpo : ∀ id, id ≠ p → pg id = t.pages id := by
    intro id h
    rw [hpg, set_page_other _ _ _ _ h]
  have hlev : ∀ id, (pg id).level = (t.pages id).level := by
    intro id
    by_cases h : id = p
    · rw [h, hpp, i1]
    · rw [hpo id h]
  have hchild : ∀ id j, ((pg id).children j < t.next_page ∨ (pg id).children j = 0) ∧
      ((t.pages id).level ≠ 0 → (t.pages ((pg id).children j)).level < (t.pages id).level) := by
    intro id j
    by_cases h : id = p
    · rw [h, hpp]
      rcases i3 j with q | ⟨i, q⟩
      · rw [q]
        exact ⟨Or.inl hx, fun _ => hxl⟩
      · rw [q]
        exact ⟨hinv.slot p i, fun _ => hinv.down p i hp⟩
    · rw [hpo id h]
      exact ⟨hinv.slot id j, fun h0 => hinv.down id j h0⟩
  refine ⟨⟨?_, ?_, ?_, ?_, ?_, ?_, ?_, ?_⟩, hlev, hpo, ?_⟩
  · intro id h0
    have h1 : (t.pages id).level = 0 := by rw [← hlev id]; exact h0
    have hn : id ≠ p := fun q => hp (q ▸ h1)
    show LeafOK P (pg id)
    rw [hpo id hn]
    exact hinv.leaf id h1
  · intro id h0
    have h1 : (t.pages id).level ≠ 0 := by rw [← hlev id]; exact h0
    obtain ⟨a, b, d⟩ := hinv.inner id h1
    show id < t.next_page ∧ 1 ≤ (pg id).count ∧ (pg id).count ≤ InnerNode.kCapacity P + 1
    by_cases h : id = p
    · rw [h, hpp, i2]
      rw [h] at a
      exact ⟨a, by omega, by omega⟩
    · rw [hpo id h]
      exact ⟨a, b, d⟩
  · intro id j h0
    show (pg ((pg id).children j)).level < (pg id).level
    rw [hlev, hlev]
    exact (hchild id j).2 (by rw [← hlev id]; exact h0)
  · intro id j
    exact (hchild id j).1
  · intro id hid j
    have hid2 : t.next_page ≤ id := hid
    show (pg id).children j = 0
    have hn : id ≠ p := by
      have := (hinv.inner p hp).1
      omega
    rw [hpo id hn]
    exact hinv.fresh id hid2 j
  · show (pg 0).level = 0
    rw [hlev]
    exact hinv.zero
  · intro _
    exact hrt
  · intro h
    have h2 : t.is_empty = true := h
    rw [hne] at h2
    cases h2
  · rw [hpp, i2]

/-- A new root over the pages `a` and `b`, both of a level below `lv`, is
allocated at `next_page`. -/
theorem new_root_w {K V : Type} [LinearOrder K] (P : TreeParams) (hP : ConfigOK P)
    (t : BTree K V) (a b : Nat) (sep : K) (lv : Nat)
    (hinv : TreeInvW P t) (hne : t.is_empty = false)
    (ha : a < t.next_page) (hb : b < t.next_page)
    (hla : (t.pages a).level < lv) (hlb : (t.pages b).level < lv) :
    TreeInvW P { t with
      root := t.next_page, next_page := t.next_page + 1,
      pages := set_page t.pages t.next_page
        (InnerNode.first_insert { t.pages t.next_page with level := lv } sep a b) } ∧
    (∀ id, id ≠ t.next_page →
      set_page t.pages t.next_page
        (InnerNode.first_insert { t.pages t.next_page with level := lv } sep a b) id
        = t.pages id) ∧
    (set_page t.pages t.next_page
      (InnerNode.first_insert { t.pages t.next_page with level := lv } sep a b)
      t.next_page).level = lv := by
  obtain ⟨_, _, _, _, h2, hcap, _, _⟩ := hP
  have hrt := hinv.root hne
  have hnp0 : t.next_page ≠ 0 := by omega
  have hfr : ∀ j, (t.pages t.next_page).children j = 0 := hinv.fresh _ (le_refl _)
  obtain ⟨pg, hpg⟩ : ∃ pg, pg = set_page t.pages t.next_page
      (InnerNode.first_insert { t.pages t.next_page with level := lv } sep a b) := ⟨_, rfl⟩
  rw [← hpg]
  have hpn : pg t.next_page
      = InnerNode.first_insert { t.pages t.next_page with level := lv } sep a b := by
    rw [hpg, set_page_same]
  have hpo : ∀ id, id ≠ t.next_page → pg id = t.pages id := by
    intro id h
    rw [hpg, set_page_other _ _ _ _ h]
  have hlevn : (pg t.next_page).level = lv := by
    rw [hpn]; rfl
  have hcntn : (pg t.next_page).count = 2 := by
    rw [hpn]; rfl
  have hchn : ∀ j, (pg t.next_page).children j = b ∨ (pg t.next_page).children j = a ∨
      (pg t.next_page).children j = 0 := by
    intro j
    rw [hpn]
    unfold InnerNode.first_insert
    dsimp only
    by_cases h1 : j = 1
    · left; simp only [h1, if_true]
    · by_cases h0 : j = 0
      · right; left; simp only [h0, if_true]; simp
      · right; right; simp only [h1, h0, if_false]; exact hfr j
  have hchild : ∀ id j, ((pg id).children j < t.next_page ∨ (pg id).children j = 0) ∧
      ((pg id).level ≠ 0 → (t.pages ((pg id).children j)).level < (pg id).level) := by
    intro id j
    by_cases h : id = t.next_page
    · rw [h, hlevn]
      rcases hchn j with q | q | q
      · rw [q]; exact ⟨Or.inl hb, fun _ => hlb⟩
      · rw [q]; exact ⟨Or.inl ha, fun _ => hla⟩
      · rw [q]; exact ⟨Or.inr rfl, fun _ => by rw [hinv.zero]; omega⟩
    · rw [hpo id h]
      exact ⟨hinv.slot id j, fun h0 => hinv.down id j h0⟩
  have hchild_ne : ∀ id j, (pg id).children j ≠ t.next_page := by
    intro id j
    rcases (hchild id j).1 with q | q <;> omega
  refine ⟨⟨?_, ?_, ?_, ?_, ?_, ?_, ?_, ?_⟩, hpo, hlevn⟩
  · intro id h0
    have h1 : (pg id).level = 0 := h0
    have hn : id ≠ t.next_page := by
      intro q
      rw [q, hlevn] at h1
      omega
    show LeafOK P (pg id)
    rw [hpo id hn]
    rw [hpo id hn] at h1
    exact hinv.leaf id h1
  · intro id h0
    have h1 : (pg id).level ≠ 0 := h0
    show id < t.next_page + 1 ∧ 1 ≤ (pg id).count ∧ (pg id).count ≤ InnerNode.kCapacity P + 1
    by_cases h : id = t.next_page
    · rw [h, hcntn]
      exact ⟨by omega, by omega, by omega⟩
    · rw [hpo id h]
      rw [hpo id h] at h1
      obtain ⟨x, y, z⟩ := hinv.inner id h1
      exact ⟨by omega, y, z⟩
  · intro id j h0
    show (pg ((pg id).children j)).level < (pg id).level
    rw [hpo _ (hchild_ne id j)]
    exact (hchild id j).2 h0
  · intro id j
    show (pg id).children j < t.next_page + 1 ∨ (pg id).children j = 0
    rcases (hchild id j).1 with q | q
    · exact Or.inl (by omega)
    · exact Or.inr q
  · intro id hid j
    have hid2 : t.next_page + 1 ≤ id := hid
    show (pg id).children j = 0
    rw [hpo id (by omega)]
    exact hinv.fresh id (by omega) j
  · show (pg 0).level = 0
    rw [hpo 0 (fun q => hnp0 q.symm)]
    exact hinv.zero
  · intro _
    show t.next_page < t.next_page + 1
    omega
  · intro h
    have h2 : t.is_empty = true := h
    rw [hne] at h2
    cases h2

theorem leaf_insert_children {K V : Type} [LinearOrder K] (n : Node K V) (key : K) (value : V) :
    (LeafNode.insert n key value).children = n.children := by
  unfold LeafNode.insert
  dsimp only
  split
  · rfl
  · split <;> rfl

theorem leaf_erase_children {K V : Type} [LinearOrder K] (n : Node K V) (key : K) :
    (LeafNode.erase n key).children = n.children := by
  unfold LeafNode.erase
  dsimp only
  split
  · rfl
  · split <;> rfl

theorem leaf_insert_count_pos {K V : Type} [LinearOrder K] (n : Node K V) (key : K) (value : V)
    (hc16 : n.count + 1 < 2 ^ 16) : 0 < (LeafNode.insert n key value).count := by
  have hu : u16_incr n.count = n.count + 1 := by
    unfold u16_incr
    exact Nat.mod_eq_of_lt hc16
  unfold LeafNode.insert
  by_cases hc : n.count = 0
  · simp only [hc, if_true]
    rw [← hc, hu]
    omega
  · simp only [hc, if_false]
    split
    · show 0 < n.count
      omega
    · show 0 < u16_incr n.count
      rw [hu]
      omega

/-- Pages that keep their levels, their child slots and the counts of the
inner pages keep the shape invariant when the leaves stay well-formed. -/
theorem treeInvW_same_shape {K V : Type} [LinearOrder K] (P : TreeParams) (t : BTree K V)
    (pg : Nat → Node K V) (np : Nat) (hinv : TreeInvW P t)
    (hempty : t.is_empty = true → ∀ id, (pg id).level = 0 ∧ (pg id).count = 0)
    (hnp : t.next_page ≤ np)
    (hlev : ∀ id, (pg id).level = (t.pages id).level)
    (hch : ∀ id, (pg id).children = (t.pages id).children)
    (hleaf : ∀ id, (t.pages id).level = 0 → LeafOK P (pg id))
    (hcnt : ∀ id, (t.pages id).level ≠ 0 → (pg id).count = (t.pages id).count) :
    TreeInvW P { t with pages := pg, next_page := np } := by
  refine ⟨?_, ?_, ?_, ?_, ?_, ?_, ?_, ?_⟩
  · intro id h0
    have h1 : (pg id).level = 0 := h0
    rw [hlev] at h1
    exact hleaf id h1
  · intro id h0
    have h1 : (pg id).level ≠ 0 := h0
    rw [hlev] at h1
    obtain ⟨a, b, d⟩ := hinv.inner id h1
    show id < np ∧ 1 ≤ (pg id).count ∧ (pg id).count ≤ InnerNode.kCapacity P + 1
    rw [hcnt id h1]
    exact ⟨by omega, b, d⟩
  · intro id j h0
    have h1 : (pg id).level ≠ 0 := h0
    rw [hlev] at h1
    show (pg ((pg id).children j)).level < (pg id).level
    rw [hlev, hlev, hch]
    exact hinv.down id j h1
  · intro id j
    show (pg id).children j < np ∨ (pg id).children j = 0
    rw [hch]
    rcases hinv.slot id j with q | q
    · exact Or.inl (by omega)
    · exact Or.inr q
  · intro id hid j
    have hid2 : np ≤ id := hid
    show (pg id).children j = 0
    rw [hch]
    exact hinv.fresh id (by omega) j
  · show (pg 0).level = 0
    rw [hlev]
    exact hinv.zero
  · intro h
    have h2 : t.is_empty = false := h
    have := hinv.root h2
    show t.root < np
    omega
  · intro h
    exact hempty h

/-- The split of the full leaf `l` into itself and the page `next_page`. -/
theorem leaf_alloc_w {K V : Type} [LinearOrder K] (P : TreeParams) (hP : ConfigOK P)
    (t : BTree K V) (l : Nat) (hinv : TreeInvW P t) (hne : t.is_empty = false)
    (hl0 : (t.pages l).level = 0) (hln : l < t.next_page)
    (hfull : (t.pages l).count = LeafNode.kCapacity P) :
    TreeInvW P { t with
      next_page := t.next_page + 1,
      pages := set_page (set_page t.pages l
          (LeafNode.split (t.pages l) { t.pages t.next_page with level := 0 }).2.1)
        t.next_page (LeafNode.split (t.pages l) { t.pages t.next_page with level := 0 }).2.2 } ∧
    (∀ id, (set_page (set_page t.pages l
          (LeafNode.split (t.pages l) { t.pages t.next_page with level := 0 }).2.1)
        t.next_page (LeafNode.split (t.pages l) { t.pages t.next_page with level := 0 }).2.2
        id).level = (t.pages id).level) ∧
    (∀ id, id ≠ l → id ≠ t.next_page →
      set_page (set_page t.pages l
          (LeafNode.split (t.pages l) { t.pages t.next_page with level := 0 }).2.1)
        t.next_page (LeafNode.split (t.pages l) { t.pages t.next_page with level := 0 }).2.2
        id = t.pages id) ∧
    (1 ≤ (LeafNode.split (t.pages l) { t.pages t.next_page with level := 0 }).2.1.count ∧
      (LeafNode.split (t.pages l) { t.pages t.next_page with level := 0 }).2.1.count
        < LeafNode.kCapacity P) ∧
    (1 ≤ (LeafNode.split (t.pages l) { t.pages t.next_page with level := 0 }).2.2.count ∧
      (LeafNode.split (t.pages l) { t.pages t.next_page with level := 0 }).2.2.count
        < LeafNode.kCapacity P) := by
  obtain ⟨_, _, h3, hc16, _, _, _, _⟩ := hP
  have hlnp : l ≠ t.next_page := by omega
  have hnl0 : (t.pages t.next_page).level = 0 := by
    by_contra h
    have := (hinv.inner _ h).1
    omega
  obtain ⟨sl1, sl2, sl3, sr1, sr2, sr3⟩ :=
    leaf_split_ok P (t.pages l) { t.pages t.next_page with level := 0 }
      (hinv.leaf l hl0) hfull h3 hc16
  obtain ⟨sc1, sc2⟩ := leaf_split_counts (t.pages l) { t.pages t.next_page with level := 0 }
    (by omega) (by omega)
  obtain ⟨pg, hpg⟩ : ∃ pg, pg = set_page (set_page t.pages l
      (LeafNode.split (t.pages l) { t.pages t.next_page with level := 0 }).2.1)
      t.next_page (LeafNode.split (t.pages l) { t.pages t.next_page with level := 0 }).2.2 :=
    ⟨_, rfl⟩
  rw [← hpg]
  have hpn : pg t.next_page
      = (LeafNode.split (t.pages l) { t.pages t.next_page with level := 0 }).2.2 := by
    rw [hpg, set_page_same]
  have hpl : pg l
      = (LeafNode.split (t.pages l) { t.pages t.next_page with level := 0 }).2.1 := by
    rw [hpg, set_page_other _ _ _ _ hlnp, set_page_same]
  have hpo : ∀ id, id ≠ l → id ≠ t.next_page → pg id = t.pages id := by
    intro id h1 h2
    rw [hpg, set_page_other _ _ _ _ h2, set_page_other _ _ _ _ h1]
  have hlev : ∀ id, (pg id).level = (t.pages id).level := by
    intro id
    by_cases h : id = t.next_page
    · rw [h, hpn, sr3, hnl0]
    · by_cases h1 : id = l
      · rw [h1, hpl, sl3]
      · rw [hpo id h1 h]
  have hch : ∀ id, (pg id).children = (t.pages id).children := by
    intro id
    by_cases h : id = t.next_page
    · rw [h, hpn]; rfl
    · by_cases h1 : id = l
      · rw [h1, hpl]; rfl
      · rw [hpo id h1 h]
  refine ⟨?_, hlev, hpo, ⟨by omega, sl2⟩, ⟨by omega, sr2⟩⟩
  apply treeInvW_same_shape P t pg (t.next_page + 1) hinv
    (fun h => by rw [hne] at h; cases h) (by omega) hlev hch
  · intro id h0
    by_cases h : id = t.next_page
    · rw [h, hpn]; exact sr1
    · by_cases h1 : id = l
      · rw [h1, hpl]; exact sl1
      · rw [hpo id h1 h]; exact hinv.leaf id h0
  · intro id h0
    have h1 : id ≠ l := fun q => h0 (q ▸ hl0)
    have h2 : id ≠ t.next_page := fun q => h0 (q ▸ hnl0)
    rw [hpo id h1 h2]

/-- The insert of an entry into the leaf `l`, which has room. -/
theorem leaf_set_w {K V : Type} [LinearOrder K] (P : TreeParams) (hP : ConfigOK P)
    (t : BTree K V) (l : Nat) (key : K) (value : V) (hinv : TreeInvW P t)
    (hne : t.is_empty = false) (hl0 : (t.pages l).level = 0)
    (hcnt : (t.pages l).count < LeafNode.kCapacity P) :
    TreeInvW P { t with pages := set_page t.pages l (LeafNode.insert (t.pages l) key value) } ∧
    (∀ id, (set_page t.pages l (LeafNode.insert (t.pages l) key value) id).level
      = (t.pages id).level) ∧
    (∀ id, id ≠ l →
      set_page t.pages l (LeafNode.insert (t.pages l) key value) id = t.pages id) ∧
    0 < (LeafNode.insert (t.pages l) key value).count := by
  obtain ⟨_, _, h3, hc16, _, _, _, _⟩ := hP
  obtain ⟨hok, hlv⟩ := leaf_insert_ok P (t.pages l) key value (hinv.leaf l hl0) hcnt hc16
  have hlev : ∀ id, (set_page t.pages l (LeafNode.insert (t.pages l) key value) id).level
      = (t.pages id).level := by
    intro id
    by_cases h : id = l
    · rw [h, set_page_same, hlv]
    · rw [set_page_other _ _ _ _ h]
  refine ⟨?_, hlev, fun id h => set_page_other _ _ _ _ h,
    leaf_insert_count_pos _ _ _ (by omega)⟩
  apply treeInvW_same_shape P t _ t.next_page hinv
    (fun h => by rw [hne] at h; cases h) (le_refl _) hlev
  · intro id
    by_cases h : id = l
    · rw [h, set_page_same, leaf_insert_children]
    · rw [set_page_other _ _ _ _ h]
  · intro id h0
    by_cases h : id = l
    · rw [h, set_page_same]; exact hok
    · rw [set_page_other _ _ _ _ h]; exact hinv.leaf id h0
  · intro id h0
    have h1 : id ≠ l := fun q => h0 (q ▸ hl0)
    rw [set_page_other _ _ _ _ h1]

theorem split_child_w {K V : Type} [LinearOrder K] (P : TreeParams) (hP : ConfigOK P)
    (bound : Nat) (hfit : PtrFit P bound) (t : BTree K V) (p c : Nat) (hinv : TreeInvW P t)
    (hne : t.is_empty = false) (hB : t.next_page < bound)
    (hp : (t.pages p).level ≠ 0) (hpc : (t.pages p).count ≤ InnerNode.kCapacity P)
    (hlev : (t.pages c).level < (t.pages p).level) (hcl : (t.pages c).level ≠ 0)
    (hfull : (t.pages c).count ≥ InnerNode.kCapacity P + 1) :
    TreeInvW P (split_child P t p c).1 ∧
    (split_child P t p c).1.is_empty = false ∧
    (split_child P t p c).1.root = t.root ∧
    (split_child P t p c).1.next_page = t.next_page + 1 ∧
    (split_child P t p c).2.2 = t.next_page ∧
    (∀ id, id ≠ t.next_page →
      ((split_child P t p c).1.pages id).level = (t.pages id).level) ∧
    ((split_child P t p c).1.pages t.next_page).level = (t.pages c).level ∧
    ((split_child P t p c).1.pages c).count ≤ InnerNode.kCapacity P ∧
    ((split_child P t p c).1.pages t.next_page).count ≤ InnerNode.kCapacity P ∧
    (∀ id, id ≠ p → id ≠ c → id ≠ t.next_page → (split_child P t p c).1.pages id = t.pages id) ∧
    ((split_inner P t c).1.pages p).count = (t.pages p).count := by
  obtain ⟨a1, a2, a3, a4, a5, a6, a7, a8, a9, a10⟩ :=
    split_inner_w P hP bound hfit t c hinv hne hB hcl hfull
  have hpn : p < t.next_page := (hinv.inner p hp).1
  have hpc1 : p ≠ c := by
    intro q
    rw [q] at hlev
    omega
  have hpnp : p ≠ t.next_page := by omega
  have hcn : c < t.next_page := (hinv.inner c hcl).1
  have hpp : (split_inner P t c).1.pages p = t.pages p := a6 p hpc1 hpnp
  obtain ⟨b1, b2, b3, b4⟩ := link_w P hP bound hfit (split_inner P t c).1 p t.next_page
    (split_inner P t c).2.1 a1 a2 (by rw [a4]; omega) (by rw [hpp]; exact hp)
    (by rw [hpp]; exact hpc) (by rw [a4]; omega) (by rw [a8, hpp]; exact hlev)
  have hpages : (split_child P t p c).1.pages = set_page (split_inner P t c).1.pages p
      (InnerNode.insert_split P ((split_inner P t c).1.pages p) (split_inner P t c).2.1
        t.next_page) := rfl
  refine ⟨b1, a2, a3, a4, rfl, ?_, ?_, ?_, ?_, ?_, by rw [hpp]⟩
  · intro id hid
    rw [hpages, b2 id, a7 id hid]
  · rw [hpages, b2, a8]
  · rw [hpages, b3 c (fun q => hpc1 q.symm)]
    exact a9
  · rw [hpages, b3 _ (fun q => hpnp q.symm)]
    exact a10
  · intro id h1 h2 h3
    rw [hpages, b3 id h1, a6 id h2 h3]

theorem split_root_w {K V : Type} [LinearOrder K] (P : TreeParams) (hP : ConfigOK P)
    (bound : Nat) (hfit : PtrFit P bound) (t : BTree K V) (hinv : TreeInvW P t)
    (hne : t.is_empty = false) (hB : t.next_page < bound)
    (hrl : (t.pages t.root).level ≠ 0)
    (hfull : (t.pages t.root).count ≥ InnerNode.kCapacity P + 1) :
    TreeInvW P (split_root P t).1 ∧
    (split_root P t).1.is_empty = false ∧
    (split_root P t).1.root = t.next_page + 1 ∧
    (split_root P t).1.next_page = t.next_page + 2 ∧
    (split_root P t).2.2 = t.next_page ∧
    (∀ id, id < t.next_page →
      ((split_root P t).1.pages id).level = (t.pages id).level) ∧
    ((split_root P t).1.pages t.next_page).level = (t.pages t.root).level ∧
    ((split_root P t).1.pages (t.next_page + 1)).level = (t.pages t.root).level + 1 ∧
    ((split_root P t).1.pages t.root).count ≤ InnerNode.kCapacity P ∧
    ((split_root P t).1.pages t.next_page).count ≤ InnerNode.kCapacity P ∧
    (∀ id, id ≠ t.root → id ≠ t.next_page → id ≠ t.next_page + 1 →
      (split_root P t).1.pages id = t.pages id) := by
  obtain ⟨a1, a2, a3, a4, a5, a6, a7, a8, a9, a10⟩ :=
    split_inner_w P hP bound hfit t t.root hinv hne hB hrl hfull
  have hrt := hinv.root hne
  have hrn : t.root ≠ t.next_page := by omega
  have hlr : ((split_inner P t t.root).1.pages t.root).level = (t.pages t.root).level :=
    a7 _ hrn
  obtain ⟨c1, c2, c3⟩ := new_root_w P hP (split_inner P t t.root).1 t.root t.next_page
    (split_inner P t t.root).2.1 (((split_inner P t t.root).1.pages t.root).level + 1) a1 a2
    (by rw [a4]; omega) (by rw [a4]; omega) (by omega) (by rw [a8, hlr]; omega)
  have hnp1 : (split_inner P t t.root).1.next_page = t.next_page + 1 := a4
  have hpages : (split_root P t).1.pages = set_page (split_inner P t t.root).1.pages
      (split_inner P t t.root).1.next_page
      (InnerNode.first_insert
        { (split_inner P t t.root).1.pages (split_inner P t t.root).1.next_page with
          level := ((split_inner P t t.root).1.pages t.root).level + 1 }
        (split_inner P t t.root).2.1 t.root t.next_page) := rfl
  refine ⟨c1, a2, rfl, rfl, rfl, ?_, ?_, ?_, ?_, ?_, ?_⟩
  · intro id hid
    rw [hpages, c2 id (by rw [hnp1]; omega), a7 id (by omega)]
  · rw [hpages, c2 _ (by rw [hnp1]; omega), a8]
  · have := c3
    rw [hnp1] at this
    rw [hpages, hnp1, this, hlr]
  · rw [hpages, c2 _ (by rw [hnp1]; omega)]
    exact a9
  · rw [hpages, c2 _ (by rw [hnp1]; omega)]
    exact a10
  · intro id h1 h2 h3
    rw [hpages, c2 id (by rw [hnp1]; exact h3), a6 id h1 h2]

theorem split_leaf_w {K V : Type} [LinearOrder K] (P : TreeParams) (hP : ConfigOK P)
    (bound : Nat) (hfit : PtrFit P bound) (t : BTree K V) (p l : Nat) (hinv : TreeInvW P t)
    (hne : t.is_empty = false) (hB : t.next_page < bound)
    (hl0 : (t.pages l).level = 0) (hln : l < t.next_page)
    (hfull : (t.pages l).count = LeafNode.kCapacity P)
    (hcase : (p = l ∧ l = t.root) ∨
      (p ≠ l ∧ (t.pages p).level ≠ 0 ∧ (t.pages p).count ≤ InnerNode.kCapacity P)) :
    TreeInvW P (split_leaf P t p l).1 ∧
    (split_leaf P t p l).1.is_empty = false ∧
    (split_leaf P t p l).2.2 = t.next_page ∧
    ((split_leaf P t p l).1.pages l).level = 0 ∧
    ((split_leaf P t p l).1.pages t.next_page).level = 0 ∧
    ((split_leaf P t p l).1.pages l).count < LeafNode.kCapacity P ∧
    ((split_leaf P t p l).1.pages t.next_page).count < LeafNode.kCapacity P ∧
    (split_leaf P t p l).1.next_page ≤ t.next_page + 2 ∧
    (p = l → ((split_leaf P t p l).1.pages (split_leaf P t p l).1.root).level = 1) ∧
    (p ≠ l → ((split_leaf P t p l).1.pages (split_leaf P t p l).1.root).level
      = (t.pages t.root).level) ∧
    (∀ first, LeavesNonEmpty first t → LeavesNonEmpty first (split_leaf P t p l).1) := by
  obtain ⟨d1, d2, d3, d4, d5⟩ := leaf_alloc_w P hP t l hinv hne hl0 hln hfull
  have hrt := hinv.root hne
  have hlnp : l ≠ t.next_page := by omega
  have hnl0 : (t.pages t.next_page).level = 0 := by
    by_contra h
    have := (hinv.inner _ h).1
    omega
  obtain ⟨t2, ht2⟩ : ∃ t2 : BTree K V, t2 = { t with
      next_page := t.next_page + 1,
      pages := set_page (set_page t.pages l
          (LeafNode.split (t.pages l) { t.pages t.next_page with level := 0 }).2.1)
        t.next_page (LeafNode.split (t.pages l) { t.pages t.next_page with level := 0 }).2.2 } :=
    ⟨_, rfl⟩
  rw [← ht2] at d1
  have e2 : ∀ id, (t2.pages id).level = (t.pages id).level := by
    intro id; rw [ht2]; exact d2 id
  have e3 : ∀ id, id ≠ l → id ≠ t.next_page → t2.pages id = t.pages id := by
    intro id h1 h2; rw [ht2]; exact d3 id h1 h2
  have e4 : 1 ≤ (t2.pages l).count ∧ (t2.pages l).count < LeafNode.kCapacity P := by
    have : t2.pages l
        = (LeafNode.split (t.pages l) { t.pages t.next_page with level := 0 }).2.1 := by
      rw [ht2]
      show set_page _ _ _ l = _
      rw [set_page_other _ _ _ _ hlnp, set_page_same]
    rw [this]; exact d4
  have e5 : 1 ≤ (t2.pages t.next_page).count ∧
      (t2.pages t.next_page).count < LeafNode.kCapacity P := by
    have : t2.pages t.next_page
        = (LeafNode.split (t.pages l) { t.pages t.next_page with level := 0 }).2.2 := by
      rw [ht2]
      show set_page _ _ _ t.next_page = _
      rw [set_page_same]
    rw [this]; exact d5
  have e6 : t2.next_page = t.next_page + 1 := by rw [ht2]
  have e7 : t2.root = t.root := by rw [ht2]
  have e8 : t2.is_empty = false := by rw [ht2]; exact hne
  by_cases hpl : p = l
  · rcases hcase with ⟨_, hlr⟩ | ⟨q, _⟩
    · obtain ⟨c1, c2, c3⟩ := new_root_w P hP t2 t2.root t.next_page
        (LeafNode.split (t.pages l) { t.pages t.next_page with level := 0 }).1 1 d1 e8
        (by rw [e6, e7]; omega) (by rw [e6]; omega)
        (by rw [e2, e7, ← hlr, hl0]; omega) (by rw [e2, hnl0]; omega)
      have hsl : (split_leaf P t p l).1 = { t2 with
          root := t2.next_page, next_page := t2.next_page + 1,
          pages := set_page t2.pages t2.next_page
            (InnerNode.first_insert { t2.pages t2.next_page with level := 1 }
              (LeafNode.split (t.pages l) { t.pages t.next_page with level := 0 }).1
              t2.root t.next_page) } := by
        unfold split_leaf
        simp only [hpl, if_true]
        rw [ht2]
      have hsl2 : (split_leaf P t p l).2.2 = t.next_page := by
        unfold split_leaf
        simp only [hpl, if_true]
      rw [hsl]
      rw [hsl2]
      refine ⟨c1, e8, rfl, ?_, ?_, ?_, ?_, ?_, ?_, fun q => absurd hpl q, ?_⟩
      · show (set_page _ _ _ l).level = 0
        rw [c2 l (by rw [e6]; omega), e2, hl0]
      · show (set_page _ _ _ t.next_page).level = 0
        rw [c2 _ (by rw [e6]; omega), e2, hnl0]
      · show (set_page _ _ _ l).count < _
        rw [c2 l (by rw [e6]; omega)]
        exact e4.2
      · show (set_page _ _ _ t.next_page).count < _
        rw [c2 _ (by rw [e6]; omega)]
        exact e5.2
      · show t2.next_page + 1 ≤ t.next_page + 2
        omega
      · intro _
        show (set_page _ _ _ t2.next_page).level = 1
        rw [c3]
      · intro first hL id hf hlt hlev
        have hlt2 : id < t2.next_page + 1 := hlt
        have hlev2 : (set_page t2.pages t2.next_page
            (InnerNode.first_insert { t2.pages t2.next_page with level := 1 }
              (LeafNode.split (t.pages l) { t.pages t.next_page with level := 0 }).1
              t2.root t.next_page) id).level = 0 := hlev
        show 0 < (set_page t2.pages t2.next_page
            (InnerNode.first_insert { t2.pages t2.next_page with level := 1 }
              (LeafNode.split (t.pages l) { t.pages t.next_page with level := 0 }).1
              t2.root t.next_page) id).count
        have hid : id ≠ t2.next_page := by
          intro q
          rw [q, c3] at hlev2
          omega
        rw [c2 id hid] at hlev2 ⊢
        by_cases h1 : id = l
        · rw [h1]; exact e4.1
        · by_cases h2 : id = t.next_page
          · rw [h2]; exact e5.1
          · rw [e3 id h1 h2] at hlev2 ⊢
            exact hL id hf (by omega) hlev2
    · exact absurd hpl q
  · rcases hcase with ⟨q, _⟩ | ⟨_, hp0, hpc⟩
    · exact absurd q hpl
    · have hpn : p < t.next_page := (hinv.inner p hp0).1
      have hpnp : p ≠ t.next_page := by omega
      have hpp : t2.pages p = t.pages p := e3 p hpl hpnp
      obtain ⟨b1, b2, b3, b4⟩ := link_w P hP bound hfit t2 p t.next_page
        (LeafNode.split (t.pages l) { t.pages t.next_page with level := 0 }).1 d1 e8
        (by rw [e6]; omega) (by rw [hpp]; exact hp0) (by rw [hpp]; exact hpc)
        (by rw [e6]; omega) (by rw [e2, hnl0, e2]; omega)
      have hsl : (split_leaf P t p l).1 = { t2 with
          pages := set_page t2.pages p (InnerNode.insert_split P (t2.pages p)
            (LeafNode.split (t.pages l) { t.pages t.next_page with level := 0 }).1
            t.next_page) } := by
        unfold split_leaf
        simp only [hpl, if_false]
        rw [ht2]
      have hsl2 : (split_leaf P t p l).2.2 = t.next_page := by
        unfold split_leaf
        simp only [hpl, if_false]
      rw [hsl]
      rw [hsl2]
      refine ⟨b1, e8, rfl, ?_, ?_, ?_, ?_, ?_, fun q => absurd q hpl, ?_, ?_⟩
      · show (set_page _ _ _ l).level = 0
        rw [b2, e2, hl0]
      · show (set_page _ _ _ t.next_page).level = 0
        rw [b2, e2, hnl0]
      · show (set_page _ _ _ l).count < _
        rw [b3 l (fun q => hpl q.symm)]
        exact e4.2
      · show (set_page _ _ _ t.next_page).count < _
        rw [b3 _ (fun q => hpnp q.symm)]
        exact e5.2
      · show t2.next_page ≤ t.next_page + 2
        omega
      · intro _
        show (set_page _ _ _ t2.root).level = _
        rw [b2, e2, e7]
      · intro first hL id hf hlt hlev
        have hlt2 : id < t2.next_page := hlt
        have hlev2 : (set_page t2.pages p (InnerNode.insert_split P (t2.pages p)
            (LeafNode.split (t.pages l) { t.pages t.next_page with level := 0 }).1
            t.next_page) id).level = 0 := hlev
        show 0 < (set_page t2.pages p (InnerNode.insert_split P (t2.pages p)
            (LeafNode.split (t.pages l) { t.pages t.next_page with level := 0 }).1
            t.next_page) id).count
        rw [b2, e2] at hlev2
        have hid : id ≠ p := fun q => hp0 (q ▸ hlev2)
        rw [b3 id hid]
        by_cases h1 : id = l
        · rw [h1]; exact e4.1
        · by_cases h2 : id = t.next_page
          · rw [h2]; exact e5.1
          · rw [e3 id h1 h2]
            exact hL id hf (by omega) hlev2

/-! ### An insert returns and keeps the shape invariant -/

/-- The descent of an insert from the parent `p` into the child `c` returns
within `fuel` passes when `fuel` exceeds the level of `c`; it keeps the shape
invariant, allocates at most one page per pass, leaves every leaf as it was,
ends in a leaf below a parent that is not full, and applies `insert_split`
only to nodes with at most `K_inner` children. -/
theorem descend_insert_w {K V : Type} [LinearOrder K] (P : TreeParams) (hP : ConfigOK P)
    (bound : Nat) (hfit : PtrFit P bound) (key : K) :
    ∀ (fuel : Nat) (t : BTree K V) (p c : Nat),
      TreeInvW P t → t.is_empty = false →
      (t.pages p).level ≠ 0 → (t.pages p).count ≤ InnerNode.kCapacity P →
      c < t.next_page → (t.pages c).level < (t.pages p).level →
      (t.pages c).level < fuel → t.next_page + fuel ≤ bound →
      ∃ t1 p1 l, descend P key true fuel t p c = some (t1, p1, l) ∧
        TreeInvW P t1 ∧ t1.is_empty = false ∧ t1.root = t.root ∧
        t.next_page ≤ t1.next_page ∧ t1.next_page ≤ t.next_page + fuel ∧
        (∀ id, id < t.next_page → (t1.pages id).level = (t.pages id).level) ∧
        (t1.pages l).level = 0 ∧ l < t1.next_page ∧
        (t1.pages p1).level ≠ 0 ∧ (t1.pages p1).count ≤ InnerNode.kCapacity P ∧
        (∀ id, (t1.pages id).level = 0 →
          t1.pages id = t.pages id ∧ (id < t1.next_page → id < t.next_page)) ∧
        (∀ x ∈ descend_insert_split_counts P key fuel t p c, x ≤ InnerNode.kCapacity P) := by
  intro fuel
  induction fuel with
  | zero => intro t p c _ _ _ _ _ _ h _; omega
  | succ n ih =>
    intro t p c hinv hne hp hpc hc hlev hfuel hB
    have hrt := hinv.root hne
    unfold descend descend_insert_split_counts
    by_cases hl : (t.pages c).is_leaf = true
    · have hl0 : (t.pages c).level = 0 := (is_leaf_iff _).1 hl
      simp only [hl, if_true]
      exact ⟨_, p, c, rfl, treeInvW_leaf_page_id P t c hinv, hne, rfl, le_refl _, by
        show t.next_page ≤ t.next_page + (n + 1)
        omega,
        fun _ _ => rfl, hl0, hc, hp, hpc, fun _ _ => ⟨rfl, fun h => h⟩,
        fun x hx => by simp only [List.not_mem_nil] at hx⟩
    · have hcl : (t.pages c).level ≠ 0 := fun h => hl ((is_leaf_iff _).2 h)
      simp only [hl, Bool.false_eq_true, if_false, Bool.true_and, decide_eq_true_eq]
      by_cases hfull : (t.pages c).count ≥ InnerNode.kCapacity P + 1
      · simp only [hfull, if_true]
        obtain ⟨w1, w2, w3, w4, w5, w6, w7, w8, w9, w10, w11⟩ :=
          split_child_w P hP bound hfit t p c hinv hne (by omega) hp hpc hlev hcl hfull
        have hpn : p < t.next_page := (hinv.inner p hp).1
        have hchoice : ∀ y, (y = t.next_page ∨ y = c) →
            ∃ t1 p1 l, descend P key true n (split_child P t p c).1 y
                (InnerNode.lookup ((split_child P t p c).1.pages y) key) = some (t1, p1, l) ∧
              TreeInvW P t1 ∧ t1.is_empty = false ∧ t1.root = t.root ∧
              t.next_page ≤ t1.next_page ∧ t1.next_page ≤ t.next_page + (n + 1) ∧
              (∀ id, id < t.next_page → (t1.pages id).level = (t.pages id).level) ∧
              (t1.pages l).level = 0 ∧ l < t1.next_page ∧
              (t1.pages p1).level ≠ 0 ∧ (t1.pages p1).count ≤ InnerNode.kCapacity P ∧
              (∀ id, (t1.pages id).level = 0 →
                t1.pages id = t.pages id ∧ (id < t1.next_page → id < t.next_page)) ∧
              (∀ x ∈ descend_insert_split_counts P key n (split_child P t p c).1 y
                (InnerNode.lookup ((split_child P t p c).1.pages y) key),
                x ≤ InnerNode.kCapacity P) := by
          intro y hy
          have hxl : ((split_child P t p c).1.pages y).level = (t.pages c).level := by
            rcases hy with rfl | rfl
            · exact w7
            · exact w6 _ (by omega)
          have hxc : ((split_child P t p c).1.pages y).count ≤ InnerNode.kCapacity P := by
            rcases hy with rfl | rfl
            · exact w9
            · exact w8
          have hx0 : ((split_child P t p c).1.pages y).level ≠ 0 := by rw [hxl]; exact hcl
          obtain ⟨j, hj⟩ := inner_lookup_slot ((split_child P t p c).1.pages y) key
          have hs1 : InnerNode.lookup ((split_child P t p c).1.pages y) key
              < (split_child P t p c).1.next_page := by
            rw [hj]
            rcases w1.slot y j with q | q
            · exact q
            · rw [q, w4]; omega
          have hs2 : ((split_child P t p c).1.pages
              (InnerNode.lookup ((split_child P t p c).1.pages y) key)).level
              < ((split_child P t p c).1.pages y).level := by
            rw [hj]
            exact w1.down y j hx0
          obtain ⟨t1, p1, l, hd, i1, i2, i3, i4, i5, i6, i7, i8, i9, i10, i11, i12⟩ :=
            ih (split_child P t p c).1 y _ w1 w2 hx0 hxc hs1 hs2 (by omega)
              (by rw [w4]; omega)
          refine ⟨t1, p1, l, hd, i1, i2, by rw [i3, w3], by omega, by omega, ?_, i7, i8, i9,
            i10, ?_, i12⟩
          · intro id hid
            rw [i6 id (by omega), w6 id (by omega)]
          · intro id hid
            obtain ⟨e1, e2⟩ := i11 id hid
            have hid2 : ((split_child P t p c).1.pages id).level = 0 := by rw [← e1]; exact hid
            have n3 : id ≠ t.next_page := by
              intro h
              rw [h, w7] at hid2
              exact hcl hid2
            have n1 : id ≠ p := by
              intro h
              rw [h, w6 p (by omega)] at hid2
              exact hp hid2
            have n2 : id ≠ c := by
              intro h
              rw [h, w6 c (by omega)] at hid2
              exact hcl hid2
            refine ⟨by rw [e1]; exact w10 id n1 n2 n3, ?_⟩
            intro hlt
            have := e2 hlt
            omega
        have hhead : ((split_inner P t c).1.pages p).count ≤ InnerNode.kCapacity P := by
          rw [w11]; exact hpc
        by_cases hk : (split_child P t p c).2.1 < key
        · simp only [hk, if_true, w5]
          obtain ⟨t1, p1, l, hd, i1, i2, i3, i4, i5, i6, i7, i8, i9, i10, i11, i12⟩ :=
            hchoice _ (Or.inl rfl)
          refine ⟨t1, p1, l, hd, i1, i2, i3, i4, i5, i6, i7, i8, i9, i10, i11, ?_⟩
          intro x hx
          rcases List.mem_cons.1 hx with q | q
          · rw [q]; exact hhead
          · exact i12 x q
        · simp only [hk, if_false]
          obtain ⟨t1, p1, l, hd, i1, i2, i3, i4, i5, i6, i7, i8, i9, i10, i11, i12⟩ :=
            hchoice _ (Or.inr rfl)
          refine ⟨t1, p1, l, hd, i1, i2, i3, i4, i5, i6, i7, i8, i9, i10, i11, ?_⟩
          intro x hx
          rcases List.mem_cons.1 hx with q | q
          · rw [q]; exact hhead
          · exact i12 x q
      · simp only [hfull, if_false]
        obtain ⟨_, hc1, hcK⟩ := hinv.inner c hcl
        obtain ⟨j, hj⟩ := inner_lookup_slot (t.pages c) key
        have hs1 : InnerNode.lookup (t.pages c) key < t.next_page := by
          rw [hj]
          rcases hinv.slot c j with q | q
          · exact q
          · rw [q]; omega
        have hs2 : (t.pages (InnerNode.lookup (t.pages c) key)).level < (t.pages c).level := by
          rw [hj]
          exact hinv.down c j hcl
        obtain ⟨t1, p1, l, hd, i1, i2, i3, i4, i5, i6, i7, i8, i9, i10, i11, i12⟩ :=
          ih t c _ hinv hne hcl (by omega) hs1 hs2 (by omega) (by omega)
        exact ⟨t1, p1, l, hd, i1, i2, i3, i4, by omega, i6, i7, i8, i9, i10, i11, i12⟩

theorem lookup_leaf_page_insert_w {K V : Type} [LinearOrder K] (P : TreeParams)
    (hP : ConfigOK P) (bound : Nat) (hfit : PtrFit P bound) (key : K) (fuel : Nat)
    (t : BTree K V) (hinv : TreeInvW P t) (hne : t.is_empty = false)
    (hfuel : (t.pages t.root).level ≤ fuel) (hB : t.next_page + fuel + 2 ≤ bound) :
    ∃ t1 p l, lookup_leaf_page P fuel t key true = some (t1, p, l) ∧
      TreeInvW P t1 ∧ t1.is_empty = false ∧
      (t1.pages l).level = 0 ∧ l < t1.next_page ∧
      ((p = l ∧ l = t1.root) ∨
        (p ≠ l ∧ (t1.pages p).level ≠ 0 ∧ (t1.pages p).count ≤ InnerNode.kCapacity P)) ∧
      (t1.pages t1.root).level ≤ (t.pages t.root).level + 1 ∧
      t1.next_page ≤ t.next_page + fuel + 2 ∧
      (∀ id, (t1.pages id).level = 0 →
        t1.pages id = t.pages id ∧ (id < t1.next_page → id < t.next_page)) ∧
      (∀ x ∈ (if (t.pages t.root).is_leaf then []
          else
            if (t.pages t.root).count ≥ InnerNode.kCapacity P + 1 then
              descend_insert_split_counts P key fuel (split_root P t).1
                (if (split_root P t).2.1 < key then (split_root P t).2.2 else t.root)
                (InnerNode.lookup ((split_root P t).1.pages
                  (if (split_root P t).2.1 < key then (split_root P t).2.2 else t.root)) key)
            else
              descend_insert_split_counts P key fuel t t.root
                (InnerNode.lookup (t.pages t.root) key)),
        x ≤ InnerNode.kCapacity P) := by
  have hrt := hinv.root hne
  unfold lookup_leaf_page
  by_cases hl : (t.pages t.root).is_leaf = true
  · have hl0 : (t.pages t.root).level = 0 := (is_leaf_iff _).1 hl
    simp only [hl, if_true]
    exact ⟨_, t.root, t.root, rfl, treeInvW_leaf_page_id P t _ hinv, hne, hl0, hrt,
      Or.inl ⟨rfl, rfl⟩, by simp only; omega, by
        show t.next_page ≤ t.next_page + fuel + 2
        omega,
      fun _ _ => ⟨rfl, fun h => h⟩, fun x hx => by simp only [List.not_mem_nil] at hx⟩
  · have hcl : (t.pages t.root).level ≠ 0 := fun h => hl ((is_leaf_iff _).2 h)
    simp only [hl, Bool.false_eq_true, if_false, Bool.true_and, decide_eq_true_eq]
    by_cases hfull : (t.pages t.root).count ≥ InnerNode.kCapacity P + 1
    · simp only [hfull, if_true]
      obtain ⟨w1, w2, w3, w4, w5, w6, w7, w8, w9, w10, w11⟩ :=
        split_root_w P hP bound hfit t hinv hne (by omega) hcl hfull
      have hchoice : ∀ y, (y = t.next_page ∨ y = t.root) →
          ∃ t1 p l, descend P key true fuel (split_root P t).1 y
              (InnerNode.lookup ((split_root P t).1.pages y) key) = some (t1, p, l) ∧
            TreeInvW P t1 ∧ t1.is_empty = false ∧
            (t1.pages l).level = 0 ∧ l < t1.next_page ∧
            ((p = l ∧ l = t1.root) ∨
              (p ≠ l ∧ (t1.pages p).level ≠ 0 ∧
                (t1.pages p).count ≤ InnerNode.kCapacity P)) ∧
            (t1.pages t1.root).level ≤ (t.pages t.root).level + 1 ∧
            t1.next_page ≤ t.next_page + fuel + 2 ∧
            (∀ id, (t1.pages id).level = 0 →
              t1.pages id = t.pages id ∧ (id < t1.next_page → id < t.next_page)) ∧
            (∀ x ∈ descend_insert_split_counts P key fuel (split_root P t).1 y
              (InnerNode.lookup ((split_root P t).1.pages y) key),
              x ≤ InnerNode.kCapacity P) := by
        intro y hy
        have hxl : ((split_root P t).1.pages y).level = (t.pages t.root).level := by
          rcases hy with rfl | rfl
          · exact w7
          · exact w6 _ hrt
        have hxc : ((split_root P t).1.pages y).count ≤ InnerNode.kCapacity P := by
          rcases hy with rfl | rfl
          · exact w10
          · exact w9
        have hx0 : ((split_root P t).1.pages y).level ≠ 0 := by rw [hxl]; exact hcl
        obtain ⟨j, hj⟩ := inner_lookup_slot ((split_root P t).1.pages y) key
        have hs1 : InnerNode.lookup ((split_root P t).1.pages y) key
            < (split_root P t).1.next_page := by
          rw [hj]
          rcases w1.slot y j with q | q
          · exact q
          · rw [q, w4]; omega
        have hs2 : ((split_root P t).1.pages
            (InnerNode.lookup ((split_root P t).1.pages y) key)).level
            < ((split_root P t).1.pages y).level := by
          rw [hj]
          exact w1.down y j hx0
        obtain ⟨t1, p1, l, hd, i1, i2, i3, i4, i5, i6, i7, i8, i9, i10, i11, i12⟩ :=
          descend_insert_w P hP bound hfit key fuel (split_root P t).1 y _ w1 w2 hx0 hxc
            hs1 hs2 (by omega) (by rw [w4]; omega)
        refine ⟨t1, p1, l, hd, i1, i2, i7, i8, Or.inr ⟨?_, i9, i10⟩, ?_, by omega, ?_, i12⟩
        · intro h
          rw [h] at i9
          exact i9 i7
        · rw [i3, w3, i6 _ (by rw [w4]; omega), w8]
        · intro id hid
          obtain ⟨e1, e2⟩ := i11 id hid
          have hid2 : ((split_root P t).1.pages id).level = 0 := by rw [← e1]; exact hid
          have n1 : id ≠ t.root := by
            intro h
            rw [h, w6 _ hrt] at hid2
            exact hcl hid2
          have n2 : id ≠ t.next_page := by
            intro h
            rw [h, w7] at hid2
            exact hcl hid2
          have n3 : id ≠ t.next_page + 1 := by
            intro h
            rw [h, w8] at hid2
            omega
          refine ⟨by rw [e1]; exact w11 id n1 n2 n3, ?_⟩
          intro hlt
          have := e2 hlt
          omega
      by_cases hk : (split_root P t).2.1 < key
      · simp only [hk, if_true, w5]
        exact hchoice _ (Or.inl rfl)
      · simp only [hk, if_false]
        exact hchoice _ (Or.inr rfl)
    · simp only [hfull, if_false]
      obtain ⟨_, hc1, hcK⟩ := hinv.inner t.root hcl
      obtain ⟨j, hj⟩ := inner_lookup_slot (t.pages t.root) key
      have hs1 : InnerNode.lookup (t.pages t.root) key < t.next_page := by
        rw [hj]
        rcases hinv.slot t.root j with q | q
        · exact q
        · rw [q]; omega
      have hs2 : (t.pages (InnerNode.lookup (t.pages t.root) key)).level
          < (t.pages t.root).level := by
        rw [hj]
        exact hinv.down t.root j hcl
      obtain ⟨t1, p1, l, hd, i1, i2, i3, i4, i5, i6, i7, i8, i9, i10, i11, i12⟩ :=
        descend_insert_w P hP bound hfit key fuel t t.root _ hinv hne hcl (by omega) hs1 hs2
          (by omega) (by omega)
      refine ⟨t1, p1, l, hd, i1, i2, i7, i8, Or.inr ⟨?_, i9, i10⟩, ?_, by omega, i11, i12⟩
      · intro h
        rw [h] at i9
        exact i9 i7
      · rw [i3, i6 _ hrt]; omega

/-- A call of `insert` returns when the bound on its descent is at least the
level of the root.  It keeps the shape invariant, raises the level of the root
by at most one, allocates at most `fuel + 4` pages, leaves no allocated leaf
empty, and applies `insert_split` only to nodes with at most `K_inner`
children. -/
theorem insert_w {K V : Type} [LinearOrder K] (P : TreeParams) (hP : ConfigOK P)
    (bound : Nat) (hfit : PtrFit P bound) (fuel first : Nat) (t : BTree K V) (key : K)
    (value : V) (hinv : TreeInvW P t) (hfuel : (t.pages t.root).level ≤ fuel)
    (hB : t.next_page + fuel + 4 ≤ bound) :
    ∃ t2, insert P fuel t key value = some t2 ∧ TreeInvW P t2 ∧ t2.is_empty = false ∧
      (t2.pages t2.root).level ≤ (t.pages t.root).level + 1 ∧
      t2.next_page ≤ t.next_page + fuel + 4 ∧
      (LeavesNonEmpty first t → LeavesNonEmpty first t2) ∧
      (∀ x ∈ insert_split_counts P fuel t key, x ≤ InnerNode.kCapacity P) := by
  have hP2 := hP
  obtain ⟨_, _, h3, hc16, h2, hcap, _, _⟩ := hP2
  by_cases hemp : t.is_empty = true
  · have hz := hinv.empty hemp
    have hok0 : LeafOK P ({ t.pages t.next_page with level := 0 } : Node K V) := by
      refine ⟨by simp only [(hz t.next_page).2]; omega, ?_⟩
      intro i j _ hj
      simp only [(hz t.next_page).2] at hj
      omega
    obtain ⟨hok, hlev⟩ := leaf_insert_ok P { t.pages t.next_page with level := 0 } key value
      hok0 (by simp only [(hz t.next_page).2]; omega) hc16
    have hlev0 : (LeafNode.insert ({ t.pages t.next_page with level := 0 } : Node K V)
        key value).level = 0 := hlev
    obtain ⟨pg, hpg⟩ : ∃ pg, pg = set_page t.pages t.next_page
        (LeafNode.insert { t.pages t.next_page with level := 0 } key value) := ⟨_, rfl⟩
    have hpn : pg t.next_page
        = LeafNode.insert { t.pages t.next_page with level := 0 } key value := by
      rw [hpg, set_page_same]
    have hpo : ∀ id, id ≠ t.next_page → pg id = t.pages id := by
      intro id h
      rw [hpg, set_page_other _ _ _ _ h]
    have hl0 : ∀ id, (pg id).level = 0 := by
      intro id
      by_cases h : id = t.next_page
      · rw [h, hpn]; exact hlev0
      · rw [hpo id h]; exact (hz id).1
    have hch : ∀ id, (pg id).children = (t.pages id).children := by
      intro id
      by_cases h : id = t.next_page
      · rw [h, hpn, leaf_insert_children]
      · rw [hpo id h]
    have hins : insert P fuel t key value = some { t with
        root := t.next_page, next_page := t.next_page + 1, pages := pg, is_empty := false } := by
      unfold insert
      simp only [hemp, if_true, hpg]
    have hcounts : insert_split_counts P fuel t key = [] := by
      unfold insert_split_counts
      simp only [hemp, if_true]
    refine ⟨_, hins, ⟨?_, ?_, ?_, ?_, ?_, ?_, ?_, ?_⟩, rfl, ?_, ?_, ?_, ?_⟩
    · intro id _
      show LeafOK P (pg id)
      by_cases h : id = t.next_page
      · rw [h, hpn]; exact hok
      · rw [hpo id h]; exact hinv.leaf id (hz id).1
    · intro id h0
      exact absurd (hl0 id) h0
    · intro id j h0
      exact absurd (hl0 id) h0
    · intro id j
      show (pg id).children j < t.next_page + 1 ∨ (pg id).children j = 0
      rw [hch]
      rcases hinv.slot id j with q | q
      · exact Or.inl (by omega)
      · exact Or.inr q
    · intro id hid j
      have hid2 : t.next_page + 1 ≤ id := hid
      show (pg id).children j = 0
      rw [hch]
      exact hinv.fresh id (by omega) j
    · exact hl0 0
    · intro _
      show t.next_page < t.next_page + 1
      omega
    · intro h
      cases h
    · show (pg t.next_page).level ≤ _
      rw [hl0]
      omega
    · show t.next_page + 1 ≤ t.next_page + fuel + 4
      omega
    · intro hL id hf hlt _
      have hlt2 : id < t.next_page + 1 := hlt
      show 0 < (pg id).count
      by_cases h : id = t.next_page
      · rw [h, hpn]
        apply leaf_insert_count_pos
        simp only [(hz t.next_page).2]
        omega
      · rw [hpo id h]
        exact hL id hf (by omega) (hz id).1
    · intro x hx
      rw [hcounts] at hx
      simp only [List.not_mem_nil] at hx
  · have hne : t.is_empty = false := by simpa using hemp
    obtain ⟨t1, p, l, hlp, hinv1, hne1, hl0, hlnp, hcase, hrl, hnp1, hkeep, hcnt1⟩ :=
      lookup_leaf_page_insert_w P hP bound hfit key fuel t hinv hne hfuel (by omega)
    have hL1 : LeavesNonEmpty first t → LeavesNonEmpty first t1 := by
      intro hL id hf hlt hlev
      obtain ⟨e1, e2⟩ := hkeep id hlev
      rw [e1]
      exact hL id hf (e2 hlt) (by rw [← e1]; exact hlev)
    have hl1root : p = l → (t1.pages t1.root).level = 0 := by
      intro hpl
      rcases hcase with ⟨_, q⟩ | ⟨q, _⟩
      · rw [← q]; exact hl0
      · exact absurd hpl q
    have hcountsplit : ∀ x ∈ insert_split_counts P fuel t key, x ≤ InnerNode.kCapacity P := by
      intro x hx
      unfold insert_split_counts at hx
      simp only [hemp, Bool.false_eq_true, if_false, List.mem_append] at hx
      rcases hx with hx | hx
      · exact hcnt1 x hx
      · simp only [hlp] at hx
        split at hx
        · rename_i hcond
          simp only [List.mem_singleton] at hx
          rcases hcase with ⟨hpl, _⟩ | ⟨hpl, hp1, hpc⟩
          · exact absurd hpl hcond.2
          · have hpn : p < t1.next_page := (hinv1.inner p hp1).1
            have hpn1 : p ≠ t1.next_page := by omega
            rw [hx]
            simp only [set_page, hpl, hpn1, if_false]
            exact hpc
        · simp only [List.not_mem_nil] at hx
    unfold insert
    simp only [hne, Bool.false_eq_true, if_false, hlp]
    by_cases hfull : (t1.pages l).count = LeafNode.kCapacity P
    · simp only [hfull, if_true]
      obtain ⟨s1, s2, s3, s4, s5, s6, s7, s8, s9, s10, s11⟩ :=
        split_leaf_w P hP bound hfit t1 p l hinv1 hne1 (by omega) hl0 hlnp hfull hcase
      have hrl3 : ((split_leaf P t1 p l).1.pages (split_leaf P t1 p l).1.root).level
          ≤ (t.pages t.root).level + 1 := by
        by_cases hpl : p = l
        · rw [s9 hpl]; omega
        · rw [s10 hpl]; exact hrl
      have hchoice : ∀ x, (x = t1.next_page ∨ x = l) →
          ∃ t2, some ({ (split_leaf P t1 p l).1 with
              pages := set_page (split_leaf P t1 p l).1.pages x
                (LeafNode.insert ((split_leaf P t1 p l).1.pages x) key value) } : BTree K V)
              = some t2 ∧ TreeInvW P t2 ∧ t2.is_empty = false ∧
            (t2.pages t2.root).level ≤ (t.pages t.root).level + 1 ∧
            t2.next_page ≤ t.next_page + fuel + 4 ∧
            (LeavesNonEmpty first t → LeavesNonEmpty first t2) ∧
            (∀ x ∈ insert_split_counts P fuel t key, x ≤ InnerNode.kCapacity P) := by
        intro x hx
        have hxl : ((split_leaf P t1 p l).1.pages x).level = 0 := by
          rcases hx with rfl | rfl
          · exact s5
          · exact s4
        have hxc : ((split_leaf P t1 p l).1.pages x).count < LeafNode.kCapacity P := by
          rcases hx with rfl | rfl
          · exact s7
          · exact s6
        obtain ⟨e1, e2, e3, e4⟩ := leaf_set_w P hP (split_leaf P t1 p l).1 x key value
          s1 s2 hxl hxc
        refine ⟨_, rfl, e1, s2, ?_, ?_, ?_, hcountsplit⟩
        · show (set_page _ _ _ (split_leaf P t1 p l).1.root).level ≤ _
          rw [e2]
          exact hrl3
        · show (split_leaf P t1 p l).1.next_page ≤ _
          omega
        · intro hL id hf hlt hlev
          have hlt2 : id < (split_leaf P t1 p l).1.next_page := hlt
          have hlev2 : (set_page (split_leaf P t1 p l).1.pages x
              (LeafNode.insert ((split_leaf P t1 p l).1.pages x) key value) id).level = 0 := hlev
          show 0 < (set_page (split_leaf P t1 p l).1.pages x
              (LeafNode.insert ((split_leaf P t1 p l).1.pages x) key value) id).count
          by_cases h : id = x
          · rw [h, set_page_same]
            exact e4
          · rw [e3 id h]
            rw [e2] at hlev2
            exact s11 first (hL1 hL) id hf hlt2 hlev2
      by_cases hk : (split_leaf P t1 p l).2.1 < key
      · simp only [hk, if_true, s3]
        exact hchoice _ (Or.inl rfl)
      · simp only [hk, if_false]
        exact hchoice _ (Or.inr rfl)
    · simp only [hfull, if_false]
      have hlt : (t1.pages l).count < LeafNode.kCapacity P := by
        have := (hinv1.leaf l hl0).1
        omega
      obtain ⟨e1, e2, e3, e4⟩ := leaf_set_w P hP t1 l key value hinv1 hne1 hl0 hlt
      refine ⟨_, rfl, e1, hne1, ?_, ?_, ?_, hcountsplit⟩
      · show (set_page _ _ _ t1.root).level ≤ _
        rw [e2]
        exact hrl
      · show t1.next_page ≤ _
        omega
      · intro hL id hf hlt2 hlev
        have hlt3 : id < t1.next_page := hlt2
        have hlev2 : (set_page t1.pages l (LeafNode.insert (t1.pages l) key value) id).level
            = 0 := hlev
        show 0 < (set_page t1.pages l (LeafNode.insert (t1.pages l) key value) id).count
        by_cases h : id = l
        · rw [h, set_page_same]
          exact e4
        · rw [e3 id h]
          rw [e2] at hlev2
          exact hL1 hL id hf hlt3 hlev2

theorem insert_all_w {K V : Type} [LinearOrder K] (P : TreeParams) (hP : ConfigOK P)
    (bound : Nat) (hfit : PtrFit P bound) (fuel first : Nat) :
    ∀ (ops : List (K × V)) (t : BTree K V), TreeInvW P t →
      (t.pages t.root).level + ops.length ≤ fuel →
      t.next_page + ops.length * (fuel + 4) ≤ bound →
      LeavesNonEmpty first t →
      ∃ t2, insert_all P fuel t ops = some t2 ∧ TreeInvW P t2 ∧
        (t2.pages t2.root).level ≤ (t.pages t.root).level + ops.length ∧
        t2.next_page ≤ t.next_page + ops.length * (fuel + 4) ∧
        LeavesNonEmpty first t2 := by
  intro ops
  induction ops with
  | nil =>
    intro t hinv _ _ hL
    exact ⟨t, rfl, hinv, by simp, by simp, hL⟩
  | cons e rest ih =>
    intro t hinv hfuel hB hL
    obtain ⟨k, v⟩ := e
    simp only [List.length_cons] at hfuel hB ⊢
    have hmul : (rest.length + 1) * (fuel + 4) = rest.length * (fuel + 4) + (fuel + 4) := by
      rw [Nat.add_mul, Nat.one_mul]
    rw [hmul] at hB ⊢
    obtain ⟨t1, h1, hinv1, _, hl1, hn1, hL1, _⟩ :=
      insert_w P hP bound hfit fuel first t k v hinv (by omega) (by omega)
    obtain ⟨t2, h2, hinv2, hl2, hn2, hL2⟩ := ih t1 hinv1 (by omega) (by omega) (hL1 hL)
    refine ⟨t2, ?_, hinv2, by omega, by omega, hL2⟩
    simp only [insert_all, h1, h2]

/-! ### Lookup and erase on a tree of that shape -/

theorem descend_read_total_w {K V : Type} [LinearOrder K] (P : TreeParams) (key : K) :
    ∀ (fuel : Nat) (t : BTree K V) (p c : Nat),
      (∀ id j, (t.pages id).level ≠ 0 →
        (t.pages ((t.pages id).children j)).level < (t.pages id).level) →
      (t.pages c).level < fuel →
      ∃ r, descend P key false fuel t p c = some r := by
  intro fuel
  induction fuel with
  | zero => intro t p c _ h; omega
  | succ n ih =>
    intro t p c hdown hlv
    unfold descend
    by_cases hl : (t.pages c).is_leaf = true
    · simp [hl]
    · simp only [hl, Bool.false_and, Bool.false_eq_true, if_false]
      have hne : (t.pages c).level ≠ 0 := fun h => hl ((is_leaf_iff _).2 h)
      obtain ⟨j, hj⟩ := inner_lookup_slot (t.pages c) key
      rw [hj]
      apply ih _ _ _ hdown
      have := hdown c j hne
      omega

theorem lookup_leaf_page_read_total_w {K V : Type} [LinearOrder K] (P : TreeParams) (key : K)
    (fuel : Nat) (t : BTree K V)
    (hdown : ∀ id j, (t.pages id).level ≠ 0 →
      (t.pages ((t.pages id).children j)).level < (t.pages id).level)
    (hlv : (t.pages t.root).level ≤ fuel) :
    ∃ r, lookup_leaf_page P fuel t key false = some r := by
  unfold lookup_leaf_page
  by_cases hl : (t.pages t.root).is_leaf = true
  · simp [hl]
  · simp only [hl, Bool.false_and, Bool.false_eq_true, if_false]
    have hne : (t.pages t.root).level ≠ 0 := fun h => hl ((is_leaf_iff _).2 h)
    obtain ⟨j, hj⟩ := inner_lookup_slot (t.pages t.root) key
    rw [hj]
    apply descend_read_total_w _ _ _ _ _ _ hdown
    have := hdown t.root j hne
    omega

/-- On a tree of that shape `erase(k)` returns when the bound on its descent
is at least the level of the root; it keeps the shape, `lookup(k)` returns
nothing afterwards, and the lookup of every other key returns what it
returned before. -/
theorem erase_w {K V : Type} [LinearOrder K] (P : TreeParams) (hP : ConfigOK P)
    (fuel : Nat) (t : BTree K V) (k : K) (hinv : TreeInvW P t)
    (hfuel : (t.pages t.root).level ≤ fuel) :
    ∃ t2, erase P fuel t k = some t2 ∧ TreeInvW P t2 ∧
      (t2.pages t2.root).level = (t.pages t.root).level ∧ t2.next_page = t.next_page ∧
      (lookup P fuel t2 k).map Prod.fst = some none ∧
      ∀ j, j ≠ k → ∃ r, (lookup P fuel t j).map Prod.fst = some r ∧
        (lookup P fuel t2 j).map Prod.fst = some r := by
  obtain ⟨_, _, _, hc16, _, _, _, _⟩ := hP
  obtain ⟨⟨t1, p, l⟩, hlp⟩ := lookup_leaf_page_read_total_w P k fuel t hinv.down hfuel
  obtain ⟨ht1, hleaf, _⟩ := lookup_leaf_page_read_eq P k fuel t t1 p l hlp
  have hl0 : (t.pages l).level = 0 := (is_leaf_iff _).1 hleaf
  have hlok : LeafOK P (t.pages l) := hinv.leaf l hl0
  have hpg1 : t1.pages = t.pages := by rw [ht1]
  obtain ⟨pg, hpg⟩ : ∃ pg, pg = set_page t.pages l (LeafNode.erase (t.pages l) k) := ⟨_, rfl⟩
  have herase : erase P fuel t k = some { t1 with pages := pg } := by
    unfold erase
    simp only [hlp, hpg1, hpg]
  obtain ⟨heok, helv⟩ := leaf_erase_ok P (t.pages l) k hlok hc16
  have hlev : ∀ id, (pg id).level = (t.pages id).level := by
    intro id
    rw [hpg]
    by_cases h : id = l
    · rw [h, set_page_same]; exact helv
    · rw [set_page_other _ _ _ _ h]
  have hshape : ∀ id, (pg id).level = (t.pages id).level ∧
      ((t.pages id).level ≠ 0 →
        (pg id).count = (t.pages id).count ∧ (pg id).keys = (t.pages id).keys ∧
        (pg id).children = (t.pages id).children) := by
    intro id
    refine ⟨hlev id, fun h0 => ?_⟩
    have h : id ≠ l := fun q => h0 (q ▸ hl0)
    rw [hpg, set_page_other _ _ _ _ h]
    exact ⟨rfl, rfl, rfl⟩
  have hroot : ({ t1 with pages := pg } : BTree K V).root = t.root := by rw [ht1]
  have hcongr : ∀ q : K,
      (lookup P fuel { t1 with pages := pg } q).map Prod.fst =
        (lookup_leaf_page P fuel t q false).map (fun r => LeafNode.lookup (pg r.2.2) q) := by
    intro q
    rw [lookup_map_fst]
    have h := lookup_leaf_page_read_congr P q fuel { t1 with pages := pg } t hroot hshape
    have h2 := congrArg (Option.map (fun r : Nat × Nat => LeafNode.lookup (pg r.2) q)) h
    simp only [Option.map_map] at h2
    exact h2
  have hinv2 : TreeInvW P ({ t1 with pages := pg } : BTree K V) := by
    rw [ht1]
    apply treeInvW_same_shape P { t with leaf_page_id := l } pg t.next_page
      (treeInvW_leaf_page_id P t l hinv) ?_ (le_refl _) hlev
    · intro id
      rw [hpg]
      by_cases h : id = l
      · rw [h, set_page_same, leaf_erase_children]
      · rw [set_page_other _ _ _ _ h]
    · intro id h0
      rw [hpg]
      by_cases h : id = l
      · rw [h, set_page_same]; exact heok
      · rw [set_page_other _ _ _ _ h]; exact hinv.leaf id h0
    · intro id h0
      have h : id ≠ l := fun q => h0 (q ▸ hl0)
      rw [hpg, set_page_other _ _ _ _ h]
    · intro h id
      have hz := hinv.empty h
      refine ⟨by rw [hlev]; exact (hz id).1, ?_⟩
      rw [hpg]
      by_cases hid : id = l
      · rw [hid, set_page_same]
        unfold LeafNode.erase
        simp only [(hz l).2, if_true]
      · rw [set_page_other _ _ _ _ hid]
        exact (hz id).2
  refine ⟨_, herase, hinv2, ?_, by rw [ht1], ?_, ?_⟩
  · show (pg t1.root).level = (t.pages t.root).level
    rw [hlev, ht1]
  · rw [hcongr k, hlp]
    simp only [Option.map_some', Option.some.injEq]
    rw [hpg, set_page_same]
    exact leaf_erase_lookup_self P _ k hlok hc16
  · intro j hjk
    obtain ⟨⟨t1j, pj, lj⟩, hlpj⟩ := lookup_leaf_page_read_total_w P j fuel t hinv.down hfuel
    refine ⟨LeafNode.lookup (t.pages lj) j, ?_, ?_⟩
    · rw [lookup_map_fst, hlpj]
      rfl
    · rw [hcongr j, hlpj]
      simp only [Option.map_some', Option.some.injEq]
      rw [hpg]
      by_cases h : lj = l
      · subst h
        rw [set_page_same]
        exact leaf_erase_lookup_other P _ k j hlok hc16 hjk
      · rw [set_page_other _ _ _ _ h]

theorem apply_all_w {K V : Type} [LinearOrder K] (P : TreeParams) (hP : ConfigOK P)
    (bound : Nat) (hfit : PtrFit P bound) (fuel : Nat) :
    ∀ (ops : List (Op K V)) (t : BTree K V), TreeInvW P t →
      (t.pages t.root).level + ops.length ≤ fuel →
      t.next_page + ops.length * (fuel + 4) ≤ bound →
      ∃ t2, apply_all P fuel t ops = some t2 ∧ TreeInvW P t2 := by
  intro ops
  induction ops with
  | nil =>
    intro t hinv _ _
    exact ⟨t, rfl, hinv⟩
  | cons e rest ih =>
    intro t hinv hfuel hB
    simp only [List.length_cons] at hfuel hB
    have hmul : (rest.length + 1) * (fuel + 4) = rest.length * (fuel + 4) + (fuel + 4) := by
      rw [Nat.add_mul, Nat.one_mul]
    rw [hmul] at hB
    cases e with
    | insert k v =>
      obtain ⟨t1, h1, hinv1, _, hl1, hn1, _, _⟩ :=
        insert_w P hP bound hfit fuel 0 t k v hinv (by omega) (by omega)
      obtain ⟨t2, h2, hinv2⟩ := ih t1 hinv1 (by omega) (by omega)
      refine ⟨t2, ?_, hinv2⟩
      simp only [apply_all, h1, h2]
    | erase k =>
      obtain ⟨t1, h1, hinv1, hl1, hn1, _, _⟩ := erase_w P hP fuel t k hinv (by omega)
      obtain ⟨t2, h2, hinv2⟩ := ih t1 hinv1 (by omega) (by omega)
      refine ⟨t2, ?_, hinv2⟩
      simp only [apply_all, h1, h2]

/-! ### Trees built from a fresh tree -/

end moderndbs
